import Mathlib

/-!
Biscuit file system: journal, block cache and inode layer

A shallow embedding of `src/biscuit/fs.go`.  Go `int` values are Lean `Int`s, bytes are
`Fin 256`, a kernel panic (or a blocked `bread`) is an `Except` error that carries the Go
panic message together with the machine state at the abort.  Global variables of the Go
program (`bcdaemon`, `fslog`, `free_start`, ...) are the fields of `Sys`.
-/

set_option autoImplicit false
set_option linter.unusedVariables false

namespace Biscuit

/-! ## Bytes, blocks and integer fields -/

/-- A `uint8`. -/
abbrev Byte := Fin 256

/-- The `[512]uint8` payload of a disk block; only indices below 512 are ever accessed. -/
abbrev Block := Nat → Byte

/-- The all-zero block. -/
def zeroBlock : Block := fun _ => 0

/-- Reinterpretation of an unsigned 64-bit pattern as a Go `int`. -/
@[irreducible]
def toInt64 (n : Nat) : Int :=
  if n % 2 ^ 64 < 2 ^ 63 then ((n % 2 ^ 64 : Nat) : Int) else ((n % 2 ^ 64 : Nat) : Int) - 2 ^ 64

/-- The conversion `uint(val)` of a Go `int`. -/
@[irreducible]
def toUInt64 (v : Int) : Nat := (v % 2 ^ 64).toNat

/-- Little-endian value of the `n` bytes of `a` that start at `off`. -/
def leval (a : Block) (off : Nat) : Nat → Nat
  | 0 => 0
  | n + 1 => (a off).val + 256 * leval a (off + 1) n

/-- Modelled from the spec: `readn` is defined outside `src/`; the spec's disk format stores
every field as a little-endian integer (8 bytes wide for all fields used by the file system).
An access outside the 512 bytes of the block is a Go run-time panic. -/
def readn (a : Block) (n : Nat) (off : Int) : Except String Int :=
  if 0 ≤ off ∧ off + n ≤ 512 then .ok (toInt64 (leval a off.toNat n))
  else .error "index out of range"

/-- Modelled from the spec: `writen` is defined outside `src/`; it stores the low `sz` bytes of
`val` in little-endian order at `off`. -/
def writen (a : Block) (sz : Nat) (off : Int) (val : Int) : Except String Block :=
  if 0 ≤ off ∧ off + sz ≤ 512 then
    .ok (fun j =>
      if off.toNat ≤ j ∧ j < off.toNat + sz then
        ⟨toUInt64 val / 256 ^ (j - off.toNat) % 256, Nat.mod_lt _ (by decide)⟩
      else a j)
  else .error "index out of range"

def fieldr (p : Block) (field : Int) : Except String Int :=
  readn p 8 (field * 8)

def fieldw (p : Block) (field : Int) (val : Int) : Except String Block :=
  writen p 8 (field * 8) val

/-! ## Log header accessors (`logheader_t`) -/

def recovernum (blk : Block) : Except String Int :=
  fieldr blk 0

def w_recovernum (blk : Block) (n : Int) : Except String Block :=
  fieldw blk 0 n

def logdest (blk : Block) (p : Int) : Except String Int :=
  if p < 0 ∨ p > 62 then .error "bad dnum"
  else fieldr blk (8 + p)

def w_logdest (blk : Block) (p : Int) (n : Int) : Except String Block :=
  if p < 0 ∨ p > 62 then .error "bad dnum"
  else fieldw blk (8 + p) n

/-! ## Machine state -/

/-- A buffer of the block cache (`bbuf_t`); the block number is the key of the buffer. -/
structure bbuf_t where
  data : Block
  dirty : Bool

/-- The global state of the file system.

* `disk` is the device; `given` is the map of `bcdaemon_t` that records which buffers are
  handed out; `blocks` is the map `bcdaemon_t.blocks` seen through `bc_read`: for a block that
  is cached it is the cached buffer, for a block that is not cached it is what the disk read of
  `bc_read` delivers (the device contents, not dirty).  Only `writeback` changes the device and
  it writes a cached buffer, so a buffer that is not cached always equals the device block;
* `hist` is instrumentation: the device contents after each completed `writeback`, oldest
  first, so that the states an interruption can leave behind can be named;
* `logblks`, `logstart`, `loglen` are the fields of `fslog`;
* the remaining fields are the global variables of the same names. -/
structure Sys where
  disk : Int → Block
  blocks : Int → bbuf_t
  given : Int → Bool
  hist : List (Int → Block)
  logblks : List Int
  logstart : Int
  loglen : Int
  superb_start : Int
  free_start : Int
  free_len : Int
  usable_start : Int
  ifreeblk : Int
  ifreeoff : Int

/-- Result of a state-changing operation: a value or the panic message, with the state. -/
abbrev R (α : Type) := Except (String × Sys) α

/-- Run a state-free fallible step inside a state-changing operation. -/
def liftE {α : Type} (s : Sys) : Except String α → R α
  | .ok a => .ok a
  | .error e => .error (e, s)

/-- The data a holder of block `b` sees. -/
def bufdata (s : Sys) (b : Int) : Block := (s.blocks b).data

/-- The dirty flag of the buffer of `b`. -/
def bufdirty (s : Sys) (b : Int) : Bool := (s.blocks b).dirty

/-- In-place mutation of the cached buffer of `b` (the caller holds it). -/
def setdata (s : Sys) (b : Int) (d : Block) : Sys :=
  { s with blocks := Function.update s.blocks b ⟨d, bufdirty s b⟩ }

/-- The function `bread`, served by `bc_daemon` and `bc_read`.  A request for a block that is
already given out is queued until the block is released; in a sequential run the release
never comes, which is reported as an abort.  A block number that does not survive the `int32`
cast of `idereq_new` can never be read from the device (and so is never cached): the request
aborts in `bc_daemon` or is never answered. -/
def bread (s : Sys) (blkno : Int) : R Sys :=
  if blkno < 0 then .error ("bad block", s)
  else if s.given blkno then .error ("bread blocks forever: block already given out", s)
  else if blkno ≥ 2 ^ 31 then .error ("bllkno trimmed by cast", s)
  else .ok { s with given := Function.update s.given blkno true }

/-- The function `brelse`; no other caller waits in a sequential run. -/
def brelse (s : Sys) (blkno : Int) : R Sys :=
  if blkno < 0 then .error ("bad block", s)
  else if !s.given blkno then .error ("relinquish unused block", s)
  else .ok { s with given := Function.update s.given blkno false }

/-- The method `bbuf_t.writeback`: the buffer is written to the device and marked clean. -/
def writeback (s : Sys) (blkno : Int) : Sys :=
  { s with disk := Function.update s.disk blkno (bufdata s blkno),
           blocks := Function.update s.blocks blkno ⟨bufdata s blkno, false⟩,
           hist := s.hist ++ [Function.update s.disk blkno (bufdata s blkno)] }

/-! ## Recovery -/

/-- The copy loop of `fs_recover`; `n` iterations remain, the loop variable is `i`. -/
def fs_recover_loop (lstart : Int) : Nat → Int → Sys → R Sys
  | 0, _, s => .ok s
  | n + 1, i, s => do
    let bdest ← liftE s (logdest (bufdata s lstart) i)
    let s ← bread s (lstart + 1 + i)
    let s ← bread s bdest
    let s := setdata s bdest (bufdata s (lstart + 1 + i))
    let s := writeback s bdest
    let s ← brelse s (lstart + 1 + i)
    let s ← brelse s bdest
    fs_recover_loop lstart n (i + 1) s

def fs_recover (s : Sys) : R Sys := do
  let s ← bread s s.logstart
  let rlen ← liftE s (recovernum (bufdata s s.logstart))
  if rlen = 0 then
    brelse s s.logstart
  else do
    let s ← fs_recover_loop s.logstart rlen.toNat 0 s
    let h ← liftE s (w_recovernum (bufdata s s.logstart) 0)
    let s := setdata s s.logstart h
    let s := writeback s s.logstart
    brelse s s.logstart

/-! ## Commit -/

/-- The first loop of `log_t.commit`: destination `i` is entered in the (cached) header and the
block is copied to log block `logstart + 1 + i`, which is written back. -/
def commit_log_loop (lstart : Int) : List Int → Int → Sys → R Sys
  | [], _, s => .ok s
  | lbn :: rest, i, s => do
    let h ← liftE s (w_logdest (bufdata s lstart) i lbn)
    let s := setdata s lstart h
    let s ← bread s lbn
    let s ← bread s (lstart + 1 + i)
    let s := setdata s (lstart + 1 + i) (bufdata s lbn)
    let s := writeback s (lstart + 1 + i)
    let s ← brelse s lbn
    let s ← brelse s (lstart + 1 + i)
    commit_log_loop lstart rest (i + 1) s

/-- The second loop of `log_t.commit`: every logged block is written to its home. -/
def commit_install_loop : List Int → Sys → R Sys
  | [], s => .ok s
  | lbn :: rest, s => do
    let s ← bread s lbn
    if !bufdirty s lbn then .error ("log blocks must be dirty/in cache", s)
    else do
      let s := writeback s lbn
      let s ← brelse s lbn
      commit_install_loop rest s

/-- The method `log_t.commit` on `fslog`. -/
def commit (s : Sys) : R Sys :=
  if s.logblks.length = 0 then .ok s
  else do
    let s ← bread s s.logstart
    let rnum ← liftE s (recovernum (bufdata s s.logstart))
    if rnum ≠ 0 then .error ("should have ran recover", s)
    else do
      let s ← commit_log_loop s.logstart s.logblks 0 s
      let h ← liftE s (w_recovernum (bufdata s s.logstart) s.logblks.length)
      let s := setdata s s.logstart h
      let s := writeback s s.logstart
      let s ← commit_install_loop s.logblks s
      let h ← liftE s (w_recovernum (bufdata s s.logstart) 0)
      let s := setdata s s.logstart h
      let s := writeback s s.logstart
      let s ← brelse s s.logstart
      .ok { s with logblks := [] }

/-! ## Auxiliary definitions used in the statements and proofs -/

/-- The field `recover_num` as stored in a log header block. -/
def hdrNum (h : Block) : Int := toInt64 (leval h 0 8)

/-- Destination `j` as stored in a log header block. -/
def hdrDest (h : Block) (j : Nat) : Int := toInt64 (leval h ((8 + j) * 8) 8)

/-- The value a Go `int` variable holds after being stored as 8 bytes and read back. -/
def wrap64 (v : Int) : Int := toInt64 (toUInt64 v)

/-- The block produced by a successful `writen` of 8 bytes. -/
def put8 (a : Block) (off : Nat) (val : Int) : Block :=
  fun j =>
    if off ≤ j ∧ j < off + 8 then
      ⟨toUInt64 val / 256 ^ (j - off) % 256, Nat.mod_lt _ (by decide)⟩
    else a j

/-- The state after a successful `bread`. -/
def breadSt (s : Sys) (blkno : Int) : Sys :=
  { s with given := Function.update s.given blkno true }

/-- The state after a successful `brelse`. -/
def brelseSt (s : Sys) (blkno : Int) : Sys :=
  { s with given := Function.update s.given blkno false }

/-- The header after the destinations `rest` have been entered from index `i` on. -/
def hdrWith (h : Block) : Nat → List Int → Block
  | _, [] => h
  | i, b :: rest => hdrWith (put8 h ((8 + i) * 8) b) (i + 1) rest

/-- The state after one iteration of the first loop of `commit`. -/
def logIterSt (s : Sys) (lstart : Int) (i : Nat) (lbn : Int) : Sys :=
  brelseSt (brelseSt (writeback (setdata (breadSt (breadSt
    (setdata s lstart (put8 (bufdata s lstart) ((8 + i) * 8) lbn)) lbn) (lstart + 1 + i))
    (lstart + 1 + i) (bufdata s lbn)) (lstart + 1 + i)) lbn) (lstart + 1 + i)

/-- The panic message of an aborted run. -/
def abortMsg {α : Type} : R α → Option String
  | .ok _ => none
  | .error e => some e.1

/-- An observation of the state a run returned with. -/
def observe {α β : Type} (r : R α) (f : α → β) : Option β :=
  match r with
  | .ok a => some (f a)
  | .error _ => none

/-! ## Concrete machine states used as examples -/

/-- A block given by its non-zero bytes. -/
def blockOf (l : List (Nat × Byte)) : Block := fun j => (l.lookup j).getD 0

/-- A block whose bytes all equal `c`. -/
def constBlock (c : Byte) : Block := fun _ => c

/-- A freshly booted machine (empty cache, nothing held) on the given device, with the log
header at block 10 and a log of `loglen` blocks (`fslog.loglen` is one less, see
`log_t.init`). -/
def bootSysLen (disk : Int → Block) (loglen : Int) : Sys :=
  { disk := disk, blocks := fun b => ⟨disk b, false⟩, given := fun _ => false, hist := [],
    logblks := [], logstart := 10, loglen := loglen - 1, superb_start := 1, free_start := 2,
    free_len := 8, usable_start := 10 + loglen, ifreeblk := 0, ifreeoff := 0 }

/-- Device whose log header holds `recover_num = 0`. -/
def diskIdle : Int → Block := fun b => if b = 11 then constBlock 1 else zeroBlock

/-- Modelled from the spec: the error numbers are declared outside `src/`; the spec names
them as POSIX codes, whose usual values are used. -/
def EPERM : Int := 1

/-- Modelled from the spec: error number declared outside `src/`. -/
def ENOENT : Int := 2

/-- Modelled from the spec: error number declared outside `src/`. -/
def EEXIST : Int := 17

/-- Modelled from the spec: error number declared outside `src/`. -/
def ENOTDIR : Int := 20

/-- The response of an inode actor (`iresp_t`). -/
structure iresp_t where
  gnext : Int := 0
  cnext : Int := 0
  count : Int := 0
  err : Int := 0
  major : Int := 0
  minor : Int := 0

/-! ## Sorting -/

/-- Modelled from the spec: `sort.Sort(sort.IntSlice(sorted))` is the Go standard library; it
returns the ascending rearrangement of the slice. -/
def sortInts (l : List Int) : List Int := l.insertionSort (· ≤ ·)

/-! ## Go integer arithmetic -/

/-- Go's `/` on `int`: the quotient is truncated toward zero. -/
def goDiv (a b : Int) : Int := Int.tdiv a b

/-- Go's `%` on `int`: the remainder has the sign of the dividend. -/
def goMod (a b : Int) : Int := Int.tmod a b

/-- Go's `x--` on `int`: the least `int` wraps to the greatest one.  For every value of an
`int` this is `x - 1` reduced to 64 bits. -/
def goDec (x : Int) : Int := if x = -2 ^ 63 then 2 ^ 63 - 1 else x - 1

/-! ## The journal: `log_write` -/

/-- The method `log_t.append` ("log absorption"); `fslog.loglen` is one less than the number of
log blocks. -/
def log_append (s : Sys) (blkn : Int) : R Sys :=
  if blkn ∈ s.logblks then .ok s
  else
    if ((s.logblks ++ [blkn]).length : Int) ≥ s.loglen then
      .error ("log larger than log len", { s with logblks := s.logblks ++ [blkn] })
    else .ok { s with logblks := s.logblks ++ [blkn] }

/-- The function `log_write`: the buffer is marked dirty and its number is sent to
`log_daemon`, which appends it to the log.  The caller is inside `op_begin`/`op_end` (the
daemon aborts with "oh noes" otherwise, which is not modelled). -/
def log_write (s : Sys) (b : Int) : R Sys :=
  log_append { s with blocks := Function.update s.blocks b ⟨bufdata s b, true⟩ } b

/-! ## On-disk inodes (`inode_t`) and the inode cache (`icache_t`) -/

def I_FIRST : Int := 0

def I_INVALID : Int := I_FIRST

def I_FILE : Int := 1

def I_DIR : Int := 2

def I_DEV : Int := 3

def I_LAST : Int := I_DEV

/-- Number of direct block addresses. -/
def NIADDRS : Int := 10

/-- Number of words in an inode. -/
def NIWORDS : Int := 6 + NIADDRS

def ifield (iidx : Int) (fieldn : Int) : Int := iidx * NIWORDS + fieldn

def inode_itype (blk : Block) (ioff : Int) : Except String Int := do
  let it ← fieldr blk (ifield ioff 0)
  if it < I_FIRST ∨ it > I_LAST then .error "weird inode type" else .ok it

def inode_linkcount (blk : Block) (ioff : Int) : Except String Int := fieldr blk (ifield ioff 1)

def inode_size (blk : Block) (ioff : Int) : Except String Int := fieldr blk (ifield ioff 2)

def inode_major (blk : Block) (ioff : Int) : Except String Int := fieldr blk (ifield ioff 3)

def inode_minor (blk : Block) (ioff : Int) : Except String Int := fieldr blk (ifield ioff 4)

def inode_indirect (blk : Block) (ioff : Int) : Except String Int := fieldr blk (ifield ioff 5)

def inode_addr (blk : Block) (ioff : Int) (i : Int) : Except String Int :=
  if i < 0 ∨ i > NIADDRS then .error "bad inode block index"
  else fieldr blk (ifield ioff (6 + i))

def inode_w_itype (blk : Block) (ioff : Int) (n : Int) : Except String Block :=
  if n < I_FIRST ∨ n > I_LAST then .error "weird inode type"
  else fieldw blk (ifield ioff 0) n

def inode_w_linkcount (blk : Block) (ioff : Int) (n : Int) : Except String Block :=
  fieldw blk (ifield ioff 1) n

def inode_w_size (blk : Block) (ioff : Int) (n : Int) : Except String Block :=
  fieldw blk (ifield ioff 2) n

def inode_w_major (blk : Block) (ioff : Int) (n : Int) : Except String Block :=
  fieldw blk (ifield ioff 3) n

def inode_w_minor (blk : Block) (ioff : Int) (n : Int) : Except String Block :=
  fieldw blk (ifield ioff 4) n

def inode_w_indirect (blk : Block) (ioff : Int) (n : Int) : Except String Block :=
  fieldw blk (ifield ioff 5) n

def inode_w_addr (blk : Block) (ioff : Int) (i : Int) (n : Int) : Except String Block :=
  if i < 0 ∨ i > NIADDRS then .error "bad inode block index"
  else fieldw blk (ifield ioff (6 + i)) n

/-- The in-memory copy of an inode (`icache_t`); `addrs i` is `addrs[i]` for `i < NIADDRS`. -/
structure icache_t where
  itype : Int
  links : Int
  size : Int
  major : Int
  minor : Int
  indir : Int
  addrs : Nat → Int

/-- The state of an inode actor (`idaemon_t`). -/
structure idaemon_t where
  priv : Int
  blkno : Int
  ioff : Int
  icache : icache_t
  memref : Int

/-- The loop `for i := 0; i < NIADDRS; i++ { ic.addrs[i] = inode.addr(i) }` of `fill`. -/
def fill_addrs (blk : Block) (ioff : Int) : Nat → Nat → (Nat → Int) → Except String (Nat → Int)
  | 0, _, a => .ok a
  | n + 1, i, a => do
    let v ← inode_addr blk ioff i
    fill_addrs blk ioff n (i + 1) (Function.update a i v)

/-- The method `icache_t.fill`. -/
def icache_fill (blk : Block) (ioff : Int) : Except String icache_t := do
  let itype ← inode_itype blk ioff
  if itype ≤ I_FIRST ∨ itype > I_LAST then .error "bad itype in fill"
  else do
    let links ← inode_linkcount blk ioff
    let size ← inode_size blk ioff
    let major ← inode_major blk ioff
    let minor ← inode_minor blk ioff
    let indir ← inode_indirect blk ioff
    let addrs ← fill_addrs blk ioff 10 0 (fun _ => 0)
    .ok { itype := itype, links := links, size := size, major := major, minor := minor,
          indir := indir, addrs := addrs }

/-- The comparison loop `for i, v := range ic.addrs` of `flushto`. -/
def flushto_cmp (blk : Block) (ioff : Int) (ic : icache_t) : Nat → Nat → Bool →
    Except String Bool
  | 0, _, ret => .ok ret
  | n + 1, i, ret => do
    let v ← inode_addr blk ioff i
    flushto_cmp blk ioff ic n (i + 1) (if v ≠ ic.addrs i then true else ret)

/-- The write loop `for i := 0; i < NIADDRS; i++ { inode.w_addr(i, ic.addrs[i]) }`. -/
def flushto_addrs (ioff : Int) (ic : icache_t) : Nat → Nat → Block → Except String Block
  | 0, _, blk => .ok blk
  | n + 1, i, blk => do
    let blk ← inode_w_addr blk ioff i (ic.addrs i)
    flushto_addrs ioff ic n (i + 1) blk

/-- The method `icache_t.flushto`: returns the updated block and whether the inode changed. -/
def icache_flushto (ic : icache_t) (blk : Block) (ioff : Int) : Except String (Block × Bool) := do
  let jt ← inode_itype blk ioff
  let jl ← inode_linkcount blk ioff
  let js ← inode_size blk ioff
  let jma ← inode_major blk ioff
  let jmi ← inode_minor blk ioff
  let ji ← inode_indirect blk ioff
  let ret := (jt ≠ ic.itype ∨ jl ≠ ic.links ∨ js ≠ ic.size ∨ jma ≠ ic.major ∨
    jmi ≠ ic.minor ∨ ji ≠ ic.indir : Bool)
  let ret ← flushto_cmp blk ioff ic 10 0 ret
  let blk ← inode_w_itype blk ioff ic.itype
  let blk ← inode_w_linkcount blk ioff ic.links
  let blk ← inode_w_size blk ioff ic.size
  let blk ← inode_w_major blk ioff ic.major
  let blk ← inode_w_minor blk ioff ic.minor
  let blk ← inode_w_indirect blk ioff ic.indir
  let blk ← flushto_addrs ioff ic 10 0 blk
  .ok (blk, ret)

/-- The closure `iupdate` of `idaemonize`. -/
def iupdate (idm : idaemon_t) (s : Sys) : R Sys := do
  let s ← bread s idm.blkno
  let (blk, changed) ← liftE s (icache_flushto idm.icache (bufdata s idm.blkno) idm.ioff)
  let s := setdata s idm.blkno blk
  let s ← if changed then log_write s idm.blkno else .ok s
  brelse s idm.blkno

/-! ## The free-block bitmap -/

/-- The loop of `freebit`: the lowest `m` in `[m, 8)` with bit `m` of `b` clear. -/
def freebit_loop (b : Byte) : Nat → Nat → Except String Nat
  | 0, _ => .error "no 0 bit?"
  | n + 1, m => if (1 <<< m) &&& b.val = 0 then .ok m else freebit_loop b n (m + 1)

def freebit (b : Byte) : Except String Nat := freebit_loop b 8 0

/-- The inner loop of `balloc1`: the first byte of the block that is not `0xff`, with its
lowest clear bit. -/
def balloc1_bytes (d : Block) : Nat → Nat → Except String (Option (Nat × Nat))
  | 0, _ => .ok none
  | n + 1, idx =>
    if d idx ≠ 0xff then do
      let bit ← freebit (d idx)
      .ok (some (idx, bit))
    else balloc1_bytes d n (idx + 1)

/-- The outer loop of `balloc1` over the bitmap blocks; `blk` is the buffer held from the
previous iteration.  Returns `(blkn, oct, bit)` if a clear bit was found, and the buffer that is
held when the loop ends. -/
def balloc1_loop (fst : Int) : Nat → Int → Option Int → Sys →
    R ((Option (Int × Nat × Nat) × Option Int) × Sys)
  | 0, _, blk, s => .ok ((none, blk), s)
  | n + 1, i, blk, s => do
    let s ← (match blk with
      | some b => brelse s b
      | none => .ok s)
    let s ← bread s (fst + i)
    let r ← liftE s (balloc1_bytes (bufdata s (fst + i)) 512 0)
    match r with
    | some (oct, bit) => .ok ((some (i, oct, bit), some (fst + i)), s)
    | none => balloc1_loop fst n (i + 1) (some (fst + i)) s

/-- The statement `blk.buf.data[oct] |= 1 << bit` on a `uint8`. -/
def setbit (c : Byte) (bit : Nat) : Byte :=
  ⟨(c.val ||| (1 <<< bit)) % 256, Nat.mod_lt _ (by decide)⟩

/-- The statement `fblk.buf.data[fbyteoff] &= ^(1 << fbitoff)` on a `uint8`; a shift by 8 or
more gives the `uint8` 0, whose complement leaves the byte as it is. -/
def clearbit (c : Byte) (bit : Nat) : Byte :=
  if bit < 8 then ⟨(c.val &&& (255 - (1 <<< bit))) % 256, Nat.mod_lt _ (by decide)⟩ else c

def balloc1 (s : Sys) : R (Int × Sys) :=
  if s.free_start = 0 ∨ s.free_len = 0 then .error ("fs not initted", s)
  else do
    let ((found, blk), s) ← balloc1_loop s.free_start s.free_len.toNat 0 none s
    match found, blk with
    | some (blkn, oct, bit), some b =>
      let s := setdata s b (Function.update (bufdata s b) oct (setbit (bufdata s b oct) bit))
      let s ← log_write s b
      let s ← brelse s b
      .ok (s.usable_start + blkn * (512 * 8) + oct * 8 + bit, s)
    | _, _ => .error ("no free blocks", s)

/-- The function `balloc`; the mutex `fblock` plays no part in a sequential run. -/
def balloc (s : Sys) : R (Int × Sys) := balloc1 s

def bfree (s : Sys) (blkno : Int) : R Sys :=
  if s.free_start = 0 ∨ s.free_len = 0 then .error ("fs not initted", s)
  else if blkno < 0 then .error ("bad blockno", s)
  else
    let bit := blkno - s.usable_start
    let bitsperblk : Int := 512 * 8
    let fblkno := s.free_start + goDiv bit bitsperblk
    let fbit := goMod bit bitsperblk
    let fbyteoff := goDiv fbit 8
    let fbitoff := toUInt64 (goMod fbit 8)
    if fblkno ≥ s.free_start + s.free_len then .error ("bad blockno", s)
    else do
      let s ← bread s fblkno
      if fbyteoff < 0 ∨ fbyteoff ≥ 512 then .error ("index out of range", s)
      else do
        let d := bufdata s fblkno
        let s := setdata s fblkno
          (Function.update d fbyteoff.toNat (clearbit (d fbyteoff.toNat) fbitoff))
        let s ← log_write s fblkno
        let s ← brelse s fblkno
        .ok (if s.ifreeblk = blkno then { s with ifreeblk := 0 } else s)

/-- The function `ialloc`: block and slot of a free inode. -/
def ialloc (s : Sys) : R ((Int × Int) × Sys) :=
  if s.ifreeblk ≠ 0 then
    let ret := s.ifreeblk
    let retoff := s.ifreeoff
    let s := { s with ifreeoff := s.ifreeoff + 1 }
    let blkwords : Int := 512 / 8
    let s := if s.ifreeoff ≥ blkwords / NIWORDS then { s with ifreeblk := 0 } else s
    .ok ((ret, retoff), s)
  else do
    let (b, s) ← balloc1 s
    let s := { s with ifreeblk := b, ifreeoff := 0 }
    let s ← bread s s.ifreeblk
    let s := setdata s s.ifreeblk zeroBlock
    let s ← log_write s s.ifreeblk
    let s ← brelse s s.ifreeblk
    let reti := s.ifreeoff
    let s := { s with ifreeoff := s.ifreeoff + 1 }
    .ok ((s.ifreeblk, reti), s)

/-! ## Block addressing: `offsetblk` and `blkslice` -/

/-- The closure `zeroblock` of `offsetblk`. -/
def zeroblock (s : Sys) (blkno : Int) : R Sys := do
  let s ← bread s blkno
  let s := setdata s blkno zeroBlock
  let s ← log_write s blkno
  brelse s blkno

/-- The closure `ensureb` of `offsetblk`. -/
def ensureb (writing : Bool) (s : Sys) (blkno : Int) (dozero : Bool) : R ((Int × Bool) × Sys) :=
  if !writing || blkno ≠ 0 then .ok ((blkno, false), s)
  else do
    let (nblkno, s) ← balloc s
    let s ← if dozero then zeroblock s nblkno else .ok s
    .ok ((nblkno, true), s)

/-- The loop of the closure `ensureind`; `blk` is the indirect block the caller holds. -/
def ensureind_loop (writing : Bool) (blk : Int) : Nat → Int → Bool → Sys → R (Bool × Sys)
  | 0, _, added, s => .ok (added, s)
  | n + 1, i, added, s => do
    let slot := i * 8
    let blkn ← liftE s (readn (bufdata s blk) 8 slot)
    let ((blkn, isnew), s) ← ensureb writing s blkn true
    if isnew then do
      let d ← liftE s (writen (bufdata s blk) 8 slot blkn)
      ensureind_loop writing blk n (i + 1) true (setdata s blk d)
    else ensureind_loop writing blk n (i + 1) added s

/-- The closure `ensureind` of `offsetblk`: every slot up to and including `idx` of the held
indirect block gets a block. -/
def ensureind (writing : Bool) (s : Sys) (blk : Int) (idx : Int) : R Sys :=
  if !writing then .ok s
  else do
    let (added, s) ← ensureind_loop writing blk (idx + 1).toNat 0 false s
    if added then log_write s blk else .ok s

/-- The loop of `offsetblk` that fills the direct slots below `ub`. -/
def offsetblk_direct : Nat → Nat → idaemon_t → Sys → R (idaemon_t × Sys)
  | 0, _, idm, s => .ok (idm, s)
  | n + 1, i, idm, s =>
    if idm.icache.addrs i ≠ 0 then offsetblk_direct n (i + 1) idm s
    else do
      let (tblkn, s) ← balloc s
      offsetblk_direct n (i + 1)
        { idm with icache := { idm.icache with addrs := Function.update idm.icache.addrs i tblkn } } s

/-- The loop of `offsetblk` that follows the chain of indirect blocks; `indno` is the number
of the indirect block that is held. -/
def offsetblk_chain (writing : Bool) : Nat → Int → Sys → R (Int × Sys)
  | 0, indno, s => .ok (indno, s)
  | n + 1, indno, s => do
    let s ← ensureind writing s indno 63
    let next ← liftE s (readn (bufdata s indno) 8 (63 * 8))
    let s ← brelse s indno
    let s ← bread s next
    offsetblk_chain writing n next s

/-- The method `idaemon_t.offsetblk`: the number of the block responsible for `offset`. -/
def offsetblk (idm : idaemon_t) (s : Sys) (offset : Int) (writing : Bool) :
    R (Int × idaemon_t × Sys) := do
  let whichblk := goDiv offset 512
  let (idm, s) ← (if writing then
      let ub := if whichblk + 1 > NIADDRS then NIADDRS else whichblk + 1
      offsetblk_direct ub.toNat 0 idm s
    else .ok (idm, s))
  if whichblk ≥ NIADDRS then do
    let indslot := whichblk - NIADDRS
    let slotpb : Int := 63
    let ((indno, isnew), s) ← ensureb writing s idm.icache.indir true
    let idm := if isnew then { idm with icache := { idm.icache with indir := indno } } else idm
    let s ← bread s indno
    let (indno, s) ← offsetblk_chain writing (goDiv indslot slotpb).toNat indno s
    let slotoff := goMod indslot slotpb
    let s ← ensureind writing s indno slotoff
    let noff := slotoff * 8
    let blkn ← liftE s (readn (bufdata s indno) 8 noff)
    let ((blkn, isnew), s) ← ensureb writing s blkn false
    let s ← (if isnew then do
        let d ← liftE s (writen (bufdata s indno) 8 noff blkn)
        log_write (setdata s indno d) indno
      else .ok s)
    let s ← brelse s indno
    .ok (blkn, idm, s)
  else if whichblk < 0 then .error ("index out of range", s)
  else .ok (idm.icache.addrs whichblk.toNat, idm, s)

/-- The method `idaemon_t.blkslice`: the block is returned held; the slice is
`data[start : start + bsp]`, given by `start` and its length `bsp`. -/
def blkslice (idm : idaemon_t) (s : Sys) (offset : Int) (writing : Bool) :
    R ((Int × Int × Int) × idaemon_t × Sys) := do
  let (blkn, idm, s) ← offsetblk idm s offset writing
  if blkn < s.superb_start ∧ idm.icache.size > 0 then .error ("bad block", s)
  else do
    let s ← bread s blkn
    let start := goMod offset 512
    let bsp := 512 - start
    let bsp := if !writing ∧ bsp > idm.icache.size - offset then idm.icache.size - offset
      else bsp
    if start < 0 ∨ bsp < 0 ∨ start + bsp > 512 then .error ("slice bounds out of range", s)
    else .ok ((blkn, start, bsp), idm, s)

/-! ## Reading and writing file contents -/

/-- The bytes `data[start : start + n]` of a block. -/
def readBytes (d : Block) (start n : Nat) : List Byte :=
  (List.range n).map (fun k => d (start + k))

/-- The block after `data[start + i] = bytes[i]` for all `i < len(bytes)`. -/
def writeBytes (d : Block) (start : Nat) (bytes : List Byte) : Block :=
  fun j => if start ≤ j ∧ j < start + bytes.length then bytes.getD (j - start) 0 else d j

/-- The loop of `iread1`.  `c` bytes have been copied, `acc` holds them in order; the
destination slice still has `sz - c` bytes of room.  Every iteration copies at least one byte,
so `sz` iterations are enough: the case of no fuel with `c < sz` is not reached. -/
def iread1_loop (isz sz offset : Int) : Nat → Int → List Byte → idaemon_t → Sys →
    R ((Int × List Byte) × Sys)
  | 0, c, acc, _, s =>
    if c < sz then .error ("iread1 does not terminate", s) else .ok ((c, acc), s)
  | n + 1, c, acc, idm, s =>
    if ¬ c < sz then .ok ((c, acc), s)
    else do
      let ((blkn, start, bsp), idm, s) ← blkslice idm s (offset + c) false
      let lendst := sz - c
      let ub := if lendst < bsp then lendst else bsp
      let dstfull : Bool := lendst < bsp
      let bytes := readBytes (bufdata s blkn) start.toNat ub.toNat
      let s ← brelse s blkn
      let c := c + ub
      if offset + c = isz ∨ dstfull then .ok ((c, acc ++ bytes), s)
      else iread1_loop isz sz offset n c (acc ++ bytes) idm s

/-- The method `idaemon_t.iread1`: returns the count, the error and the destination slice
after the copy. -/
def iread1 (idm : idaemon_t) (s : Sys) (dst : List Byte) (offset : Int) :
    R ((Int × Int × List Byte) × Sys) :=
  let isz := idm.icache.size
  if offset ≥ isz then .ok ((0, 0, dst), s)
  else do
    let ((c, bytes), s) ← iread1_loop isz dst.length offset dst.length 0 [] idm s
    .ok ((c, 0, bytes ++ dst.drop bytes.length), s)

/-- The loop of `iread` over the destination slices. -/
def iread_loop (idm : idaemon_t) (offset : Int) : List (List Byte) → Int → List (List Byte) →
    Sys → R ((Int × Int × List (List Byte)) × Sys)
  | [], c, done, s => .ok ((c, 0, done), s)
  | d :: rest, c, done, s => do
    let ((read, err, d2), s) ← iread1 idm s d (offset + c)
    let c := c + read
    if err ≠ 0 then .ok ((c, err, done ++ d2 :: rest), s)
    else if read ≠ d.length then .ok ((c, 0, done ++ d2 :: rest), s)
    else iread_loop idm offset rest c (done ++ [d2]) s

/-- The method `idaemon_t.iread`: count, error and the destination slices afterwards. -/
def iread (idm : idaemon_t) (s : Sys) (dsts : List (List Byte)) (offset : Int) :
    R ((Int × Int × List (List Byte)) × Sys) :=
  iread_loop idm offset dsts 0 [] s

/-- The loop of `iwrite1`; `src` is what remains to be written, `c` bytes have been written.
Every iteration writes at least one byte, so `len(src)` iterations are enough. -/
def iwrite1_loop (offset : Int) : Nat → Int → List Byte → idaemon_t → Sys →
    R (Int × idaemon_t × Sys)
  | 0, c, src, idm, s =>
    if src ≠ [] then .error ("iwrite1 does not terminate", s) else .ok (c, idm, s)
  | n + 1, c, src, idm, s =>
    if src = [] then .ok (c, idm, s)
    else do
      let ((blkn, start, bsp), idm, s) ← blkslice idm s (offset + c) true
      let ub := if (src.length : Int) < bsp then (src.length : Int) else bsp
      let s := setdata s blkn (writeBytes (bufdata s blkn) start.toNat (src.take ub.toNat))
      let s ← log_write s blkn
      let s ← brelse s blkn
      iwrite1_loop offset n (c + ub) (src.drop ub.toNat) idm s

/-- The method `idaemon_t.iwrite1`. -/
def iwrite1 (idm : idaemon_t) (s : Sys) (src : List Byte) (offset : Int) :
    R ((Int × Int) × idaemon_t × Sys) := do
  let (c, idm, s) ← iwrite1_loop offset src.length 0 src idm s
  let newsz := offset + c
  let idm := if newsz > idm.icache.size then
    { idm with icache := { idm.icache with size := newsz } } else idm
  .ok ((c, 0), idm, s)

/-- The loop of `iwrite` over the source slices. -/
def iwrite_loop (offset : Int) : List (List Byte) → Int → idaemon_t → Sys →
    R ((Int × Int) × idaemon_t × Sys)
  | [], c, idm, s => .ok ((c, 0), idm, s)
  | src :: rest, c, idm, s => do
    let ((wrote, err), idm, s) ← iwrite1 idm s src (offset + c)
    let c := c + wrote
    if err ≠ 0 then .ok ((c, err), idm, s)
    else if wrote ≠ src.length then .error ("short write", s)
    else iwrite_loop offset rest c idm s

/-- The method `idaemon_t.iwrite`. -/
def iwrite (idm : idaemon_t) (s : Sys) (srcs : List (List Byte)) (offset : Int) :
    R ((Int × Int) × idaemon_t × Sys) :=
  iwrite_loop offset srcs 0 idm s

/-! ## Inode numbers -/

/-- The function `biencode`: `blk << 2 | iidx` on 64-bit integers; the shifted value has its
two low bits clear, so the bitwise or with `iidx < 4` is an addition. -/
def biencode (blk : Int) (iidx : Int) : Except String Int :=
  if iidx < 0 ∨ iidx ≥ 4 then .error "bad inode index"
  else .ok (wrap64 (blk * 4) + iidx)

/-- The function `bidecode`: `uint(val) >> 2` and `val & 0x3`. -/
def bidecode (val : Int) : Int × Int :=
  (((toUInt64 val / 4 : Nat) : Int), ((toUInt64 val % 4 : Nat) : Int))

/-! ## Directory blocks (`dirdata_t`) -/

/-- A file name: a Go string, that is a sequence of bytes. -/
abbrev Name := List Byte

def DNAMELEN : Nat := 14

def NDBYTES : Int := 22

def NDIRENTS : Nat := 23

def doffset (didx : Int) (off : Int) : Except String Int :=
  if didx < 0 ∨ didx ≥ NDIRENTS then .error "bad dirent index"
  else .ok (NDBYTES * didx + off)

/-- The method `dirdata_t.filename`: the bytes of the name field that are not NUL. -/
def filename (d : Block) (didx : Int) : Except String Name := do
  let st ← doffset didx 0
  .ok ((readBytes d st.toNat DNAMELEN).filter (fun c => c ≠ 0))

def inodenext (d : Block) (didx : Int) : Except String Int := do
  let st ← doffset didx 14
  readn d 8 st

/-- The method `dirdata_t.w_filename`: the first 14 bytes of `fn`, padded with NUL. -/
def w_filename (d : Block) (didx : Int) (fn : Name) : Except String Block := do
  let st ← doffset didx 0
  .ok (writeBytes d st.toNat ((List.range DNAMELEN).map (fun i => fn.getD i 0)))

def w_inodenext (d : Block) (didx : Int) (blk : Int) (iidx : Int) : Except String Block := do
  let st ← doffset didx 14
  let v ← biencode blk iidx
  writen d 8 st v

/-- The loop over the slots `j, j + 1, ..` of one directory block in `dirent_lookup`. -/
def lookup_slots (d : Block) (name : Name) : Nat → Nat → Except String (Option Int)
  | 0, _ => .ok none
  | n + 1, j => do
    let fn ← filename d j
    if name = fn then do
      let v ← inodenext d j
      .ok (some v)
    else lookup_slots d name n (j + 1)

/-- The function `dirent_lookup`; `ds` lists the numbers of the held directory blocks. -/
def dirent_lookup (s : Sys) : List Int → Name → Except String (Int × Bool)
  | [], _ => .ok (0, false)
  | b :: rest, name => do
    let r ← lookup_slots (bufdata s b) name NDIRENTS 0
    match r with
    | some v => .ok (v, true)
    | none => dirent_lookup s rest name

/-- The loop over the slots of one directory block in `dirent_getempty`. -/
def getempty_slots (d : Block) : Nat → Nat → Except String (Option Nat)
  | 0, _ => .ok none
  | n + 1, j => do
    let fn ← filename d j
    if fn = [] then .ok (some j) else getempty_slots d n (j + 1)

/-- The function `dirent_getempty`: `(found, block index, slot)`. -/
def dirent_getempty (s : Sys) : List Int → Nat → Except String (Bool × Nat × Nat)
  | [], _ => .ok (false, 0, 0)
  | b :: rest, i => do
    let r ← getempty_slots (bufdata s b) NDIRENTS 0
    match r with
    | some j => .ok (true, i, j)
    | none => dirent_getempty s rest (i + 1)

/-- The loop over the slots of one directory block in `dirent_erase`: the slot whose name is
`name` is cleared. -/
def erase_slots (d : Block) (name : Name) : Nat → Nat → Except String (Option (Int × Block))
  | 0, _ => .ok none
  | n + 1, j => do
    let fn ← filename d j
    if name = fn then do
      let ret ← inodenext d j
      let d ← w_filename d j []
      let d ← w_inodenext d j 0 0
      .ok (some (ret, d))
    else erase_slots d name n (j + 1)

/-- The function `dirent_erase`. -/
def dirent_erase (s : Sys) : List Int → Name → R ((Int × Bool) × Sys)
  | [], _ => .ok ((0, false), s)
  | b :: rest, name => do
    let r ← liftE s (erase_slots (bufdata s b) name NDIRENTS 0)
    match r with
    | some (ret, d) => do
      let s ← log_write (setdata s b d) b
      .ok ((ret, true), s)
    | none => dirent_erase s rest name

/-- The function `dirent_brelse`. -/
def dirent_brelse (s : Sys) : List Int → R Sys
  | [] => .ok s
  | b :: rest => do
    let s ← brelse s b
    dirent_brelse s rest

/-- The loop of `all_dirents`: one held block per 512 bytes of the directory. -/
def all_dirents_loop (isz : Int) : Nat → Int → List Int → idaemon_t → Sys → R (List Int × Sys)
  | 0, _, ret, _, s => .ok (ret, s)
  | n + 1, i, ret, idm, s =>
    if ¬ i < isz then .ok (ret, s)
    else do
      let ((blkn, _, _), idm, s) ← blkslice idm s i false
      all_dirents_loop isz n (i + 512) (ret ++ [blkn]) idm s

/-- The method `idaemon_t.all_dirents`: the directory blocks, all held. -/
def all_dirents (idm : idaemon_t) (s : Sys) : R (List Int × Sys) :=
  if idm.icache.itype ≠ I_DIR then .error ("not a directory", s)
  else all_dirents_loop idm.icache.size ((idm.icache.size + 511) / 512).toNat 0 [] idm s

/-- The method `idaemon_t.dirent_add`. -/
def dirent_add (idm : idaemon_t) (s : Sys) (ds : List Int) (name : Name) (nblkno : Int)
    (ioff : Int) : R (idaemon_t × Sys) := do
  let (found, eblkidx, eslot) ← liftE s (dirent_getempty s ds 0)
  let ((ddata, deoff, dorelse), idm, s) ← (if found then
      (.ok ((ds.getD eblkidx 0, eslot, false), idm, s) : R ((Int × Nat × Bool) × idaemon_t × Sys))
    else do
      let (blkn, idm, s) ← offsetblk idm s idm.icache.size true
      let idm := { idm with icache := { idm.icache with size := idm.icache.size + 512 } }
      let s ← bread s blkn
      let s := setdata s blkn zeroBlock
      .ok ((blkn, 0, true), idm, s))
  let fn ← liftE s (filename (bufdata s ddata) deoff)
  if fn ≠ [] then .error ("dir entry slot is not free", s)
  else do
    let d ← liftE s (w_filename (bufdata s ddata) deoff name)
    let d ← liftE s (w_inodenext d deoff nblkno ioff)
    let s ← log_write (setdata s ddata d) ddata
    let s ← if dorelse then brelse s ddata else .ok s
    .ok (idm, s)

/-! ## Directory operations of an inode actor -/

/-- The method `idaemon_t.iget`: `(inum, error)`. -/
def iget (idm : idaemon_t) (s : Sys) (name : Name) : R ((Int × Int) × Sys) :=
  if idm.icache.itype ≠ I_DIR then .ok ((0, -ENOTDIR), s)
  else do
    let (ds, s) ← all_dirents idm s
    let (priv, found) ← liftE s (dirent_lookup s ds name)
    let s ← dirent_brelse s ds
    if found then .ok ((priv, 0), s) else .ok ((0, -ENOENT), s)

/-- The method `idaemon_t.iinsert`; the deferred `dirent_brelse` runs at every return. -/
def iinsert (idm : idaemon_t) (s : Sys) (name : Name) (priv : Int) :
    R (Int × idaemon_t × Sys) := do
  let (ds, s) ← all_dirents idm s
  let (_, found) ← liftE s (dirent_lookup s ds name)
  if found then do
    let s ← dirent_brelse s ds
    .ok (-EEXIST, idm, s)
  else do
    let (a, b) := bidecode priv
    let (idm, s) ← dirent_add idm s ds name a b
    let s ← dirent_brelse s ds
    .ok (0, idm, s)

/-- The method `idaemon_t.iunlink`: `(inum, error)`. -/
def iunlink (idm : idaemon_t) (s : Sys) (name : Name) : R ((Int × Int) × Sys) := do
  let (ds, s) ← all_dirents idm s
  let ((priv, found), s) ← dirent_erase s ds name
  let s ← dirent_brelse s ds
  if ¬ found then .ok ((0, -ENOENT), s) else .ok ((priv, 0), s)

/-- The loop of `icreate` that clears the ten direct addresses of the new inode. -/
def icreate_addrs (ioff : Int) : Nat → Nat → Block → Except String Block
  | 0, _, blk => .ok blk
  | n + 1, i, blk => do
    let blk ← inode_w_addr blk ioff i 0
    icreate_addrs ioff n (i + 1) blk

/-- The method `idaemon_t.icreate`: `(inum, error)`. -/
def icreate (idm : idaemon_t) (s : Sys) (name : Name) (nitype major minor : Int) :
    R ((Int × Int) × idaemon_t × Sys) :=
  if nitype ≤ I_INVALID ∨ nitype > I_LAST then .error ("bad itype!", s)
  else if name = [] then .error ("icreate with no name", s)
  else if nitype ≠ I_DEV ∧ (major ≠ 0 ∨ minor ≠ 0) then .error ("inconsistent args", s)
  else do
    let (ds, s) ← all_dirents idm s
    let (foundinum, found) ← liftE s (dirent_lookup s ds name)
    if found then do
      let s ← dirent_brelse s ds
      .ok ((foundinum, -EEXIST), idm, s)
    else do
      let ((newbn, newioff), s) ← ialloc s
      let s ← bread s newbn
      let blk ← liftE s (inode_w_itype (bufdata s newbn) newioff nitype)
      let blk ← liftE s (inode_w_linkcount blk newioff 1)
      let blk ← liftE s (inode_w_size blk newioff 0)
      let blk ← liftE s (inode_w_major blk newioff major)
      let blk ← liftE s (inode_w_minor blk newioff minor)
      let blk ← liftE s (inode_w_indirect blk newioff 0)
      let blk ← liftE s (icreate_addrs newioff 10 0 blk)
      let s ← log_write (setdata s newbn blk) newbn
      let s ← brelse s newbn
      let (idm, s) ← dirent_add idm s ds name newbn newioff
      let newinum ← liftE s (biencode newbn newioff)
      let s ← dirent_brelse s ds
      .ok ((newinum, 0), idm, s)

/-- The closure `canrem` of `idirempty`. -/
def canrem (n : Name) : Bool :=
  if n = [] ∨ n = [46, 46] ∨ n = [46] then false else true

/-- The loop of `idirempty` over the slots of one block. -/
def idirempty_slots (d : Block) : Nat → Nat → Bool → Except String Bool
  | 0, _, empty => .ok empty
  | n + 1, j, empty => do
    let fn ← filename d j
    idirempty_slots d n (j + 1) (if canrem fn then false else empty)

/-- The loop of `idirempty` over the directory blocks. -/
def idirempty_blocks (s : Sys) : List Int → Bool → Except String Bool
  | [], empty => .ok empty
  | b :: rest, empty => do
    let e ← idirempty_slots (bufdata s b) NDIRENTS 0 empty
    idirempty_blocks s rest e

/-- The method `idaemon_t.idirempty`. -/
def idirempty (idm : idaemon_t) (s : Sys) : R (Bool × Sys) := do
  let (ds, s) ← all_dirents idm s
  let e ← liftE s (idirempty_blocks s ds true)
  let s ← dirent_brelse s ds
  .ok (e, s)

/-! ## Freeing an inode -/

/-- The closure `add` of `ifree`. -/
def ifree_add (allb : List Int) (blkno : Int) : List Int :=
  if blkno ≠ 0 then allb ++ [blkno] else allb

/-- The loop of `ifree` over the direct addresses. -/
def ifree_direct (ic : icache_t) : Nat → Nat → List Int → List Int
  | 0, _, allb => allb
  | n + 1, i, allb => ifree_direct ic n (i + 1) (ifree_add allb (ic.addrs i))

/-- The loop `for indno != 0` of `ifree` along the chain of indirect blocks.  The Go loop has
no bound; `fuel` bounds the number of iterations of the model. -/
def ifree_chain (idm : idaemon_t) : Nat → Int → List Int → Sys → R (List Int × Sys)
  | 0, indno, allb, s =>
    if indno ≠ 0 then .error ("ifree: out of fuel", s) else .ok (allb, s)
  | n + 1, indno, allb, s =>
    if ¬ indno ≠ 0 then .ok (allb, s)
    else do
      let allb := ifree_add allb idm.icache.indir
      let s ← bread s indno
      let next ← liftE s (readn (bufdata s indno) 8 (63 * 8))
      let s ← brelse s indno
      ifree_chain idm n next allb s

/-- The closure `alldead` of `ifree`. -/
def alldead (blk : Block) : Nat → Int → Except String Bool
  | 0, _ => .ok true
  | n + 1, i => do
    let it ← inode_itype blk i
    if it ≠ I_INVALID then .ok false else alldead blk n (i + 1)

/-- The loop of `ifree` that frees the collected blocks. -/
def ifree_bfree : List Int → Sys → R Sys
  | [], s => .ok s
  | b :: rest, s => do
    let s ← bfree s b
    ifree_bfree rest s

/-- The method `idaemon_t.ifree` ("frees all blocks occupied by idm"). -/
def ifree (fuel : Nat) (idm : idaemon_t) (s : Sys) : R (idaemon_t × Sys) := do
  let allb := ifree_direct idm.icache 10 0 []
  let (allb, s) ← ifree_chain idm fuel idm.icache.indir allb s
  let s ← bread s idm.blkno
  let idm := { idm with icache := { idm.icache with itype := I_INVALID } }
  let (blk, _) ← liftE s (icache_flushto idm.icache (bufdata s idm.blkno) idm.ioff)
  let s := setdata s idm.blkno blk
  let dead ← liftE s (alldead blk 4 0)
  let (allb, s) ← (if dead then (.ok (ifree_add allb idm.blkno, s) : R (List Int × Sys))
    else do
      let s ← log_write s idm.blkno
      .ok (allb, s))
  let s ← brelse s idm.blkno
  let s ← ifree_bfree allb s
  .ok (idm, s)

/-- The closure `irefdown` of `idaemonize`: returns whether the actor terminates.  The removal
of the actor from `allidmons` is what termination means for the caller. -/
def irefdown (fuel : Nat) (idm : idaemon_t) (s : Sys) (memref : Bool) :
    R (Bool × idaemon_t × Sys) :=
  let idm := if memref then { idm with memref := goDec idm.memref }
    else { idm with icache := { idm.icache with links := goDec idm.icache.links } }
  if idm.icache.links < 0 ∨ idm.memref < 0 then .error ("negative links", s)
  else if idm.icache.links ≠ 0 ∨ idm.memref ≠ 0 then do
    let s ← if !memref then iupdate idm s else .ok s
    .ok (false, idm, s)
  else do
    let (idm, s) ← ifree fuel idm s
    .ok (true, idm, s)

/-! ## Requests served by an inode actor (`idaemonize`) -/

/-- A request to an inode actor (`ireq_t`), without its channels and the `stat` buffer. -/
structure ireq_t where
  path : List Name := []
  offset : Int := 0
  rbufs : List (List Byte) := []
  dbufs : List (List Byte) := []
  dappend : Bool := false
  cr_name : Name := []
  cr_type : Int := 0
  cr_mkdir : Bool := false
  cr_major : Int := 0
  cr_minor : Int := 0
  insert_name : Name := []
  insert_priv : Int := 0
  fsref : Bool := false
  memref : Bool := false

/-- What `forwardreq` decides: the request is for this actor, it was sent on to the actor of
`npriv` with the rest of the path, or the lookup failed and the error was acknowledged. -/
inductive Fwd where
  | forus
  | forwarded (npriv : Int) (r : ireq_t)
  | erred (resp : iresp_t)

/-- The method `idaemon_t.forwardreq`; `idaemon_ensure` aborts on an inum that is not
positive (the start of the next actor is not part of this step). -/
def forwardreq (idm : idaemon_t) (s : Sys) (r : ireq_t) : R (Fwd × Sys) :=
  match r.path with
  | [] => .ok (Fwd.forus, s)
  | next :: rest => do
    let ((npriv, err), s) ← iget idm s next
    if err ≠ 0 then .ok (Fwd.erred { err := err }, s)
    else if npriv ≤ 0 then .error ("non-positive priv", s)
    else .ok (Fwd.forwarded npriv { r with path := rest }, s)

/-- The answer of an actor to a request: a response, or the request was forwarded. -/
inductive Served where
  | reply (resp : iresp_t)
  | forwarded (npriv : Int) (r : ireq_t)

/-- `case CREATE` of `idaemonize`. -/
def serve_create (idm : idaemon_t) (s : Sys) (r : ireq_t) : R (Served × idaemon_t × Sys) := do
  let (f, s) ← forwardreq idm s r
  match f with
  | Fwd.forwarded n r2 => .ok (Served.forwarded n r2, idm, s)
  | Fwd.erred resp => .ok (Served.reply resp, idm, s)
  | Fwd.forus =>
    if r.cr_type ≠ I_FILE ∧ r.cr_type ≠ I_DIR ∧ r.cr_type ≠ I_DEV then .error ("no imp", s)
    else if idm.icache.itype ≠ I_DIR then .ok (Served.reply { err := -ENOTDIR }, idm, s)
    else do
      let ((cnext, err), idm, s) ← icreate idm s r.cr_name r.cr_type r.cr_major r.cr_minor
      let s ← iupdate idm s
      .ok (Served.reply { cnext := cnext, err := err, major := r.cr_major,
                          minor := r.cr_minor }, idm, s)

/-- `case INSERT` of `idaemonize`. -/
def serve_insert (idm : idaemon_t) (s : Sys) (r : ireq_t) : R (Served × idaemon_t × Sys) := do
  let (f, s) ← forwardreq idm s r
  match f with
  | Fwd.forwarded n r2 => .ok (Served.forwarded n r2, idm, s)
  | Fwd.erred resp => .ok (Served.reply resp, idm, s)
  | Fwd.forus => do
    let (err, idm, s) ← iinsert idm s r.insert_name r.insert_priv
    let s ← iupdate idm s
    .ok (Served.reply { err := err }, idm, s)

/-- `case UNLINK` of `idaemonize`. -/
def serve_unlink (idm : idaemon_t) (s : Sys) (r : ireq_t) : R (Served × idaemon_t × Sys) :=
  match r.path with
  | [] => .error ("index out of range", s)
  | name :: _ => do
    let ((_, err), s) ← iunlink idm s name
    let s ← if err = 0 then iupdate idm s else .ok s
    .ok (Served.reply { err := err }, idm, s)

/-- `case LOOKUP` of `idaemonize`. -/
def serve_lookup (idm : idaemon_t) (s : Sys) (r : ireq_t) : R (Served × idaemon_t × Sys) :=
  match r.path with
  | [name] => do
    let ((npriv, err), s) ← iget idm s name
    .ok (Served.reply { gnext := npriv, err := err }, idm, s)
  | _ => .error ("path for lookup should be one component", s)

/-- `case REFDEC` of `idaemonize`: the response and whether the actor terminates. -/
def serve_refdec (fuel : Nat) (idm : idaemon_t) (s : Sys) (r : ireq_t) :
    R ((iresp_t × Bool) × idaemon_t × Sys) := do
  let (terminate, idm, s) ← irefdown fuel idm s r.memref
  .ok (({}, terminate), idm, s)

/-! ## A small file system used in examples -/

/-- Root directory inode: block 64, slot 0; type DIR, 1 link, size 512, first block 65. -/
def rootInodeBlock : Block := blockOf [(0, 2), (8, 1), (17, 2), (48, 65)]

/-- Root directory data: entries `.` and `..`, both inode 256 (block 64, slot 0). -/
def rootDirBlock : Block := blockOf [(0, 46), (15, 1), (22, 46), (23, 46), (37, 1)]

/-- Free bitmap: blocks 64 and 65 are in use. -/
def bitmapBlock : Block := blockOf [(0, 3)]

def fsDisk : Int → Block := fun b =>
  if b = 2 then bitmapBlock else if b = 64 then rootInodeBlock
  else if b = 65 then rootDirBlock else zeroBlock

/-- A mounted file system inside an operation: superblock 1, bitmap block 2, log blocks 3
to 63, data from block 64 on; nothing is held and the cache is clean. -/
def fsSys : Sys :=
  { disk := fsDisk, blocks := fun b => ⟨fsDisk b, false⟩, given := fun _ => false, hist := [],
    logblks := [], logstart := 3, loglen := 60, superb_start := 1, free_start := 2,
    free_len := 1, usable_start := 64, ifreeblk := 0, ifreeoff := 0 }

/-- The actor of the root directory. -/
def rootIdm : idaemon_t :=
  { priv := 256, blkno := 64, ioff := 0, memref := 1,
    icache := { itype := I_DIR, links := 1, size := 512, major := 0, minor := 0, indir := 0,
                addrs := fun i => if i = 0 then 65 else 0 } }

/-- The name `a`. -/
def nameA : Name := [97]

/-! ## A file with one indirect block -/

/-- Inode block 64, slot 0: a FILE of 5632 bytes with no links left, first direct block 65 and
indirect block 66; the other three slots are INVALID. -/
def bigInodeBlock : Block := blockOf [(0, 1), (17, 22), (40, 66), (48, 65)]

/-- Indirect block 66: its slot 0 points to data block 67, no next indirect block. -/
def bigIndirBlock : Block := blockOf [(0, 67)]

/-- Free bitmap: blocks 64, 65, 66 and 67 are in use. -/
def bigBitmapBlock : Block := blockOf [(0, 15)]

def bigDisk : Int → Block := fun b =>
  if b = 2 then bigBitmapBlock else if b = 64 then bigInodeBlock
  else if b = 66 then bigIndirBlock else zeroBlock

/-- The example file system holding only the file of `bigInodeBlock`. -/
def bigSys : Sys :=
  { fsSys with disk := bigDisk, blocks := fun b => ⟨bigDisk b, false⟩ }

/-- The actor of the file of `bigInodeBlock` after its last reference is gone. -/
def bigIdm : idaemon_t :=
  { priv := 256, blkno := 64, ioff := 0, memref := 0,
    icache := { itype := I_FILE, links := 0, size := 5632, major := 0, minor := 0, indir := 66,
                addrs := fun i => if i = 0 then 65 else 0 } }

/-! ## Two directory entries with one name -/

/-- A name of 14 bytes. -/
def name14 : Name := List.replicate 14 97

/-- A name of 15 bytes whose first 14 bytes are `name14`. -/
def name15 : Name := List.replicate 14 97 ++ [98]

/-- The error of a reply. -/
def servedErr : Served → Option Int
  | Served.reply resp => some resp.err
  | Served.forwarded _ _ => none

/-- Two `Insert` requests in a row on the same directory actor. -/
def insertTwice (idm : idaemon_t) (s : Sys) (r1 r2 : ireq_t) :
    R ((Served × Served) × idaemon_t × Sys) := do
  let (a1, idm, s) ← serve_insert idm s r1
  let (a2, idm, s) ← serve_insert idm s r2
  .ok ((a1, a2), idm, s)

/-! ## The block pointers of an inode and the free map -/

/-- Slot `t` of a block, read as a 64-bit integer (`readn(blk, 8, t * 8)`). -/
def rdb (d : Block) (t : Nat) : Int := toInt64 (leval d (t * 8) 8)

/-- Slot `t` of the buffer of block `b`. -/
def rd (s : Sys) (b : Int) (t : Nat) : Int := rdb (bufdata s b) t

/-- The `j`-th indirect block of an inode: `indir`, then the slot 63 of the block before; 0
when the chain has ended. -/
def chainZ (ic : icache_t) (s : Sys) : Nat → Int
  | 0 => ic.indir
  | j + 1 => if chainZ ic s j = 0 then 0 else rd s (chainZ ic s j) 63

/-- Slot `t` of the `j`-th indirect block; 0 when the chain has ended before. -/
def slotZ (ic : icache_t) (s : Sys) (j t : Nat) : Int :=
  if chainZ ic s j = 0 then 0 else rd s (chainZ ic s j) t

/-- The places where an inode keeps a block number: a direct address, the pointer `indir`, a
slot of an indirect block (slot 63 is the pointer to the next indirect block). -/
inductive Pos where
  | direct (i : Nat)
  | root
  | slot (j t : Nat)
  deriving DecidableEq

/-- The place that keeps the number of the `j`-th indirect block. -/
def cpos : Nat → Pos
  | 0 => Pos.root
  | j + 1 => Pos.slot j 63

/-- The block number kept at a place; 0 stands for no block. -/
def ptr (ic : icache_t) (s : Sys) : Pos → Int
  | Pos.direct i => if i < 10 then ic.addrs i else 0
  | Pos.root => ic.indir
  | Pos.slot j t => if t < 64 then slotZ ic s j t else 0

/-- The place of the `k`-th 512-byte block of a file. -/
def fpos (k : Nat) : Pos :=
  if k < 10 then Pos.direct k else Pos.slot ((k - 10) / 63) ((k - 10) % 63)

/-- The number of the `k`-th block of a file. -/
def fblock (ic : icache_t) (s : Sys) (k : Nat) : Int := ptr ic s (fpos k)

/-- Byte `p` of a file. -/
def fbyte (ic : icache_t) (s : Sys) (p : Nat) : Byte :=
  bufdata s (fblock ic s (p / 512)) (p % 512)

/-- Bit `m` of a byte. -/
def bitset (c : Byte) (m : Nat) : Bool := c.val.testBit m

/-- The bit of block `b` in the free map. -/
def used (s : Sys) (b : Int) : Bool :=
  bitset (bufdata s (s.free_start + (((b - s.usable_start).toNat / 4096 : Nat) : Int))
    ((b - s.usable_start).toNat % 4096 / 8)) ((b - s.usable_start).toNat % 8)

/-- Block `b` has a bit in the free map. -/
def InMap (s : Sys) (b : Int) : Prop :=
  s.usable_start ≤ b ∧ b < s.usable_start + s.free_len * 4096

/-- Block `b` can be handed out by `balloc`. -/
def Free (s : Sys) (b : Int) : Prop := InMap s b ∧ used s b = false

/-- Block `b` is marked as in use in the free map. -/
def Valid (s : Sys) (b : Int) : Prop := InMap s b ∧ used s b = true

/-- The layout of the device: the superblock and the free map lie below the first usable
block, and every block that has a bit in the free map has a number below `2^31`. -/
structure Geom (s : Sys) : Prop where
  free_pos : 0 < s.free_start
  free_below : s.free_start + s.free_len ≤ s.usable_start
  len_nonneg : 0 ≤ s.free_len
  super_below : s.superb_start ≤ s.usable_start
  range : s.usable_start + s.free_len * 4096 ≤ 2 ^ 31

/-- The blocks of an inode: every block number it keeps is marked in the free map, and no two
places keep the same block. -/
structure PtrWF (ic : icache_t) (s : Sys) : Prop where
  valid : ∀ p, ptr ic s p ≠ 0 → Valid s (ptr ic s p)
  inj : ∀ p q, ptr ic s p ≠ 0 → ptr ic s p = ptr ic s q → p = q

/-- The layout constants and the allocator hints of two states are the same. -/
structure Consts (s s2 : Sys) : Prop where
  superb : s2.superb_start = s.superb_start
  fst : s2.free_start = s.free_start
  flen : s2.free_len = s.free_len
  usable : s2.usable_start = s.usable_start
  ifb : s2.ifreeblk = s.ifreeblk
  ifo : s2.ifreeoff = s.ifreeoff

/-- What the operations on block pointers leave alone in an actor: everything but `indir` and
`addrs`. -/
structure Meta (idm idm2 : idaemon_t) : Prop where
  priv : idm2.priv = idm.priv
  blkno : idm2.blkno = idm.blkno
  ioff : idm2.ioff = idm.ioff
  memref : idm2.memref = idm.memref
  itype : idm2.icache.itype = idm.icache.itype
  links : idm2.icache.links = idm.icache.links
  size : idm2.icache.size = idm.icache.size
  major : idm2.icache.major = idm.icache.major
  minor : idm2.icache.minor = idm.icache.minor

/-- A state with another map of given buffers. -/
def setGiven (s : Sys) (g : Int → Bool) : Sys := { s with given := g }

/-- The state `(ic2, s2)` extends `(ic, s)`: every block number kept before is still kept at the
same place, new block numbers were free before, no block was freed, and the blocks that were in
use and are not indirect blocks of the inode have kept their contents. -/
structure Ext (ic : icache_t) (s : Sys) (ic2 : icache_t) (s2 : Sys) : Prop where
  consts : Consts s s2
  keep : ∀ p, ptr ic s p ≠ 0 → ptr ic2 s2 p = ptr ic s p
  fresh : ∀ p, ptr ic s p = 0 → ptr ic2 s2 p ≠ 0 → Free s (ptr ic2 s2 p)
  mono : ∀ b, Free s2 b → Free s b
  data : ∀ b, s.usable_start ≤ b → ¬ Free s b → (∀ j, chainZ ic s j ≠ b) →
    bufdata s2 b = bufdata s b

/-- The `n` bytes of a file from position `a` on. -/
def fbytes (ic : icache_t) (s : Sys) (a n : Nat) : List Byte :=
  (List.range n).map (fun i => fbyte ic s (a + i))

/-- No block that has a bit in the free map is held. -/
def Quiet (s : Sys) : Prop := ∀ x, s.usable_start ≤ x → s.given x = false

/-- The pieces of a file from position `a` on, with the given lengths. -/
def fchunks (ic : icache_t) (s : Sys) : Nat → List Nat → List (List Byte)
  | _, [] => []
  | a, n :: rest => fbytes ic s a n :: fchunks ic s (a + n) rest

/-- The blocks of the file that exist in `(ic, s)` are the same blocks in `(ic2, s2)`, and
their bytes at file positions outside `[lo, hi)` are the same. -/
structure FKeep (ic : icache_t) (s : Sys) (ic2 : icache_t) (s2 : Sys) (lo hi : Nat) :
    Prop where
  blk : ∀ k, fblock ic s k ≠ 0 → fblock ic2 s2 k = fblock ic s k
  byte : ∀ p, fblock ic s (p / 512) ≠ 0 → (p < lo ∨ hi ≤ p) → fbyte ic2 s2 p = fbyte ic s p

/-- The value a run returned, or `d` if it aborted. -/
def runOr {α : Type} (r : R α) (d : α) : α :=
  match r with
  | .ok a => a
  | .error _ => d

/-- Inode block 64 with the root directory in slot 0 and an empty file (type FILE, one link,
size 0, no blocks) in slot 1. -/
def twoInodeBlock : Block := blockOf [(0, 2), (8, 1), (17, 2), (48, 65), (128, 1), (136, 1)]

def fileDisk : Int → Block := fun b =>
  if b = 2 then bitmapBlock else if b = 64 then twoInodeBlock
  else if b = 65 then rootDirBlock else zeroBlock

/-- The example file system with the empty file of `twoInodeBlock`. -/
def fileSys : Sys :=
  { fsSys with disk := fileDisk, blocks := fun b => ⟨fileDisk b, false⟩ }

/-- The actor of the empty file. -/
def fileIdm : idaemon_t :=
  { priv := 257, blkno := 64, ioff := 1, memref := 1,
    icache := { itype := I_FILE, links := 1, size := 0, major := 0, minor := 0, indir := 0,
                addrs := fun _ => 0 } }

/-! ## Directories as the code reads them -/

/-- The name in slot `j` of a directory block: the bytes of the name field that are not NUL. -/
def nameAt (d : Block) (j : Nat) : Name :=
  (readBytes d (22 * j) 14).filter (fun c => c ≠ 0)

/-- The inode number in slot `j` of a directory block. -/
def inumAt (d : Block) (j : Nat) : Int := toInt64 (leval d (22 * j + 14) 8)

/-- The 14 bytes that `w_filename` stores for a name. -/
def padName (fn : Name) : List Byte := (List.range 14).map (fun i => fn.getD i 0)

/-- A directory block after `w_filename(j, name)` and `w_inodenext(j, ...)` with the inode
number `v`. -/
def putEntry (d : Block) (j : Nat) (name : Name) (v : Int) : Block :=
  put8 (writeBytes d (22 * j) (padName name)) (22 * j + 14) v

/-- What the loop of `dirent_lookup` over the slots `j, .., j + n - 1` of a block finds. -/
def slotLookup (d : Block) (name : Name) : Nat → Nat → Option Int
  | 0, _ => none
  | n + 1, j => if name = nameAt d j then some (inumAt d j) else slotLookup d name n (j + 1)

/-- What `dirent_lookup` finds in the blocks `ds`. -/
def dirLookup (data : Int → Block) : List Int → Name → Option Int
  | [], _ => none
  | b :: rest, name =>
    match slotLookup (data b) name 23 0 with
    | some v => some v
    | none => dirLookup data rest name

/-- The first empty slot among the slots `j, .., j + n - 1` of a block. -/
def slotEmpty (d : Block) : Nat → Nat → Option Nat
  | 0, _ => none
  | n + 1, j => if nameAt d j = [] then some j else slotEmpty d n (j + 1)

/-- The first empty slot of the blocks `ds`, as `(index of the block, slot)`; `i` is the index
of the first block of `ds`. -/
def dirEmpty (data : Int → Block) : List Int → Nat → Option (Nat × Nat)
  | [], _ => none
  | b :: rest, i =>
    match slotEmpty (data b) 23 0 with
    | some j => some (i, j)
    | none => dirEmpty data rest (i + 1)

/-- A name that a directory entry can hold: 1 to 14 bytes, none of them NUL. -/
def GoodName (n : Name) : Prop := n ≠ [] ∧ n.length ≤ 14 ∧ ∀ c, c ∈ n → c ≠ 0

/-- The numbers of the blocks of a directory, in order. -/
def dirBlocks (ic : icache_t) (s : Sys) : List Int :=
  (List.range (ic.size / 512).toNat).map (fblock ic s)

/-- The state in which the blocks `l` are held in addition. -/
def heldSt (s : Sys) (l : List Int) : Sys :=
  setGiven s (fun x => decide (x ∈ l) || s.given x)

/-- A directory in a sound state: sound layout and block pointers, no data block held, and the
size is a number of whole blocks, all of which exist. -/
structure DirWF (idm : idaemon_t) (s : Sys) : Prop where
  geom : Geom s
  wf : PtrWF idm.icache s
  quiet : Quiet s
  isdir : idm.icache.itype = I_DIR
  size_nonneg : 0 ≤ idm.icache.size
  size_mod : idm.icache.size % 512 = 0
  mapped : ∀ k, k < (idm.icache.size / 512).toNat → fblock idm.icache s k ≠ 0

/-! ## Inode slots -/

/-- Field `f` of inode slot `io` of an inode block. -/
def inoField (blk : Block) (io f : Nat) : Int := rdb blk (io * 16 + f)

/-- The block after the loop of `icreate` that clears the direct addresses `i, .., i + n - 1`
of slot `io`. -/
def clearAddrs (io : Nat) : Nat → Nat → Block → Block
  | 0, _, blk => blk
  | n + 1, i, blk => clearAddrs io n (i + 1) (put8 blk ((io * 16 + (6 + i)) * 8) 0)

/-- The block after the loop of `flushto` that stores `addrs[i], .., addrs[i + n - 1]` in
slot `io`. -/
def storeAddrs (io : Nat) (a : Nat → Int) : Nat → Nat → Block → Block
  | 0, _, blk => blk
  | n + 1, i, blk => storeAddrs io a n (i + 1) (put8 blk ((io * 16 + (6 + i)) * 8) (a i))

/-- The inode block after `icreate` has initialised slot `io`. -/
def inoInit (blk : Block) (io : Nat) (t maj min : Int) : Block :=
  clearAddrs io 10 0
    (put8 (put8 (put8 (put8 (put8 (put8 blk ((io * 16 + 0) * 8) t) ((io * 16 + 1) * 8) 1)
      ((io * 16 + 2) * 8) 0) ((io * 16 + 3) * 8) maj) ((io * 16 + 4) * 8) min)
      ((io * 16 + 5) * 8) 0)

/-- The inode block after `flushto` has stored the cached inode `ic` in slot `io`. -/
def inoFlush (blk : Block) (io : Nat) (ic : icache_t) : Block :=
  storeAddrs io ic.addrs 10 0
    (put8 (put8 (put8 (put8 (put8 (put8 blk ((io * 16 + 0) * 8) ic.itype)
      ((io * 16 + 1) * 8) ic.links) ((io * 16 + 2) * 8) ic.size) ((io * 16 + 3) * 8) ic.major)
      ((io * 16 + 4) * 8) ic.minor) ((io * 16 + 5) * 8) ic.indir)

/-- A `Create` request as `mkcreate_file`, `mkcreate_dir` and `mkcreate_nod` build it, arrived
at the directory that serves it. -/
structure CreateReq (r : ireq_t) : Prop where
  forus : r.path = []
  type : r.cr_type = I_FILE ∨ r.cr_type = I_DIR ∨ r.cr_type = I_DEV
  nodev : r.cr_type ≠ I_DEV → r.cr_major = 0 ∧ r.cr_minor = 0
  major : -2 ^ 63 ≤ r.cr_major ∧ r.cr_major < 2 ^ 63
  minor : -2 ^ 63 ≤ r.cr_minor ∧ r.cr_minor < 2 ^ 63

/-- The inode of the directory itself and the inode slot that `ialloc` hands out next are
sound: the inode block of the directory is marked in the free map and is none of the blocks of
the directory; if there is a current block of free inodes, it is marked in the free map, is
none of the blocks of the directory, and its next slot exists and is not the slot of the
directory. -/
structure InodeOK (idm : idaemon_t) (s : Sys) : Prop where
  ino_valid : Valid s idm.blkno
  ioff_lo : 0 ≤ idm.ioff
  ioff_hi : idm.ioff < 4
  ino_not_data : ∀ p, ptr idm.icache s p ≠ idm.blkno
  hint_valid : s.ifreeblk ≠ 0 → Valid s s.ifreeblk
  hint_lo : s.ifreeblk ≠ 0 → 0 ≤ s.ifreeoff
  hint_hi : s.ifreeblk ≠ 0 → s.ifreeoff < 4
  hint_not_data : s.ifreeblk ≠ 0 → ∀ p, ptr idm.icache s p ≠ s.ifreeblk
  hint_not_self : s.ifreeblk = idm.blkno → s.ifreeoff ≠ idm.ioff

/-- A state with other values of the allocator hint `ifreeblk`, `ifreeoff`. -/
def setHint (s : Sys) (b o : Int) : Sys := { s with ifreeblk := b, ifreeoff := o }

/-- The layout constants of two states are the same. -/
structure Layout (s s2 : Sys) : Prop where
  superb : s2.superb_start = s.superb_start
  fst : s2.free_start = s.free_start
  flen : s2.free_len = s.free_len
  usable : s2.usable_start = s.usable_start

/-- The request `Create(a, FILE)` as `mkcreate_file` builds it. -/
def createA : ireq_t := { cr_name := nameA, cr_type := I_FILE }

/-! ## Write requests -/

/-- `case WRITE` of `idaemonize`; a write request is never forwarded. -/
def serve_write (idm : idaemon_t) (s : Sys) (r : ireq_t) : R (iresp_t × idaemon_t × Sys) :=
  if idm.icache.itype = I_DIR then .error ("write to dir", s)
  else do
    let offset := if r.dappend then idm.icache.size else r.offset
    let ((read, err), idm, s) ← iwrite idm s r.dbufs offset
    let s ← iupdate idm s
    .ok ({ count := read, err := err }, idm, s)

/-- `case READ` of `idaemonize`: the response and the destination slices afterwards. -/
def serve_read (idm : idaemon_t) (s : Sys) (r : ireq_t) :
    R ((iresp_t × List (List Byte)) × idaemon_t × Sys) := do
  let ((read, err, bufs), s) ← iread idm s r.rbufs r.offset
  .ok (({ count := read, err := err }, bufs), idm, s)

/-- A file in a sound state: sound layout and block pointers, no data block held, and the
inode block of the file is marked in the free map and is none of the blocks of the file. -/
structure FileOK (idm : idaemon_t) (s : Sys) : Prop where
  geom : Geom s
  wf : PtrWF idm.icache s
  quiet : Quiet s
  size_nonneg : 0 ≤ idm.icache.size
  ino_valid : Valid s idm.blkno
  ioff_lo : 0 ≤ idm.ioff
  ioff_hi : idm.ioff < 4
  ino_not_data : ∀ p, ptr idm.icache s p ≠ idm.blkno

/-- The bytes `bs` laid into the destination slices `dsts` in order: each slice takes as many
bytes as it has room for and keeps the rest of its contents. -/
def layInto : List Byte → List (List Byte) → List (List Byte)
  | _, [] => []
  | bs, d :: rest =>
    (bs.take d.length ++ d.drop (bs.take d.length).length) :: layInto (bs.drop d.length) rest

/-! ## A device whose free blocks hold old data -/

/-- The example device with the empty file, where every block from 66 on (all of them free)
is filled with the byte `0xAA`. -/
def dirtyDisk : Int → Block := fun b =>
  if b = 2 then bitmapBlock else if b = 64 then twoInodeBlock
  else if b = 65 then rootDirBlock else if b < 66 then zeroBlock else constBlock 0xAA

def dirtySys : Sys :=
  { fsSys with disk := dirtyDisk, blocks := fun b => ⟨dirtyDisk b, false⟩ }

/-- A `Write` of the one byte `1` at offset `off` to the empty file on `dirtySys`, followed by
a `Read` of one byte at offset `pos`: the response to the write, the response to the read
and the byte read. -/
def writeThenRead (off pos : Int) : R (iresp_t × iresp_t × List (List Byte)) := do
  let (w, idm, s) ← serve_write fileIdm dirtySys { dbufs := [[1]], offset := off }
  let ((r, bufs), _, _) ← serve_read idm s { rbufs := [[0]], offset := pos }
  .ok (w, r, bufs)

/-! ## Paths -/

/-- Modelled from the spec: `strings.Split(path, "/")` of the Go standard library: the pieces
of `path` between the bytes `/`; `cur` is the piece read so far. -/
def splitSlash : List Byte → Name → List Name
  | [], cur => [cur]
  | c :: rest, cur => if c = 47 then cur :: splitSlash rest [] else splitSlash rest (cur ++ [c])

def pathparts (path : Name) : List Name :=
  (splitSlash path []).filter (fun s => s ≠ [])

def dirname (path : Name) : List Name × Name :=
  match (pathparts path).reverse with
  | [] => ([], [])
  | name :: revdirs => (revdirs.reverse, name)

/-- Modelled from the spec: `strings.Join(ds, "/")` of the Go standard library. -/
def joinSlash : List Name → Name
  | [] => []
  | [a] => a
  | a :: b :: rest => a ++ 47 :: joinSlash (b :: rest)

def sdirname (path : Name) : Name × Name :=
  let (ds, fn) := dirname path
  let s := joinSlash ds
  (if path ≠ [] ∧ path.head? = some 47 then 47 :: s else s, fn)

/-! ## Requests -/

/-- Modelled from the spec: error number declared outside `src/`. -/
def EISDIR : Int := 21

/-- Modelled from the spec: error number declared outside `src/`. -/
def ENAMETOOLONG : Int := 36

/-- Modelled from the spec: error number declared outside `src/`. -/
def ENOTEMPTY : Int := 39

/-- The request types (`rtype_t`). -/
inductive rtype_t where
  | GET
  | READ
  | REFDEC
  | WRITE
  | CREATE
  | INSERT
  | LINK
  | UNLINK
  | STAT
  | LOCK
  | UNLOCK
  | LOOKUP
  | EMPTY
  | TRUNC
  deriving DecidableEq

def mkget_fsinc (name : Name) : ireq_t := { path := pathparts name, fsref := true }

def mkget_meminc (name : Name) : ireq_t := { path := pathparts name, memref := true }

/-- The method `mkref_direct`: a `GET` request with `memref` set and no path. -/
def mkref_direct : ireq_t := { memref := true }

def mkcreate_dir (path : Name) : Except String ireq_t :=
  if (dirname path).1 ≠ [] then .error "no lookup with create now"
  else .ok { cr_name := (dirname path).2, cr_type := I_DIR, cr_mkdir := true }

def mkinsert (path : Name) (priv : Int) : ireq_t :=
  { path := (dirname path).1, insert_name := (dirname path).2, insert_priv := priv }

def mkrefdec (memref : Bool) : ireq_t :=
  if memref then { memref := true } else { fsref := true }

def mkunlink (path : Name) : Except String ireq_t :=
  if (dirname path).1 ≠ [] then .error "no lookup with unlink now"
  else .ok { path := [(dirname path).2] }

def mkfstat : ireq_t := {}

def mkstat (path : Name) : ireq_t := { path := pathparts path }

def mklookup (path : Name) : Except String ireq_t :=
  if (dirname path).1 ≠ [] then .error "dirname given to lookup"
  else .ok { path := [(dirname path).2] }

def mkempty : ireq_t := {}

/-! ## One request served by an inode actor -/

/-- Modelled from the spec: `stat_t` is declared outside `src/`; these are the values that
`case STAT` stores in it. -/
structure stat_t where
  dev : Int
  ino : Int
  mode : Int
  size : Int
  rdev : Int

/-- The method `idaemon_t.mkmode`; `mkdev` is declared outside `src/` and is a parameter. -/
def mkmode (mkdev : Int → Int → Int) (idm : idaemon_t) : Except String Int :=
  if idm.icache.itype = I_DIR ∨ idm.icache.itype = I_FILE then .ok idm.icache.itype
  else if idm.icache.itype = I_DEV then .ok (mkdev idm.icache.major idm.icache.minor)
  else .error "weird itype"

/-- What an actor does with a request: it answers (a `STAT` also fills the `stat_t`), it
sends the request on to the actor of `npriv`, or it answers and terminates. -/
inductive Step where
  | reply (resp : iresp_t) (st : Option stat_t)
  | forwarded (npriv : Int) (r : ireq_t)
  | terminated (resp : iresp_t)

def Step.ofServed : Served → Step
  | Served.reply resp => Step.reply resp none
  | Served.forwarded n r => Step.forwarded n r

/-- `case GET` of `idaemonize`. -/
def serve_get (idm : idaemon_t) (s : Sys) (r : ireq_t) : R (Served × idaemon_t × Sys) := do
  let (f, s) ← forwardreq idm s r
  match f with
  | Fwd.forwarded n r2 => .ok (Served.forwarded n r2, idm, s)
  | Fwd.erred resp => .ok (Served.reply resp, idm, s)
  | Fwd.forus =>
    if r.fsref then
      if idm.icache.itype ≠ I_FILE then .ok (Served.reply { err := -EPERM }, idm, s)
      else do
        let idm := { idm with icache := { idm.icache with links := idm.icache.links + 1 } }
        let s ← iupdate idm s
        .ok (Served.reply { gnext := idm.priv, major := idm.icache.major,
                            minor := idm.icache.minor }, idm, s)
    else
      let idm := if r.memref then { idm with memref := idm.memref + 1 } else idm
      .ok (Served.reply { gnext := idm.priv, major := idm.icache.major,
                          minor := idm.icache.minor }, idm, s)

/-- `case STAT` of `idaemonize`. -/
def serve_stat (mkdev : Int → Int → Int) (idm : idaemon_t) (s : Sys) (r : ireq_t) :
    R (Step × idaemon_t × Sys) := do
  let (f, s) ← forwardreq idm s r
  match f with
  | Fwd.forwarded n r2 => .ok (Step.forwarded n r2, idm, s)
  | Fwd.erred resp => .ok (Step.reply resp none, idm, s)
  | Fwd.forus => do
    let mode ← liftE s (mkmode mkdev idm)
    let st : stat_t := { dev := 0, ino := idm.priv, mode := mode, size := idm.icache.size,
                         rdev := mkdev idm.icache.major idm.icache.minor }
    .ok (Step.reply {} (some st), idm, s)

/-- `case EMPTY` of `idaemonize`. -/
def serve_empty (idm : idaemon_t) (s : Sys) : R (Step × idaemon_t × Sys) :=
  if idm.icache.itype = I_DIR then do
    let (e, s) ← idirempty idm s
    .ok (Step.reply { err := if !e then -ENOTEMPTY else 0 } none, idm, s)
  else .ok (Step.reply { err := 0 } none, idm, s)

/-- `case TRUNC` of `idaemonize`. -/
def serve_trunc (idm : idaemon_t) (s : Sys) : R (Step × idaemon_t × Sys) :=
  if idm.icache.itype ≠ I_FILE ∧ idm.icache.itype ≠ I_DEV then .error ("bad truncate", s)
  else do
    let idm := { idm with icache := { idm.icache with size := 0 } }
    let s ← iupdate idm s
    .ok (Step.reply { err := 0 } none, idm, s)

/-- The body of the loop of `idaemonize` for one request, apart from `LOCK` and `UNLOCK`,
which only change the channel the actor listens on. -/
def idaemonize (mkdev : Int → Int → Int) (ffuel : Nat) (idm : idaemon_t) (s : Sys)
    (rt : rtype_t) (r : ireq_t) : R (Step × idaemon_t × Sys) :=
  match rt with
  | rtype_t.CREATE => do
    let (a, idm, s) ← serve_create idm s r
    .ok (Step.ofServed a, idm, s)
  | rtype_t.GET => do
    let (a, idm, s) ← serve_get idm s r
    .ok (Step.ofServed a, idm, s)
  | rtype_t.INSERT => do
    let (a, idm, s) ← serve_insert idm s r
    .ok (Step.ofServed a, idm, s)
  | rtype_t.READ => do
    let ((resp, _), idm, s) ← serve_read idm s r
    .ok (Step.reply resp none, idm, s)
  | rtype_t.REFDEC => do
    let ((resp, terminate), idm, s) ← serve_refdec ffuel idm s r
    .ok (if terminate then Step.terminated resp else Step.reply resp none, idm, s)
  | rtype_t.STAT => serve_stat mkdev idm s r
  | rtype_t.UNLINK => do
    let (a, idm, s) ← serve_unlink idm s r
    .ok (Step.ofServed a, idm, s)
  | rtype_t.WRITE => do
    let (resp, idm, s) ← serve_write idm s r
    .ok (Step.reply resp none, idm, s)
  | rtype_t.LOOKUP => do
    let (a, idm, s) ← serve_lookup idm s r
    .ok (Step.ofServed a, idm, s)
  | rtype_t.EMPTY => serve_empty idm s
  | rtype_t.TRUNC => serve_trunc idm s
  | _ => .error ("bad req type", s)

/-! ## The inode actors of a mounted file system -/

/-- The file system with its inode actors: `idms` is the map `allidmons`, `locked p` tells
whether the actor of `p` listens on its lock channel (`ch != idm.req` in `idaemonize`), and
`iroot` is the inode number of the actor `iroot`. -/
structure FS where
  sys : Sys
  idms : Int → Option idaemon_t
  locked : Int → Bool
  iroot : Int

/-- Result of an operation on the actors: a value or the panic message. -/
abbrev F (α : Type) := Except String α

def liftR {α : Type} : R α → F α
  | .ok a => .ok a
  | .error e => .error e.1

/-- The method `idaemon_t.init`. -/
def idaemon_init (s : Sys) (priv : Int) : R (idaemon_t × Sys) := do
  let (blkno, ioff) := bidecode priv
  let s ← bread s blkno
  let ic ← liftE s (icache_fill (bufdata s blkno) ioff)
  let s ← brelse s blkno
  .ok ({ priv := priv, blkno := blkno, ioff := ioff, icache := ic, memref := 0 }, s)

/-- The function `idaemon_ensure`: the actor of `priv`, started if it does not run. -/
def idaemon_ensure (fs : FS) (priv : Int) : F (idaemon_t × FS) :=
  if priv ≤ 0 then .error "non-positive priv"
  else
    match fs.idms priv with
    | some idm => .ok (idm, fs)
    | none => do
      let (idm, s) ← liftR (idaemon_init fs.sys priv)
      .ok (idm, { fs with sys := s, idms := Function.update fs.idms priv (some idm),
                          locked := Function.update fs.locked priv false })

/-- What the sender of a request gets back: the response and, for a `STAT`, the `stat_t`. -/
structure answer_t where
  resp : iresp_t
  st : Option stat_t := none

/-- A request is sent to the actor of `priv` and served until it is answered; `viaLock` tells
whether it is sent on the lock channel of the actor or on `idm.req`.  A send on a channel the
actor does not listen on is never received; in a run without other operations the sender
then waits forever, which is reported as an abort.  A forwarded request is sent on to
`idm.req` of the next actor.  Every forward shortens the path, so `len(path) + 1`
deliveries are enough. -/
def deliver (mkdev : Int → Int → Int) (ffuel : Nat) :
    Nat → FS → Int → Bool → rtype_t → ireq_t → F (answer_t × FS)
  | 0, _, _, _, _, _ => .error "forwarding does not terminate"
  | n + 1, fs, priv, viaLock, rt, r =>
    match fs.idms priv with
    | none => .error "send to an actor that does not run"
    | some idm =>
      if fs.locked priv ≠ viaLock then .error "send blocks forever"
      else
        match rt with
        | rtype_t.LOCK =>
          if fs.locked priv then .error "double lock"
          else .ok ({ resp := { err := 0 } },
            { fs with locked := Function.update fs.locked priv true })
        | rtype_t.UNLOCK =>
          if !fs.locked priv then .error "already unlocked"
          else .ok ({ resp := { err := 0 } },
            { fs with locked := Function.update fs.locked priv false })
        | _ => do
          let (step, idm2, s2) ← liftR (idaemonize mkdev ffuel idm fs.sys rt r)
          let fs2 : FS := { fs with sys := s2, idms := Function.update fs.idms priv (some idm2) }
          match step with
          | Step.reply resp st => .ok ({ resp := resp, st := st }, fs2)
          | Step.terminated resp =>
            .ok ({ resp := resp }, { fs2 with idms := Function.update fs2.idms priv none })
          | Step.forwarded np r2 => do
            let (_, fs3) ← idaemon_ensure fs2 np
            deliver mkdev ffuel n fs3 np false rt r2

/-- A request sent on `idm.req` of the actor of `priv`. -/
def send (mkdev : Int → Int → Int) (ffuel : Nat) (fs : FS) (priv : Int) (rt : rtype_t)
    (r : ireq_t) : F (answer_t × FS) :=
  deliver mkdev ffuel (r.path.length + 1) fs priv false rt r

/-- A request sent on the lock channel of the actor of `priv`. -/
def sendl (mkdev : Int → Int → Int) (ffuel : Nat) (fs : FS) (priv : Int) (rt : rtype_t)
    (r : ireq_t) : F (answer_t × FS) :=
  deliver mkdev ffuel (r.path.length + 1) fs priv true rt r

/-- The function `req_namei`: the request goes to `iroot` for an absolute path and to the
actor of `cwd` otherwise. -/
def req_namei (mkdev : Int → Int → Int) (ffuel : Nat) (fs : FS) (rt : rtype_t) (r : ireq_t)
    (paths : Name) (cwd : Int) : F (answer_t × FS) :=
  if paths = [] ∨ paths.head? ≠ some 47 then do
    let (_, fs) ← idaemon_ensure fs cwd
    send mkdev ffuel fs cwd rt r
  else send mkdev ffuel fs fs.iroot rt r

/-- `idaemon_ensure(priv)` followed by a send on `idm.req`. -/
def ensure_send (mkdev : Int → Int → Int) (ffuel : Nat) (fs : FS) (priv : Int) (rt : rtype_t)
    (r : ireq_t) : F (answer_t × FS) := do
  let (_, fs) ← idaemon_ensure fs priv
  send mkdev ffuel fs priv rt r

/-! ## Transactions on the actors -/

/-- A child of a transaction (`itxchild_t`) as `lockall` runs.  The field `lchan` holds the
inum whose `Lock` request created the channel, or `none` for the nil channel. -/
structure itxchild where
  path : Name
  found : Bool := false
  mustexist : Bool
  priv : Int := 0
  lchan : Option Int := none

/-- A parent path of a transaction (`itxpar_t`) as `lockall` runs; `childs` is the map of
children, in the order of insertion. -/
structure itxpar where
  path : Name
  priv : Int := 0
  childs : List itxchild := []
  lchan : Option Int := none

/-- The type `inodetx_t`; `dpaths` is the map of parents, in the order of insertion.  Go
visits a map in an unspecified order; the loops below visit it in the order of insertion. -/
structure inodetx_t where
  dpaths : List itxpar
  cwd : Int

def inodetx_t.init (cwdpriv : Int) : inodetx_t := { dpaths := [], cwd := cwdpriv }

def inodetx_t.addpath (itx : inodetx_t) (path : Name) : inodetx_t :=
  if itx.dpaths.any (fun p => p.path = path) then itx
  else { itx with dpaths := itx.dpaths ++ [{ path := path }] }

def addchild_in (cs : List itxchild) (childp : Name) (mustexist : Bool) : List itxchild :=
  if cs.any (fun c => c.path = childp) then
    cs.map (fun c => if c.path = childp then { c with mustexist := c.mustexist || mustexist }
                     else c)
  else cs ++ [{ path := childp, mustexist := mustexist }]

def inodetx_t.addchild (itx : inodetx_t) (path : Name) (childp : Name) (mustexist : Bool) :
    F inodetx_t :=
  if childp = [] then .error "child cannot be empty string"
  else if !itx.dpaths.any (fun p => p.path = path) then .error "nil dereference"
  else .ok { itx with dpaths := itx.dpaths.map (fun p =>
      if p.path = path then { p with childs := addchild_in p.childs childp mustexist }
      else p) }

/-- The closure `memdecf` of `lockall`. -/
def memdecf (mkdev : Int → Int → Int) (ffuel : Nat) (fs : FS) (priv : Int) : F FS := do
  let (a, fs) ← ensure_send mkdev ffuel fs priv rtype_t.GET mkref_direct
  if a.resp.err ≠ 0 then .error "unlock must succeed" else .ok fs

/-- The closures `pmemdecs` and `cmemdecs` of `lockall`: `memdecf` for every key of the map,
given as the list of its keys. -/
def memdecs (mkdev : Int → Int → Int) (ffuel : Nat) : List Int → FS → F FS
  | [], fs => .ok fs
  | priv :: rest, fs => do
    let fs ← memdecf mkdev ffuel fs priv
    memdecs mkdev ffuel rest fs

/-- The statement `m[priv] = true` on a map given as the list of its keys. -/
def setKey (m : List Int) (priv : Int) : List Int := if priv ∈ m then m else m ++ [priv]

/-- The first loop of `lockall` after the reset: every parent path is resolved with a
`Get(mem_inc)`.  The result is the error (0 if none), the parents and the map `pmems`. -/
def lockall_paths (mkdev : Int → Int → Int) (ffuel : Nat) (cwd : Int) :
    List itxpar → List itxpar → List Int → FS → F ((Int × List itxpar × List Int) × FS)
  | [], acc, pmems, fs => .ok ((0, acc, pmems), fs)
  | par :: rest, acc, pmems, fs => do
    let (a, fs) ← req_namei mkdev ffuel fs rtype_t.GET (mkget_meminc par.path) par.path cwd
    if a.resp.err ≠ 0 then do
      let fs ← memdecs mkdev ffuel pmems fs
      .ok ((a.resp.err, acc ++ par :: rest, pmems), fs)
    else do
      let par := { par with priv := a.resp.gnext }
      let fs ← if par.priv ∈ pmems then memdecf mkdev ffuel fs par.priv else .ok fs
      lockall_paths mkdev ffuel cwd rest (acc ++ [par]) (setKey pmems par.priv) fs

/-- The state of one round of `lockall`: the slice `sorted` and the maps `added`, `cmems`. -/
structure round_t where
  sorted : List Int := []
  added : List Int := []
  cmems : List Int := []

/-- The loop "remove duplicate par inums". -/
def round_pars : List itxpar → round_t → round_t
  | [], st => st
  | par :: rest, st =>
    round_pars rest { st with
      sorted := if par.priv ∈ st.added then st.sorted else st.sorted ++ [par.priv],
      added := setKey st.added par.priv }

/-- The inner loop of "add children to sorted inums" for the children of the parent `ppriv`.
The result is the error (0 if none), the children and the state of the round; on an error the
closures `pmemdecs` and `cmemdecs` have run. -/
def round_childs (mkdev : Int → Int → Int) (ffuel : Nat) (pmems : List Int) (ppriv : Int) :
    List itxchild → List itxchild → round_t → FS →
      F ((Int × List itxchild × round_t) × FS)
  | [], acc, st, fs => .ok ((0, acc, st), fs)
  | child :: rest, acc, st, fs => do
    let child := { child with priv := 0, found := false, lchan := none }
    let (a, fs) ← ensure_send mkdev ffuel fs ppriv rtype_t.GET (mkget_meminc child.path)
    if a.resp.err = -ENOENT then
      if child.mustexist then do
        let fs ← memdecs mkdev ffuel pmems fs
        let fs ← memdecs mkdev ffuel st.cmems fs
        .ok ((a.resp.err, acc ++ child :: rest, st), fs)
      else round_childs mkdev ffuel pmems ppriv rest (acc ++ [child]) st fs
    else if a.resp.err ≠ 0 then do
      let fs ← memdecs mkdev ffuel pmems fs
      let fs ← memdecs mkdev ffuel st.cmems fs
      .ok ((a.resp.err, acc ++ child :: rest, st), fs)
    else
      let child := { child with priv := a.resp.gnext, found := true }
      let st : round_t :=
        { sorted := if child.priv ∈ st.added then st.sorted else st.sorted ++ [child.priv],
          added := setKey st.added child.priv,
          cmems := setKey st.cmems child.priv }
      round_childs mkdev ffuel pmems ppriv rest (acc ++ [child]) st fs

/-- The loop "add children to sorted inums" over the parents. -/
def round_children (mkdev : Int → Int → Int) (ffuel : Nat) (pmems : List Int) :
    List itxpar → List itxpar → round_t → FS → F ((Int × List itxpar × round_t) × FS)
  | [], acc, st, fs => .ok ((0, acc, st), fs)
  | par :: rest, acc, st, fs => do
    let ((err, cs, st), fs) ← round_childs mkdev ffuel pmems par.priv par.childs [] st fs
    let par := { par with childs := cs }
    if err ≠ 0 then .ok ((err, acc ++ par :: rest, st), fs)
    else round_children mkdev ffuel pmems rest (acc ++ [par]) st fs

/-- The loop "sort inums, lock in order": the result is the key list of `lchans` and of
`clocks`. -/
def round_locks (mkdev : Int → Int → Int) (ffuel : Nat) (pars : List itxpar) :
    List Int → List Int → List Int → FS → F ((List Int × List Int) × FS)
  | [], lchans, clocks, fs => .ok ((lchans, clocks), fs)
  | i :: rest, lchans, clocks, fs => do
    let (a, fs) ← ensure_send mkdev ffuel fs i rtype_t.LOCK {}
    if a.resp.err ≠ 0 then .error "lock must succeed"
    else
      let clocks := if pars.any (fun p => p.childs.any (fun c => c.priv = i))
        then setKey clocks i else clocks
      round_locks mkdev ffuel pars rest (setKey lchans i) clocks fs

/-- The inner part of the loop "set lchans". -/
def set_lchans_childs (lchans : List Int) : List itxchild → F (List itxchild)
  | [] => .ok []
  | child :: rest =>
    if !child.found then do
      let rest ← set_lchans_childs lchans rest
      .ok (child :: rest)
    else if child.priv ∉ lchans then .error "child must be in lchans"
    else do
      let rest ← set_lchans_childs lchans rest
      .ok ({ child with lchan := some child.priv } :: rest)

/-- The loop "set lchans". -/
def set_lchans (lchans : List Int) : List itxpar → F (List itxpar)
  | [] => .ok []
  | par :: rest =>
    if par.priv ∉ lchans then .error "must be in lchans"
    else do
      let cs ← set_lchans_childs lchans par.childs
      let rest ← set_lchans lchans rest
      .ok ({ par with lchan := some par.priv, childs := cs } :: rest)

/-- The closure `unlockf` of `lockall`: an `Unlock` sent on `lchans[priv]`; the channel of a
missing key is nil and a send on it never returns. -/
def unlockf (mkdev : Int → Int → Int) (ffuel : Nat) (lchans : List Int) (fs : FS)
    (priv : Int) : F FS :=
  if priv ∉ lchans then .error "send on nil channel blocks forever"
  else do
    let (a, fs) ← sendl mkdev ffuel fs priv rtype_t.UNLOCK {}
    if a.resp.err ≠ 0 then .error "unlock must succeed" else .ok fs

def unlockfs (mkdev : Int → Int → Int) (ffuel : Nat) (lchans : List Int) :
    List Int → FS → F FS
  | [], fs => .ok fs
  | priv :: rest, fs => do
    let fs ← unlockf mkdev ffuel lchans fs priv
    unlockfs mkdev ffuel lchans rest fs

/-- The closure `unlockall` of `lockall`. -/
def round_unlockall (mkdev : Int → Int → Int) (ffuel : Nat) (pars : List itxpar)
    (lchans clocks cmems : List Int) (fs : FS) : F FS := do
  let fs ← unlockfs mkdev ffuel lchans (pars.map (fun p => p.priv)) fs
  let fs ← unlockfs mkdev ffuel lchans clocks fs
  memdecs mkdev ffuel cmems fs

/-- The closure `unlockfail` of `lockall`. -/
def round_unlockfail (mkdev : Int → Int → Int) (ffuel : Nat) (pars : List itxpar)
    (lchans clocks cmems pmems : List Int) (fs : FS) : F FS := do
  let fs ← round_unlockall mkdev ffuel pars lchans clocks cmems fs
  let fs ← memdecs mkdev ffuel pmems fs
  memdecs mkdev ffuel cmems fs

/-- How the verification of a round ends. -/
inductive verdict_t where
  | good
  | again
  | failed (err : Int)

/-- A send on the channel `lchan`. -/
def send_lchan (mkdev : Int → Int → Int) (ffuel : Nat) (fs : FS) (lchan : Option Int)
    (rt : rtype_t) (r : ireq_t) : F (answer_t × FS) :=
  match lchan with
  | none => .error "send on nil channel blocks forever"
  | some priv => sendl mkdev ffuel fs priv rt r

/-- The inner loop of the verification for the children of one parent.  The closures
`unlockall` and `unlockfail` are passed in. -/
def verify_childs (mkdev : Int → Int → Int) (ffuel : Nat) (plchan : Option Int)
    (unlockall unlockfail : FS → F FS) : List itxchild → FS → F (verdict_t × FS)
  | [], fs => .ok (verdict_t.good, fs)
  | child :: rest, fs => do
    let req ← mklookup child.path
    let (a, fs) ← send_lchan mkdev ffuel fs plchan rtype_t.LOOKUP req
    if a.resp.err = 0 ∧ !child.found then do
      let fs ← unlockall fs
      .ok (verdict_t.again, fs)
    else if a.resp.err = -ENOENT then
      if child.found then do
        let fs ← unlockall fs
        .ok (verdict_t.again, fs)
      else verify_childs mkdev ffuel plchan unlockall unlockfail rest fs
    else if a.resp.err ≠ 0 then do
      let fs ← unlockfail fs
      .ok (verdict_t.failed a.resp.err, fs)
    else if a.resp.gnext ≠ child.priv then do
      let fs ← unlockall fs
      .ok (verdict_t.again, fs)
    else verify_childs mkdev ffuel plchan unlockall unlockfail rest fs

/-- The loop `outer` of the verification. -/
def verify_pars (mkdev : Int → Int → Int) (ffuel : Nat) (unlockall unlockfail : FS → F FS) :
    List itxpar → FS → F (verdict_t × FS)
  | [], fs => .ok (verdict_t.good, fs)
  | par :: rest, fs => do
    let (v, fs) ← verify_childs mkdev ffuel par.lchan unlockall unlockfail par.childs fs
    match v with
    | verdict_t.good => verify_pars mkdev ffuel unlockall unlockfail rest fs
    | v => .ok (v, fs)

/-- The loop `for !done` of `lockall`; `n` rounds remain. -/
def lockall_rounds (mkdev : Int → Int → Int) (ffuel : Nat) (pmems : List Int) :
    Nat → List itxpar → FS → F ((Int × List itxpar) × FS)
  | 0, _, _ => .error "lockall does not terminate"
  | n + 1, pars, fs => do
    let st := round_pars pars {}
    let ((err, pars, st), fs) ← round_children mkdev ffuel pmems pars [] st fs
    if err ≠ 0 then .ok ((err, pars), fs)
    else do
      let ((lchans, clocks), fs) ← round_locks mkdev ffuel pars (sortInts st.sorted) [] [] fs
      let pars ← set_lchans lchans pars
      let (v, fs) ← verify_pars mkdev ffuel
        (round_unlockall mkdev ffuel pars lchans clocks st.cmems)
        (round_unlockfail mkdev ffuel pars lchans clocks st.cmems pmems) pars fs
      match v with
      | verdict_t.good => .ok ((0, pars), fs)
      | verdict_t.failed e => .ok ((e, pars), fs)
      | verdict_t.again => lockall_rounds mkdev ffuel pmems n pars fs

/-- The reset at the start of `lockall`. -/
def lockall_reset (pars : List itxpar) : List itxpar :=
  pars.map (fun p =>
    let cs := p.childs.map (fun c => { c with found := false, priv := 0, lchan := none })
    { p with priv := 0, lchan := none, childs := cs })

/-- The method `inodetx_t.lockall`; `rounds` bounds the number of rounds of the loop
`for !done`. -/
def inodetx_t.lockall (mkdev : Int → Int → Int) (ffuel rounds : Nat) (itx : inodetx_t)
    (fs : FS) : F ((Int × inodetx_t) × FS) := do
  let ((err, pars, pmems), fs) ←
    lockall_paths mkdev ffuel itx.cwd (lockall_reset itx.dpaths) [] [] fs
  if err ≠ 0 then .ok ((err, { itx with dpaths := pars }), fs)
  else do
    let ((err, pars), fs) ← lockall_rounds mkdev ffuel pmems rounds pars fs
    .ok ((err, { itx with dpaths := pars }), fs)

def inodetx_t.childfound (itx : inodetx_t) (par child : Name) : F Bool :=
  match itx.dpaths.find? (fun p => p.path = par) with
  | none => .error "no such par"
  | some p =>
    match p.childs.find? (fun c => c.path = child) with
    | none => .error "no such child"
    | some c => .ok c.found

def inodetx_t.privforc (itx : inodetx_t) (par child : Name) : F Int :=
  match itx.dpaths.find? (fun p => p.path = par) with
  | none => .error "no such par"
  | some p =>
    match p.childs.find? (fun c => c.path = child) with
    | none => .error "no such child"
    | some c => if !c.found then .error "child not found" else .ok c.priv

def inodetx_t.privforp (itx : inodetx_t) (par : Name) : F Int :=
  match itx.dpaths.find? (fun p => p.path = par) with
  | none => .error "no such par"
  | some p => .ok p.priv

def inodetx_t.sendp (mkdev : Int → Int → Int) (ffuel : Nat) (itx : inodetx_t) (fs : FS)
    (par : Name) (rt : rtype_t) (req : ireq_t) : F (answer_t × FS) :=
  if itx.dpaths.length = 0 then .error "nothing locked"
  else
    match itx.dpaths.find? (fun p => p.path = par) with
    | none => .error "no such path"
    | some p =>
      if p.lchan = none then .error "no such path"
      else send_lchan mkdev ffuel fs p.lchan rt req

def inodetx_t.sendc (mkdev : Int → Int → Int) (ffuel : Nat) (itx : inodetx_t) (fs : FS)
    (par child : Name) (rt : rtype_t) (req : ireq_t) : F (answer_t × FS) :=
  if itx.dpaths.length = 0 then .error "nothing locked"
  else
    match itx.dpaths.find? (fun p => p.path = par) with
    | none => .error "no such path"
    | some p =>
      match p.childs.find? (fun c => c.path = child) with
      | none => .error "no such child path"
      | some c => send_lchan mkdev ffuel fs c.lchan rt req

/-- The closures `unlock` and `decref` of `unlockall`, chosen by `locks`. -/
def unlockall_one (mkdev : Int → Int → Int) (ffuel : Nat) (locks : Bool) (fs : FS)
    (lchan : Option Int) (priv : Int) : F FS :=
  if locks then do
    let (a, fs) ← send_lchan mkdev ffuel fs lchan rtype_t.UNLOCK {}
    if a.resp.err ≠ 0 then .error "unlock must succeed" else .ok fs
  else do
    let (a, fs) ← ensure_send mkdev ffuel fs priv rtype_t.REFDEC (mkrefdec true)
    if a.resp.err ≠ 0 then .error "dec ref must succeed" else .ok fs

/-- The inner loop of the closure `doit` of `unlockall`; `did` is the key list of the map. -/
def doit_childs (mkdev : Int → Int → Int) (ffuel : Nat) (locks : Bool) :
    List itxchild → List Int → FS → F (List Int × FS)
  | [], did, fs => .ok (did, fs)
  | child :: rest, did, fs =>
    if child.found ∧ child.priv ∉ did then do
      let fs ← unlockall_one mkdev ffuel locks fs child.lchan child.priv
      doit_childs mkdev ffuel locks rest (setKey did child.priv) fs
    else doit_childs mkdev ffuel locks rest did fs

/-- The closure `doit` of `unlockall`. -/
def doit (mkdev : Int → Int → Int) (ffuel : Nat) (locks : Bool) :
    List itxpar → List Int → FS → F (List Int × FS)
  | [], did, fs => .ok (did, fs)
  | par :: rest, did, fs => do
    let (did, fs) ←
      if par.priv ∉ did then do
        let fs ← unlockall_one mkdev ffuel locks fs par.lchan par.priv
        pure (setKey did par.priv, fs)
      else pure (did, fs)
    let (did, fs) ← doit_childs mkdev ffuel locks par.childs did fs
    doit mkdev ffuel locks rest did fs

/-- The method `inodetx_t.unlockall`. -/
def inodetx_t.unlockall (mkdev : Int → Int → Int) (ffuel : Nat) (itx : inodetx_t) (fs : FS) :
    F FS :=
  if itx.dpaths.length = 0 then .error "nothing locked"
  else do
    let (_, fs) ← doit mkdev ffuel true itx.dpaths [] fs
    let (_, fs) ← doit mkdev ffuel false itx.dpaths [] fs
    .ok fs

/-! ## The operations of the file system

`op_begin` and `op_end` take and return a ticket of the journal; the commit that the log
daemon runs when the last ticket is back is `commit` above and is not part of the operation.
The argument `cwd` is `cwdf.priv`. -/

/-- The function `fs_stat`. -/
def fs_stat (mkdev : Int → Int → Int) (ffuel : Nat) (fs : FS) (path : Name) (cwd : Int) :
    F ((Int × Option stat_t) × FS) := do
  let (a, fs) ← req_namei mkdev ffuel fs rtype_t.STAT (mkstat path) path cwd
  .ok ((a.resp.err, a.st), fs)

/-- The function `fs_link`. -/
def fs_link (mkdev : Int → Int → Int) (ffuel : Nat) (fs : FS) (old new : Name) (cwd : Int) :
    F (Int × FS) := do
  let (a, fs) ← req_namei mkdev ffuel fs rtype_t.GET (mkget_fsinc old) old cwd
  if a.resp.err ≠ 0 then .ok (a.resp.err, fs)
  else do
    let priv := a.resp.gnext
    let (b, fs) ← req_namei mkdev ffuel fs rtype_t.INSERT (mkinsert new priv) new cwd
    if b.resp.err ≠ 0 then do
      let (_, fs) ← ensure_send mkdev ffuel fs priv rtype_t.REFDEC (mkrefdec false)
      .ok (b.resp.err, fs)
    else .ok (b.resp.err, fs)

/-- A `return` of an operation that has deferred `itx.unlockall()`. -/
def unlocked_return (mkdev : Int → Int → Int) (ffuel : Nat) (itx : inodetx_t) (ret : Int)
    (fs : FS) : F (Int × FS) := do
  let fs ← itx.unlockall mkdev ffuel fs
  .ok (ret, fs)

/-- The function `fs_mkdir`; `mode` is not used by the code. -/
def fs_mkdir (mkdev : Int → Int → Int) (ffuel rounds : Nat) (fs : FS) (paths : Name)
    (cwd : Int) : F (Int × FS) :=
  let (dirs, fn) := sdirname paths
  if fn.length > DNAMELEN then .ok (-ENAMETOOLONG, fs)
  else do
    let itx := (inodetx_t.init cwd).addpath dirs
    let ((err, itx), fs) ← itx.lockall mkdev ffuel rounds fs
    if err ≠ 0 then .ok (err, fs)
    else do
      let req ← mkcreate_dir fn
      let (a, fs) ← itx.sendp mkdev ffuel fs dirs rtype_t.CREATE req
      if a.resp.err ≠ 0 then unlocked_return mkdev ffuel itx a.resp.err fs
      else do
        let priv := a.resp.cnext
        let (b, fs) ← ensure_send mkdev ffuel fs priv rtype_t.INSERT (mkinsert [46] priv)
        if b.resp.err ≠ 0 then .error "insert must succeed"
        else do
          let parpriv ← itx.privforp dirs
          let (c, fs) ← send mkdev ffuel fs priv rtype_t.INSERT (mkinsert [46, 46] parpriv)
          if c.resp.err ≠ 0 then .error "insert must succeed"
          else unlocked_return mkdev ffuel itx 0 fs

/-- The method `stat_t.mode` on the `stat_t` a `STAT` request was sent with; a `stat_t` that
no actor has filled holds 0. -/
def stat_mode (a : answer_t) : Int :=
  match a.st with
  | some st => st.mode
  | none => 0

/-- The closures `sendc` and `sendp` of `fs_rename` after the send. -/
def must_succeed (x : F (answer_t × FS)) : F (answer_t × FS) := do
  let (a, fs) ← x
  if a.resp.err ≠ 0 then .error "op must succed" else .ok (a, fs)

/-- The part of `fs_rename` after "insert new file". -/
def fs_rename_move (mkdev : Int → Int → Int) (ffuel : Nat) (itx : inodetx_t) (fs : FS)
    (odirs ofn ndirs nfn : Name) (odir : Bool) : F (Int × FS) := do
  let opriv ← itx.privforc odirs ofn
  let (_, fs) ← must_succeed
    (itx.sendp mkdev ffuel fs ndirs rtype_t.INSERT (mkinsert nfn opriv))
  let req ← mkunlink ofn
  let (_, fs) ← must_succeed (itx.sendp mkdev ffuel fs odirs rtype_t.UNLINK req)
  if odir then do
    let req ← mkunlink [46, 46]
    let (_, fs) ← must_succeed (itx.sendc mkdev ffuel fs odirs ofn rtype_t.UNLINK req)
    let ndpriv ← itx.privforp ndirs
    let (_, fs) ← must_succeed
      (itx.sendc mkdev ffuel fs odirs ofn rtype_t.INSERT (mkinsert [46, 46] ndpriv))
    unlocked_return mkdev ffuel itx 0 fs
  else unlocked_return mkdev ffuel itx 0 fs

/-- The part of `fs_rename` that removes an existing `new`, for `new` another inode than
`old`. -/
def fs_rename_replace (mkdev : Int → Int → Int) (ffuel : Nat) (itx : inodetx_t) (fs : FS)
    (odirs ofn ndirs nfn : Name) (odir : Bool) : F (Int × FS) := do
  let (a, fs) ← must_succeed (itx.sendc mkdev ffuel fs ndirs nfn rtype_t.STAT mkfstat)
  let ndir : Bool := stat_mode a = I_DIR
  if odir ∧ !ndir then unlocked_return mkdev ffuel itx (-ENOTDIR) fs
  else if !odir ∧ ndir then unlocked_return mkdev ffuel itx (-EISDIR) fs
  else do
    let (b, fs) ← itx.sendc mkdev ffuel fs ndirs nfn rtype_t.EMPTY mkempty
    if b.resp.err ≠ 0 then unlocked_return mkdev ffuel itx b.resp.err fs
    else do
      let req ← mkunlink nfn
      let (_, fs) ← must_succeed (itx.sendp mkdev ffuel fs ndirs rtype_t.UNLINK req)
      let (_, fs) ← must_succeed
        (itx.sendc mkdev ffuel fs ndirs nfn rtype_t.REFDEC (mkrefdec false))
      fs_rename_move mkdev ffuel itx fs odirs ofn ndirs nfn odir

/-- The function `fs_rename`. -/
def fs_rename (mkdev : Int → Int → Int) (ffuel rounds : Nat) (fs : FS) (oldp newp : Name)
    (cwd : Int) : F (Int × FS) :=
  let (odirs, ofn) := sdirname oldp
  let (ndirs, nfn) := sdirname newp
  if ofn = [] ∨ nfn = [] then .ok (-ENOENT, fs)
  else do
    let itx := ((inodetx_t.init cwd).addpath odirs).addpath ndirs
    let itx ← itx.addchild odirs ofn true
    let itx ← itx.addchild ndirs nfn false
    let ((err, itx), fs) ← itx.lockall mkdev ffuel rounds fs
    if err ≠ 0 then .ok (err, fs)
    else do
      let (a, fs) ← must_succeed (itx.sendc mkdev ffuel fs odirs ofn rtype_t.STAT mkfstat)
      let odir : Bool := stat_mode a = I_DIR
      let newexists ← itx.childfound ndirs nfn
      if newexists then do
        let po ← itx.privforc odirs ofn
        let pn ← itx.privforc ndirs nfn
        if po = pn then unlocked_return mkdev ffuel itx 0 fs
        else fs_rename_replace mkdev ffuel itx fs odirs ofn ndirs nfn odir
      else fs_rename_move mkdev ffuel itx fs odirs ofn ndirs nfn odir

/-- The function `fs_unlink`. -/
def fs_unlink (mkdev : Int → Int → Int) (ffuel rounds : Nat) (fs : FS) (paths : Name)
    (cwd : Int) : F (Int × FS) :=
  let (dirs, fn) := sdirname paths
  if fn = [46] ∨ fn = [46, 46] then .ok (-EPERM, fs)
  else do
    let itx := (inodetx_t.init cwd).addpath dirs
    let itx ← itx.addchild dirs fn true
    let ((err, itx), fs) ← itx.lockall mkdev ffuel rounds fs
    if err ≠ 0 then .ok (err, fs)
    else do
      let (a, fs) ← itx.sendc mkdev ffuel fs dirs fn rtype_t.EMPTY mkempty
      if a.resp.err ≠ 0 then unlocked_return mkdev ffuel itx a.resp.err fs
      else do
        let req ← mkunlink fn
        let (b, fs) ← itx.sendp mkdev ffuel fs dirs rtype_t.UNLINK req
        if b.resp.err ≠ 0 then .error "unlink must succeed"
        else do
          let (c, fs) ← itx.sendc mkdev ffuel fs dirs fn rtype_t.REFDEC (mkrefdec false)
          if c.resp.err ≠ 0 then .error "fs ref dec must succeed"
          else unlocked_return mkdev ffuel itx 0 fs

/-! ## A mounted file system with a file that has two names -/

/-- Inode block 64: the root directory in slot 0 and an empty file with two links in
slot 1. -/
def linkInodeBlock : Block :=
  blockOf [(0, 2), (8, 1), (17, 2), (48, 65), (128, 1), (136, 2)]

/-- Root directory data: `.` and `..` are inode 256, `a` and `b` are inode 257. -/
def linkDirBlock : Block :=
  blockOf [(0, 46), (15, 1), (22, 46), (23, 46), (37, 1), (44, 97), (58, 1), (59, 1),
           (66, 98), (80, 1), (81, 1)]

def linkDisk : Int → Block := fun b =>
  if b = 2 then bitmapBlock else if b = 64 then linkInodeBlock
  else if b = 65 then linkDirBlock else zeroBlock

def linkSys : Sys :=
  { fsSys with disk := linkDisk, blocks := fun b => ⟨linkDisk b, false⟩ }

/-- The actor of the root directory as `fs_init` starts it. -/
def iroot0 : idaemon_t := { rootIdm with memref := 0 }

/-- The mounted file system on `linkSys`: only the actor of the root directory runs. -/
def linkFS : FS :=
  { sys := linkSys, idms := fun p => if p = 256 then some iroot0 else none,
    locked := fun _ => false, iroot := 256 }

/-- An example of `mkdev`, which is declared outside `src/`. -/
def mkdev0 (maj min : Int) : Int := maj * 4294967296 + min

/-- The value `mem_refs` of the actor of `priv`; `none` if the actor does not run. -/
def memrefOf (fs : FS) (priv : Int) : Option Int := (fs.idms priv).map (fun i => i.memref)

/-- The link count in the cache of the actor of `priv`. -/
def linksOf (fs : FS) (priv : Int) : Option Int := (fs.idms priv).map (fun i => i.icache.links)

/-- The inums that are locked among `l`. -/
def lockedAmong (fs : FS) (l : List Int) : List Int := l.filter (fun p => fs.locked p)

/-- An observation of the result of an operation on the actors. -/
def observeF {α β : Type} (r : F α) (f : α → β) : Option β :=
  match r with
  | .ok a => some (f a)
  | .error _ => none

/-- The path `/`. -/
def pRoot : Name := [47]
/-- The path `/.`. -/
def pRootDot : Name := [47, 46]
/-- The path `/a`. -/
def pA : Name := [47, 97]
/-- The path `/b`. -/
def pB : Name := [47, 98]
/-- The path `/nosuch`. -/
def pNosuch : Name := [47, 110, 111, 115, 117, 99, 104]
/-- The path `/` followed by the 15 bytes of `name15`. -/
def pLong : Name := 47 :: name15

/-- The transaction of `fs_unlink("/nosuch")`. -/
def txNosuch : F inodetx_t :=
  ((inodetx_t.init 256).addpath pRoot).addchild pRoot [110, 111, 115, 117, 99, 104] true

/-- The transaction of `fs_rename("/a", "/b")`. -/
def txAB : F inodetx_t := do
  let itx := ((inodetx_t.init 256).addpath pRoot).addpath pRoot
  let itx ← itx.addchild pRoot [97] true
  itx.addchild pRoot [98] false

/-- A transaction with the parent paths `/` and `/.`. -/
def txTwoPaths : inodetx_t := ((inodetx_t.init 256).addpath pRoot).addpath pRootDot

/-- A transaction is locked and, if that returned 0, unlocked. -/
def lock_unlock (mkdev : Int → Int → Int) (ffuel rounds : Nat) (itx : F inodetx_t) (fs : FS) :
    F (Int × FS) := do
  let itx ← itx
  let ((err, itx), fs) ← itx.lockall mkdev ffuel rounds fs
  if err ≠ 0 then .ok (err, fs)
  else do
    let fs ← itx.unlockall mkdev ffuel fs
    .ok (err, fs)

/-- The state an operation returned with, or `d` if it aborted. -/
def stateOr {α : Type} (r : F (α × FS)) (d : FS) : FS :=
  match r with
  | .ok x => x.2
  | .error _ => d

/-- The file system `linkFS` after `fs_stat("/a")`: the actor of inode 257 runs. -/
def linkFS1 : FS := stateOr (fs_stat mkdev0 8 linkFS pA 256) linkFS

/-- A transaction with the parent path `/` and its child `.`, the root directory itself. -/
def txDot : F inodetx_t := ((inodetx_t.init 256).addpath pRoot).addchild pRoot [46] false

/-- The path `/` followed by the first 14 bytes of `name15`. -/
def pLong14 : Name := 47 :: List.replicate 14 97

/-- The path `/d`. -/
def pD : Name := [47, 100]

/-- The path `/d/e`. -/
def pDE : Name := [47, 100, 47, 101]

/-- The file system `linkFS` after `fs_mkdir("/d")`. -/
def dirFS : FS := stateOr (fs_mkdir mkdev0 8 1 linkFS pD 256) linkFS

/-- The error of `fs_stat(path)` and the inode number it reports. -/
def statOf (fs : FS) (path : Name) : Option (Int × Option Int) :=
  observeF (fs_stat mkdev0 8 fs path 256) (fun x => (x.1.1, x.1.2.map (fun st => st.ino)))

/-! ## Path resolution on sound directories -/

/-- The actor that `idaemon_ensure(q)` starts from the inode slot of `q`, if the slot can be
read and filled into a cache. -/
def loadIdm (s : Sys) (q : Int) : Option idaemon_t :=
  match idaemon_init s q with
  | .ok x => some x.1
  | .error _ => none

/-- The actor of `q`: the one that runs, or else the one `idaemon_ensure(q)` would start. -/
def actorOf (fs : FS) (q : Int) : Option idaemon_t :=
  match fs.idms q with
  | some idm => some idm
  | none => loadIdm fs.sys q

/-- The inum `q` is positive and names an actor whose field `priv` is `q`. -/
def Sound (fs : FS) (q : Int) : Prop :=
  0 < q ∧ ∃ idm, actorOf fs q = some idm ∧ idm.priv = q

/-- The actors that receive a request sent to the actor of `P` with the path `path`. -/
def Visits (fs : FS) : Int → List Name → List Int
  | P, [] => [P]
  | P, next :: rest =>
    P :: (match actorOf fs P with
      | none => []
      | some idm =>
        match dirLookup (bufdata fs.sys) (dirBlocks idm.icache fs.sys) next with
        | none => []
        | some Q => Visits fs Q rest)

/-- The path `path` leads from the inode `P` to the inode `T`: every component is an entry of
a directory in a sound state. -/
def Resolves (fs : FS) : Int → List Name → Int → Prop
  | P, [], T => P = T
  | P, next :: rest, T =>
    ∃ idm Q, actorOf fs P = some idm ∧ DirWF idm fs.sys ∧
      dirLookup (bufdata fs.sys) (dirBlocks idm.icache fs.sys) next = some Q ∧
      Resolves fs Q rest T

/-- The state `fs2` differs from `fs` only in actors that were started (all of them satisfy
`G`), in `mem_refs` (by `m`) and in the locks (which are `L`). -/
structure View (fs fs2 : FS) (G : Int → Prop) (m : Int → Int) (L : Int → Bool) : Prop where
  sys : fs2.sys = fs.sys
  iroot : fs2.iroot = fs.iroot
  actor : ∀ q, actorOf fs2 q =
    (actorOf fs q).map (fun i => { i with memref := i.memref + m q })
  run : ∀ q, fs2.idms q ≠ none → fs.idms q ≠ none ∨ G q
  keep : ∀ q, fs.idms q ≠ none → fs2.idms q ≠ none
  lock : ∀ q, fs2.idms q ≠ none → fs2.locked q = L q
  lrun : ∀ q, L q = true → fs2.idms q ≠ none

/-- The locks of the running actors. -/
def lockedOf (fs : FS) (q : Int) : Bool :=
  match fs.idms q with
  | some _ => fs.locked q
  | none => false

/-- The actor where `req_namei` starts. -/
def namei_start (fs : FS) (paths : Name) (cwd : Int) : Int :=
  if paths = [] ∨ paths.head? ≠ some 47 then cwd else fs.iroot

/-! ## Transactions whose parents and children all exist -/

/-- A child of a transaction as `lockall` leaves it when the child is the inode `C`. -/
def lockedChild (C : Int) (c : itxchild) : itxchild :=
  { c with priv := C, found := true, lchan := some C }

/-- A parent of a transaction as `lockall` leaves it when its path leads to `tgt path` and
its child `c` is the inode `ctgt path c`. -/
def lockedPar (tgt : Name → Int) (ctgt : Name → Name → Int) (p : itxpar) : itxpar :=
  let cs := p.childs.map (fun c => lockedChild (ctgt p.path c.path) c)
  { p with priv := tgt p.path, lchan := some (tgt p.path), childs := cs }

/-- The inums of a parent and its children. -/
def parPrivs (tgt : Name → Int) (ctgt : Name → Name → Int) (p : itxpar) : List Int :=
  tgt p.path :: p.childs.map (fun c => ctgt p.path c.path)

/-- The inums of the parents and children of a transaction. -/
def txPrivs (tgt : Name → Int) (ctgt : Name → Name → Int) : List itxpar → List Int
  | [] => []
  | p :: rest => parPrivs tgt ctgt p ++ txPrivs tgt ctgt rest

/-- The parent `p` of a transaction can be locked: its path leads to the inode `tgt p.path`
through sound directories whose actors are not locked, and every child is a single
component that the directory holds, for an inode `ctgt p.path c.path` whose actor is sound
and not locked.  `G` holds for every actor that the requests reach. -/
structure ParOK (fs : FS) (G : Int → Prop) (L : Int → Bool) (cwd : Int) (tgt : Name → Int)
    (ctgt : Name → Name → Int) (p : itxpar) : Prop where
  res : Resolves fs (namei_start fs p.path cwd) (pathparts p.path) (tgt p.path)
  vis : ∀ x, x ∈ Visits fs (namei_start fs p.path cwd) (pathparts p.path) →
    Sound fs x ∧ L x = false ∧ G x
  child : ∀ c, c ∈ p.childs → c.path ≠ [] ∧ (47 : Byte) ∉ c.path ∧
    (∃ idm, actorOf fs (tgt p.path) = some idm ∧ DirWF idm fs.sys ∧
      dirLookup (bufdata fs.sys) (dirBlocks idm.icache fs.sys) c.path
        = some (ctgt p.path c.path)) ∧
    Sound fs (ctgt p.path c.path) ∧ L (ctgt p.path c.path) = false ∧ G (ctgt p.path c.path)

/-- The maps of a round of `lockall` are consistent: `sorted` has no duplicates and holds
the keys of `added`. -/
def RoundInv (st : round_t) : Prop :=
  st.sorted.Nodup ∧ ∀ x, x ∈ st.added ↔ x ∈ st.sorted

/-- A child of a transaction after the loop "add children to sorted inums" has found it. -/
def foundChild (C : Int) (c : itxchild) : itxchild :=
  { c with priv := C, found := true, lchan := none }

/-- A parent of a transaction after the loop "add children to sorted inums". -/
def foundPar (tgt : Name → Int) (ctgt : Name → Name → Int) (p : itxpar) : itxpar :=
  let cs := p.childs.map (fun c => foundChild (ctgt p.path c.path) c)
  { p with priv := tgt p.path, childs := cs }

/-- The inode `q` keeps a link when a memory reference is dropped: its actor is sound, has
a positive link count and no negative count of memory references. -/
def RefOK (fs : FS) (G : Int → Prop) (q : Int) : Prop :=
  Sound fs q ∧ G q ∧ ∃ idm, actorOf fs q = some idm ∧ 0 < idm.icache.links ∧ 0 ≤ idm.memref

/-! ## Names of inodes -/

/-- The path `path` names the inode `C` as an entry of the directory `P`: the final component
is not empty, the path before it leads from the start of the lookup to `P` through sound
directories whose actors are sound and not locked, `P` is a sound directory that has the
final component as an entry for `C`, and the actor of `C` is sound and not locked. -/
structure NameOK (fs : FS) (cwd : Int) (path : Name) (P C : Int) : Prop where
  fn_ne : (sdirname path).2 ≠ []
  res : Resolves fs (namei_start fs (sdirname path).1 cwd) (pathparts (sdirname path).1) P
  vis : ∀ x, x ∈ Visits fs (namei_start fs (sdirname path).1 cwd)
    (pathparts (sdirname path).1) → Sound fs x ∧ lockedOf fs x = false
  entry : ∃ idm, actorOf fs P = some idm ∧ DirWF idm fs.sys ∧
    dirLookup (bufdata fs.sys) (dirBlocks idm.icache fs.sys) (sdirname path).2 = some C
  child : Sound fs C ∧ lockedOf fs C = false

/-- The inode `q` exists: it has a link, no negative count of memory references, and its
type is FILE, DIR or DEV. -/
def Linked (fs : FS) (q : Int) : Prop :=
  ∃ idm, actorOf fs q = some idm ∧ 0 < idm.icache.links ∧ 0 ≤ idm.memref ∧
    (idm.icache.itype = I_DIR ∨ idm.icache.itype = I_FILE ∨ idm.icache.itype = I_DEV)

/-! ## Creating a directory -/

/-- The local variables of an epoch of `log_daemon`: `adm` tells whether the channel `adm` is
not nil.  `returned` is instrumentation: the number of values received on `l.done` in the
epoch. -/
structure logd_t where
  tickets : Int
  adm : Bool
  given : Int
  t : Int
  returned : Int

/-- The cases of the `select` of `log_daemon`: a block number arrives on `l.incoming`
(`log_write`), a value arrives on `l.done` (`op_end`), a value is taken from `adm`
(`op_begin`). -/
inductive logev where
  | incoming (nb : Int)
  | done
  | admission

/-- The variables at the start of an epoch. -/
def log_epoch (s : Sys) : logd_t :=
  { tickets := goDiv s.loglen 10, adm := true, given := 0, t := 0, returned := 0 }

/-- One iteration of the inner loop of `log_daemon`, with the `commit` and the start of the
next epoch when the loop ends; the `Bool` tells whether `commit` was called.  While `adm` is
nil nothing is sent on it: an `op_begin` waits, and the variables stay as they are. -/
def log_daemon_step (d : logd_t) (s : Sys) : logev → R ((logd_t × Bool) × Sys)
  | logev.incoming nb =>
    if d.t ≤ 0 then .error ("oh noes", s)
    else do
      let s ← log_append s nb
      .ok ((d, false), s)
  | logev.done =>
    let d := { d with t := d.t - 1, returned := d.returned + 1 }
    if d.t = 0 then do
      let s ← commit s
      .ok ((log_epoch s, true), s)
    else .ok ((d, false), s)
  | logev.admission =>
    if !d.adm then .ok ((d, false), s)
    else
      let d := { d with given := d.given + 1, t := d.t + 1 }
      .ok (({ d with adm := if d.given = d.tickets then false else true }, false), s)

/-- The daemon `log_daemon` from the start of an epoch in the state `s`, for a sequence of
events. -/
def log_daemon_from : List logev → logd_t → Sys → R (logd_t × Sys)
  | [], d, s => .ok (d, s)
  | e :: rest, d, s => do
    let ((d, _), s) ← log_daemon_step d s e
    log_daemon_from rest d s

/-- A freshly mounted system with a log of 11 blocks (header and 10 log blocks), as
`log_t.init` leaves `fslog`. -/
def sysLog11 : Sys := bootSysLen diskIdle 11

/-- A freshly mounted system with a log of 10 blocks. -/
def sysLog10 : Sys := bootSysLen diskIdle 10

/-! ## Mount -/

/-- The machine before `fs_init`: the device, an empty block cache, no actor, and every global
variable at its zero value. -/
def unmounted (disk : Int → Block) : FS :=
  { sys := { disk := disk, blocks := fun b => ⟨disk b, false⟩, given := fun _ => false,
             hist := [], logblks := [], logstart := 0, loglen := 0, superb_start := 0,
             free_start := 0, free_len := 0, usable_start := 0, ifreeblk := 0, ifreeoff := 0 },
    idms := fun _ => none, locked := fun _ => false, iroot := 0 }

/-- The function `fs_init`; the value is the field `priv` of the `file_t` it returns.  The
buffer of the superblock stays held by `superb.blk`.  With `loglen = 0` the call
`make([]int, 0, log.loglen)` of `log_t.init` has the capacity `-1` and panics. -/
def fs_init (fs : FS) : F (Int × FS) := do
  let s ← liftR (bread fs.sys 0)
  let sbs ← liftR (liftE s (readn (bufdata s 0) 4 506))
  let s := { s with superb_start := sbs }
  if sbs ≤ 0 then .error "bad superblock start"
  else do
    let s ← liftR (bread s sbs)
    let s ← liftR (brelse s 0)
    let ri ← liftR (liftE s (fieldr (bufdata s sbs) 3))
    let (_, fs) ← idaemon_ensure { fs with sys := s } ri
    let fs := { fs with iroot := ri }
    let s := fs.sys
    let fstart ← liftR (liftE s (fieldr (bufdata s sbs) 0))
    let flen ← liftR (liftE s (fieldr (bufdata s sbs) 1))
    let logstart := wrap64 (fstart + flen)
    let loglen ← liftR (liftE s (fieldr (bufdata s sbs) 2))
    let s := { s with free_start := fstart, free_len := flen,
                      usable_start := wrap64 (logstart + loglen) }
    if loglen < 0 ∨ loglen > 63 then .error "bad log len"
    else if loglen - 1 < 0 then .error "makeslice: cap out of range"
    else do
      let s := { s with logstart := logstart, loglen := loglen - 1, logblks := [] }
      let s ← liftR (fs_recover s)
      .ok (ri, { fs with sys := s })

/-- Block 0 of the example device: the superblock is block 1. -/
def bootBlock : Block := blockOf [(506, 1)]

/-- The superblock of the example device: bitmap at block 2 with 1 block, 61 log blocks (3 to
63), root inode 256 (block 64, slot 0). -/
def superBlock : Block := blockOf [(0, 2), (8, 1), (16, 61), (25, 1)]

/-- Log header: `recover_num = 1`, destination block 64. -/
def hdrRoot : Block := blockOf [(0, 1), (64, 64)]

/-- The logged version of inode block 64: the root directory has grown to 1024 bytes, with the
blocks 65 and 66. -/
def grownInodeBlock : Block := blockOf [(0, 2), (8, 1), (17, 4), (48, 65), (56, 66)]

/-- A device that was interrupted after the commit point of a transaction that grew the root
directory: block 64 holds the old root inode, the log holds the new one. -/
def crashDisk : Int → Block := fun b =>
  if b = 0 then bootBlock else if b = 1 then superBlock else if b = 2 then bitmapBlock
  else if b = 3 then hdrRoot else if b = 4 then grownInodeBlock
  else if b = 64 then rootInodeBlock else if b = 65 then rootDirBlock else zeroBlock

/-- The result of `fs_init` on the unmounted machine with device `crashDisk`. -/
def crashMount : F (Int × FS) := fs_init (unmounted crashDisk)

/-- The mounted file system after `fs_init` on `crashDisk`. -/
def crashFS : FS := stateOr crashMount (unmounted crashDisk)

/-! ## Eviction from the block cache -/

/-- The map `bcdaemon_t.blocks` with the order in which an iteration visits it: the cached
block numbers with their buffers.  Go leaves the order of the iteration of a map open; any
order is a list. -/
abbrev bcblocks := List (Int × bbuf_t)

/-- The loop of `chk_evict` over the entries `(i, bb)` that the iteration has not visited yet,
for buffers of any representation `β` with their flag `dirty`; `evictn` and `len` are the
variable `evictn` and `len(blc.blocks)`.  The result lists the entries that stay in the
map. -/
def chk_evict_loop {β : Type} (dirty : β → Bool) (given : Int → Bool) :
    List (Int × β) → Int → Int → List (Int × β)
  | [], _, _ => []
  | (i, bb) :: rest, evictn, len =>
    if !dirty bb ∧ !given i then
      if evictn - 1 = 0 ∧ len - 1 ≤ 1024 then rest
      else chk_evict_loop dirty given rest (evictn - 1) (len - 1)
    else (i, bb) :: chk_evict_loop dirty given rest evictn len

/-- The method `bcdaemon_t.chk_evict` for buffers of any representation; `given i` is
`blc.given[i]`. -/
def chk_evict {β : Type} (dirty : β → Bool) (given : Int → Bool) (blocks : List (Int × β)) :
    Except String (List (Int × β)) :=
  if blocks.length ≤ 1024 then .ok blocks
  else
    let b2 := chk_evict_loop dirty given blocks 2 blocks.length
    if b2.length > 1024 then .error "blc full" else .ok b2

/-- A cache of `n` buffers, for the blocks `0` to `n - 1`, none of them dirty. -/
def cleanCache (n : Nat) : bcblocks :=
  (List.range n).map (fun i => ((i : Int), { data := zeroBlock, dirty := false }))

/-- What is compared of a cache state: the cached block numbers, in the order of the
iteration, and the dirty flag of each buffer; nothing when the call aborted. -/
def cacheKeys : Except String bcblocks → Option (List (Int × Bool))
  | .ok l => some (l.map (fun e => (e.1, e.2.dirty)))
  | .error _ => none

/-- Bit `k` of the free bitmap, counted over the whole bitmap: by bitmap block, then by byte,
then by bit from the least significant one. -/
def mapBit (s : Sys) (k : Nat) : Bool :=
  bitset (bufdata s (s.free_start + ((k / 4096 : Nat) : Int)) (k % 4096 / 8)) (k % 8)

/-- The mounted file system `fsSys` inside an operation, with a bitmap block whose first byte
is `0xff` and whose second byte is `0x0b`: the lowest clear bit is bit 10. -/
def mapSys : Sys :=
  { fsSys with blocks := Function.update fsSys.blocks 2 ⟨blockOf [(0, 255), (1, 11)], false⟩ }

/-! ## The block cache daemon as a state machine -/

/-- The conversion `int32(v)` of a Go `int`. -/
def int32 (v : Int) : Int := (v + 2 ^ 31) % 2 ^ 32 - 2 ^ 31

/-- A buffer `*bbuf_t` as `bc_daemon` sees it: `id` is the identity of the allocation (the
pointer) and `block` the field `buf.block`.  The contents play no part in `bc_daemon`; the
flag `dirty`, which the holder of a buffer changes, is kept in the state by buffer. -/
structure cbuf where
  id : Nat
  block : Int
deriving DecidableEq

/-- A buffer that has been sent on the channel `ack` of a request and has not been released:
`blkno` is the key under which `bc_daemon` served it, `buf` the identity and the field
`buf.block` of the buffer that was sent (`none` for a nil pointer). -/
structure bchandle where
  blkno : Int
  ack : Nat
  buf : Option (Nat × Int)
deriving DecidableEq

/-- The state of `bc_daemon`: the maps of `bcdaemon_t` (`given` keeps whether a key is
present, an absent key of `waiters` is an empty queue, channels are numbered), the flags
`dirty` of the buffers, the disk reads that `bc_read` has started and that have not completed
(`reads`, by the block number passed to `idereq_new`), the number of buffers allocated so far,
and as instrumentation the outstanding handles `out` and all requests in the order of their
arrival `hist`. -/
structure bcdaemon_t where
  blocks : List (Int × cbuf)
  given : Int → Option Bool
  waiters : Int → List Nat
  dirty : Nat → Bool
  reads : List Int
  nextid : Nat
  out : List bchandle
  hist : List (Int × Nat)

/-- What `bc_daemon` receives, and what the holders of buffers do to them:
* `req blkno ack`: a request `bcreq_t` on `blc.req`;
* `done bfin`: a block number on `blc.done`, sent by `brelse`;
* `bnew blkno order`: the disk read started for `blkno` has completed and its buffer arrives
  on `blc.bnew`; `order` is the order in which the iteration of `chk_evict` visits the map;
* `mark id d`: the holder of buffer `id` sets its flag `dirty` (`log_write`, `writeback`). -/
inductive bcev where
  | req (blkno : Int) (ack : Nat)
  | done (bfin : Int)
  | bnew (blkno : Int) (order : List (Int × cbuf))
  | mark (id : Nat) (d : Bool)

/-- The state after `bcdaemon_t.init`. -/
def bc_init : bcdaemon_t :=
  { blocks := [], given := fun _ => none, waiters := fun _ => [], dirty := fun _ => false,
    reads := [], nextid := 0, out := [], hist := [] }

/-- The method `bcdaemon_t.qadd`. -/
def qadd (blc : bcdaemon_t) (blkno : Int) (ack : Nat) : bcdaemon_t :=
  { blc with waiters := Function.update blc.waiters blkno (blc.waiters blkno ++ [ack]) }

/-- The method `bcdaemon_t.qpop`. -/
def qpop (blc : bcdaemon_t) (blkno : Int) : Option Nat × bcdaemon_t :=
  match blc.waiters blkno with
  | [] => (none, blc)
  | c :: q => (some c, { blc with waiters := Function.update blc.waiters blkno q })

/-- The statement `*ack <- buf`: the requester that listens on `ack` holds the buffer. -/
def bc_send (blc : bcdaemon_t) (blkno : Int) (ack : Nat) (buf : Option cbuf) : bcdaemon_t :=
  { blc with out := blc.out ++ [⟨blkno, ack, buf.map (fun b => (b.id, b.block))⟩] }

/-- The method `bcdaemon_t.bc_read`. -/
def bc_read (blc : bcdaemon_t) (blkno : Int) (ack : Nat) : bcdaemon_t :=
  match blc.blocks.lookup blkno with
  | none => { qadd blc blkno ack with reads := blc.reads ++ [blkno] }
  | some ret => bc_send blc blkno ack (some ret)

/-- The handle that a call `brelse` gives up: the first outstanding one whose buffer has
`bfin` in its field `buf.block`. -/
def releases (bfin : Int) (h : bchandle) : Bool := h.buf.map (fun b => b.2) = some bfin

/-- One iteration of the loop of `bc_daemon`; a panic is an error. -/
def bc_daemon_step (blc : bcdaemon_t) : bcev → Except String bcdaemon_t
  | bcev.req blkno ack =>
    if blkno < 0 then .error "bad block"
    else
      let blc := { blc with hist := blc.hist ++ [(blkno, ack)] }
      let inuse := (blc.given blkno).getD false
      if !inuse then
        .ok (bc_read { blc with given := Function.update blc.given blkno (some true) } blkno ack)
      else .ok (qadd blc blkno ack)
  | bcev.done bfin =>
    if bfin < 0 then .error "bad block"
    else
      let inuse := (blc.given bfin).getD false
      if !inuse then .error "relinquish unused block"
      else
        let blc := { blc with out := blc.out.eraseP (releases bfin) }
        match qpop blc bfin with
        | (some nextc, blc) => .ok (bc_send blc bfin nextc (blc.blocks.lookup bfin))
        | (none, blc) => .ok { blc with given := Function.update blc.given bfin (some false) }
  | bcev.bnew rd order => do
    let nb : cbuf := { id := blc.nextid, block := int32 rd }
    let blc := { blc with reads := blc.reads.erase rd, nextid := blc.nextid + 1 }
    let blkno := nb.block
    if (blc.given blkno).isNone then .error "bllkno trimmed by cast"
    else do
      let blocks ← chk_evict (fun b => blc.dirty b.id) (fun i => (blc.given i).getD false) order
      let blc := { blc with blocks := (blkno, nb) :: blocks.filter (fun e => e.1 ≠ blkno) }
      match qpop blc blkno with
      | (some nextc, blc) => .ok (bc_send blc blkno nextc (some nb))
      | (none, _) => .error "nil pointer dereference"
  | bcev.mark id d => .ok { blc with dirty := Function.update blc.dirty id d }

/-- Whether the event can occur in the state: a `done` comes from a call `brelse` on an
outstanding buffer, a `bnew` from a disk read that `bc_read` has started, with an iteration
order that visits every cached buffer once. -/
def bc_enabled (blc : bcdaemon_t) : bcev → Bool
  | bcev.req _ _ => true
  | bcev.done bfin => blc.out.any (releases bfin)
  | bcev.bnew rd order => decide (rd ∈ blc.reads) && decide (order.Perm blc.blocks)
  | bcev.mark _ _ => true

/-- The daemon `bc_daemon` on a sequence of events, from the state `blc`. -/
def bc_daemon_from : List bcev → bcdaemon_t → Except String bcdaemon_t
  | [], blc => .ok blc
  | e :: es, blc =>
    if bc_enabled blc e then do
      let blc ← bc_daemon_step blc e
      bc_daemon_from es blc
    else .error "event cannot occur"

/-- The daemon `bc_daemon` on a sequence of events, from its start. -/
def bc_daemon (evs : List bcev) : Except String bcdaemon_t := bc_daemon_from evs bc_init

/-- The outstanding handles after a run, none if it aborted. -/
def handlesOf (r : Except String bcdaemon_t) : Option (List bchandle) :=
  match r with
  | .ok blc => some blc.out
  | .error _ => none

/-- The state a run returned with, the initial state if it aborted. -/
def bcState (r : Except String bcdaemon_t) : bcdaemon_t :=
  match r with
  | .ok blc => blc
  | .error _ => bc_init

/-- Three requests for block 5; the disk read for the first one has completed. -/
def evsQueue : List bcev := [bcev.req 5 0, bcev.bnew 5 [], bcev.req 5 1, bcev.req 5 2]

/-- The first buffer that a disk read of block 5 delivers. -/
def buf5 : cbuf := { id := 0, block := 5 }

/-- Block 5 is requested and read, requested again, and then block `2^32 + 5` is requested
and read; `int32(2^32 + 5) = 5`. -/
def evsTrim : List bcev :=
  [bcev.req 5 0, bcev.bnew 5 [], bcev.req 5 1, bcev.req (2 ^ 32 + 5) 2,
    bcev.bnew (2 ^ 32 + 5) [(5, buf5)]]

/-! ## Sequences of `log_t.append` -/

/-- Successive calls of `log_t.append`, one for each block number of `l`. -/
def log_appends : Sys → List Int → R Sys
  | s, [] => .ok s
  | s, b :: rest => do
    let s ← log_append s b
    log_appends s rest

/-! ## A write of no bytes past the end of a file -/

/-- A `Write` with the one empty source slice at offset `off` to the empty file on `fileSys`,
followed by a `Read` of one byte at offset `pos`. -/
def emptyWriteThenRead (off pos : Int) : R (iresp_t × iresp_t × List (List Byte)) := do
  let (w, idm, s) ← serve_write fileIdm fileSys { dbufs := [[]], offset := off }
  let ((r, bufs), _, _) ← serve_read idm s { rbufs := [[0]], offset := pos }
  .ok (w, r, bufs)

/-! ## Paths without a final component -/

/-- The panic message of an operation on the actors that aborted. -/
def abortF {α : Type} : F α → Option String
  | .ok _ => none
  | .error e => some e

/-- The path `//`. -/
def pSlashSlash : Name := [47, 47]

/-- What holds of the variables of `log_daemon` between two iterations when the log gives at
least one ticket. -/
structure EpochInv (d : logd_t) (s : Sys) : Prop where
  tickets : d.tickets = goDiv s.loglen 10
  given_nonneg : 0 ≤ d.given
  given_le : d.given ≤ d.tickets
  adm : d.adm = true ↔ d.given < d.tickets
  t : d.t = d.given - d.returned

/-- The invariant of `bc_daemon` when every requested block number fits an `int32`. -/
structure BcInv (st : bcdaemon_t) : Prop where
  keys : (st.blocks.map Prod.fst).Nodup
  blocks_ok : ∀ e ∈ st.blocks, e.2.block = e.1
  out_nodup : (st.out.map (fun h => h.blkno)).Nodup
  out_ok : ∀ h ∈ st.out, 0 ≤ h.blkno ∧ st.given h.blkno = some true ∧
    ∃ buf, (h.blkno, buf) ∈ st.blocks ∧ h.buf = some (buf.id, buf.block)
  wait_given : ∀ b, st.waiters b ≠ [] → st.given b = some true
  reads_nodup : st.reads.Nodup
  reads_ok : ∀ r ∈ st.reads, 0 ≤ r ∧ r < 2 ^ 31 ∧ st.given r = some true ∧
    r ∉ st.blocks.map Prod.fst ∧ st.waiters r ≠ [] ∧ ∀ h ∈ st.out, h.blkno ≠ r
  fifo : ∀ b, st.waiters b <:+ (st.hist.filter (fun e => e.1 = b)).map Prod.snd

/-- The state `mapSys` in an epoch in which 59 blocks, the blocks 100 to 158, have been
logged: the log (`fslog.loglen = 60`) takes no further block. -/
def fullLogSys : Sys := { mapSys with logblks := (List.range 59).map (fun i => 100 + (i : Int)) }

/-- The empty file of `fileSys` with the size 1000 in its cache and no block, as a write of
no bytes at offset 1000 leaves it. -/
def holeIdm : idaemon_t := { fileIdm with icache := { fileIdm.icache with size := 1000 } }

/-! ## A full directory block, a full free map, a full log -/

/-- A directory block without an empty slot: the entries `.` and `..` and 21 entries with the
one-letter names `C` to `W`, all for inode 256. -/
def fullDirBlock : Block := fun t =>
  if t ≥ 506 then 0
  else if t = 0 ∨ t = 22 ∨ t = 23 then 46
  else if t % 22 = 0 then ((65 + t / 22 : Nat) : Byte)
  else if t % 22 = 15 then 1
  else 0

/-- The example file system with the full directory block as the block of the root
directory. -/
def fullDirSys : Sys :=
  { fsSys with blocks := Function.update fsSys.blocks 65 ⟨fullDirBlock, false⟩ }

/-- The example file system with every bit of the free map set: no block is free. -/
def fullMapSys : Sys :=
  { fsSys with blocks := Function.update fsSys.blocks 2 ⟨constBlock 255, false⟩ }

/-- The file system `fullDirSys` with every bit of the free map set. -/
def fullDirMapSys : Sys :=
  { fullDirSys with blocks := Function.update fullDirSys.blocks 2 ⟨constBlock 255, false⟩ }

/-- The file system `fileSys` in an epoch in which 59 blocks, the blocks 100 to 158, have
been logged: the log (`fslog.loglen = 60`) takes no further block. -/
def fileLogFullSys : Sys :=
  { fileSys with logblks := (List.range 59).map (fun i => 100 + (i : Int)) }

/-! ## A transaction whose paths and children resolve to the same inodes -/

/-- The result of an operation on the actors, or `d` if it aborted. -/
def valOrF {α : Type} (r : F α) (d : α) : α :=
  match r with
  | .ok x => x
  | .error _ => d

/-- A transaction on `linkFS` with the parent paths `/` and `/.`, both the root directory
(inode 256), and the children `a` and `b` (two names of inode 257), `.` (the root directory
itself) and `n` (no such entry) of `/`. -/
def txWide : F inodetx_t := do
  let itx := ((inodetx_t.init 256).addpath pRoot).addpath pRootDot
  let itx ← itx.addchild pRoot [97] true
  let itx ← itx.addchild pRoot [98] false
  let itx ← itx.addchild pRoot [46] false
  itx.addchild pRoot [110] false

/-- The first loop of `lockall` for `txWide` on `linkFS`. -/
def widePaths : F ((Int × List itxpar × List Int) × FS) := do
  let itx ← txWide
  lockall_paths mkdev0 8 itx.cwd (lockall_reset itx.dpaths) [] [] linkFS

/-- The parents of `txWide` as the first loop of `lockall` leaves them. -/
def widePars : List itxpar := (valOrF widePaths ((0, [], []), linkFS)).1.2.1

/-- The map `pmems` as the first loop of `lockall` leaves it for `txWide`. -/
def widePmems : List Int := (valOrF widePaths ((0, [], []), linkFS)).1.2.2

/-- The file system as the first loop of `lockall` leaves it for `txWide`. -/
def wideFS : FS := (valOrF widePaths ((0, [], []), linkFS)).2

/-- The loops "remove duplicate par inums" and "add children to sorted inums" of the first
round of `lockall` for `txWide`; the second loop visits the parents in the other order. -/
def wideRound : F ((Int × List itxpar × round_t) × FS) :=
  round_children mkdev0 8 widePmems widePars.reverse [] (round_pars widePars {}) wideFS

/-- The parents of `txWide` when the first round of `lockall` reaches the lock loop. -/
def widePars3 : List itxpar := (valOrF wideRound ((0, [], {}), wideFS)).1.2.1

/-- The state of the first round of `lockall` for `txWide` when it reaches the lock loop. -/
def wideSt3 : round_t := (valOrF wideRound ((0, [], {}), wideFS)).1.2.2

/-- The file system when the first round of `lockall` for `txWide` reaches the lock loop. -/
def wideFS3 : FS := (valOrF wideRound ((0, [], {}), wideFS)).2

/-! ## An unlinked file that is still open -/

/-- The actor of the empty file after its last name has been removed: no link, one reference
in memory. -/
def unlinkedIdm : idaemon_t :=
  { fileIdm with icache := { fileIdm.icache with links := 0 } }

/-- The actor of the empty file with a link count that is the least `int`. -/
def leastIdm : idaemon_t :=
  { fileIdm with icache := { fileIdm.icache with links := -2 ^ 63 } }

end Biscuit

/-! # Theorems -/

namespace Biscuit

/-! ## Integer fields -/

theorem leval_congr (a b : Block) (n : Nat) :
    ∀ off, (∀ j, off ≤ j → j < off + n → a j = b j) → leval a off n = leval b off n := by
  induction n with
  | zero => intro off _; rfl
  | succ n ih =>
    intro off h
    simp only [leval]
    rw [h off (le_refl _) (by omega), ih (off + 1) (fun j h1 h2 => h j (by omega) (by omega))]

theorem leval_lt (a : Block) (n : Nat) : ∀ off, leval a off n < 256 ^ n := by
  induction n with
  | zero => intro off; simp [leval]
  | succ n ih =>
    intro off
    have h1 := ih (off + 1)
    have h2 := (a off).isLt
    simp only [leval, pow_succ]
    omega

theorem leval_digits (U off : Nat) (a : Block) (n : Nat) :
    ∀ k, (∀ j, off + k ≤ j → j < off + k + n → (a j).val = U / 256 ^ (j - off) % 256) →
      leval a (off + k) n = U / 256 ^ k % 256 ^ n := by
  induction n with
  | zero => intro k _; simp [leval, Nat.mod_one]
  | succ n ih =>
    intro k h
    have h0 := h (off + k) (le_refl _) (by omega)
    have h1 := ih (k + 1) (fun j hj1 hj2 => h j (by omega) (by omega))
    simp only [leval]
    rw [show off + k + 1 = off + (k + 1) by omega, h1, h0, Nat.add_sub_cancel_left,
      pow_succ 256 k, ← Nat.div_div_eq_div_mul, pow_succ' 256 n, Nat.mod_mul]

theorem toUInt64_lt (v : Int) : toUInt64 v < 2 ^ 64 := by
  unfold toUInt64
  omega

theorem wrap64_eq (v : Int) (h1 : -2 ^ 63 ≤ v) (h2 : v < 2 ^ 63) : wrap64 v = v := by
  unfold wrap64 toInt64 toUInt64
  split <;> omega

theorem toInt64_range (n : Nat) : -2 ^ 63 ≤ toInt64 n ∧ toInt64 n < 2 ^ 63 := by
  unfold toInt64
  split <;> omega

theorem leval_put8_same (a : Block) (off : Nat) (v : Int) :
    leval (put8 a off v) off 8 = toUInt64 v := by
  have h := leval_digits (toUInt64 v) off (put8 a off v) 8 0 (by
    intro j h1 h2
    have : off ≤ j ∧ j < off + 8 := ⟨by omega, by omega⟩
    simp [put8, this])
  have h3 := toUInt64_lt v
  simp only [Nat.add_zero, pow_zero, Nat.div_one] at h
  rw [h]
  exact Nat.mod_eq_of_lt (by norm_num at h3 ⊢; exact h3)

theorem leval_put8_other (a : Block) (off off2 : Nat) (v : Int)
    (hd : off2 + 8 ≤ off ∨ off + 8 ≤ off2) :
    leval (put8 a off v) off2 8 = leval a off2 8 := by
  apply leval_congr
  intro j h1 h2
  have : ¬ (off ≤ j ∧ j < off + 8) := by omega
  simp [put8, this]

theorem writen_eq (a : Block) (off v : Int) (h0 : 0 ≤ off) (h1 : off + 8 ≤ 512) :
    writen a 8 off v = .ok (put8 a off.toNat v) := by
  have : 0 ≤ off ∧ off + ((8 : Nat) : Int) ≤ 512 := ⟨h0, by simpa using h1⟩
  simp only [writen, this, and_self, if_true]
  rfl

theorem readn_eq (a : Block) (off : Int) (h0 : 0 ≤ off) (h1 : off + 8 ≤ 512) :
    readn a 8 off = .ok (toInt64 (leval a off.toNat 8)) := by
  have : 0 ≤ off ∧ off + ((8 : Nat) : Int) ≤ 512 := ⟨h0, by simpa using h1⟩
  simp only [readn, this, and_self, if_true]

/-- A field index is inside the block. -/
theorem fieldw_eq (p : Block) (f v : Int) (h0 : 0 ≤ f) (h1 : f ≤ 63) :
    fieldw p f v = .ok (put8 p (f * 8).toNat v) := by
  unfold fieldw
  exact writen_eq p (f * 8) v (by omega) (by omega)

theorem fieldr_eq (p : Block) (f : Int) (h0 : 0 ≤ f) (h1 : f ≤ 63) :
    fieldr p f = .ok (toInt64 (leval p (f * 8).toNat 8)) := by
  unfold fieldr
  exact readn_eq p (f * 8) (by omega) (by omega)

theorem fieldr_put8_same (p : Block) (f v : Int) (h0 : 0 ≤ f) (h1 : f ≤ 63) :
    fieldr (put8 p (f * 8).toNat v) f = .ok (wrap64 v) := by
  rw [fieldr_eq _ f h0 h1, leval_put8_same]
  rfl

theorem fieldr_put8_other (p : Block) (f g v : Int) (h0 : 0 ≤ f) (h2 : 0 ≤ g) (hne : f ≠ g) :
    fieldr (put8 p (f * 8).toNat v) g = fieldr p g := by
  unfold fieldr readn
  split
  · rw [leval_put8_other]
    omega
  · rfl

/-! ## Fields of the states produced by the block cache operations -/

@[simp] theorem breadSt_blocks (s : Sys) (b : Int) : (breadSt s b).blocks = s.blocks := rfl

@[simp] theorem breadSt_given (s : Sys) (b : Int) : (breadSt s b).given = Function.update s.given b true := rfl

@[simp] theorem breadSt_loglen (s : Sys) (b : Int) : (breadSt s b).loglen = s.loglen := rfl

@[simp] theorem breadSt_superb_start (s : Sys) (b : Int) : (breadSt s b).superb_start = s.superb_start := rfl

@[simp] theorem breadSt_free_start (s : Sys) (b : Int) : (breadSt s b).free_start = s.free_start := rfl

@[simp] theorem breadSt_free_len (s : Sys) (b : Int) : (breadSt s b).free_len = s.free_len := rfl

@[simp] theorem breadSt_usable_start (s : Sys) (b : Int) : (breadSt s b).usable_start = s.usable_start := rfl

@[simp] theorem breadSt_ifreeblk (s : Sys) (b : Int) : (breadSt s b).ifreeblk = s.ifreeblk := rfl

@[simp] theorem breadSt_ifreeoff (s : Sys) (b : Int) : (breadSt s b).ifreeoff = s.ifreeoff := rfl

@[simp] theorem brelseSt_blocks (s : Sys) (b : Int) : (brelseSt s b).blocks = s.blocks := rfl

@[simp] theorem brelseSt_given (s : Sys) (b : Int) : (brelseSt s b).given = Function.update s.given b false := rfl

@[simp] theorem brelseSt_logblks (s : Sys) (b : Int) : (brelseSt s b).logblks = s.logblks := rfl

@[simp] theorem brelseSt_logstart (s : Sys) (b : Int) : (brelseSt s b).logstart = s.logstart := rfl

@[simp] theorem brelseSt_loglen (s : Sys) (b : Int) : (brelseSt s b).loglen = s.loglen := rfl

@[simp] theorem brelseSt_superb_start (s : Sys) (b : Int) : (brelseSt s b).superb_start = s.superb_start := rfl

@[simp] theorem brelseSt_free_start (s : Sys) (b : Int) : (brelseSt s b).free_start = s.free_start := rfl

@[simp] theorem brelseSt_free_len (s : Sys) (b : Int) : (brelseSt s b).free_len = s.free_len := rfl

@[simp] theorem brelseSt_usable_start (s : Sys) (b : Int) : (brelseSt s b).usable_start = s.usable_start := rfl

@[simp] theorem brelseSt_ifreeblk (s : Sys) (b : Int) : (brelseSt s b).ifreeblk = s.ifreeblk := rfl

@[simp] theorem brelseSt_ifreeoff (s : Sys) (b : Int) : (brelseSt s b).ifreeoff = s.ifreeoff := rfl

@[simp] theorem setdata_given (s : Sys) (b : Int) (d : Block) : (setdata s b d).given = s.given := rfl

@[simp] theorem setdata_loglen (s : Sys) (b : Int) (d : Block) : (setdata s b d).loglen = s.loglen := rfl

@[simp] theorem setdata_superb_start (s : Sys) (b : Int) (d : Block) : (setdata s b d).superb_start = s.superb_start := rfl

@[simp] theorem setdata_free_start (s : Sys) (b : Int) (d : Block) : (setdata s b d).free_start = s.free_start := rfl

@[simp] theorem setdata_free_len (s : Sys) (b : Int) (d : Block) : (setdata s b d).free_len = s.free_len := rfl

@[simp] theorem setdata_usable_start (s : Sys) (b : Int) (d : Block) : (setdata s b d).usable_start = s.usable_start := rfl

@[simp] theorem setdata_ifreeblk (s : Sys) (b : Int) (d : Block) : (setdata s b d).ifreeblk = s.ifreeblk := rfl

@[simp] theorem setdata_ifreeoff (s : Sys) (b : Int) (d : Block) : (setdata s b d).ifreeoff = s.ifreeoff := rfl

@[simp] theorem writeback_loglen (s : Sys) (b : Int) : (writeback s b).loglen = s.loglen := rfl

@[simp] theorem writeback_superb_start (s : Sys) (b : Int) : (writeback s b).superb_start = s.superb_start := rfl

@[simp] theorem writeback_free_start (s : Sys) (b : Int) : (writeback s b).free_start = s.free_start := rfl

@[simp] theorem writeback_free_len (s : Sys) (b : Int) : (writeback s b).free_len = s.free_len := rfl

@[simp] theorem writeback_usable_start (s : Sys) (b : Int) : (writeback s b).usable_start = s.usable_start := rfl

@[simp] theorem writeback_ifreeblk (s : Sys) (b : Int) : (writeback s b).ifreeblk = s.ifreeblk := rfl

@[simp] theorem writeback_ifreeoff (s : Sys) (b : Int) : (writeback s b).ifreeoff = s.ifreeoff := rfl

/-! ## Block cache primitives -/

@[simp] theorem liftE_ok {α : Type} (s : Sys) (a : α) : liftE s (Except.ok a) = Except.ok a := rfl

@[simp] theorem liftE_error {α : Type} (s : Sys) (e : String) :
    liftE s (Except.error e : Except String α) = Except.error (e, s) := rfl

@[simp] theorem ok_bind {ε α β : Type} (a : α) (f : α → Except ε β) :
    (Except.ok a >>= f) = f a := rfl

@[simp] theorem error_bind {ε α β : Type} (e : ε) (f : α → Except ε β) :
    (Except.error e >>= f) = Except.error e := rfl

theorem bread_eq (s : Sys) (b : Int) (h0 : 0 ≤ b) (h1 : b < 2 ^ 31) (hg : s.given b = false) :
    bread s b = .ok (breadSt s b) := by
  unfold bread breadSt
  have h0' : ¬ b < 0 := by omega
  have h1' : ¬ b ≥ 2 ^ 31 := by omega
  simp only [h0', h1', hg, if_false, Bool.false_eq_true]

theorem brelse_eq (s : Sys) (b : Int) (h0 : 0 ≤ b) (hg : s.given b = true) :
    brelse s b = .ok (brelseSt s b) := by
  unfold brelse brelseSt
  have h0' : ¬ b < 0 := by omega
  simp [h0', hg]

@[simp] theorem bufdata_breadSt (s : Sys) (b : Int) : bufdata (breadSt s b) = bufdata s := rfl

@[simp] theorem bufdata_brelseSt (s : Sys) (b : Int) : bufdata (brelseSt s b) = bufdata s := rfl

@[simp] theorem bufdata_setdata (s : Sys) (b : Int) (d : Block) :
    bufdata (setdata s b d) = Function.update (bufdata s) b d := by
  funext c
  by_cases h : c = b
  · subst h; simp [bufdata, setdata]
  · simp [bufdata, setdata, Function.update_noteq h]

theorem update_update_restore {α : Type} (g : Int → α) (b : Int) (x : α) :
    Function.update (Function.update g b x) b (g b) = g := by
  simp

/-! ## Lists of block writes -/

theorem logdest_eq (h : Block) (j : Nat) (hj : j ≤ 55) :
    logdest h (j : Int) = .ok (hdrDest h j) := by
  unfold logdest hdrDest
  have h1 : ¬ ((j : Int) < 0 ∨ (j : Int) > 62) := by omega
  have h2 : ((8 + (j : Int)) * 8).toNat = (8 + j) * 8 := by omega
  rw [if_neg h1, fieldr_eq _ _ (by omega) (by omega), h2]

theorem given_release (g : Int → Bool) (a : Int) (ha : g a = false) :
    Function.update (Function.update g a true) a false = g := by
  funext c
  by_cases h : c = a
  · subst h; simp [ha]
  · simp [Function.update_noteq h]

theorem w_logdest_eq (h : Block) (j : Nat) (v : Int) (hj : j ≤ 55) :
    w_logdest h (j : Int) v = .ok (put8 h ((8 + j) * 8) v) := by
  unfold w_logdest
  have h1 : ¬ ((j : Int) < 0 ∨ (j : Int) > 62) := by omega
  have h2 : ((8 + (j : Int)) * 8).toNat = (8 + j) * 8 := by omega
  rw [if_neg h1, fieldw_eq _ _ _ (by omega) (by omega), h2]

theorem logIterSt_logstart (s : Sys) (L : Int) (i : Nat) (lbn : Int) :
    (logIterSt s L i lbn).logstart = s.logstart := rfl

theorem logIterSt_logblks (s : Sys) (L : Int) (i : Nat) (lbn : Int) :
    (logIterSt s L i lbn).logblks = s.logblks := rfl

theorem hdrNum_put8_dest (H : Block) (i : Nat) (v : Int) :
    hdrNum (put8 H ((8 + i) * 8) v) = hdrNum H := by
  unfold hdrNum
  rw [leval_put8_other _ _ _ _ (by omega)]

theorem hdrDest_put8_same (H : Block) (i : Nat) (v : Int) :
    hdrDest (put8 H ((8 + i) * 8) v) i = wrap64 v := by
  unfold hdrDest
  rw [leval_put8_same]
  rfl

theorem hdrNum_hdrWith (rest : List Int) : ∀ (H : Block) (i : Nat),
    hdrNum (hdrWith H i rest) = hdrNum H := by
  induction rest with
  | nil => intro H i; rfl
  | cons b rest ih =>
    intro H i
    simp only [hdrWith]
    rw [ih, hdrNum_put8_dest]

theorem given_update_ne (g : Int → Bool) (a b : Int) (v : Bool) (h : b ≠ a) :
    Function.update g a v b = g b := Function.update_noteq h _ _

theorem bind_eq_ok {ε α β : Type} (x : Except ε α) (f : α → Except ε β) (b : β) :
    (x >>= f) = .ok b ↔ ∃ a, x = .ok a ∧ f a = .ok b := by
  cases x with
  | error e => simp
  | ok a => simp

theorem ifree_idm (fuel : Nat) (idm idm2 : idaemon_t) (s s2 : Sys)
    (h : ifree fuel idm s = .ok (idm2, s2)) :
    idm2 = { idm with icache := { idm.icache with itype := I_INVALID } } := by
  unfold ifree at h
  simp only [bind_eq_ok] at h
  obtain ⟨⟨allb, s3⟩, _, s4, _, ⟨blk, ch⟩, _, dead, _, ⟨allb2, s5⟩, _, s6, _, s7, _, h8⟩ := h
  simp only [Except.ok.injEq, Prod.mk.injEq] at h8
  exact h8.1.symm

/-- C7.  A file whose indirect block 66 points to data block 67: `offsetblk` resolves offset
5120 to block 67, and after `ifree` the bitmap byte of blocks 64 to 71 is `8`: the bits of the
inode block 64, the direct block 65 and the indirect block 66 are clear, the bit of data block
67 is still set. -/
theorem ifree_keeps_indirect_data :
    observe (offsetblk bigIdm bigSys 5120 false) (fun r => r.1) = some 67 ∧
      (bufdata bigSys 2 0).val = 15 ∧
      observe (ifree 4 bigIdm bigSys) (fun r => (bufdata r.2 2 0).val) = some 8 := by
  decide!

/-- C8.  On the root directory of the example file system, `Insert` of a 14-byte name followed
by `Insert` of a 15-byte name with the same first 14 bytes: both requests are answered with
error 0, and slots 2 and 3 of the directory block then both hold the 14-byte name. -/
theorem insert_long_name_duplicates :
    observe (insertTwice rootIdm fsSys { insert_name := name14, insert_priv := 260 }
        { insert_name := name15, insert_priv := 260 })
      (fun r => (servedErr r.1.1, servedErr r.1.2, (filename (bufdata r.2.2 65) 2).toOption,
        (filename (bufdata r.2.2 65) 3).toOption)) =
      some (some 0, some 0, some name14, some name14) := by
  decide!


/-! ## Inversion of the primitive steps -/

theorem liftE_eq_ok {α : Type} (s : Sys) (e : Except String α) (a : α) :
    liftE s e = .ok a ↔ e = .ok a := by
  cases e <;> simp [liftE]

theorem bread_ok {s s2 : Sys} {b : Int} (h : bread s b = .ok s2) :
    0 ≤ b ∧ b < 2 ^ 31 ∧ s.given b = false ∧ s2 = breadSt s b := by
  unfold bread at h
  by_cases h1 : b < 0
  · rw [if_pos h1] at h; cases h
  rw [if_neg h1] at h
  cases hg : s.given b
  · rw [hg] at h
    simp only [Bool.false_eq_true, if_false] at h
    by_cases h2 : b ≥ 2 ^ 31
    · rw [if_pos h2] at h; cases h
    rw [if_neg h2] at h
    simp only [Except.ok.injEq] at h
    exact ⟨by omega, by omega, rfl, h.symm⟩
  · rw [hg] at h
    simp only [if_true] at h
    cases h

theorem brelse_ok {s s2 : Sys} {b : Int} (h : brelse s b = .ok s2) :
    s.given b = true ∧ s2 = brelseSt s b := by
  unfold brelse at h
  by_cases h1 : b < 0
  · rw [if_pos h1] at h; cases h
  rw [if_neg h1] at h
  cases hg : s.given b
  · rw [hg] at h
    simp only [Bool.not_false, if_true] at h
    cases h
  · rw [hg] at h
    simp only [Bool.not_true, Bool.false_eq_true, if_false, Except.ok.injEq] at h
    exact ⟨rfl, h.symm⟩

theorem breadSt_eq (s : Sys) (b : Int) :
    breadSt s b = setGiven s (Function.update s.given b true) := rfl

theorem brelseSt_eq (s : Sys) (b : Int) :
    brelseSt s b = setGiven s (Function.update s.given b false) := rfl

@[simp] theorem setGiven_given (s : Sys) (g : Int → Bool) : (setGiven s g).given = g := rfl

@[simp] theorem setGiven_setGiven (s : Sys) (g g2 : Int → Bool) :
    setGiven (setGiven s g) g2 = setGiven s g2 := rfl

@[simp] theorem setGiven_self (s : Sys) : setGiven s s.given = s := rfl

@[simp] theorem bufdata_setGiven (s : Sys) (g : Int → Bool) :
    bufdata (setGiven s g) = bufdata s := rfl

@[simp] theorem setGiven_superb_start (s : Sys) (g : Int → Bool) :
    (setGiven s g).superb_start = s.superb_start := rfl

@[simp] theorem setGiven_free_start (s : Sys) (g : Int → Bool) :
    (setGiven s g).free_start = s.free_start := rfl

@[simp] theorem setGiven_free_len (s : Sys) (g : Int → Bool) :
    (setGiven s g).free_len = s.free_len := rfl

@[simp] theorem setGiven_usable_start (s : Sys) (g : Int → Bool) :
    (setGiven s g).usable_start = s.usable_start := rfl

@[simp] theorem setGiven_ifreeblk (s : Sys) (g : Int → Bool) :
    (setGiven s g).ifreeblk = s.ifreeblk := rfl

@[simp] theorem setGiven_ifreeoff (s : Sys) (g : Int → Bool) :
    (setGiven s g).ifreeoff = s.ifreeoff := rfl

@[simp] theorem setGiven_logblks (s : Sys) (g : Int → Bool) :
    (setGiven s g).logblks = s.logblks := rfl

@[simp] theorem setGiven_loglen (s : Sys) (g : Int → Bool) :
    (setGiven s g).loglen = s.loglen := rfl

theorem setdata_setGiven (s : Sys) (g : Int → Bool) (b : Int) (d : Block) :
    setdata (setGiven s g) b d = setGiven (setdata s b d) g := rfl

theorem consts_refl (s : Sys) : Consts s s :=
  ⟨Eq.refl _, Eq.refl _, Eq.refl _, Eq.refl _, Eq.refl _, Eq.refl _⟩

theorem consts_trans {s s2 s3 : Sys} (h1 : Consts s s2) (h2 : Consts s2 s3) : Consts s s3 :=
  ⟨h2.superb.trans h1.superb, h2.fst.trans h1.fst, h2.flen.trans h1.flen,
    h2.usable.trans h1.usable, h2.ifb.trans h1.ifb, h2.ifo.trans h1.ifo⟩

theorem consts_symm {s s2 : Sys} (h1 : Consts s s2) : Consts s2 s :=
  ⟨h1.superb.symm, h1.fst.symm, h1.flen.symm, h1.usable.symm, h1.ifb.symm, h1.ifo.symm⟩

theorem consts_setGiven (s : Sys) (g : Int → Bool) : Consts s (setGiven s g) :=
  ⟨rfl, rfl, rfl, rfl, rfl, rfl⟩

theorem consts_setdata (s : Sys) (b : Int) (d : Block) : Consts s (setdata s b d) :=
  ⟨rfl, rfl, rfl, rfl, rfl, rfl⟩

theorem consts_breadSt (s : Sys) (b : Int) : Consts s (breadSt s b) :=
  ⟨rfl, rfl, rfl, rfl, rfl, rfl⟩

theorem consts_brelseSt (s : Sys) (b : Int) : Consts s (brelseSt s b) :=
  ⟨rfl, rfl, rfl, rfl, rfl, rfl⟩

theorem meta_refl (idm : idaemon_t) : Meta idm idm :=
  ⟨Eq.refl _, Eq.refl _, Eq.refl _, Eq.refl _, Eq.refl _, Eq.refl _, Eq.refl _, Eq.refl _,
    Eq.refl _⟩

theorem meta_trans {a b c : idaemon_t} (h1 : Meta a b) (h2 : Meta b c) : Meta a c :=
  ⟨h2.priv.trans h1.priv, h2.blkno.trans h1.blkno, h2.ioff.trans h1.ioff,
    h2.memref.trans h1.memref, h2.itype.trans h1.itype, h2.links.trans h1.links,
    h2.size.trans h1.size, h2.major.trans h1.major, h2.minor.trans h1.minor⟩

/-- What a successful `log_write` changes: the dirty flag and the list of logged blocks. -/
theorem log_write_ok {s s2 : Sys} {b : Int} (h : log_write s b = .ok s2) :
    bufdata s2 = bufdata s ∧ s2.given = s.given ∧ Consts s s2 ∧ s2.loglen = s.loglen ∧
      (∀ x, x ∈ s.logblks ∨ x = b ↔ x ∈ s2.logblks) := by
  unfold log_write log_append at h
  have hd : bufdata { s with blocks := Function.update s.blocks b ⟨bufdata s b, true⟩ } =
      bufdata s := by
    funext x
    unfold bufdata
    by_cases hx : x = b
    · subst hx; simp
    · simp [Function.update_noteq hx]
  split at h
  · rename_i hmem
    simp only [Except.ok.injEq] at h
    subst h
    refine ⟨hd, rfl, ⟨rfl, rfl, rfl, rfl, rfl, rfl⟩, rfl, ?_⟩
    intro x
    constructor
    · rintro (hx | hx)
      · exact hx
      · subst hx; exact hmem
    · intro hx; exact Or.inl hx
  · split at h
    · cases h
    · simp only [Except.ok.injEq] at h
      subst h
      refine ⟨hd, rfl, ⟨rfl, rfl, rfl, rfl, rfl, rfl⟩, rfl, ?_⟩
      intro x
      simp [List.mem_append]

/-! ## Bits of the free map -/

theorem freebit_loop_ok (b : Byte) : ∀ n m r, freebit_loop b n m = .ok r →
    m ≤ r ∧ r < m + n ∧ bitset b r = false := by
  intro n
  induction n with
  | zero => intro m r h; cases h
  | succ n ih =>
    intro m r h
    unfold freebit_loop at h
    split at h
    · rename_i hz
      simp only [Except.ok.injEq] at h
      subst h
      refine ⟨le_refl _, by omega, ?_⟩
      unfold bitset
      rw [Nat.one_shiftLeft] at hz
      have h1 := Nat.testBit_and (2 ^ m) b.val m
      rw [hz, Nat.zero_testBit, Nat.testBit_two_pow_self] at h1
      simpa using h1.symm
    · obtain ⟨h1, h2, h3⟩ := ih (m + 1) r h
      exact ⟨by omega, by omega, h3⟩

theorem bitset_setbit (c : Byte) (bit m : Nat) (hb : bit < 8) :
    bitset (setbit c bit) m = (decide (bit = m) || bitset c m) := by
  unfold bitset setbit
  have h1 : c.val ||| 1 <<< bit < 2 ^ 8 := by
    apply Nat.or_lt_two_pow
    · exact c.isLt
    · rw [Nat.one_shiftLeft]
      exact Nat.pow_lt_pow_right (by decide) hb
  have h2 : (c.val ||| 1 <<< bit) % 256 = c.val ||| 1 <<< bit := Nat.mod_eq_of_lt h1
  show ((c.val ||| 1 <<< bit) % 256).testBit m = _
  rw [h2, Nat.testBit_or, Nat.one_shiftLeft, Nat.testBit_two_pow]
  exact Bool.or_comm _ _

theorem balloc1_bytes_ok (d : Block) : ∀ n idx oct bit,
    balloc1_bytes d n idx = .ok (some (oct, bit)) →
    idx ≤ oct ∧ oct < idx + n ∧ bit < 8 ∧ bitset (d oct) bit = false := by
  intro n
  induction n with
  | zero => intro idx oct bit h; cases h
  | succ n ih =>
    intro idx oct bit h
    unfold balloc1_bytes at h
    split at h
    · cases hf : freebit (d idx) with
      | error e => rw [hf] at h; cases h
      | ok r =>
        rw [hf] at h
        simp only [ok_bind, Except.ok.injEq, Option.some.injEq, Prod.mk.injEq] at h
        obtain ⟨rfl, rfl⟩ := h
        obtain ⟨_, h2, h3⟩ := freebit_loop_ok _ _ _ _ hf
        exact ⟨le_refl _, by omega, by omega, h3⟩
    · obtain ⟨h1, h2, h3, h4⟩ := ih (idx + 1) oct bit h
      exact ⟨by omega, by omega, h3, h4⟩

/-! ## The allocator -/

theorem balloc1_loop_ok (fst : Int) : ∀ (n : Nat) (i : Int) (blk : Option Int) (s : Sys)
    (i2 : Int) (oct bit : Nat) (b2 : Int) (s2 : Sys) (g : Int → Bool),
    balloc1_loop fst n i blk s = .ok ((some (i2, oct, bit), some b2), s2) →
    s.given = (match blk with
      | none => g
      | some bp => Function.update g bp true) →
    (∀ bp, blk = some bp → g bp = false) →
    b2 = fst + i2 ∧ i ≤ i2 ∧ i2 < i + n ∧ oct < 512 ∧ bit < 8 ∧
      bitset (bufdata s b2 oct) bit = false ∧ g b2 = false ∧ 0 ≤ b2 ∧ b2 < 2 ^ 31 ∧
      s2 = setGiven s (Function.update g b2 true) := by
  intro n
  induction n with
  | zero => intro i blk s i2 oct bit b2 s2 g h; cases h
  | succ n ih =>
    intro i blk s i2 oct bit b2 s2 g h hgv hgb
    unfold balloc1_loop at h
    simp only [bind_eq_ok] at h
    obtain ⟨s3, h3, s4, h4, r, h5, h6⟩ := h
    have hs3 : s3 = setGiven s g := by
      cases blk with
      | none =>
        simp only [Except.ok.injEq] at h3
        subst h3
        simp only at hgv
        rw [← hgv]; rfl
      | some bp =>
        simp only at h3 hgv
        obtain ⟨_, h3b⟩ := brelse_ok h3
        rw [h3b, brelseSt_eq, hgv, given_release g bp (hgb bp rfl)]
    subst hs3
    obtain ⟨hb0, hb1, hb2, hb3⟩ := bread_ok h4
    subst hb3
    rw [liftE_eq_ok] at h5
    simp only [breadSt_eq, setGiven_setGiven, setGiven_given, bufdata_setGiven] at h5 h6 hb2
    cases r with
    | some ob =>
      obtain ⟨o, b⟩ := ob
      simp only [Except.ok.injEq, Prod.mk.injEq, Option.some.injEq] at h6
      obtain ⟨⟨⟨rfl, rfl, rfl⟩, rfl⟩, rfl⟩ := h6
      obtain ⟨_, h52, h53, h54⟩ := balloc1_bytes_ok _ _ _ _ _ h5
      exact ⟨rfl, le_refl _, by omega, by omega, h53, h54, hb2, hb0, hb1, rfl⟩
    | none =>
      simp only at h6
      have := ih (i + 1) (some (fst + i)) _ i2 oct bit b2 s2 g h6 rfl
        (by intro bp hbp; simp only [Option.some.injEq] at hbp; subst hbp; exact hb2)
      obtain ⟨h1, h2, h3, h4, h5', h6', h7, h8, h9, h10⟩ := this
      refine ⟨h1, by omega, by omega, h4, h5', ?_, h7, h8, h9, ?_⟩
      · simpa using h6'
      · simpa using h10

/-- What a successful `balloc` does: it hands out a block that was free, marks it in the free
map and changes nothing else that the inode layer reads. -/
theorem balloc_ok {s s2 : Sys} {b : Int} (h : balloc s = .ok (b, s2)) (hG : Geom s) :
    Free s b ∧ Consts s s2 ∧ s2.given = s.given ∧
      (∀ x, s.usable_start ≤ x → bufdata s2 x = bufdata s x) ∧
      (∀ x, InMap s x → used s2 x = (decide (x = b) || used s x)) := by
  unfold balloc balloc1 at h
  split at h
  · cases h
  simp only [bind_eq_ok] at h
  obtain ⟨⟨⟨found, blk⟩, s3⟩, h1, h2⟩ := h
  cases found with
  | none => cases h2
  | some f =>
    obtain ⟨i2, oct, bit⟩ := f
    cases blk with
    | none => cases h2
    | some b2 =>
      simp only [bind_eq_ok] at h2
      obtain ⟨s5, h5, s6, h6, h7⟩ := h2
      obtain ⟨e1, e2, e3, e4, e5, e6, e7, e8, e9, e10⟩ :=
        balloc1_loop_ok _ _ _ _ _ _ _ _ _ _ s.given h1 rfl (by intro bp hbp; cases hbp)
      subst e10
      obtain ⟨hd5, hg5, hc5, _, _⟩ := log_write_ok h5
      obtain ⟨_, h6b⟩ := brelse_ok h6
      subst h6b
      simp only [Except.ok.injEq, Prod.mk.injEq] at h7
      obtain ⟨hb, rfl⟩ := h7
      simp only [brelseSt_usable_start, hc5.usable, setdata_usable_start,
        setGiven_usable_start] at hb
      have hfl := hG.len_nonneg
      have hfb := hG.free_below
      have hdata : bufdata (brelseSt s5 b2) = Function.update (bufdata s) b2
          (Function.update (bufdata s b2) oct (setbit (bufdata s b2 oct) bit)) := by
        rw [bufdata_brelseSt, hd5, bufdata_setdata]
        rfl
      have hi2 : 0 ≤ i2 := e2
      have hi3 : i2 < s.free_len := by omega
      have hnb : (b - s.usable_start).toNat = i2.toNat * 4096 + oct * 8 + bit := by omega
      refine ⟨⟨⟨by omega, by omega⟩, ?_⟩, ?_, ?_, ?_, ?_⟩
      · unfold used
        rw [hnb]
        have q1 : (i2.toNat * 4096 + oct * 8 + bit) / 4096 = i2.toNat := by omega
        have q2 : (i2.toNat * 4096 + oct * 8 + bit) % 4096 / 8 = oct := by omega
        have q3 : (i2.toNat * 4096 + oct * 8 + bit) % 8 = bit := by omega
        rw [q1, q2, q3]
        have q4 : s.free_start + ((i2.toNat : Nat) : Int) = b2 := by omega
        rw [q4]
        exact e6
      · exact ⟨hc5.superb, hc5.fst, hc5.flen, hc5.usable, hc5.ifb, hc5.ifo⟩
      · rw [brelseSt_given, hg5]
        simp only [setdata_given, setGiven_given]
        exact given_release s.given b2 e7
      · intro x hx
        rw [hdata, Function.update_noteq (by omega)]
      · intro x hx
        obtain ⟨hx1, hx2⟩ := hx
        unfold used
        simp only [brelseSt_usable_start, brelseSt_free_start, hc5.usable, hc5.fst,
          setdata_usable_start, setGiven_usable_start, setdata_free_start,
          setGiven_free_start, hdata]
        have hxb : x = b ↔ (x - s.usable_start).toNat = i2.toNat * 4096 + oct * 8 + bit := by
          omega
        generalize (x - s.usable_start).toNat = nx at hxb ⊢
        by_cases hq : nx / 4096 = i2.toNat
        · have q4 : s.free_start + ((nx / 4096 : Nat) : Int) = b2 := by omega
          rw [q4, Function.update_same]
          by_cases hq2 : nx % 4096 / 8 = oct
          · rw [hq2, Function.update_same, bitset_setbit _ _ _ e5]
            congr 1
            apply decide_eq_decide.mpr
            rw [hxb]
            omega
          · rw [Function.update_noteq hq2]
            have : x ≠ b := by
              rw [Ne, hxb]; omega
            simp [this]
        · have q4 : s.free_start + ((nx / 4096 : Nat) : Int) ≠ b2 := by omega
          rw [Function.update_noteq q4]
          have : x ≠ b := by
            rw [Ne, hxb]; omega
          simp [this]

/-! ## Slots of indirect blocks -/

theorem leval_zeroBlock : ∀ (n off : Nat), leval zeroBlock off n = 0 := by
  intro n
  induction n with
  | zero => intro off; rfl
  | succ n ih => intro off; simp [leval, ih, zeroBlock]

theorem toInt64_zero : toInt64 0 = 0 := by
  unfold toInt64
  simp

theorem rdb_zero (t : Nat) : rdb zeroBlock t = 0 := by
  unfold rdb
  rw [leval_zeroBlock, toInt64_zero]

theorem rdb_put8_same (d : Block) (t : Nat) (v : Int) (h1 : -2 ^ 63 ≤ v) (h2 : v < 2 ^ 63) :
    rdb (put8 d (t * 8) v) t = v := by
  unfold rdb
  rw [leval_put8_same]
  exact wrap64_eq v h1 h2

theorem rdb_put8_other (d : Block) (t t2 : Nat) (v : Int) (h : t2 ≠ t) :
    rdb (put8 d (t * 8) v) t2 = rdb d t2 := by
  unfold rdb
  rw [leval_put8_other]
  omega

theorem readn_rdb (d : Block) (i : Int) (h0 : 0 ≤ i) (h1 : i ≤ 63) :
    readn d 8 (i * 8) = .ok (rdb d i.toNat) := by
  rw [readn_eq d (i * 8) (by omega) (by omega)]
  unfold rdb
  have : (i * 8).toNat = i.toNat * 8 := by omega
  rw [this]

theorem writen_put8 (d : Block) (i v : Int) (h0 : 0 ≤ i) (h1 : i ≤ 63) :
    writen d 8 (i * 8) v = .ok (put8 d (i.toNat * 8) v) := by
  rw [writen_eq d (i * 8) v (by omega) (by omega)]
  have : (i * 8).toNat = i.toNat * 8 := by omega
  rw [this]

theorem readn_ok_range {d : Block} {off r : Int} (h : readn d 8 off = .ok r) :
    0 ≤ off ∧ off + 8 ≤ 512 := by
  unfold readn at h
  split at h
  · rename_i hc
    constructor
    · exact hc.1
    · have := hc.2
      simpa using this
  · cases h

/-! ## The chain of indirect blocks -/

theorem chainZ_zero (ic : icache_t) (s : Sys) (m : Nat) (h : chainZ ic s m = 0) :
    ∀ i, m ≤ i → chainZ ic s i = 0 := by
  intro i hi
  induction i with
  | zero =>
    have : m = 0 := by omega
    subst this; exact h
  | succ i ih =>
    by_cases hm : m = i + 1
    · subst hm; exact h
    · have := ih (by omega)
      simp only [chainZ, this, if_true]

theorem ptr_cpos (ic : icache_t) (s : Sys) (j : Nat) : ptr ic s (cpos j) = chainZ ic s j := by
  cases j with
  | zero => rfl
  | succ j => simp [cpos, ptr, slotZ, chainZ]

theorem cpos_inj {i j : Nat} (h : cpos i = cpos j) : i = j := by
  cases i <;> cases j <;> simp [cpos] at h ⊢
  exact h

theorem chain_inj {ic : icache_t} {s : Sys} (hwf : PtrWF ic s) {i j : Nat}
    (h0 : chainZ ic s i ≠ 0) (h : chainZ ic s i = chainZ ic s j) : i = j := by
  apply cpos_inj
  apply hwf.inj
  · rw [ptr_cpos]; exact h0
  · rw [ptr_cpos, ptr_cpos]; exact h

theorem chainZ_congr (ic ic2 : icache_t) (s s2 : Sys) (hi : ic2.indir = ic.indir)
    (hd : ∀ i, chainZ ic s i ≠ 0 → rd s2 (chainZ ic s i) 63 = rd s (chainZ ic s i) 63) :
    ∀ i, chainZ ic2 s2 i = chainZ ic s i := by
  intro i
  induction i with
  | zero => exact hi
  | succ i ih =>
    simp only [chainZ, ih]
    by_cases hz : chainZ ic s i = 0
    · simp [hz]
    · simp only [hz, if_false]
      exact hd i hz

theorem ptr_store_direct (ic : icache_t) (s s2 : Sys) (i : Nat) (v : Int) (hi : i < 10)
    (hd : ∀ j, chainZ ic s j ≠ 0 → bufdata s2 (chainZ ic s j) = bufdata s (chainZ ic s j)) :
    ∀ p, ptr { ic with addrs := Function.update ic.addrs i v } s2 p =
      if p = Pos.direct i then v else ptr ic s p := by
  have hch := chainZ_congr ic { ic with addrs := Function.update ic.addrs i v } s s2 rfl
    (by intro j hj; unfold rd; rw [hd j hj])
  intro p
  cases p with
  | direct k =>
    by_cases hk : k = i
    · subst hk; simp [ptr, hi]
    · have : Pos.direct k ≠ Pos.direct i := by simp [hk]
      simp only [ptr, this, if_false, Function.update_noteq hk]
  | root => simp [ptr]
  | slot j t =>
    have hne : Pos.slot j t ≠ Pos.direct i := by simp
    simp only [ptr, slotZ, hch, hne, if_false]
    by_cases hz : chainZ ic s j = 0
    · simp [hz]
    · simp only [hz, if_false]
      unfold rd
      rw [hd j hz]

theorem ptr_congr (ic ic2 : icache_t) (s s2 : Sys) (hi : ic2.indir = ic.indir)
    (ha : ic2.addrs = ic.addrs)
    (hd : ∀ j, chainZ ic s j ≠ 0 → bufdata s2 (chainZ ic s j) = bufdata s (chainZ ic s j)) :
    ∀ p, ptr ic2 s2 p = ptr ic s p := by
  have hch := chainZ_congr ic ic2 s s2 hi (by intro j hj; unfold rd; rw [hd j hj])
  intro p
  cases p with
  | direct k => simp [ptr, ha]
  | root => simp [ptr, hi]
  | slot j t =>
    simp only [ptr, slotZ, hch]
    by_cases hz : chainZ ic s j = 0
    · simp [hz]
    · simp only [hz, if_false]
      unfold rd
      rw [hd j hz]

theorem ptr_store_slot (ic : icache_t) (s s2 : Sys) (j t : Nat) (v : Int)
    (hc : chainZ ic s j ≠ 0) (ht : t < 63) (h1 : -2 ^ 63 ≤ v) (h2 : v < 2 ^ 63)
    (hdc : bufdata s2 (chainZ ic s j) = put8 (bufdata s (chainZ ic s j)) (t * 8) v)
    (hd : ∀ i, chainZ ic s i ≠ 0 → i ≠ j →
      bufdata s2 (chainZ ic s i) = bufdata s (chainZ ic s i)) :
    ∀ p, ptr ic s2 p = if p = Pos.slot j t then v else ptr ic s p := by
  have hch := chainZ_congr ic ic s s2 rfl (by
    intro i hi
    unfold rd
    by_cases hij : i = j
    · subst hij; rw [hdc, rdb_put8_other _ _ _ _ (by omega)]
    · rw [hd i hi hij])
  intro p
  cases p with
  | direct k => simp [ptr]
  | root => simp [ptr]
  | slot i t2 =>
    simp only [ptr, slotZ, hch]
    by_cases hz : chainZ ic s i = 0
    · have : i ≠ j := by intro h; subst h; exact hc hz
      simp [hz, this]
    · simp only [hz, if_false]
      unfold rd
      by_cases hij : i = j
      · subst hij
        rw [hdc]
        by_cases ht2 : t2 = t
        · subst ht2
          have : t2 < 64 := by omega
          simp [rdb_put8_same _ _ _ h1 h2, this]
        · have : Pos.slot i t2 ≠ Pos.slot i t := by simp [ht2]
          rw [rdb_put8_other _ _ _ _ ht2]
          simp only [this, if_false]
      · have : Pos.slot i t2 ≠ Pos.slot j t := by simp [hij]
        rw [hd i hz hij]
        simp only [this, if_false]

/-- A chain that gets a new, zero-filled last block `v` at level `m`. -/
theorem chain_extend (ic ic2 : icache_t) (s s2 : Sys) (m : Nat) (v : Int)
    (hlow : ∀ i, i ≤ m → chainZ ic2 s2 i = if i = m then v else chainZ ic s i)
    (hz : chainZ ic s m = 0) (hvz : bufdata s2 v = zeroBlock) :
    ∀ i, chainZ ic2 s2 i = if i = m then v else chainZ ic s i := by
  have hold := chainZ_zero ic s m hz
  have hnext : chainZ ic2 s2 (m + 1) = 0 := by
    simp only [chainZ]
    split
    · rfl
    · rw [hlow m (le_refl _)]
      simp only [if_true]
      unfold rd
      rw [hvz, rdb_zero]
  have hnew := chainZ_zero ic2 s2 (m + 1) hnext
  intro i
  by_cases hi : i ≤ m
  · exact hlow i hi
  · rw [hnew i (by omega), hold i (by omega)]
    have : i ≠ m := by omega
    simp [this]

theorem ptr_store_next (ic : icache_t) (s s2 : Sys) (j : Nat) (v : Int)
    (hc : chainZ ic s j ≠ 0) (hz : rd s (chainZ ic s j) 63 = 0)
    (h1 : -2 ^ 63 ≤ v) (h2 : v < 2 ^ 63)
    (hdc : bufdata s2 (chainZ ic s j) = put8 (bufdata s (chainZ ic s j)) (63 * 8) v)
    (hd : ∀ i, chainZ ic s i ≠ 0 → i ≠ j →
      bufdata s2 (chainZ ic s i) = bufdata s (chainZ ic s i))
    (hvz : bufdata s2 v = zeroBlock) :
    ∀ p, ptr ic s2 p = if p = Pos.slot j 63 then v else ptr ic s p := by
  have hzn : chainZ ic s (j + 1) = 0 := by
    simp only [chainZ, hc, if_false]
    exact hz
  have hlow0 : ∀ i, i ≤ j → chainZ ic s2 i = chainZ ic s i := by
    intro i
    induction i with
    | zero => intro _; rfl
    | succ i ih =>
      intro hi
      have hi2 := ih (by omega)
      simp only [chainZ, hi2]
      by_cases hzi : chainZ ic s i = 0
      · simp [hzi]
      · simp only [hzi, if_false]
        unfold rd
        rw [hd i hzi (by omega)]
  have hlow : ∀ i, i ≤ j + 1 → chainZ ic s2 i = if i = j + 1 then v else chainZ ic s i := by
    intro i hi
    by_cases hij : i = j + 1
    · subst hij
      simp only [chainZ, hlow0 j (le_refl _), hc, if_false, if_true]
      unfold rd
      rw [hdc, rdb_put8_same _ _ _ h1 h2]
    · simp only [hij, if_false]
      exact hlow0 i (by omega)
  have hch := chain_extend ic ic s s2 (j + 1) v hlow hzn hvz
  have hold := chainZ_zero ic s (j + 1) hzn
  intro p
  cases p with
  | direct k => simp [ptr]
  | root => simp [ptr]
  | slot i t =>
    simp only [ptr, slotZ, hch]
    by_cases ht : t < 64
    swap
    · have : Pos.slot i t ≠ Pos.slot j 63 := by
        intro h; injection h with _ h4; omega
      simp [ht, this]
    simp only [ht, if_true]
    by_cases hi : i ≤ j
    · have hne : i ≠ j + 1 := by omega
      simp only [hne, if_false]
      by_cases hzi : chainZ ic s i = 0
      · have : i ≠ j := by intro h; subst h; exact hc hzi
        simp [hzi, this]
      · simp only [hzi, if_false]
        unfold rd
        by_cases hij : i = j
        · subst hij
          rw [hdc]
          by_cases ht2 : t = 63
          · subst ht2
            rw [rdb_put8_same _ _ _ h1 h2]
            simp
          · have : Pos.slot i t ≠ Pos.slot i 63 := by simp [ht2]
            rw [rdb_put8_other _ _ _ _ ht2]
            simp only [this, if_false]
        · have : Pos.slot i t ≠ Pos.slot j 63 := by simp [hij]
          rw [hd i hzi hij]
          simp only [this, if_false]
    · have hne : Pos.slot i t ≠ Pos.slot j 63 := by
        intro h; injection h with h3 _; omega
      simp only [hne, if_false, hold i (by omega), if_true]
      by_cases hij : i = j + 1
      · subst hij
        simp only [if_true]
        split
        · rfl
        · unfold rd; rw [hvz, rdb_zero]
      · simp [hij]

theorem ptr_store_root (ic : icache_t) (s s2 : Sys) (v : Int) (hz : ic.indir = 0)
    (hvz : bufdata s2 v = zeroBlock) :
    ∀ p, ptr { ic with indir := v } s2 p = if p = Pos.root then v else ptr ic s p := by
  have hzn : chainZ ic s 0 = 0 := hz
  have hlow : ∀ i, i ≤ 0 → chainZ { ic with indir := v } s2 i =
      if i = 0 then v else chainZ ic s i := by
    intro i hi
    have : i = 0 := by omega
    subst this
    rfl
  have hch := chain_extend ic { ic with indir := v } s s2 0 v hlow hzn hvz
  have hold := chainZ_zero ic s 0 hzn
  intro p
  cases p with
  | direct k => simp [ptr]
  | root => simp [ptr]
  | slot i t =>
    have hne : Pos.slot i t ≠ Pos.root := by simp
    simp only [ptr, slotZ, hch, hne, if_false, hold i (Nat.zero_le _), if_true]
    by_cases ht : t < 64
    swap
    · simp [ht]
    simp only [ht, if_true]
    by_cases hi : i = 0
    · subst hi
      simp only [if_true]
      split
      · rfl
      · unfold rd; rw [hvz, rdb_zero]
    · simp [hi]

/-! ## Extensions of the block pointers of an inode -/

theorem geom_consts {s s2 : Sys} (hG : Geom s) (hc : Consts s s2) : Geom s2 :=
  ⟨by rw [hc.fst]; exact hG.free_pos,
   by rw [hc.fst, hc.flen, hc.usable]; exact hG.free_below,
   by rw [hc.flen]; exact hG.len_nonneg,
   by rw [hc.superb, hc.usable]; exact hG.super_below,
   by rw [hc.flen, hc.usable]; exact hG.range⟩

theorem inMap_consts {s s2 : Sys} (hc : Consts s s2) (x : Int) : InMap s2 x ↔ InMap s x := by
  unfold InMap
  rw [hc.usable, hc.flen]

theorem inMap_pos {s : Sys} (hG : Geom s) {x : Int} (hx : InMap s x) :
    0 < x ∧ x < 2 ^ 31 ∧ s.superb_start ≤ x ∧ s.free_start + s.free_len ≤ x := by
  have h1 := hG.free_pos
  have h2 := hG.free_below
  have h3 := hG.len_nonneg
  have h4 := hG.range
  have h5 := hG.super_below
  obtain ⟨h6, h7⟩ := hx
  refine ⟨by omega, by omega, by omega, by omega⟩

theorem ext_refl (ic : icache_t) (s : Sys) : Ext ic s ic s :=
  ⟨consts_refl s, fun _ _ => rfl, fun _ h1 h2 => absurd h1 h2, fun _ h => h,
    fun _ _ _ _ => rfl⟩

theorem ext_trans {ic ic2 ic3 : icache_t} {s s2 s3 : Sys} (hG : Geom s)
    (h1 : Ext ic s ic2 s2) (h2 : Ext ic2 s2 ic3 s3) : Ext ic s ic3 s3 := by
  refine ⟨consts_trans h1.consts h2.consts, ?_, ?_, ?_, ?_⟩
  · intro p hp
    have := h1.keep p hp
    rw [h2.keep p (by rw [this]; exact hp), this]
  · intro p hp hp3
    by_cases hp2 : ptr ic2 s2 p = 0
    · exact h1.mono _ (h2.fresh p hp2 hp3)
    · rw [h2.keep p hp2]
      exact h1.fresh p hp hp2
  · intro b hb
    exact h1.mono b (h2.mono b hb)
  · intro b hb hnf hch
    rw [← h1.data b hb hnf hch]
    apply h2.data
    · rw [h1.consts.usable]; exact hb
    · intro hf; exact hnf (h1.mono b hf)
    · intro j hj
      have e := ptr_cpos ic2 s2 j
      have e0 := ptr_cpos ic s j
      by_cases hz : ptr ic s (cpos j) = 0
      · by_cases hz2 : ptr ic2 s2 (cpos j) = 0
        · rw [← e, hz2] at hj
          have := hG.free_pos
          have := hG.free_below
          have := hG.len_nonneg
          omega
        · have := h1.fresh _ hz hz2
          rw [e, hj] at this
          exact hnf this
      · have := h1.keep _ hz
        rw [e, e0, hj] at this
        exact hch j this.symm

/-- One allocation: a block `b` that was free is marked in the free map and stored at a place
`pos` that kept no block. -/
theorem alloc_store {ic ic2 : icache_t} {s s3 : Sys} {b : Int} {pos : Pos}
    (hG : Geom s) (hwf : PtrWF ic s) (hfree : Free s b) (hc : Consts s s3)
    (hused : ∀ x, InMap s x → used s3 x = (decide (x = b) || used s x))
    (hdata : ∀ x, s.usable_start ≤ x → x ≠ b → (∀ j, chainZ ic s j ≠ x) →
      bufdata s3 x = bufdata s x)
    (hz : ptr ic s pos = 0)
    (hp : ∀ p, ptr ic2 s3 p = if p = pos then b else ptr ic s p) :
    Ext ic s ic2 s3 ∧ PtrWF ic2 s3 := by
  have hb0 := (inMap_pos hG hfree.1).1
  have hvalid : ∀ x, Valid s x → Valid s3 x := by
    intro x hx
    refine ⟨(inMap_consts hc x).mpr hx.1, ?_⟩
    rw [hused x hx.1, hx.2]
    simp
  have hnotb : ∀ p, ptr ic s p ≠ b := by
    intro p hpb
    have h0 : ptr ic s p ≠ 0 := by rw [hpb]; omega
    have := (hwf.valid p h0).2
    rw [hpb, hfree.2] at this
    cases this
  constructor
  · refine ⟨hc, ?_, ?_, ?_, ?_⟩
    · intro p hp0
      rw [hp p]
      have : p ≠ pos := by intro h; subst h; exact hp0 hz
      simp [this]
    · intro p hp0 hp3
      rw [hp p] at hp3 ⊢
      by_cases hpp : p = pos
      · simp only [hpp, if_true]; exact hfree
      · simp only [hpp, if_false] at hp3
        exact absurd hp0 hp3
    · intro x hx
      have hin := (inMap_consts hc x).mp hx.1
      refine ⟨hin, ?_⟩
      have := hx.2
      rw [hused x hin] at this
      simp only [Bool.or_eq_false_iff] at this
      exact this.2
    · intro x hx hnf hch
      apply hdata x hx _ hch
      intro hxb; subst hxb; exact hnf hfree
  · constructor
    · intro p hp0
      rw [hp p] at hp0 ⊢
      by_cases hpp : p = pos
      · simp only [hpp, if_true]
        refine ⟨(inMap_consts hc b).mpr hfree.1, ?_⟩
        rw [hused b hfree.1]
        simp
      · simp only [hpp, if_false] at hp0 ⊢
        exact hvalid _ (hwf.valid p hp0)
    · intro p q hp0 hpq
      rw [hp p] at hp0
      rw [hp p, hp q] at hpq
      by_cases hpp : p = pos
      · by_cases hqq : q = pos
        · rw [hpp, hqq]
        · simp only [hpp, if_true, hqq, if_false] at hpq
          exact absurd hpq.symm (hnotb q)
      · by_cases hqq : q = pos
        · simp only [hpp, if_false, hqq, if_true] at hpq
          exact absurd hpq (hnotb p)
        · simp only [hpp, if_false, hqq] at hpq hp0
          exact hwf.inj p q hp0 hpq

/-! ## The closures `zeroblock` and `ensureb` -/

theorem zeroblock_ok {s s2 : Sys} {b : Int} (h : zeroblock s b = .ok s2) :
    bufdata s2 = Function.update (bufdata s) b zeroBlock ∧ s2.given = s.given ∧
      Consts s s2 := by
  unfold zeroblock at h
  simp only [bind_eq_ok] at h
  obtain ⟨s3, h3, s4, h4, h5⟩ := h
  obtain ⟨_, _, hg, rfl⟩ := bread_ok h3
  obtain ⟨hd4, hg4, hc4, _, _⟩ := log_write_ok h4
  obtain ⟨_, rfl⟩ := brelse_ok h5
  refine ⟨?_, ?_, ?_⟩
  · rw [bufdata_brelseSt, hd4, bufdata_setdata, bufdata_breadSt]
  · rw [brelseSt_given, hg4, setdata_given, breadSt_given]
    exact given_release s.given b hg
  · exact ⟨hc4.superb, hc4.fst, hc4.flen, hc4.usable, hc4.ifb, hc4.ifo⟩

theorem used_congr {s s2 : Sys} (hc : Consts s s2) (hG : Geom s)
    (hd : ∀ x, x < s.usable_start → bufdata s2 x = bufdata s x) (x : Int) (hx : InMap s x) :
    used s2 x = used s x := by
  unfold used
  rw [hc.usable, hc.fst]
  have h2 := hG.free_below
  have h3 := hG.len_nonneg
  obtain ⟨h6, h7⟩ := hx
  rw [hd]
  omega

/-- A call of `ensureb` in writing mode either finds a block number or allocates a block. -/
theorem ensureb_ok {s s2 : Sys} {blkno b : Int} {dozero isnew : Bool} (hG : Geom s)
    (h : ensureb true s blkno dozero = .ok ((b, isnew), s2)) :
    (blkno ≠ 0 ∧ b = blkno ∧ isnew = false ∧ s2 = s) ∨
    (blkno = 0 ∧ isnew = true ∧ Free s b ∧ Consts s s2 ∧ s2.given = s.given ∧
      (∀ x, InMap s x → used s2 x = (decide (x = b) || used s x)) ∧
      (∀ x, s.usable_start ≤ x → x ≠ b → bufdata s2 x = bufdata s x) ∧
      (dozero = true → bufdata s2 b = zeroBlock)) := by
  unfold ensureb at h
  by_cases hb : blkno = 0
  · right
    subst hb
    cases dozero with
    | false =>
      simp only [Bool.not_true, Bool.false_or, ne_eq, not_true_eq_false, decide_False,
        Bool.false_eq_true, if_false, bind_eq_ok, ok_bind] at h
      obtain ⟨⟨nb, s1⟩, h1, h4⟩ := h
      simp only [Except.ok.injEq, Prod.mk.injEq] at h4
      obtain ⟨⟨rfl, rfl⟩, rfl⟩ := h4
      obtain ⟨hf, hc, hg, hd, hu⟩ := balloc_ok h1 hG
      exact ⟨rfl, rfl, hf, hc, hg, hu, fun x hx _ => hd x hx, fun hc => by cases hc⟩
    | true =>
      simp only [Bool.not_true, Bool.false_or, ne_eq, not_true_eq_false, decide_False,
        Bool.false_eq_true, if_false, if_true, bind_eq_ok] at h
      obtain ⟨⟨nb, s1⟩, h1, s3, h3, h4⟩ := h
      simp only [Except.ok.injEq, Prod.mk.injEq] at h4
      obtain ⟨⟨rfl, rfl⟩, rfl⟩ := h4
      obtain ⟨hf, hc, hg, hd, hu⟩ := balloc_ok h1 hG
      obtain ⟨hd3, hg3, hc3⟩ := zeroblock_ok h3
      have hG1 := geom_consts hG hc
      have hnb := inMap_pos hG hf.1
      refine ⟨rfl, rfl, hf, consts_trans hc hc3, hg3.trans hg, ?_, ?_, ?_⟩
      · intro x hx
        rw [← hu x hx]
        apply used_congr hc3 hG1 _ x ((inMap_consts hc x).mpr hx)
        intro y hy
        rw [hd3, Function.update_noteq]
        have := hf.1.1
        rw [hc.usable] at hy
        omega
      · intro x hx hxb
        rw [hd3, Function.update_noteq hxb]
        exact hd x hx
      · intro _
        rw [hd3, Function.update_same]
  · left
    simp only [Bool.not_true, Bool.false_or, ne_eq, hb, not_false_eq_true, decide_True,
      if_true, Except.ok.injEq, Prod.mk.injEq] at h
    obtain ⟨⟨rfl, rfl⟩, rfl⟩ := h
    exact ⟨hb, rfl, rfl, rfl⟩

/-! ## `offsetblk` in writing mode -/

theorem chain_usable {ic : icache_t} {s : Sys} (hwf : PtrWF ic s) {j : Nat}
    (h : chainZ ic s j ≠ 0) : s.usable_start ≤ chainZ ic s j := by
  have := hwf.valid (cpos j) (by rw [ptr_cpos]; exact h)
  rw [ptr_cpos] at this
  exact this.1.1

theorem ptr_direct_ne {ic : icache_t} {s : Sys} {k : Nat} (hk : k < 10) :
    ptr ic s (Pos.direct k) = ic.addrs k := by
  simp [ptr, hk]

theorem offsetblk_direct_ok : ∀ (n i : Nat) (idm : idaemon_t) (s : Sys) (idm2 : idaemon_t)
    (s2 : Sys), Geom s → PtrWF idm.icache s → i + n ≤ 10 →
    offsetblk_direct n i idm s = .ok (idm2, s2) →
    Ext idm.icache s idm2.icache s2 ∧ PtrWF idm2.icache s2 ∧ s2.given = s.given ∧
      Meta idm idm2 ∧ (∀ k, i ≤ k → k < i + n → ptr idm2.icache s2 (Pos.direct k) ≠ 0) := by
  intro n
  induction n with
  | zero =>
    intro i idm s idm2 s2 hG hwf hin h
    simp only [offsetblk_direct, Except.ok.injEq, Prod.mk.injEq] at h
    obtain ⟨rfl, rfl⟩ := h
    exact ⟨ext_refl _ _, hwf, rfl, meta_refl _, fun k h1 h2 => by omega⟩
  | succ n ih =>
    intro i idm s idm2 s2 hG hwf hin h
    unfold offsetblk_direct at h
    by_cases hz : idm.icache.addrs i ≠ 0
    · rw [if_pos hz] at h
      obtain ⟨e1, e2, e3, e4, e5⟩ := ih (i + 1) idm s idm2 s2 hG hwf (by omega) h
      refine ⟨e1, e2, e3, e4, ?_⟩
      intro k hk1 hk2
      by_cases hki : k = i
      · subst hki
        have h0 : ptr idm.icache s (Pos.direct k) ≠ 0 := by
          rw [ptr_direct_ne (by omega)]; exact hz
        rw [e1.keep _ h0]
        exact h0
      · exact e5 k (by omega) (by omega)
    · rw [if_neg hz] at h
      simp only [bind_eq_ok] at h
      obtain ⟨⟨b, s1⟩, h1, h2⟩ := h
      simp only at h2
      obtain ⟨hf, hc, hg, hd, hu⟩ := balloc_ok h1 hG
      have hz0 : idm.icache.addrs i = 0 := by
        by_contra hne; exact hz hne
      have hp := ptr_store_direct idm.icache s s1 i b (by omega)
        (fun j hj => hd _ (chain_usable hwf hj))
      obtain ⟨hext, hwf1⟩ := alloc_store hG hwf hf hc hu (fun x hx _ _ => hd x hx)
        (by rw [ptr_direct_ne (by omega)]; exact hz0) hp
      obtain ⟨e1, e2, e3, e4, e5⟩ := ih (i + 1) _ s1 idm2 s2 (geom_consts hG hc) hwf1
        (by omega) h2
      refine ⟨ext_trans hG hext e1, e2, e3.trans hg, ?_, ?_⟩
      · exact ⟨e4.priv, e4.blkno, e4.ioff, e4.memref, e4.itype, e4.links, e4.size, e4.major,
          e4.minor⟩
      · intro k hk1 hk2
        by_cases hki : k = i
        · subst hki
          have hb0 := (inMap_pos hG hf.1).1
          have h0 : ptr { idm.icache with addrs := Function.update idm.icache.addrs k b } s1
              (Pos.direct k) ≠ 0 := by
            rw [hp]; simp only [if_true]; omega
          rw [e1.keep _ h0]
          exact h0
        · exact e5 k (by omega) (by omega)

theorem ptr_slot_eq {ic : icache_t} {s : Sys} {j t : Nat} (hc : chainZ ic s j ≠ 0)
    (ht : t < 64) : ptr ic s (Pos.slot j t) = rd s (chainZ ic s j) t := by
  simp [ptr, slotZ, hc, ht]

theorem valid_ne_free {s : Sys} {x b : Int} (hx : Valid s x) (hb : Free s b) : x ≠ b := by
  intro h
  subst h
  have := hx.2
  rw [hb.2] at this
  cases this

theorem chain_valid {ic : icache_t} {s : Sys} (hwf : PtrWF ic s) {j : Nat}
    (h : chainZ ic s j ≠ 0) : Valid s (chainZ ic s j) := by
  have := hwf.valid (cpos j) (by rw [ptr_cpos]; exact h)
  rw [ptr_cpos] at this
  exact this

/-- One iteration of `ensureind` that allocates: slot `t` of the `j`-th indirect block gets
the new block. -/
theorem ensureind_step {ic : icache_t} {s s2 : Sys} {j t : Nat} {b : Int}
    (hG : Geom s) (hwf : PtrWF ic s) (hc : chainZ ic s j ≠ 0) (ht : t < 64)
    (hz : rd s (chainZ ic s j) t = 0) (hf : Free s b) (hcs : Consts s s2)
    (hu : ∀ x, InMap s x → used s2 x = (decide (x = b) || used s x))
    (hd : ∀ x, s.usable_start ≤ x → x ≠ b → bufdata s2 x = bufdata s x)
    (hzb : bufdata s2 b = zeroBlock) :
    Ext ic s ic (setdata s2 (chainZ ic s j) (put8 (bufdata s2 (chainZ ic s j)) (t * 8) b)) ∧
      PtrWF ic (setdata s2 (chainZ ic s j) (put8 (bufdata s2 (chainZ ic s j)) (t * 8) b)) ∧
      ptr ic (setdata s2 (chainZ ic s j) (put8 (bufdata s2 (chainZ ic s j)) (t * 8) b))
        (Pos.slot j t) = b := by
  have hcv := chain_valid hwf hc
  have hcb : chainZ ic s j ≠ b := valid_ne_free hcv hf
  have hbpos := inMap_pos hG hf.1
  have hdc0 : bufdata s2 (chainZ ic s j) = bufdata s (chainZ ic s j) := hd _ hcv.1.1 hcb
  have hdc : bufdata (setdata s2 (chainZ ic s j) (put8 (bufdata s2 (chainZ ic s j)) (t * 8) b))
      (chainZ ic s j) = put8 (bufdata s (chainZ ic s j)) (t * 8) b := by
    rw [bufdata_setdata, Function.update_same, hdc0]
  have hdo : ∀ x, x ≠ chainZ ic s j →
      bufdata (setdata s2 (chainZ ic s j) (put8 (bufdata s2 (chainZ ic s j)) (t * 8) b)) x =
        bufdata s2 x := by
    intro x hx
    rw [bufdata_setdata, Function.update_noteq hx]
  have hdch : ∀ i, chainZ ic s i ≠ 0 → i ≠ j →
      bufdata (setdata s2 (chainZ ic s j) (put8 (bufdata s2 (chainZ ic s j)) (t * 8) b))
        (chainZ ic s i) = bufdata s (chainZ ic s i) := by
    intro i hi hij
    have hne : chainZ ic s i ≠ chainZ ic s j := fun h => hij (chain_inj hwf hi h)
    rw [hdo _ hne]
    exact hd _ (chain_usable hwf hi) (valid_ne_free (chain_valid hwf hi) hf)
  have hp : ∀ p, ptr ic (setdata s2 (chainZ ic s j)
      (put8 (bufdata s2 (chainZ ic s j)) (t * 8) b)) p =
      if p = Pos.slot j t then b else ptr ic s p := by
    by_cases ht63 : t = 63
    · subst ht63
      apply ptr_store_next ic s _ j b hc hz (by omega) (by omega) hdc hdch
      rw [hdo _ (Ne.symm hcb)]
      exact hzb
    · exact ptr_store_slot ic s _ j t b hc (by omega) (by omega) (by omega) hdc hdch
  have hcs3 : Consts s (setdata s2 (chainZ ic s j)
      (put8 (bufdata s2 (chainZ ic s j)) (t * 8) b)) :=
    consts_trans hcs (consts_setdata _ _ _)
  obtain ⟨hext, hwf3⟩ := alloc_store hG hwf hf hcs3 (by
      intro x hx
      rw [← hu x hx]
      apply used_congr (consts_setdata _ _ _) (geom_consts hG hcs) _ x
        ((inMap_consts hcs x).mpr hx)
      intro y hy
      apply hdo
      rw [hcs.usable] at hy
      have := hcv.1.1
      omega)
    (by
      intro x hx hxb hch
      rw [hdo x (fun h => hch j h.symm)]
      exact hd x hx hxb)
    (by rw [ptr_slot_eq hc ht]; exact hz) hp
  refine ⟨hext, hwf3, ?_⟩
  rw [hp]
  simp

theorem ensureind_loop_ok (ic : icache_t) (j : Nat) : ∀ (n i : Nat) (added : Bool) (s : Sys)
    (c : Int) (added2 : Bool) (s2 : Sys), Geom s → PtrWF ic s → chainZ ic s j ≠ 0 →
    c = chainZ ic s j → i + n ≤ 64 →
    ensureind_loop true c n (i : Int) added s = .ok (added2, s2) →
    Ext ic s ic s2 ∧ PtrWF ic s2 ∧ s2.given = s.given ∧
      (∀ t, i ≤ t → t < i + n → ptr ic s2 (Pos.slot j t) ≠ 0) := by
  intro n
  induction n with
  | zero =>
    intro i added s c added2 s2 hG hwf hc hcc hin h
    simp only [ensureind_loop, Except.ok.injEq, Prod.mk.injEq] at h
    obtain ⟨_, rfl⟩ := h
    exact ⟨ext_refl _ _, hwf, rfl, fun t h1 h2 => by omega⟩
  | succ n ih =>
    intro i added s c added2 s2 hG hwf hc hcc hin h
    unfold ensureind_loop at h
    simp only [bind_eq_ok] at h
    obtain ⟨blkn, h1, ⟨⟨b, isnew⟩, s1⟩, h2, h3⟩ := h
    rw [liftE_eq_ok, readn_rdb _ _ (by omega) (by omega)] at h1
    simp only [Except.ok.injEq, Int.toNat_ofNat] at h1
    have hcast : ((i : Int) + 1) = ((i + 1 : Nat) : Int) := by push_cast; rfl
    rw [hcast] at h3
    subst hcc
    rcases ensureb_ok hG h2 with ⟨hb0, rfl, rfl, rfl⟩ | ⟨hb0, rfl, hf, hcs, hg, hu, hd, hzb⟩
    · simp only [Bool.false_eq_true, if_false] at h3
      obtain ⟨e1, e2, e3, e4⟩ := ih (i + 1) added s1 _ added2 s2 hG hwf hc rfl (by omega) h3
      refine ⟨e1, e2, e3, ?_⟩
      intro t ht1 ht2
      by_cases hti : t = i
      · subst hti
        have h0 : ptr ic s1 (Pos.slot j t) ≠ 0 := by
          rw [ptr_slot_eq hc (by omega)]
          show rdb (bufdata s1 (chainZ ic s1 j)) t ≠ 0
          rw [h1]; exact hb0
        rw [e1.keep _ h0]
        exact h0
      · exact e4 t (by omega) (by omega)
    · simp only [if_true, bind_eq_ok] at h3
      obtain ⟨d, h4, h5⟩ := h3
      rw [liftE_eq_ok, writen_put8 _ _ _ (by omega) (by omega)] at h4
      simp only [Except.ok.injEq, Int.toNat_ofNat] at h4
      subst h4
      have hz : rd s (chainZ ic s j) i = 0 := by
        show rdb (bufdata s (chainZ ic s j)) i = 0
        rw [h1]; exact hb0
      obtain ⟨hext, hwf3, hpb⟩ := ensureind_step hG hwf hc (by omega) hz hf hcs hu hd
        (hzb rfl)
      have hc3 : chainZ ic (setdata s1 (chainZ ic s j)
          (put8 (bufdata s1 (chainZ ic s j)) (i * 8) b)) j = chainZ ic s j := by
        have := hext.keep (cpos j) (by rw [ptr_cpos]; exact hc)
        rw [ptr_cpos, ptr_cpos] at this
        exact this
      obtain ⟨e1, e2, e3, e4⟩ := ih (i + 1) true _ _ added2 s2
        (geom_consts hG hext.consts) hwf3 (by rw [hc3]; exact hc) hc3.symm (by omega) h5
      refine ⟨ext_trans hG hext e1, e2, ?_, ?_⟩
      · rw [e3, setdata_given, hg]
      · intro t ht1 ht2
        by_cases hti : t = i
        · subst hti
          have hbpos := inMap_pos hG hf.1
          have h0 : ptr ic (setdata s1 (chainZ ic s j)
              (put8 (bufdata s1 (chainZ ic s j)) (t * 8) b)) (Pos.slot j t) ≠ 0 := by
            rw [hpb]; omega
          rw [e1.keep _ h0]
          exact h0
        · exact e4 t (by omega) (by omega)

theorem goDiv_nonneg (a b : Int) (ha : 0 ≤ a) (hb : 0 ≤ b) : goDiv a b = a / b :=
  Int.tdiv_eq_ediv ha hb

theorem goMod_nonneg (a b : Int) (ha : 0 ≤ a) (hb : 0 ≤ b) : goMod a b = a % b :=
  Int.tmod_eq_emod ha hb

/-! ## States with the same block contents -/

theorem ptr_same {ic : icache_t} {s s2 : Sys} (hd : bufdata s2 = bufdata s) :
    ∀ p, ptr ic s2 p = ptr ic s p :=
  ptr_congr ic ic s s2 rfl rfl (fun j _ => by rw [hd])

theorem chainZ_same {ic : icache_t} {s s2 : Sys} (hd : bufdata s2 = bufdata s) (j : Nat) :
    chainZ ic s2 j = chainZ ic s j := by
  rw [← ptr_cpos, ← ptr_cpos, ptr_same hd]

theorem used_same {s s2 : Sys} (hd : bufdata s2 = bufdata s) (hc : Consts s s2) (x : Int) :
    used s2 x = used s x := by
  unfold used
  rw [hc.usable, hc.fst, hd]

theorem free_same {s s2 : Sys} (hd : bufdata s2 = bufdata s) (hc : Consts s s2) (x : Int) :
    Free s2 x ↔ Free s x := by
  unfold Free
  rw [inMap_consts hc, used_same hd hc]

theorem valid_same {s s2 : Sys} (hd : bufdata s2 = bufdata s) (hc : Consts s s2) (x : Int) :
    Valid s2 x ↔ Valid s x := by
  unfold Valid
  rw [inMap_consts hc, used_same hd hc]

theorem ptrWF_same {ic : icache_t} {s s2 : Sys} (hwf : PtrWF ic s)
    (hd : bufdata s2 = bufdata s) (hc : Consts s s2) : PtrWF ic s2 := by
  constructor
  · intro p hp
    rw [ptr_same hd] at hp ⊢
    exact (valid_same hd hc _).mpr (hwf.valid p hp)
  · intro p q hp hpq
    rw [ptr_same hd] at hp
    rw [ptr_same hd, ptr_same hd] at hpq
    exact hwf.inj p q hp hpq

theorem ext_same {ic : icache_t} {s s2 : Sys} (hd : bufdata s2 = bufdata s)
    (hc : Consts s s2) : Ext ic s ic s2 := by
  refine ⟨hc, ?_, ?_, ?_, ?_⟩
  · intro p _; exact ptr_same hd p
  · intro p h1 h2
    rw [ptr_same hd] at h2
    exact absurd h1 h2
  · intro b hb; exact (free_same hd hc b).mp hb
  · intro b _ _ _; rw [hd]

/-! ## The closure `ensureind` and the walk along the chain, in writing mode -/

theorem ensureind_ok (ic : icache_t) (j : Nat) {s s2 : Sys} {c idx : Int} (hG : Geom s)
    (hwf : PtrWF ic s) (hc : chainZ ic s j ≠ 0) (hcc : c = chainZ ic s j) (h0 : 0 ≤ idx)
    (h1 : idx ≤ 63) (h : ensureind true s c idx = .ok s2) :
    Ext ic s ic s2 ∧ PtrWF ic s2 ∧ s2.given = s.given ∧
      (∀ t, t ≤ idx.toNat → ptr ic s2 (Pos.slot j t) ≠ 0) := by
  unfold ensureind at h
  simp only [Bool.not_true, Bool.false_eq_true, if_false, bind_eq_ok] at h
  obtain ⟨⟨added, s1⟩, h2, h3⟩ := h
  have h2' : ensureind_loop true c (idx + 1).toNat ((0 : Nat) : Int) false s =
      .ok (added, s1) := h2
  obtain ⟨e1, e2, e3, e4⟩ := ensureind_loop_ok ic j _ 0 false s c added s1 hG hwf hc hcc
    (by omega) h2'
  cases added with
  | false =>
    simp only [Bool.false_eq_true, if_false, Except.ok.injEq] at h3
    subst h3
    exact ⟨e1, e2, e3, fun t ht => e4 t (by omega) (by omega)⟩
  | true =>
    simp only [if_true] at h3
    obtain ⟨hd, hg, hcs, _, _⟩ := log_write_ok h3
    refine ⟨ext_trans hG e1 (ext_same hd hcs), ptrWF_same e2 hd hcs, hg.trans e3, ?_⟩
    intro t ht
    rw [ptr_same hd]
    exact e4 t (by omega) (by omega)

theorem offsetblk_chain_ok (ic : icache_t) (g : Int → Bool) : ∀ (n j : Nat) (indno : Int)
    (s : Sys) (indno2 : Int) (s2 : Sys), Geom s → PtrWF ic s → indno = chainZ ic s j →
    indno ≠ 0 → s.given = Function.update g indno true → g indno = false →
    offsetblk_chain true n indno s = .ok (indno2, s2) →
    Ext ic s ic s2 ∧ PtrWF ic s2 ∧ indno2 = chainZ ic s2 (j + n) ∧ indno2 ≠ 0 ∧
      s2.given = Function.update g indno2 true ∧ g indno2 = false ∧
      (∀ i, j ≤ i → i < j + n → ∀ t, t < 64 → ptr ic s2 (Pos.slot i t) ≠ 0) := by
  intro n
  induction n with
  | zero =>
    intro j indno s indno2 s2 hG hwf hcc hc hgv hgi h
    simp only [offsetblk_chain, Except.ok.injEq, Prod.mk.injEq] at h
    obtain ⟨rfl, rfl⟩ := h
    exact ⟨ext_refl _ _, hwf, hcc, hc, hgv, hgi, fun i h1 h2 => by omega⟩
  | succ n ih =>
    intro j indno s indno2 s2 hG hwf hcc hc hgv hgi h
    unfold offsetblk_chain at h
    simp only [bind_eq_ok] at h
    obtain ⟨s1, h1, next, h2, s3, h3, s4, h4, h5⟩ := h
    have hcj : chainZ ic s j ≠ 0 := by rw [← hcc]; exact hc
    obtain ⟨e1, e2, e3, e4⟩ := ensureind_ok ic j hG hwf hcj hcc (by omega) (by omega) h1
    have hG1 := geom_consts hG e1.consts
    have hc1 : chainZ ic s1 j = indno := by
      have := e1.keep (cpos j) (by rw [ptr_cpos]; exact hcj)
      rw [ptr_cpos, ptr_cpos] at this
      rw [this, hcc]
    have hc1' : chainZ ic s1 j ≠ 0 := by rw [hc1]; exact hc
    rw [liftE_eq_ok, readn_rdb _ _ (by omega) (by omega)] at h2
    simp only [Except.ok.injEq] at h2
    have hnext : next = chainZ ic s1 (j + 1) := by
      rw [← h2]
      simp only [chainZ]
      rw [if_neg hc1', hc1]
      rfl
    have hnext0 : next ≠ 0 := by
      have := e4 63 (by omega)
      rw [ptr_slot_eq hc1' (by omega), hc1] at this
      rw [← h2]
      exact this
    obtain ⟨_, rfl⟩ := brelse_ok h3
    obtain ⟨_, _, hgn, rfl⟩ := bread_ok h4
    have hg3 : (brelseSt s1 indno).given = g := by
      rw [brelseSt_given, e3, hgv]
      exact given_release g indno hgi
    have hd4 : bufdata (breadSt (brelseSt s1 indno) next) = bufdata s1 := rfl
    have hcs4 : Consts s1 (breadSt (brelseSt s1 indno) next) :=
      ⟨rfl, rfl, rfl, rfl, rfl, rfl⟩
    obtain ⟨f1, f2, f3, f4, f5, f6, f7⟩ := ih (j + 1) next _ indno2 s2
      (geom_consts hG1 hcs4) (ptrWF_same e2 hd4 hcs4)
      (by rw [chainZ_same hd4]; exact hnext) hnext0
      (by rw [breadSt_given, hg3]) (by rw [hg3] at hgn; exact hgn) h5
    have hext4 : Ext ic s ic (breadSt (brelseSt s1 indno) next) :=
      ext_trans hG e1 (ext_same hd4 hcs4)
    refine ⟨ext_trans hG hext4 f1, f2, ?_, f4, f5, f6, ?_⟩
    · rw [f3]; congr 1; omega
    · intro i hi1 hi2 t ht
      by_cases hij : i = j
      · subst hij
        have h0 : ptr ic (breadSt (brelseSt s1 indno) next) (Pos.slot i t) ≠ 0 := by
          rw [ptr_same hd4]
          exact e4 t (by omega)
        rw [f1.keep _ h0]
        exact h0
      · exact f7 i (by omega) (by omega) t ht

theorem fblock_direct {ic : icache_t} {s : Sys} {k : Nat} (hk : k < 10) :
    fblock ic s k = ptr ic s (Pos.direct k) := by
  simp [fblock, fpos, hk]

theorem fblock_slot {ic : icache_t} {s : Sys} {k : Nat} (hk : 10 ≤ k) :
    fblock ic s k = ptr ic s (Pos.slot ((k - 10) / 63) ((k - 10) % 63)) := by
  have : ¬ k < 10 := by omega
  simp [fblock, fpos, this]

/-- The root of the chain of indirect blocks after `ensureb(idm.icache.indir, true)`. -/
theorem ensure_root {idm : idaemon_t} {s s2 : Sys} {b : Int} {isnew : Bool} (hG : Geom s)
    (hwf : PtrWF idm.icache s)
    (h : ensureb true s idm.icache.indir true = .ok ((b, isnew), s2)) :
    Ext idm.icache s
        (if isnew then { idm with icache := { idm.icache with indir := b } } else idm).icache
        s2 ∧
      PtrWF (if isnew then { idm with icache := { idm.icache with indir := b } }
        else idm).icache s2 ∧
      s2.given = s.given ∧
      Meta idm (if isnew then { idm with icache := { idm.icache with indir := b } } else idm) ∧
      b = chainZ (if isnew then { idm with icache := { idm.icache with indir := b } }
        else idm).icache s2 0 ∧ b ≠ 0 := by
  rcases ensureb_ok hG h with ⟨hb0, rfl, rfl, rfl⟩ | ⟨hb0, rfl, hf, hcs, hg, hu, hd, hzb⟩
  · exact ⟨ext_refl _ _, hwf, rfl, meta_refl _, rfl, hb0⟩
  · have hp := ptr_store_root idm.icache s s2 b hb0 (hzb rfl)
    obtain ⟨hext, hwf2⟩ := alloc_store hG hwf hf hcs hu (fun x hx hxb _ => hd x hx hxb)
      (by simp [ptr, hb0]) hp
    have hbpos := inMap_pos hG hf.1
    exact ⟨hext, hwf2, hg, ⟨rfl, rfl, rfl, rfl, rfl, rfl, rfl, rfl, rfl⟩, rfl, by omega⟩

/-- The function `offsetblk` in writing mode: the pointers of the inode are extended so that
every block up to the one of `off` exists, and the number of that block is returned. -/
theorem offsetblk_write_ok {idm idm2 : idaemon_t} {s s2 : Sys} {off blkn : Int} (hG : Geom s)
    (hwf : PtrWF idm.icache s) (hoff : 0 ≤ off)
    (h : offsetblk idm s off true = .ok (blkn, idm2, s2)) :
    Ext idm.icache s idm2.icache s2 ∧ PtrWF idm2.icache s2 ∧ s2.given = s.given ∧
      Meta idm idm2 ∧ blkn = fblock idm2.icache s2 (off / 512).toNat ∧
      (∀ k, k ≤ (off / 512).toNat → fblock idm2.icache s2 k ≠ 0) := by
  unfold offsetblk at h
  rw [goDiv_nonneg off 512 hoff (by omega)] at h
  simp only [if_true, bind_eq_ok, NIADDRS] at h
  obtain ⟨⟨idm1, s1⟩, h1, h2⟩ := h
  have hw : 0 ≤ off / 512 := by omega
  obtain ⟨d1, d2, d3, d4, d5⟩ := offsetblk_direct_ok _ 0 idm s idm1 s1 hG hwf (by
    split <;> omega) h1
  have hG1 := geom_consts hG d1.consts
  by_cases hbig : off / 512 ≥ 10
  · simp only [hbig, if_true, bind_eq_ok] at h2
    obtain ⟨⟨⟨b, isnew⟩, sA⟩, hA, sB, hB, ⟨ind2, sC⟩, hC, sD, hD, blk0, hE,
      ⟨⟨bl, isnew2⟩, sF⟩, hF, sG, hGG, sH, hH, hfin⟩ := h2
    simp only at hB hC hD hE hF hGG hH hfin
    rw [goDiv_nonneg _ 63 (by omega) (by omega)] at hC
    rw [goMod_nonneg _ 63 (by omega) (by omega)] at hD hE hGG
    obtain ⟨r1, r2, r3, r4, r5, r6⟩ := ensure_root hG1 d2 hA
    generalize hidmA : (if isnew = true then
      ({ idm1 with icache := { idm1.icache with indir := b } } : idaemon_t) else idm1) = idmA
      at r1 r2 r4 r5 hfin
    have hGA := geom_consts hG1 r1.consts
    obtain ⟨_, _, hgb, rfl⟩ := bread_ok hB
    have hdB : bufdata (breadSt sA b) = bufdata sA := rfl
    have hcB : Consts sA (breadSt sA b) := consts_breadSt _ _
    obtain ⟨c1, c2, c3, c4, c5, c6, c7⟩ := offsetblk_chain_ok idmA.icache sA.given _ 0 b _
      ind2 sC (geom_consts hGA hcB) (ptrWF_same r2 hdB hcB)
      (by rw [chainZ_same hdB]; exact r5) r6 rfl hgb hC
    have hGC := geom_consts (geom_consts hGA hcB) c1.consts
    have hm0 : 0 ≤ (off / 512 - 10) % 63 := Int.emod_nonneg _ (by omega)
    have hm1 : (off / 512 - 10) % 63 < 63 := Int.emod_lt_of_pos _ (by omega)
    have hcn : chainZ idmA.icache sC (0 + ((off / 512 - 10) / 63).toNat) ≠ 0 := by
      rw [← c3]; exact c4
    obtain ⟨e1, e2, e3, e4⟩ := ensureind_ok idmA.icache (0 + ((off / 512 - 10) / 63).toNat)
      hGC c2 hcn c3 hm0 (by omega) hD
    have hcD : chainZ idmA.icache sD (0 + ((off / 512 - 10) / 63).toNat) = ind2 := by
      have := e1.keep (cpos _) (by rw [ptr_cpos]; exact hcn)
      rw [ptr_cpos, ptr_cpos] at this
      rw [this, c3]
    have hcD0 : chainZ idmA.icache sD (0 + ((off / 512 - 10) / 63).toNat) ≠ 0 := by
      rw [hcD]; exact c4
    rw [liftE_eq_ok, readn_rdb _ _ hm0 (by omega)] at hE
    simp only [Except.ok.injEq] at hE
    have hblk0 : blk0 = ptr idmA.icache sD (Pos.slot (0 + ((off / 512 - 10) / 63).toNat)
        ((off / 512 - 10) % 63).toNat) := by
      rw [ptr_slot_eq hcD0 (by omega), hcD, ← hE]
      rfl
    have hblk0n : blk0 ≠ 0 := by
      rw [hblk0]; exact e4 _ (le_refl _)
    have hGD := geom_consts hGC e1.consts
    rcases ensureb_ok hGD hF with ⟨_, rfl, rfl, rfl⟩ | ⟨hb0, _⟩
    swap
    · exact absurd hb0 hblk0n
    simp only [Bool.false_eq_true, if_false, Except.ok.injEq] at hGG
    subst hGG
    obtain ⟨_, rfl⟩ := brelse_ok hH
    simp only [Except.ok.injEq, Prod.mk.injEq] at hfin
    obtain ⟨rfl, rfl, rfl⟩ := hfin
    have hdH : bufdata (brelseSt sF ind2) = bufdata sF := rfl
    have hcH : Consts sF (brelseSt sF ind2) := consts_brelseSt _ _
    have hextB : Ext idm.icache s idmA.icache (breadSt sA b) :=
      ext_trans hG (ext_trans hG d1 r1) (ext_same hdB hcB)
    have hextD : Ext idm.icache s idmA.icache sF := ext_trans hG (ext_trans hG hextB c1) e1
    have hextCH : Ext idmA.icache sC idmA.icache (brelseSt sF ind2) :=
      ext_trans hGC e1 (ext_same hdH hcH)
    have hext1H : Ext idm1.icache s1 idmA.icache (brelseSt sF ind2) :=
      ext_trans hG1 (ext_trans hG1 (ext_trans hG1 r1 (ext_same hdB hcB)) c1) hextCH
    have hk10 : 10 ≤ (off / 512).toNat := by omega
    have hkn : ((off / 512).toNat - 10) / 63 = 0 + ((off / 512 - 10) / 63).toNat := by omega
    have hkt : ((off / 512).toNat - 10) % 63 = ((off / 512 - 10) % 63).toNat := by omega
    refine ⟨ext_trans hG hextD (ext_same hdH hcH), ptrWF_same e2 hdH hcH, ?_,
      meta_trans d4 r4, ?_, ?_⟩
    · rw [brelseSt_given, e3, c5, given_release _ _ c6, r3, d3]
    · rw [fblock_slot hk10, ptr_same hdH, hkn, hkt]
      exact hblk0
    · intro k hk
      by_cases hk1 : k < 10
      · rw [fblock_direct hk1]
        have h0 := d5 k (Nat.zero_le _) (by
          have : ¬ (off / 512 + 1 > 10) → False := by omega
          split <;> omega)
        rw [hext1H.keep _ h0]
        exact h0
      · rw [fblock_slot (by omega)]
        by_cases hlev : (k - 10) / 63 < 0 + ((off / 512 - 10) / 63).toNat
        · have h0 := c7 ((k - 10) / 63) (Nat.zero_le _) hlev ((k - 10) % 63) (by omega)
          rw [hextCH.keep _ h0]
          exact h0
        · have hlev2 : (k - 10) / 63 = 0 + ((off / 512 - 10) / 63).toNat := by omega
          rw [ptr_same hdH, hlev2]
          apply e4
          omega
  · simp only [hbig, if_false] at h2
    have hneg : ¬ off / 512 < 0 := by omega
    simp only [hneg, if_false, Except.ok.injEq, Prod.mk.injEq] at h2
    obtain ⟨rfl, rfl, rfl⟩ := h2
    have hub : (if off / 512 + 1 > 10 then (10 : Int) else off / 512 + 1).toNat =
        (off / 512).toNat + 1 := by
      split <;> omega
    refine ⟨d1, d2, d3, d4, ?_, ?_⟩
    · rw [fblock_direct (by omega), ptr_direct_ne (by omega)]
    · intro k hk
      rw [fblock_direct (by omega)]
      exact d5 k (by omega) (by rw [hub]; omega)

/-! ## `offsetblk` and `blkslice` in reading mode -/

theorem ensureind_read (s : Sys) (c idx : Int) : ensureind false s c idx = .ok s := rfl

theorem ensureb_read (s : Sys) (b : Int) (z : Bool) :
    ensureb false s b z = .ok ((b, false), s) := rfl

theorem valid_range {s : Sys} (hG : Geom s) {x : Int} (hx : Valid s x) :
    0 ≤ x ∧ x < 2 ^ 31 ∧ s.superb_start ≤ x := by
  obtain ⟨h1, h2, h3, _⟩ := inMap_pos hG hx.1
  exact ⟨by omega, h2, h3⟩

theorem chainZ_ne_zero_of_le {ic : icache_t} {s : Sys} {i m : Nat}
    (h : chainZ ic s m ≠ 0) (hi : i ≤ m) : chainZ ic s i ≠ 0 := by
  intro hz
  exact h (chainZ_zero ic s i hz m hi)

theorem offsetblk_chain_read (ic : icache_t) (g : Int → Bool) : ∀ (n j : Nat) (indno : Int)
    (s : Sys), Geom s → PtrWF ic s → indno = chainZ ic s j → chainZ ic s (j + n) ≠ 0 →
    (∀ i, chainZ ic s i ≠ 0 → g (chainZ ic s i) = false) →
    s.given = Function.update g indno true →
    offsetblk_chain false n indno s =
      .ok (chainZ ic s (j + n), setGiven s (Function.update g (chainZ ic s (j + n)) true)) := by
  intro n
  induction n with
  | zero =>
    intro j indno s hG hwf hcc hcn hg hgv
    simp only [offsetblk_chain, Nat.add_zero, ← hcc, ← hgv, setGiven_self]
  | succ n ih =>
    intro j indno s hG hwf hcc hcn hg hgv
    have hcj : chainZ ic s j ≠ 0 := chainZ_ne_zero_of_le hcn (by omega)
    have hcj1 : chainZ ic s (j + 1) ≠ 0 := chainZ_ne_zero_of_le hcn (by omega)
    have hv := valid_range hG (chain_valid hwf hcj)
    have hv1 := valid_range hG (chain_valid hwf hcj1)
    have hnext : rdb (bufdata s indno) 63 = chainZ ic s (j + 1) := by
      simp only [chainZ]
      rw [if_neg hcj, ← hcc]
      rfl
    unfold offsetblk_chain
    rw [ensureind_read]
    simp only [ok_bind]
    rw [readn_rdb _ _ (by omega) (by omega)]
    simp only [liftE_ok, ok_bind]
    have h63 : Int.toNat 63 = 63 := rfl
    rw [h63, hnext]
    rw [brelse_eq s indno (by rw [hcc]; exact hv.1) (by rw [hgv]; simp)]
    simp only [ok_bind]
    have hg3 : (brelseSt s indno).given = g := by
      rw [brelseSt_given, hgv]
      exact given_release g indno (by rw [hcc]; exact hg j hcj)
    rw [bread_eq _ _ hv1.1 hv1.2.1 (by rw [hg3]; exact hg _ hcj1)]
    simp only [ok_bind]
    have hd4 : bufdata (breadSt (brelseSt s indno) (chainZ ic s (j + 1))) = bufdata s := rfl
    have hcs4 : Consts s (breadSt (brelseSt s indno) (chainZ ic s (j + 1))) :=
      ⟨rfl, rfl, rfl, rfl, rfl, rfl⟩
    have hch : ∀ i, chainZ ic (breadSt (brelseSt s indno) (chainZ ic s (j + 1))) i =
        chainZ ic s i := fun i => chainZ_same hd4 i
    rw [ih (j + 1) _ _ (geom_consts hG hcs4) (ptrWF_same hwf hd4 hcs4) (by rw [hch])
      (by rw [hch]; rw [show j + 1 + n = j + (n + 1) by omega]; exact hcn)
      (by intro i hi; rw [hch] at hi ⊢; exact hg i hi)
      (by rw [breadSt_given, hg3])]
    rw [hch, show j + 1 + n = j + (n + 1) by omega]
    rfl

theorem fblock_chain_ne {ic : icache_t} {s : Sys} {k : Nat} (hk : 10 ≤ k)
    (h : fblock ic s k ≠ 0) : chainZ ic s ((k - 10) / 63) ≠ 0 := by
  rw [fblock_slot hk] at h
  intro hz
  apply h
  simp [ptr, slotZ, hz]

/-- The function `offsetblk` in reading mode on a block that exists: the state is left as it
was. -/
theorem offsetblk_read {idm : idaemon_t} {s : Sys} {off : Int} (hG : Geom s)
    (hwf : PtrWF idm.icache s) (hoff : 0 ≤ off)
    (hk : fblock idm.icache s (off / 512).toNat ≠ 0)
    (hg : ∀ i, chainZ idm.icache s i ≠ 0 → s.given (chainZ idm.icache s i) = false) :
    offsetblk idm s off false = .ok (fblock idm.icache s (off / 512).toNat, idm, s) := by
  unfold offsetblk
  rw [goDiv_nonneg off 512 hoff (by omega)]
  simp only [Bool.false_eq_true, if_false, ok_bind, NIADDRS]
  have hw : 0 ≤ off / 512 := by omega
  by_cases hbig : off / 512 ≥ 10
  · simp only [hbig, if_true]
    have hk10 : 10 ≤ (off / 512).toNat := by omega
    have hcn := fblock_chain_ne hk10 hk
    have hc0 : chainZ idm.icache s 0 ≠ 0 := chainZ_ne_zero_of_le hcn (Nat.zero_le _)
    have hv0 := valid_range hG (chain_valid hwf hc0)
    have hvn := valid_range hG (chain_valid hwf hcn)
    have hkn : ((off / 512).toNat - 10) / 63 = 0 + ((off / 512 - 10) / 63).toNat := by omega
    have hkt : ((off / 512).toNat - 10) % 63 = ((off / 512 - 10) % 63).toNat := by omega
    have hm0 : 0 ≤ (off / 512 - 10) % 63 := Int.emod_nonneg _ (by omega)
    have hm1 : (off / 512 - 10) % 63 < 63 := Int.emod_lt_of_pos _ (by omega)
    rw [ensureb_read]
    simp only [ok_bind, Bool.false_eq_true, if_false]
    rw [goDiv_nonneg _ 63 (by omega) (by omega), goMod_nonneg _ 63 (by omega) (by omega)]
    have hi0 : idm.icache.indir = chainZ idm.icache s 0 := rfl
    rw [bread_eq _ _ (by rw [hi0]; exact hv0.1) (by rw [hi0]; exact hv0.2.1)
      (by rw [hi0]; exact hg 0 hc0)]
    simp only [ok_bind]
    have hdB : bufdata (breadSt s idm.icache.indir) = bufdata s := rfl
    have hcB : Consts s (breadSt s idm.icache.indir) := consts_breadSt _ _
    have hch : ∀ i, chainZ idm.icache (breadSt s idm.icache.indir) i =
        chainZ idm.icache s i := fun i => chainZ_same hdB i
    rw [offsetblk_chain_read idm.icache s.given _ 0 _ _ (geom_consts hG hcB)
      (ptrWF_same hwf hdB hcB) (by rw [hch]; rfl)
      (by rw [hch, ← hkn]; exact hcn)
      (by intro i hi; rw [hch] at hi ⊢; exact hg i hi) rfl]
    simp only [ok_bind, hch]
    rw [ensureind_read]
    simp only [ok_bind, bufdata_setGiven, bufdata_breadSt]
    rw [readn_rdb _ _ hm0 (by omega)]
    simp only [liftE_ok, ok_bind]
    rw [ensureb_read]
    simp only [ok_bind, Bool.false_eq_true, if_false]
    rw [← hkn]
    rw [brelse_eq _ _ hvn.1 (by simp)]
    simp only [ok_bind]
    have hfb : fblock idm.icache s (off / 512).toNat =
        rdb (bufdata s (chainZ idm.icache s (((off / 512).toNat - 10) / 63)))
          ((off / 512 - 10) % 63).toNat := by
      rw [fblock_slot hk10, ptr_slot_eq hcn (by omega), hkt]
      rfl
    rw [hfb]
    have hst : brelseSt (setGiven (breadSt s idm.icache.indir)
        (Function.update s.given (chainZ idm.icache s (((off / 512).toNat - 10) / 63)) true))
        (chainZ idm.icache s (((off / 512).toNat - 10) / 63)) = s := by
      rw [brelseSt_eq, setGiven_given, given_release _ _ (hg _ hcn)]
      rfl
    rw [hst]
  · simp only [hbig, if_false]
    have hneg : ¬ off / 512 < 0 := by omega
    simp only [hneg, if_false]
    rw [fblock_direct (by omega), ptr_direct_ne (by omega)]

theorem fblock_valid {ic : icache_t} {s : Sys} (hwf : PtrWF ic s) {k : Nat}
    (h : fblock ic s k ≠ 0) : Valid s (fblock ic s k) :=
  hwf.valid (fpos k) h

theorem quiet_chain {ic : icache_t} {s : Sys} (hwf : PtrWF ic s) (hq : Quiet s) :
    ∀ i, chainZ ic s i ≠ 0 → s.given (chainZ ic s i) = false :=
  fun _ hi => hq _ (chain_usable hwf hi)

/-- The function `blkslice` in reading mode on a block of the file that exists. -/
theorem blkslice_read {idm : idaemon_t} {s : Sys} {off : Int} (hG : Geom s)
    (hwf : PtrWF idm.icache s) (hoff : 0 ≤ off) (hlt : off ≤ idm.icache.size)
    (hk : fblock idm.icache s (off / 512).toNat ≠ 0)
    (hg : ∀ i, chainZ idm.icache s i ≠ 0 → s.given (chainZ idm.icache s i) = false)
    (hgb : s.given (fblock idm.icache s (off / 512).toNat) = false) :
    blkslice idm s off false =
      .ok ((fblock idm.icache s (off / 512).toNat, off % 512,
        if 512 - off % 512 > idm.icache.size - off then idm.icache.size - off
        else 512 - off % 512), idm, breadSt s (fblock idm.icache s (off / 512).toNat)) := by
  unfold blkslice
  rw [offsetblk_read hG hwf hoff hk hg]
  simp only [ok_bind]
  have hv := valid_range hG (fblock_valid hwf hk)
  have h1 : ¬ (fblock idm.icache s (off / 512).toNat < s.superb_start ∧
      idm.icache.size > 0) := by
    intro h; omega
  rw [if_neg h1, bread_eq _ _ hv.1 hv.2.1 hgb]
  simp only [ok_bind, Bool.not_false, true_and]
  rw [goMod_nonneg off 512 hoff (by omega)]
  have hm0 : 0 ≤ off % 512 := Int.emod_nonneg _ (by omega)
  have hm1 : off % 512 < 512 := Int.emod_lt_of_pos _ (by omega)
  rw [if_neg]
  split <;> omega

theorem fbytes_add (ic : icache_t) (s : Sys) (a m n : Nat) :
    fbytes ic s a (m + n) = fbytes ic s a m ++ fbytes ic s (a + m) n := by
  unfold fbytes
  rw [List.range_add, List.map_append, List.map_map]
  congr 1
  apply List.map_congr_left
  intro i _
  simp [Nat.add_assoc]

theorem fbytes_zero (ic : icache_t) (s : Sys) (a : Nat) : fbytes ic s a 0 = [] := rfl

theorem fbytes_length (ic : icache_t) (s : Sys) (a n : Nat) :
    (fbytes ic s a n).length = n := by
  simp [fbytes]

theorem readBytes_fbytes (ic : icache_t) (s : Sys) (a n : Nat) (h : n ≤ 512 - a % 512) :
    readBytes (bufdata s (fblock ic s (a / 512))) (a % 512) n = fbytes ic s a n := by
  unfold readBytes fbytes
  apply List.map_congr_left
  intro i hi
  rw [List.mem_range] at hi
  unfold fbyte
  have h1 : (a + i) / 512 = a / 512 := by omega
  have h2 : (a + i) % 512 = a % 512 + i := by omega
  rw [h1, h2]

/-! ## Reading a file -/

theorem iread1_loop_spec {idm : idaemon_t} {s : Sys} (o sz : Nat) (hG : Geom s)
    (hwf : PtrWF idm.icache s) (hq : Quiet s)
    (hsz : ((o + sz : Nat) : Int) ≤ idm.icache.size)
    (hmap : ∀ p, o ≤ p → p < o + sz → fblock idm.icache s (p / 512) ≠ 0) :
    ∀ (n c : Nat) (acc : List Byte), c ≤ sz → sz - c ≤ n →
      iread1_loop idm.icache.size sz o n c acc idm s =
        .ok ((sz, acc ++ fbytes idm.icache s (o + c) (sz - c)), s) := by
  intro n
  induction n with
  | zero =>
    intro c acc hc hn
    have : c = sz := by omega
    subst this
    simp [iread1_loop, fbytes_zero]
  | succ n ih =>
    intro c acc hc hn
    unfold iread1_loop
    by_cases hcs : ((c : Nat) : Int) < (sz : Int)
    swap
    · have : c = sz := by omega
      subst this
      simp [fbytes_zero]
    simp only [hcs, not_true_eq_false, if_false]
    have hcs' : c < sz := by omega
    have hoff : (0 : Int) ≤ (o : Int) + (c : Int) := by omega
    have hdiv : (((o : Int) + (c : Int)) / 512).toNat = (o + c) / 512 := by omega
    have hmod : (((o : Int) + (c : Int)) % 512).toNat = (o + c) % 512 := by omega
    have hmodi : ((o : Int) + (c : Int)) % 512 = (((o + c) % 512 : Nat) : Int) := by omega
    have hk : fblock idm.icache s (((o : Int) + (c : Int)) / 512).toNat ≠ 0 := by
      rw [hdiv]; exact hmap (o + c) (by omega) (by omega)
    have hv := fblock_valid hwf hk
    rw [blkslice_read hG hwf hoff (by push_cast at hsz; omega) hk (quiet_chain hwf hq)
      (hq _ hv.1.1)]
    simp only [ok_bind, bufdata_breadSt]
    have hvr := valid_range hG hv
    rw [brelse_eq _ _ hvr.1 (by simp)]
    simp only [ok_bind]
    have hst : brelseSt (breadSt s (fblock idm.icache s (((o : Int) + (c : Int)) / 512).toNat))
        (fblock idm.icache s (((o : Int) + (c : Int)) / 512).toNat) = s := by
      rw [brelseSt_eq, breadSt_given, given_release _ _ (hq _ hv.1.1)]
      rfl
    rw [hst, hdiv, hmodi]
    push_cast at hsz
    generalize hbsp : (if 512 - (((o + c) % 512 : Nat) : Int) > idm.icache.size - ((o : Int) + c)
      then idm.icache.size - ((o : Int) + c) else 512 - (((o + c) % 512 : Nat) : Int)) = bsp
    have hb1 : bsp ≤ 512 - (((o + c) % 512 : Nat) : Int) := by
      rw [← hbsp]; split <;> omega
    have hb2 : 1 ≤ bsp := by
      rw [← hbsp]; split <;> omega
    have hb3 : (sz : Int) - c ≤ idm.icache.size - ((o : Int) + c) := by omega
    have hb4 : bsp = 512 - (((o + c) % 512 : Nat) : Int) ∨
        bsp = idm.icache.size - ((o : Int) + c) := by
      rw [← hbsp]; split
      · right; rfl
      · left; rfl
    by_cases hfull : (sz : Int) - (c : Int) < bsp
    · simp only [hfull, if_true, decide_True, or_true]
      have e1 : ((c : Int) + ((sz : Int) - (c : Int))) = (sz : Int) := by omega
      have e2 : ((sz : Int) - (c : Int)).toNat = sz - c := by omega
      rw [e1, e2, Int.toNat_ofNat, readBytes_fbytes _ _ _ _ (by omega)]
    · simp only [hfull, if_false, decide_False, or_false]
      have e3 : bsp.toNat ≤ 512 - (o + c) % 512 := by omega
      by_cases hend : (o : Int) + ((c : Int) + bsp) = idm.icache.size
      · simp only [hend, if_true]
        have e1 : (c : Int) + bsp = (sz : Int) := by omega
        have e2 : bsp.toNat = sz - c := by omega
        rw [e1, Int.toNat_ofNat, readBytes_fbytes _ _ _ _ e3, e2]
        simp
      · simp only [hend, if_false]
        have e1 : (c : Int) + bsp = ((c + bsp.toNat : Nat) : Int) := by omega
        rw [e1, ih (c + bsp.toNat) _ (by omega) (by omega), Int.toNat_ofNat,
          readBytes_fbytes _ _ _ _ e3, List.append_assoc]
        have e4 : sz - c = bsp.toNat + (sz - (c + bsp.toNat)) := by omega
        rw [e4, fbytes_add]
        have e5 : bsp.toNat + (sz - (c + bsp.toNat)) - bsp.toNat = sz - (c + bsp.toNat) := by
          omega
        rw [Nat.add_assoc]
        congr 4

theorem iread1_spec {idm : idaemon_t} {s : Sys} (o : Nat) (dst : List Byte) (hG : Geom s)
    (hwf : PtrWF idm.icache s) (hq : Quiet s)
    (hsz : ((o + dst.length : Nat) : Int) ≤ idm.icache.size)
    (hmap : ∀ p, o ≤ p → p < o + dst.length → fblock idm.icache s (p / 512) ≠ 0) :
    iread1 idm s dst o =
      .ok ((dst.length, 0, fbytes idm.icache s o dst.length), s) := by
  unfold iread1
  by_cases hge : (o : Int) ≥ idm.icache.size
  · have h0 : dst.length = 0 := by push_cast at hsz; omega
    have : dst = [] := List.length_eq_zero.mp h0
    subst this
    simp [hge, fbytes_zero]
  · simp only [hge, if_false]
    have := iread1_loop_spec o dst.length hG hwf hq hsz hmap dst.length 0 []
      (Nat.zero_le _) (by omega)
    rw [show ((0 : Nat) : Int) = 0 from rfl] at this
    rw [this]
    simp [fbytes_length]

theorem iread_loop_spec {idm : idaemon_t} {s : Sys} (o : Nat) (hG : Geom s)
    (hwf : PtrWF idm.icache s) (hq : Quiet s) :
    ∀ (dsts : List (List Byte)) (c : Nat) (done : List (List Byte)),
      ((o + c + (dsts.map List.length).sum : Nat) : Int) ≤ idm.icache.size →
      (∀ p, o + c ≤ p → p < o + c + (dsts.map List.length).sum →
        fblock idm.icache s (p / 512) ≠ 0) →
      iread_loop idm o dsts c done s =
        .ok (((c + (dsts.map List.length).sum : Nat), 0,
          done ++ fchunks idm.icache s (o + c) (dsts.map List.length)), s) := by
  intro dsts
  induction dsts with
  | nil =>
    intro c done _ _
    simp [iread_loop, fchunks]
  | cons d rest ih =>
    intro c done hsz hmap
    simp only [List.map_cons, List.sum_cons] at hsz hmap ⊢
    unfold iread_loop
    have hcast : ((o : Int) + (c : Int)) = ((o + c : Nat) : Int) := by push_cast; rfl
    rw [hcast, iread1_spec (o + c) d hG hwf hq (by omega)
      (fun p h1 h2 => hmap p h1 (by omega))]
    simp only [ok_bind, ne_eq, not_true_eq_false, if_false]
    have hcast2 : ((c : Int) + (d.length : Int)) = ((c + d.length : Nat) : Int) := by
      push_cast; rfl
    rw [hcast2, ih (c + d.length) _ (by omega)
      (fun p h1 h2 => hmap p (by omega) (by omega))]
    simp only [fchunks, List.append_assoc, List.singleton_append, Nat.add_assoc]

/-! ## Bytes of a file that a step keeps -/

theorem fpos_ne_cpos (k j : Nat) : fpos k ≠ cpos j := by
  unfold fpos
  split
  · cases j <;> simp [cpos]
  · cases j with
    | zero => simp [cpos]
    | succ j =>
      simp only [cpos, ne_eq, Pos.slot.injEq, not_and]
      intro _
      omega

theorem fpos_inj {k k2 : Nat} (h : fpos k = fpos k2) : k = k2 := by
  unfold fpos at h
  split at h <;> split at h
  · injection h
  · cases h
  · cases h
  · injection h with h1 h2
    omega

theorem fblock_not_chain {ic : icache_t} {s : Sys} (hwf : PtrWF ic s) {k : Nat}
    (h : fblock ic s k ≠ 0) (j : Nat) : chainZ ic s j ≠ fblock ic s k := by
  intro hj
  have := hwf.inj (fpos k) (cpos j) h (by rw [ptr_cpos]; exact hj.symm)
  exact fpos_ne_cpos k j this

theorem fblock_inj {ic : icache_t} {s : Sys} (hwf : PtrWF ic s) {k k2 : Nat}
    (h : fblock ic s k ≠ 0) (he : fblock ic s k = fblock ic s k2) : k = k2 :=
  fpos_inj (hwf.inj (fpos k) (fpos k2) h he)

theorem fkeep_refl (ic : icache_t) (s : Sys) (lo hi : Nat) : FKeep ic s ic s lo hi :=
  ⟨fun _ _ => rfl, fun _ _ _ => rfl⟩

theorem fkeep_trans {ic ic2 ic3 : icache_t} {s s2 s3 : Sys} {lo1 hi1 lo2 hi2 lo hi : Nat}
    (h1 : FKeep ic s ic2 s2 lo1 hi1) (h2 : FKeep ic2 s2 ic3 s3 lo2 hi2)
    (hl1 : lo ≤ lo1) (hl2 : lo ≤ lo2) (hh1 : hi1 ≤ hi) (hh2 : hi2 ≤ hi) :
    FKeep ic s ic3 s3 lo hi := by
  constructor
  · intro k hk
    have := h1.blk k hk
    rw [h2.blk k (by rw [this]; exact hk), this]
  · intro p hp hr
    have := h1.blk _ hp
    rw [h2.byte p (by rw [this]; exact hp) (by omega), h1.byte p hp (by omega)]

theorem fkeep_of_ext {ic ic2 : icache_t} {s s2 : Sys} (hwf : PtrWF ic s)
    (h : Ext ic s ic2 s2) (lo hi : Nat) : FKeep ic s ic2 s2 lo hi := by
  constructor
  · intro k hk
    exact h.keep (fpos k) hk
  · intro p hp _
    unfold fbyte
    have hk := h.keep (fpos (p / 512)) hp
    have hv := fblock_valid hwf hp
    show bufdata s2 (ptr ic2 s2 (fpos (p / 512))) (p % 512) = _
    rw [hk]
    show bufdata s2 (fblock ic s (p / 512)) (p % 512) = _
    rw [h.data _ hv.1.1 (fun hf => by
      have := hv.2
      rw [hf.2] at this
      cases this) (fblock_not_chain hwf hp)]

/-- Writing bytes into a data block of the file. -/
theorem data_write {ic : icache_t} {s s2 : Sys} {k start : Nat} {bytes : List Byte}
    (hG : Geom s) (hwf : PtrWF ic s) (hk : fblock ic s k ≠ 0) (hc : Consts s s2)
    (hst : start + bytes.length ≤ 512)
    (hd : bufdata s2 = Function.update (bufdata s) (fblock ic s k)
      (writeBytes (bufdata s (fblock ic s k)) start bytes)) :
    PtrWF ic s2 ∧ (∀ p, ptr ic s2 p = ptr ic s p) ∧
      FKeep ic s ic s2 (512 * k + start) (512 * k + start + bytes.length) ∧
      fbytes ic s2 (512 * k + start) bytes.length = bytes := by
  have hv := fblock_valid hwf hk
  have hp : ∀ p, ptr ic s2 p = ptr ic s p := by
    apply ptr_congr ic ic s s2 rfl rfl
    intro j _
    rw [hd, Function.update_noteq (fblock_not_chain hwf hk j)]
  have hu : ∀ x, InMap s x → used s2 x = used s x := by
    intro x hx
    apply used_congr hc hG _ x hx
    intro y hy
    rw [hd, Function.update_noteq]
    have := hv.1.1
    omega
  have hfb : ∀ k2, fblock ic s2 k2 = fblock ic s k2 := fun k2 => hp (fpos k2)
  refine ⟨?_, hp, ?_, ?_⟩
  · constructor
    · intro p hp0
      rw [hp] at hp0 ⊢
      have := hwf.valid p hp0
      exact ⟨(inMap_consts hc _).mpr this.1, by rw [hu _ this.1]; exact this.2⟩
    · intro p q hp0 hpq
      rw [hp] at hp0
      rw [hp, hp] at hpq
      exact hwf.inj p q hp0 hpq
  · constructor
    · intro k2 _; exact hfb k2
    · intro p hp0 hr
      unfold fbyte
      rw [hfb, hd]
      by_cases hb : fblock ic s (p / 512) = fblock ic s k
      · have hpk : p / 512 = k := fblock_inj hwf hp0 hb
        rw [hb, Function.update_same]
        unfold writeBytes
        rw [if_neg (by omega)]
      · rw [Function.update_noteq hb]
  · unfold fbytes
    apply List.ext_getElem
    · simp
    · intro i h1 h2
      simp only [List.length_map, List.length_range] at h1
      simp only [List.getElem_map, List.getElem_range]
      unfold fbyte
      have e1 : (512 * k + start + i) / 512 = k := by omega
      have e2 : (512 * k + start + i) % 512 = start + i := by omega
      rw [hfb, e1, e2, hd, Function.update_same]
      unfold writeBytes
      rw [if_pos (by omega)]
      have e3 : start + i - start = i := by omega
      rw [e3, List.getD_eq_getElem _ _ h2]

/-! ## Writing a file -/

/-- The function `blkslice` in writing mode. -/
theorem blkslice_write_ok {idm idm2 : idaemon_t} {s s3 : Sys} {off blkn start bsp : Int}
    (hG : Geom s) (hwf : PtrWF idm.icache s) (hoff : 0 ≤ off)
    (h : blkslice idm s off true = .ok ((blkn, start, bsp), idm2, s3)) :
    ∃ s2, s3 = breadSt s2 blkn ∧ Ext idm.icache s idm2.icache s2 ∧ PtrWF idm2.icache s2 ∧
      s2.given = s.given ∧ s2.given blkn = false ∧ Meta idm idm2 ∧
      blkn = fblock idm2.icache s2 (off / 512).toNat ∧
      (∀ k, k ≤ (off / 512).toNat → fblock idm2.icache s2 k ≠ 0) ∧
      start = off % 512 ∧ bsp = 512 - off % 512 := by
  unfold blkslice at h
  simp only [bind_eq_ok] at h
  obtain ⟨⟨b, idm1, s1⟩, h1, h2⟩ := h
  simp only at h2
  split at h2
  · cases h2
  simp only [bind_eq_ok] at h2
  obtain ⟨s4, h4, h5⟩ := h2
  obtain ⟨_, _, hgb, rfl⟩ := bread_ok h4
  rw [goMod_nonneg off 512 hoff (by omega)] at h5
  simp only [Bool.not_true, Bool.false_eq_true, false_and, if_false] at h5
  split at h5
  · cases h5
  simp only [Except.ok.injEq, Prod.mk.injEq] at h5
  obtain ⟨⟨rfl, rfl, rfl⟩, rfl, rfl⟩ := h5
  obtain ⟨e1, e2, e3, e4, e5, e6⟩ := offsetblk_write_ok hG hwf hoff h1
  exact ⟨s1, rfl, e1, e2, e3, hgb, e4, e5, e6, rfl, rfl⟩

theorem iwrite1_loop_ok (o : Nat) : ∀ (n c : Nat) (src : List Byte) (idm : idaemon_t)
    (s : Sys) (c2 : Int) (idm2 : idaemon_t) (s2 : Sys), Geom s → PtrWF idm.icache s →
    iwrite1_loop (o : Int) n (c : Int) src idm s = .ok (c2, idm2, s2) →
    c2 = ((c + src.length : Nat) : Int) ∧ PtrWF idm2.icache s2 ∧ Consts s s2 ∧
      s2.given = s.given ∧ Meta idm idm2 ∧
      FKeep idm.icache s idm2.icache s2 (o + c) (o + c + src.length) ∧
      fbytes idm2.icache s2 (o + c) src.length = src ∧
      (∀ p, o + c ≤ p → p < o + c + src.length → fblock idm2.icache s2 (p / 512) ≠ 0) := by
  intro n
  induction n with
  | zero =>
    intro c src idm s c2 idm2 s2 hG hwf h
    unfold iwrite1_loop at h
    split at h
    · cases h
    rename_i hnil
    have hnil' : src = [] := by
      by_contra hne; exact hnil hne
    subst hnil'
    simp only [Except.ok.injEq, Prod.mk.injEq] at h
    obtain ⟨rfl, rfl, rfl⟩ := h
    exact ⟨by simp, hwf, consts_refl _, rfl, meta_refl _, fkeep_refl _ _ _ _, rfl,
      fun p h1 h2 => by simp at h2; omega⟩
  | succ n ih =>
    intro c src idm s c2 idm2 s2 hG hwf h
    unfold iwrite1_loop at h
    split at h
    · rename_i hnil
      subst hnil
      simp only [Except.ok.injEq, Prod.mk.injEq] at h
      obtain ⟨rfl, rfl, rfl⟩ := h
      exact ⟨by simp, hwf, consts_refl _, rfl, meta_refl _, fkeep_refl _ _ _ _, rfl,
        fun p h1 h2 => by simp at h2; omega⟩
    rename_i hne
    simp only [bind_eq_ok] at h
    obtain ⟨⟨⟨blkn, start, bsp⟩, idm1, s1h⟩, h1, s4, h4, s5, h5, h6⟩ := h
    simp only at h4 h5 h6
    have hoff : (0 : Int) ≤ (o : Int) + (c : Int) := by omega
    obtain ⟨s1, rfl, e1, e2, e3, e4, e5, e6, e7, rfl, rfl⟩ :=
      blkslice_write_ok hG hwf hoff h1
    have hlen : 0 < src.length := List.length_pos.mpr hne
    have hdiv : (((o : Int) + (c : Int)) / 512).toNat = (o + c) / 512 := by omega
    have hmodi : ((o : Int) + (c : Int)) % 512 = (((o + c) % 512 : Nat) : Int) := by omega
    rw [hdiv] at e6 e7
    rw [hmodi] at h4 h6
    generalize hub : (if (src.length : Int) < 512 - (((o + c) % 512 : Nat) : Int)
      then (src.length : Int) else 512 - (((o + c) % 512 : Nat) : Int)) = ub at h4 h6
    have hub1 : 1 ≤ ub := by rw [← hub]; split <;> omega
    have hub2 : ub ≤ src.length := by rw [← hub]; split <;> omega
    have hub3 : ub ≤ 512 - (((o + c) % 512 : Nat) : Int) := by rw [← hub]; split <;> omega
    obtain ⟨hd4, hg4, hc4, _, _⟩ := log_write_ok h4
    obtain ⟨_, rfl⟩ := brelse_ok h5
    have hG1 := geom_consts hG e1.consts
    have hk : fblock idm1.icache s1 ((o + c) / 512) ≠ 0 := e7 _ (le_refl _)
    have hcs5 : Consts s1 (brelseSt s4 blkn) :=
      ⟨hc4.superb, hc4.fst, hc4.flen, hc4.usable, hc4.ifb, hc4.ifo⟩
    have htl : (src.take ub.toNat).length = ub.toNat := by
      rw [List.length_take]; omega
    have hd5 : bufdata (brelseSt s4 blkn) = Function.update (bufdata s1)
        (fblock idm1.icache s1 ((o + c) / 512))
        (writeBytes (bufdata s1 (fblock idm1.icache s1 ((o + c) / 512))) ((o + c) % 512)
          (src.take ub.toNat)) := by
      rw [bufdata_brelseSt, hd4, bufdata_setdata, bufdata_breadSt, ← e6, Int.toNat_ofNat]
    obtain ⟨w1, w2, w3, w4⟩ := data_write hG1 e2 hk hcs5 (by rw [htl]; omega) hd5
    have hpos : 512 * ((o + c) / 512) + (o + c) % 512 = o + c := by omega
    rw [hpos, htl] at w3 w4
    have hg5 : (brelseSt s4 blkn).given = s.given := by
      rw [brelseSt_given, hg4, setdata_given, breadSt_given, given_release _ _ e4, e3]
    have hcast : (c : Int) + ub = ((c + ub.toNat : Nat) : Int) := by omega
    rw [hcast] at h6
    obtain ⟨f1, f2, f3, f4, f5, f6, f7, f8⟩ := ih (c + ub.toNat) _ idm1 _ c2 idm2 s2
      (geom_consts hG1 hcs5) w1 h6
    have hdl : (src.drop ub.toNat).length = src.length - ub.toNat := List.length_drop _ _
    rw [hdl] at f1 f6 f7 f8
    have hfk1 : FKeep idm.icache s idm1.icache (brelseSt s4 blkn) (o + c)
        (o + c + ub.toNat) :=
      fkeep_trans (fkeep_of_ext hwf e1 (o + c) (o + c)) w3 (le_refl _) (le_refl _)
        (by omega) (le_refl _)
    have hmap1 : ∀ p, o + c ≤ p → p < o + c + ub.toNat →
        fblock idm1.icache (brelseSt s4 blkn) (p / 512) ≠ 0 := by
      intro p hp1 hp2
      have : p / 512 = (o + c) / 512 := by omega
      rw [this]
      show ptr _ _ _ ≠ 0
      rw [w2]
      exact hk
    refine ⟨by rw [f1]; congr 1; omega, f2, consts_trans (consts_trans e1.consts hcs5) f3,
      f4.trans hg5, meta_trans e5 f5, ?_, ?_, ?_⟩
    · exact fkeep_trans hfk1 f6 (le_refl _) (by omega) (by omega) (by omega)
    · have hsplit : src.length = ub.toNat + (src.length - ub.toNat) := by omega
      rw [hsplit, fbytes_add]
      have hpre : fbytes idm2.icache s2 (o + c) ub.toNat = src.take ub.toNat := by
        refine Eq.trans ?_ w4
        unfold fbytes
        apply List.map_congr_left
        intro i hi
        rw [List.mem_range] at hi
        exact f6.byte (o + c + i) (hmap1 _ (by omega) (by omega)) (Or.inl (by omega))
      rw [hpre]
      have : o + c + ub.toNat = o + (c + ub.toNat) := by omega
      rw [this, f7, List.take_append_drop]
    · intro p hp1 hp2
      by_cases hp3 : p < o + c + ub.toNat
      · have h0 := hmap1 p hp1 hp3
        rw [f6.blk _ h0]
        exact h0
      · exact f8 p (by omega) (by omega)

theorem ptr_icache_congr {ic ic2 : icache_t} (s : Sys) (h1 : ic2.indir = ic.indir)
    (h2 : ic2.addrs = ic.addrs) : ptr ic2 s = ptr ic s := by
  funext p
  exact ptr_congr ic ic2 s s h1 h2 (fun _ _ => rfl) p

theorem fblock_icache_congr (ic ic2 : icache_t) (s : Sys) (h1 : ic2.indir = ic.indir)
    (h2 : ic2.addrs = ic.addrs) : fblock ic2 s = fblock ic s := by
  funext k
  unfold fblock
  rw [ptr_icache_congr s h1 h2]

theorem fbytes_icache_congr (ic ic2 : icache_t) (s : Sys) (h1 : ic2.indir = ic.indir)
    (h2 : ic2.addrs = ic.addrs) : fbytes ic2 s = fbytes ic s := by
  funext a n
  unfold fbytes fbyte
  rw [fblock_icache_congr ic ic2 s h1 h2]

theorem ptrWF_icache_congr (ic ic2 : icache_t) {s : Sys} (h1 : ic2.indir = ic.indir)
    (h2 : ic2.addrs = ic.addrs) (hwf : PtrWF ic s) : PtrWF ic2 s := by
  have := ptr_icache_congr s h1 h2
  constructor
  · intro p hp
    rw [this] at hp ⊢
    exact hwf.valid p hp
  · intro p q hp hpq
    rw [this] at hp hpq
    exact hwf.inj p q hp hpq

theorem fkeep_icache_congr {ic : icache_t} (ic2 ic3 : icache_t) {s s2 : Sys} {lo hi : Nat}
    (h1 : ic3.indir = ic2.indir) (h2 : ic3.addrs = ic2.addrs)
    (h : FKeep ic s ic2 s2 lo hi) : FKeep ic s ic3 s2 lo hi := by
  have e := fblock_icache_congr ic2 ic3 s2 h1 h2
  constructor
  · intro k hk
    rw [e]
    exact h.blk k hk
  · intro p hp hr
    unfold fbyte
    rw [e]
    exact h.byte p hp hr

/-- The method `iwrite1`. -/
theorem iwrite1_ok (o : Nat) {src : List Byte} {idm idm2 : idaemon_t} {s s2 : Sys}
    {c2 e : Int} (hG : Geom s) (hwf : PtrWF idm.icache s)
    (h : iwrite1 idm s src (o : Int) = .ok ((c2, e), idm2, s2)) :
    c2 = (src.length : Int) ∧ e = 0 ∧ PtrWF idm2.icache s2 ∧ Consts s s2 ∧
      s2.given = s.given ∧
      FKeep idm.icache s idm2.icache s2 o (o + src.length) ∧
      fbytes idm2.icache s2 o src.length = src ∧
      (∀ p, o ≤ p → p < o + src.length → fblock idm2.icache s2 (p / 512) ≠ 0) ∧
      ((o + src.length : Nat) : Int) ≤ idm2.icache.size ∧
      idm.icache.size ≤ idm2.icache.size ∧ idm2.icache.itype = idm.icache.itype ∧
      idm2.blkno = idm.blkno ∧ idm2.ioff = idm.ioff := by
  unfold iwrite1 at h
  simp only [bind_eq_ok] at h
  obtain ⟨⟨c3, idm1, s1⟩, h1, h2⟩ := h
  have h1' : iwrite1_loop (o : Int) src.length ((0 : Nat) : Int) src idm s =
      .ok (c3, idm1, s1) := h1
  obtain ⟨f1, f2, f3, f4, f5, f6, f7, f8⟩ := iwrite1_loop_ok o _ 0 src idm s c3 idm1 s1 hG
    hwf h1'
  simp only [Nat.zero_add, Nat.add_zero] at f1 f6 f7 f8
  subst f1
  by_cases hs : (o : Int) + (src.length : Int) > idm1.icache.size
  · rw [if_pos hs] at h2
    simp only [Except.ok.injEq, Prod.mk.injEq] at h2
    obtain ⟨⟨rfl, rfl⟩, rfl, rfl⟩ := h2
    have e1 := fbytes_icache_congr idm1.icache
      { idm1.icache with size := (o : Int) + (src.length : Int) } s1 rfl rfl
    have e2 := fblock_icache_congr idm1.icache
      { idm1.icache with size := (o : Int) + (src.length : Int) } s1 rfl rfl
    refine ⟨rfl, rfl, ptrWF_icache_congr idm1.icache _ rfl rfl f2, f3, f4,
      fkeep_icache_congr idm1.icache _ rfl rfl f6, ?_, ?_, ?_, ?_, f5.itype, f5.blkno,
      f5.ioff⟩
    · exact (congrFun (congrFun e1 o) src.length).trans f7
    · intro p hp1 hp2
      have := f8 p hp1 hp2
      rw [← congrFun e2 (p / 512)] at this
      exact this
    · show ((o + src.length : Nat) : Int) ≤ (o : Int) + (src.length : Int)
      omega
    · show idm.icache.size ≤ (o : Int) + (src.length : Int)
      rw [← f5.size]
      omega
  · rw [if_neg hs] at h2
    simp only [Except.ok.injEq, Prod.mk.injEq] at h2
    obtain ⟨⟨rfl, rfl⟩, rfl, rfl⟩ := h2
    refine ⟨rfl, rfl, f2, f3, f4, f6, f7, f8, by omega, by rw [f5.size], f5.itype, f5.blkno,
      f5.ioff⟩

theorem iwrite_loop_ok (o : Nat) : ∀ (srcs : List (List Byte)) (c : Nat) (idm : idaemon_t)
    (s : Sys) (c2 e : Int) (idm2 : idaemon_t) (s2 : Sys), Geom s → PtrWF idm.icache s →
    iwrite_loop (o : Int) srcs (c : Int) idm s = .ok ((c2, e), idm2, s2) →
    c2 = ((c + (srcs.map List.length).sum : Nat) : Int) ∧ e = 0 ∧ PtrWF idm2.icache s2 ∧
      Consts s s2 ∧ s2.given = s.given ∧
      FKeep idm.icache s idm2.icache s2 (o + c) (o + c + (srcs.map List.length).sum) ∧
      fchunks idm2.icache s2 (o + c) (srcs.map List.length) = srcs ∧
      (∀ p, o + c ≤ p → p < o + c + (srcs.map List.length).sum →
        fblock idm2.icache s2 (p / 512) ≠ 0) ∧
      (srcs ≠ [] → ((o + c + (srcs.map List.length).sum : Nat) : Int) ≤ idm2.icache.size) ∧
      idm.icache.size ≤ idm2.icache.size ∧ idm2.icache.itype = idm.icache.itype ∧
      idm2.blkno = idm.blkno ∧ idm2.ioff = idm.ioff := by
  intro srcs
  induction srcs with
  | nil =>
    intro c idm s c2 e idm2 s2 hG hwf h
    simp only [iwrite_loop, Except.ok.injEq, Prod.mk.injEq] at h
    obtain ⟨⟨rfl, rfl⟩, rfl, rfl⟩ := h
    exact ⟨by simp, rfl, hwf, consts_refl _, rfl, fkeep_refl _ _ _ _, rfl,
      fun p h1 h2 => by simp at h2; omega, fun h => absurd rfl h, le_refl _, rfl, rfl, rfl⟩
  | cons src rest ih =>
    intro c idm s c2 e idm2 s2 hG hwf h
    unfold iwrite_loop at h
    simp only [bind_eq_ok] at h
    obtain ⟨⟨⟨wrote, err⟩, idm1, s1⟩, h1, h2⟩ := h
    have hcast : ((o : Int) + (c : Int)) = ((o + c : Nat) : Int) := by push_cast; rfl
    rw [hcast] at h1
    obtain ⟨rfl, rfl, w3, w4, w5, w6, w7, w8, w9, w10, w11, w12, w13⟩ :=
      iwrite1_ok (o + c) hG hwf h1
    simp only [ne_eq, not_true_eq_false, if_false] at h2
    have hcast2 : ((c : Int) + (src.length : Int)) = ((c + src.length : Nat) : Int) := by
      push_cast; rfl
    rw [hcast2] at h2
    obtain ⟨f1, f2, f3, f4, f5, f6, f7, f8, f9, f10, f11, f12, f13⟩ :=
      ih (c + src.length) idm1 s1 c2 e idm2 s2 (geom_consts hG w4) w3 h2
    simp only [List.map_cons, List.sum_cons]
    have ha : o + (c + src.length) = o + c + src.length := by omega
    rw [ha] at f6 f7 f8 f9
    refine ⟨by rw [f1]; congr 1; omega, f2, f3, consts_trans w4 f4, f5.trans w5, ?_, ?_, ?_,
      ?_, le_trans w10 f10, f11.trans w11, f12.trans w12, f13.trans w13⟩
    · exact fkeep_trans w6 f6 (le_refl _) (by omega) (by omega) (by omega)
    · simp only [fchunks]
      rw [f7]
      congr 1
      refine Eq.trans ?_ w7
      unfold fbytes
      apply List.map_congr_left
      intro i hi
      rw [List.mem_range] at hi
      exact f6.byte (o + c + i) (w8 _ (by omega) (by omega)) (Or.inl (by omega))
    · intro p hp1 hp2
      by_cases hp3 : p < o + c + src.length
      · have h0 := w8 p hp1 hp3
        rw [f6.blk _ h0]
        exact h0
      · exact f8 p (by omega) (by omega)
    · intro _
      by_cases hr : rest = []
      · subst hr
        simp only [List.map_nil, List.sum_nil, Nat.add_zero]
        exact le_trans w9 f10
      · have := f9 hr
        rw [← Nat.add_assoc]
        exact this

/-! ## Write followed by read -/

theorem run_ok {α : Type} (r : R α) (d : α) (h : abortMsg r = none) : r = .ok (runOr r d) := by
  cases r with
  | ok a => rfl
  | error e => cases h

theorem chainZ_empty (ic : icache_t) (s : Sys) (h : ic.indir = 0) : ∀ j, chainZ ic s j = 0 :=
  fun j => chainZ_zero ic s 0 h j (Nat.zero_le _)

theorem ptr_empty (ic : icache_t) (s : Sys) (h : ic.indir = 0)
    (ha : ∀ i, i < 10 → ic.addrs i = 0) : ∀ p, ptr ic s p = 0 := by
  intro p
  cases p with
  | direct i =>
    simp only [ptr]
    split
    · exact ha i (by assumption)
    · rfl
  | root => exact h
  | slot j t => simp [ptr, slotZ, chainZ_empty ic s h j]

theorem ptrWF_empty (ic : icache_t) (s : Sys) (h : ic.indir = 0)
    (ha : ∀ i, i < 10 → ic.addrs i = 0) : PtrWF ic s :=
  ⟨fun p hp => absurd (ptr_empty ic s h ha p) hp,
    fun p _ hp _ => absurd (ptr_empty ic s h ha p) hp⟩

theorem fchunks_congr (ic : icache_t) (s : Sys) (a : Nat) {l1 l2 : List Nat} (h : l1 = l2) :
    fchunks ic s a l1 = fchunks ic s a l2 := by
  rw [h]

/-- Every iteration of `iwrite1` writes at least one byte: with more fuel than `len(src)` the
loop of the model gives the same result. -/
theorem iwrite1_loop_fuel (off : Int) : ∀ (n m : Nat) (c : Int) (src : List Byte)
    (idm : idaemon_t) (s : Sys), src.length ≤ n → src.length ≤ m →
    iwrite1_loop off n c src idm s = iwrite1_loop off m c src idm s := by
  intro n
  induction n with
  | zero =>
    intro m c src idm s hn hm
    have : src = [] := List.length_eq_zero.mp (by omega)
    subst this
    cases m <;> simp [iwrite1_loop]
  | succ n ih =>
    intro m c src idm s hn hm
    by_cases hnil : src = []
    · subst hnil
      cases m <;> simp [iwrite1_loop]
    · have hlen : 0 < src.length := List.length_pos.mpr hnil
      cases m with
      | zero => omega
      | succ m =>
        unfold iwrite1_loop
        simp only [hnil, if_false]
        cases hb : blkslice idm s (off + c) true with
        | error e => rfl
        | ok r =>
          obtain ⟨⟨blkn, start, bsp⟩, idm1, s1⟩ := r
          simp only [ok_bind]
          have hb2 := hb
          unfold blkslice at hb2
          simp only [bind_eq_ok] at hb2
          obtain ⟨⟨b, idm0, s0⟩, _, h2⟩ := hb2
          simp only at h2
          split at h2
          · cases h2
          simp only [bind_eq_ok] at h2
          obtain ⟨s4, _, h5⟩ := h2
          simp only [Bool.not_true, Bool.false_eq_true, false_and, if_false] at h5
          split at h5
          · cases h5
          rename_i hchk
          simp only [Except.ok.injEq, Prod.mk.injEq] at h5
          obtain ⟨⟨_, hst, hbs⟩, _, _⟩ := h5
          have hlt : goMod (off + c) 512 < 512 := Int.tmod_lt_of_pos _ (by omega)
          have hbsp : 1 ≤ bsp := by omega
          have hub : 1 ≤ (if (src.length : Int) < bsp then (src.length : Int) else bsp) := by
            split <;> omega
          have hdl : (src.drop (if (src.length : Int) < bsp then (src.length : Int)
              else bsp).toNat).length ≤ src.length - 1 := by
            rw [List.length_drop]; omega
          congr 1
          funext s5
          congr 1
          funext s6
          exact ih m _ _ _ _ (by omega) (by omega)

/-- C2.  On a device with a sound layout, for an inode whose block pointers are sound (each
marked in the free map, no block kept twice) and with no data block held: if `iwrite(srcs, off)`
with `off >= 0` returns, it returns the total length of `srcs` and error 0, and `iread` at `off`
into buffers of the same lengths then returns the same count, error 0 and exactly the bytes of
`srcs`, leaving the state as it is. -/
theorem iwrite_iread_roundtrip (idm : idaemon_t) (s : Sys) (srcs dsts : List (List Byte))
    (off c e : Int) (idm2 : idaemon_t) (s2 : Sys) (hG : Geom s) (hwf : PtrWF idm.icache s)
    (hq : Quiet s) (hoff : 0 ≤ off) (hd : dsts.map List.length = srcs.map List.length)
    (h : iwrite idm s srcs off = .ok ((c, e), idm2, s2)) :
    c = (((srcs.map List.length).sum : Nat) : Int) ∧ e = 0 ∧
      iread idm2 s2 dsts off = .ok ((c, 0, srcs), s2) := by
  unfold iwrite at h
  have hoffc : off = ((off.toNat : Nat) : Int) := by omega
  rw [hoffc] at h
  have h' : iwrite_loop (off.toNat : Int) srcs ((0 : Nat) : Int) idm s =
      .ok ((c, e), idm2, s2) := h
  obtain ⟨f1, f2, f3, f4, f5, f6, f7, f8, f9, f10, f11, f12, f13⟩ :=
    iwrite_loop_ok off.toNat srcs 0 idm s c e idm2 s2 hG hwf h'
  simp only [Nat.zero_add, Nat.add_zero] at f1 f7 f8 f9
  have hq2 : Quiet s2 := by
    intro x hx
    rw [f5]
    rw [f4.usable] at hx
    exact hq x hx
  refine ⟨f1, f2, ?_⟩
  unfold iread
  by_cases hnil : srcs = []
  · subst hnil
    have hdn : dsts = [] := by simpa using hd
    subst hdn
    subst f1
    rfl
  rw [hoffc]
  have hsz : ((off.toNat + 0 + (dsts.map List.length).sum : Nat) : Int) ≤
      idm2.icache.size := by
    rw [hd]
    simpa using f9 hnil
  have hmap : ∀ p, off.toNat + 0 ≤ p → p < off.toNat + 0 + (dsts.map List.length).sum →
      fblock idm2.icache s2 (p / 512) ≠ 0 := by
    rw [hd]
    intro p hp1 hp2
    exact f8 p (by omega) (by omega)
  have := iread_loop_spec off.toNat (geom_consts hG f4) f3 hq2 dsts 0 [] hsz hmap
  rw [show ((0 : Nat) : Int) = 0 from rfl] at this
  rw [this, hd, f1]
  simp only [Nat.zero_add, Nat.add_zero, List.nil_append, f7]

/-- C2 on the empty file of the example file system: five bytes written at offset 600 are
read back. -/
theorem iwrite_iread_roundtrip_witness :
    (runOr (iwrite fileIdm fileSys [[1, 2, 3], [4, 5]] 600) ((0, 0), fileIdm, fileSys)).1.1 =
        ((([[1, 2, 3], [4, 5]] : List (List Byte)).map List.length).sum : Nat) ∧
      (runOr (iwrite fileIdm fileSys [[1, 2, 3], [4, 5]] 600) ((0, 0), fileIdm, fileSys)).1.2
        = 0 ∧
      iread (runOr (iwrite fileIdm fileSys [[1, 2, 3], [4, 5]] 600)
          ((0, 0), fileIdm, fileSys)).2.1
        (runOr (iwrite fileIdm fileSys [[1, 2, 3], [4, 5]] 600) ((0, 0), fileIdm, fileSys)).2.2
        [[0, 0, 0], [0, 0]] 600 =
      .ok (((runOr (iwrite fileIdm fileSys [[1, 2, 3], [4, 5]] 600)
          ((0, 0), fileIdm, fileSys)).1.1, 0, [[1, 2, 3], [4, 5]]),
        (runOr (iwrite fileIdm fileSys [[1, 2, 3], [4, 5]] 600)
          ((0, 0), fileIdm, fileSys)).2.2) :=
  iwrite_iread_roundtrip fileIdm fileSys [[1, 2, 3], [4, 5]] [[0, 0, 0], [0, 0]] 600 _ _ _ _
    ⟨by decide, by decide, by decide, by decide, by decide⟩
    (ptrWF_empty _ _ rfl (fun _ _ => rfl)) (fun _ _ => rfl) (by decide) rfl
    (run_ok _ ((0, 0), fileIdm, fileSys) (by decide!))

/-- C2, as stated, fails for large offsets: one byte written at offset 40000 of the empty file
needs more blocks than the log of 60 blocks can take, and `iwrite` aborts. -/
theorem iwrite_iread_roundtrip_counterexample :
    (0 : Int) ≤ 40000 ∧ fileIdm.icache.itype = I_FILE ∧
      abortMsg (iwrite fileIdm fileSys [[1]] 40000) = some "log larger than log len" := by
  decide!


/-! ## Directory blocks -/

theorem padName_eq (fn : Name) (h : fn.length ≤ 14) :
    padName fn = fn ++ List.replicate (14 - fn.length) 0 := by
  unfold padName
  apply List.ext_getElem
  · simp; omega
  · intro i h1 h2
    simp only [List.length_map, List.length_range] at h1
    simp only [List.getElem_map, List.getElem_range]
    by_cases hi : i < fn.length
    · rw [List.getElem_append_left hi, List.getD_eq_getElem _ _ hi]
    · rw [List.getElem_append_right (by omega), List.getElem_replicate]
      exact List.getD_eq_default _ _ (by omega)

theorem padName_length (fn : Name) : (padName fn).length = 14 := by
  simp [padName]

theorem filter_padName (fn : Name) (h : GoodName fn) :
    (padName fn).filter (fun c => c ≠ 0) = fn := by
  rw [padName_eq fn h.2.1, List.filter_append]
  have h1 : fn.filter (fun c => c ≠ 0) = fn := by
    apply List.filter_eq_self.mpr
    intro c hc
    simpa using h.2.2 c hc
  have h2 : (List.replicate (14 - fn.length) (0 : Byte)).filter (fun c => c ≠ 0) = [] := by
    apply List.filter_eq_nil_iff.mpr
    intro c hc
    have := List.eq_of_mem_replicate hc
    simp [this]
  rw [h1, h2, List.append_nil]

theorem readBytes_congr (d d2 : Block) (start n : Nat)
    (h : ∀ k, start ≤ k → k < start + n → d2 k = d k) :
    readBytes d2 start n = readBytes d start n := by
  unfold readBytes
  apply List.map_congr_left
  intro i hi
  rw [List.mem_range] at hi
  exact h _ (by omega) (by omega)

theorem readBytes_writeBytes (d : Block) (start : Nat) (bytes : List Byte) :
    readBytes (writeBytes d start bytes) start bytes.length = bytes := by
  unfold readBytes
  apply List.ext_getElem
  · simp
  · intro i h1 h2
    simp only [List.length_map, List.length_range] at h1
    simp only [List.getElem_map, List.getElem_range]
    unfold writeBytes
    rw [if_pos (by omega)]
    have : start + i - start = i := by omega
    rw [this, List.getD_eq_getElem _ _ h2]

theorem putEntry_other (d : Block) (j : Nat) (name : Name) (v : Int) (k : Nat)
    (h : k < 22 * j ∨ 22 * j + 22 ≤ k) : putEntry d j name v k = d k := by
  unfold putEntry put8 writeBytes
  rw [if_neg (by omega), if_neg (by rw [padName_length]; omega)]

theorem putEntry_name (d : Block) (j : Nat) (name : Name) (v : Int) (k : Nat)
    (h1 : 22 * j ≤ k) (h2 : k < 22 * j + 14) :
    putEntry d j name v k = writeBytes d (22 * j) (padName name) k := by
  unfold putEntry put8
  rw [if_neg (by omega)]

theorem nameAt_putEntry_same (d : Block) (j : Nat) (name : Name) (v : Int)
    (h : GoodName name) : nameAt (putEntry d j name v) j = name := by
  unfold nameAt
  rw [readBytes_congr (writeBytes d (22 * j) (padName name)) _ _ _
    (fun k h1 h2 => putEntry_name d j name v k h1 h2)]
  have := readBytes_writeBytes d (22 * j) (padName name)
  rw [padName_length] at this
  rw [this, filter_padName name h]

theorem nameAt_putEntry_other (d : Block) (j j2 : Nat) (name : Name) (v : Int)
    (h : j2 ≠ j) : nameAt (putEntry d j name v) j2 = nameAt d j2 := by
  unfold nameAt
  rw [readBytes_congr d _ _ _ (fun k h1 h2 => putEntry_other d j name v k (by omega))]

theorem inumAt_putEntry_same (d : Block) (j : Nat) (name : Name) (v : Int)
    (h1 : -2 ^ 63 ≤ v) (h2 : v < 2 ^ 63) : inumAt (putEntry d j name v) j = v := by
  have h := leval_put8_same (writeBytes d (22 * j) (padName name)) (22 * j + 14) v
  have h3 := wrap64_eq v h1 h2
  unfold wrap64 at h3
  unfold inumAt putEntry
  rw [h, h3]

theorem inumAt_putEntry_other (d : Block) (j j2 : Nat) (name : Name) (v : Int)
    (h : j2 ≠ j) : inumAt (putEntry d j name v) j2 = inumAt d j2 := by
  have e : leval (putEntry d j name v) (22 * j2 + 14) 8 = leval d (22 * j2 + 14) 8 :=
    leval_congr _ _ 8 _ (fun k h1 h2 => putEntry_other d j name v k (by omega))
  unfold inumAt
  rw [e]

theorem nameAt_zeroBlock (j : Nat) : nameAt zeroBlock j = [] := by
  unfold nameAt readBytes
  apply List.filter_eq_nil_iff.mpr
  intro c hc
  simp only [List.mem_map, List.mem_range] at hc
  obtain ⟨i, _, rfl⟩ := hc
  simp [zeroBlock]

/-! ## Lookups in a directory after an entry was added -/

theorem slotLookup_putEntry_other (d : Block) (j : Nat) (name n2 : Name) (v : Int)
    (he : nameAt d j = []) (hg : GoodName name) (h1 : n2 ≠ name) (h2 : n2 ≠ []) :
    ∀ n j0, slotLookup (putEntry d j name v) n2 n j0 = slotLookup d n2 n j0 := by
  intro n
  induction n with
  | zero => intro j0; rfl
  | succ n ih =>
    intro j0
    simp only [slotLookup]
    by_cases hj : j0 = j
    · subst hj
      rw [nameAt_putEntry_same _ _ _ _ hg, he, if_neg h1, if_neg h2, ih]
    · rw [nameAt_putEntry_other _ _ _ _ _ hj, inumAt_putEntry_other _ _ _ _ _ hj, ih]

theorem slotLookup_putEntry_same (d : Block) (j : Nat) (name : Name) (v : Int)
    (hg : GoodName name) (hv1 : -2 ^ 63 ≤ v) (hv2 : v < 2 ^ 63) :
    ∀ n j0, j0 ≤ j → j < j0 + n → slotLookup d name n j0 = none →
      slotLookup (putEntry d j name v) name n j0 = some v := by
  intro n
  induction n with
  | zero => intro j0 h1 h2; omega
  | succ n ih =>
    intro j0 h1 h2 h3
    simp only [slotLookup] at h3 ⊢
    by_cases hj : j0 = j
    · subst hj
      rw [nameAt_putEntry_same _ _ _ _ hg, if_pos rfl, inumAt_putEntry_same _ _ _ _ hv1 hv2]
    · rw [nameAt_putEntry_other _ _ _ _ _ hj]
      split at h3
      · cases h3
      rename_i hne
      rw [if_neg hne]
      exact ih (j0 + 1) (by omega) (by omega) h3

theorem slotLookup_none_of_names (d : Block) (name : Name) :
    ∀ n j0, (∀ j, j0 ≤ j → j < j0 + n → nameAt d j ≠ name) → slotLookup d name n j0 = none := by
  intro n
  induction n with
  | zero => intro j0 _; rfl
  | succ n ih =>
    intro j0 h
    simp only [slotLookup]
    rw [if_neg (fun hh => h j0 (le_refl _) (by omega) hh.symm)]
    exact ih (j0 + 1) (fun j h1 h2 => h j (by omega) (by omega))

theorem slotEmpty_some (d : Block) : ∀ n j0 j, slotEmpty d n j0 = some j →
    j0 ≤ j ∧ j < j0 + n ∧ nameAt d j = [] := by
  intro n
  induction n with
  | zero => intro j0 j h; cases h
  | succ n ih =>
    intro j0 j h
    simp only [slotEmpty] at h
    split at h
    · rename_i he
      simp only [Option.some.injEq] at h
      subst h
      exact ⟨le_refl _, by omega, he⟩
    · obtain ⟨h1, h2, h3⟩ := ih (j0 + 1) j h
      exact ⟨by omega, by omega, h3⟩

theorem dirLookup_congr (data data2 : Int → Block) (name : Name) :
    ∀ ds, (∀ b, b ∈ ds → data2 b = data b) → dirLookup data2 ds name = dirLookup data ds name := by
  intro ds
  induction ds with
  | nil => intro _; rfl
  | cons b rest ih =>
    intro h
    simp only [dirLookup]
    rw [h b (List.mem_cons_self _ _), ih (fun x hx => h x (List.mem_cons_of_mem _ hx))]

theorem dirLookup_append (data : Int → Block) (name : Name) (l2 : List Int) :
    ∀ l1, dirLookup data (l1 ++ l2) name =
      match dirLookup data l1 name with
      | some v => some v
      | none => dirLookup data l2 name := by
  intro l1
  induction l1 with
  | nil => rfl
  | cons b rest ih =>
    simp only [List.cons_append, dirLookup]
    cases slotLookup (data b) name 23 0 with
    | some v => rfl
    | none => exact ih

theorem dirLookup_update_other (data : Int → Block) (b : Int) (j : Nat) (name n2 : Name)
    (v : Int) (he : nameAt (data b) j = []) (hg : GoodName name) (h1 : n2 ≠ name)
    (h2 : n2 ≠ []) :
    ∀ ds, dirLookup (Function.update data b (putEntry (data b) j name v)) ds n2 =
      dirLookup data ds n2 := by
  intro ds
  induction ds with
  | nil => rfl
  | cons b2 rest ih =>
    simp only [dirLookup]
    by_cases hb : b2 = b
    · subst hb
      rw [Function.update_same, slotLookup_putEntry_other _ _ _ _ _ he hg h1 h2, ih]
    · rw [Function.update_noteq hb, ih]

theorem dirLookup_update_same (data : Int → Block) (b : Int) (j : Nat) (name : Name)
    (v : Int) (hj : j < 23) (hg : GoodName name) (hv1 : -2 ^ 63 ≤ v) (hv2 : v < 2 ^ 63) :
    ∀ ds, b ∈ ds → dirLookup data ds name = none →
      dirLookup (Function.update data b (putEntry (data b) j name v)) ds name = some v := by
  intro ds
  induction ds with
  | nil => intro h; cases h
  | cons b2 rest ih =>
    intro hmem hnone
    simp only [dirLookup] at hnone ⊢
    cases hs : slotLookup (data b2) name 23 0 with
    | some w => rw [hs] at hnone; cases hnone
    | none =>
      rw [hs] at hnone
      by_cases hb : b2 = b
      · subst hb
        rw [Function.update_same,
          slotLookup_putEntry_same _ _ _ _ hg hv1 hv2 23 0 (Nat.zero_le _) (by omega) hs]
      · rw [Function.update_noteq hb, hs]
        simp only
        apply ih _ hnone
        rcases List.mem_cons.mp hmem with h | h
        · exact absurd h.symm hb
        · exact h

/-! ## The directory functions of the code, evaluated -/

theorem doffset_eq (j : Nat) (off : Int) (hj : j < 23) :
    doffset (j : Int) off = .ok (22 * (j : Int) + off) := by
  unfold doffset NDIRENTS NDBYTES
  have : ¬ ((j : Int) < 0 ∨ (j : Int) ≥ ((23 : Nat) : Int)) := by omega
  rw [if_neg this]

theorem filename_eq (d : Block) (j : Nat) (hj : j < 23) :
    filename d (j : Int) = .ok (nameAt d j) := by
  unfold filename
  rw [doffset_eq j 0 hj]
  simp only [ok_bind, DNAMELEN]
  have : (22 * (j : Int) + 0).toNat = 22 * j := by omega
  rw [this]
  rfl

theorem inodenext_eq (d : Block) (j : Nat) (hj : j < 23) :
    inodenext d (j : Int) = .ok (inumAt d j) := by
  unfold inodenext
  rw [doffset_eq j 14 hj]
  simp only [ok_bind]
  rw [readn_eq _ _ (by omega) (by omega)]
  have : (22 * (j : Int) + 14).toNat = 22 * j + 14 := by omega
  rw [this]
  rfl

theorem lookup_slots_eq (d : Block) (name : Name) : ∀ n j, j + n ≤ 23 →
    lookup_slots d name n j = .ok (slotLookup d name n j) := by
  intro n
  induction n with
  | zero => intro j _; rfl
  | succ n ih =>
    intro j hj
    unfold lookup_slots
    rw [filename_eq d j (by omega)]
    simp only [ok_bind, slotLookup]
    by_cases hn : name = nameAt d j
    · rw [if_pos hn, if_pos hn, inodenext_eq d j (by omega)]
      rfl
    · rw [if_neg hn, if_neg hn]
      exact ih (j + 1) (by omega)

theorem dirent_lookup_eq (s : Sys) (name : Name) : ∀ ds,
    dirent_lookup s ds name =
      .ok (match dirLookup (bufdata s) ds name with
        | some v => (v, true)
        | none => (0, false)) := by
  intro ds
  induction ds with
  | nil => rfl
  | cons b rest ih =>
    unfold dirent_lookup
    have e : lookup_slots (bufdata s b) name NDIRENTS 0 =
        .ok (slotLookup (bufdata s b) name 23 0) := lookup_slots_eq _ _ 23 0 (by omega)
    rw [e]
    simp only [ok_bind, dirLookup]
    cases slotLookup (bufdata s b) name 23 0 with
    | some v => rfl
    | none => exact ih

theorem getempty_slots_eq (d : Block) : ∀ n j, j + n ≤ 23 →
    getempty_slots d n j = .ok (slotEmpty d n j) := by
  intro n
  induction n with
  | zero => intro j _; rfl
  | succ n ih =>
    intro j hj
    unfold getempty_slots
    rw [filename_eq d j (by omega)]
    simp only [ok_bind, slotEmpty]
    by_cases hn : nameAt d j = []
    · rw [if_pos hn, if_pos hn]
    · rw [if_neg hn, if_neg hn]
      exact ih (j + 1) (by omega)

theorem dirent_getempty_eq (s : Sys) : ∀ ds i,
    dirent_getempty s ds i =
      .ok (match dirEmpty (bufdata s) ds i with
        | some (i2, j) => (true, i2, j)
        | none => (false, 0, 0)) := by
  intro ds
  induction ds with
  | nil => intro i; rfl
  | cons b rest ih =>
    intro i
    unfold dirent_getempty
    have e : getempty_slots (bufdata s b) NDIRENTS 0 =
        .ok (slotEmpty (bufdata s b) 23 0) := getempty_slots_eq _ 23 0 (by omega)
    rw [e]
    simp only [ok_bind, dirEmpty]
    cases slotEmpty (bufdata s b) 23 0 with
    | some v => rfl
    | none => exact ih (i + 1)

theorem biencode_bidecode (v : Int) (h1 : -2 ^ 63 ≤ v) (h2 : v < 2 ^ 63) :
    biencode (bidecode v).1 (bidecode v).2 = .ok v := by
  unfold biencode bidecode
  have hu := toUInt64_lt v
  have hb : ¬ ((((toUInt64 v % 4 : Nat) : Int)) < 0 ∨ (((toUInt64 v % 4 : Nat) : Int)) ≥ 4) := by
    omega
  simp only [hb, if_false]
  congr 1
  have e1 : toUInt64 ((((toUInt64 v / 4 : Nat) : Int)) * 4) = toUInt64 v / 4 * 4 := by
    unfold toUInt64
    omega
  have e2 : (toUInt64 v : Int) = v % 2 ^ 64 := by
    unfold toUInt64
    omega
  unfold wrap64
  rw [e1]
  unfold toInt64
  split <;> omega

theorem w_entry_eq (d : Block) (j : Nat) (name : Name) (v : Int) (hj : j < 23)
    (h1 : -2 ^ 63 ≤ v) (h2 : v < 2 ^ 63) :
    (do
      let d2 ← w_filename d (j : Int) name
      w_inodenext d2 (j : Int) (bidecode v).1 (bidecode v).2) = .ok (putEntry d j name v) := by
  unfold w_filename w_inodenext
  rw [doffset_eq j 0 hj, doffset_eq j 14 hj, biencode_bidecode v h1 h2]
  simp only [ok_bind, DNAMELEN]
  rw [writen_eq _ _ _ (by omega) (by omega)]
  have e1 : (22 * (j : Int) + 0).toNat = 22 * j := by omega
  have e2 : (22 * (j : Int) + 14).toNat = 22 * j + 14 := by omega
  rw [e1, e2]
  rfl

/-! ## Reading a directory -/

theorem fblock_same {ic : icache_t} {s s2 : Sys} (hd : bufdata s2 = bufdata s) (k : Nat) :
    fblock ic s2 k = fblock ic s k := ptr_same hd (fpos k)

theorem bufdata_heldSt (s : Sys) (l : List Int) : bufdata (heldSt s l) = bufdata s := rfl

theorem consts_heldSt (s : Sys) (l : List Int) : Consts s (heldSt s l) :=
  ⟨rfl, rfl, rfl, rfl, rfl, rfl⟩

theorem heldSt_nil (s : Sys) : heldSt s [] = s := by
  unfold heldSt
  have : (fun x => decide (x ∈ ([] : List Int)) || s.given x) = s.given := by
    funext x; simp
  rw [this, setGiven_self]

theorem breadSt_heldSt (s : Sys) (l : List Int) (b : Int) :
    breadSt (heldSt s l) b = heldSt s (l ++ [b]) := by
  unfold heldSt
  rw [breadSt_eq, setGiven_setGiven, setGiven_given]
  congr 1
  funext x
  by_cases hx : x = b
  · subst hx; simp
  · simp [Function.update_noteq hx, hx]

theorem dirBlocks_mem {ic : icache_t} {s : Sys} {x : Int} (h : x ∈ dirBlocks ic s) :
    ∃ k, k < (ic.size / 512).toNat ∧ x = fblock ic s k := by
  unfold dirBlocks at h
  simp only [List.mem_map, List.mem_range] at h
  obtain ⟨k, hk, rfl⟩ := h
  exact ⟨k, hk, rfl⟩

theorem all_dirents_loop_spec {idm : idaemon_t} {s : Sys} (hd : DirWF idm s) :
    ∀ (n k : Nat), k + n = (idm.icache.size / 512).toNat →
      all_dirents_loop idm.icache.size n (512 * (k : Int))
        ((List.range k).map (fblock idm.icache s)) idm
        (heldSt s ((List.range k).map (fblock idm.icache s))) =
      .ok (dirBlocks idm.icache s, heldSt s (dirBlocks idm.icache s)) := by
  have hsn := hd.size_nonneg
  have hsm := hd.size_mod
  intro n
  induction n with
  | zero =>
    intro k hk
    simp only [Nat.add_zero] at hk
    unfold all_dirents_loop dirBlocks
    rw [hk]
  | succ n ih =>
    intro k hk
    unfold all_dirents_loop
    have hlt : 512 * (k : Int) < idm.icache.size := by omega
    simp only [hlt, not_true_eq_false, if_false]
    have hdiv : (512 * (k : Int) / 512).toNat = k := by omega
    have hkm : fblock idm.icache s k ≠ 0 := hd.mapped k (by omega)
    have hdat := bufdata_heldSt s ((List.range k).map (fblock idm.icache s))
    have hcs := consts_heldSt s ((List.range k).map (fblock idm.icache s))
    have hnotin : ∀ x, (∀ k2, k2 < k → x ≠ fblock idm.icache s k2) →
        s.usable_start ≤ x →
        (heldSt s ((List.range k).map (fblock idm.icache s))).given x = false := by
      intro x hx hu
      unfold heldSt
      simp only [setGiven_given, Bool.or_eq_false_iff, decide_eq_false_iff_not, List.mem_map,
        List.mem_range, not_exists, not_and]
      exact ⟨fun k2 hk2 h => hx k2 hk2 h.symm, hd.quiet x hu⟩
    rw [blkslice_read (geom_consts hd.geom hcs) (ptrWF_same hd.wf hdat hcs) (by omega)
      (by omega) (by rw [hdiv, fblock_same hdat]; exact hkm)
      (by
        intro i hi
        rw [chainZ_same hdat] at hi ⊢
        apply hnotin _ _ (chain_usable hd.wf hi)
        intro k2 hk2
        exact fblock_not_chain hd.wf (hd.mapped k2 (by omega)) i)
      (by
        rw [hdiv, fblock_same hdat]
        apply hnotin _ _ (fblock_valid hd.wf hkm).1.1
        intro k2 hk2 he
        have := fblock_inj hd.wf hkm he
        omega)]
    simp only [ok_bind]
    rw [hdiv, fblock_same hdat, breadSt_heldSt]
    have hr : (List.range k).map (fblock idm.icache s) ++ [fblock idm.icache s k] =
        (List.range (k + 1)).map (fblock idm.icache s) := by
      rw [List.range_succ, List.map_append]
      rfl
    rw [hr]
    have hi : 512 * (k : Int) + 512 = 512 * ((k + 1 : Nat) : Int) := by push_cast; ring
    rw [hi]
    exact ih (k + 1) (by omega)

theorem all_dirents_spec {idm : idaemon_t} {s : Sys} (hd : DirWF idm s) :
    all_dirents idm s = .ok (dirBlocks idm.icache s, heldSt s (dirBlocks idm.icache s)) := by
  unfold all_dirents
  have hsn := hd.size_nonneg
  have hsm := hd.size_mod
  rw [if_neg (by rw [hd.isdir]; simp)]
  have h1 : ((idm.icache.size + 511) / 512).toNat = (idm.icache.size / 512).toNat := by omega
  rw [h1]
  have := all_dirents_loop_spec hd (idm.icache.size / 512).toNat 0 (by omega)
  simp only [List.range_zero, List.map_nil, heldSt_nil] at this
  exact this

theorem dirBlocks_nodup {idm : idaemon_t} {s : Sys} (hd : DirWF idm s) :
    (dirBlocks idm.icache s).Nodup := by
  unfold dirBlocks
  apply List.Nodup.map_on _ (List.nodup_range _)
  intro a ha b hb he
  rw [List.mem_range] at ha hb
  exact fblock_inj hd.wf (hd.mapped a ha) he

theorem dirent_brelse_spec : ∀ (l : List Int) (s : Sys), l.Nodup →
    (∀ x, x ∈ l → 0 ≤ x ∧ s.given x = true) →
    dirent_brelse s l = .ok (setGiven s (fun x => if x ∈ l then false else s.given x)) := by
  intro l
  induction l with
  | nil =>
    intro s _ _
    unfold dirent_brelse
    simp
  | cons b rest ih =>
    intro s hnd h
    unfold dirent_brelse
    obtain ⟨hb0, hbg⟩ := h b (List.mem_cons_self _ _)
    rw [brelse_eq s b hb0 hbg]
    simp only [ok_bind]
    have hnd2 := List.nodup_cons.mp hnd
    rw [ih (brelseSt s b) hnd2.2 (by
      intro x hx
      have hxb : x ≠ b := fun h => hnd2.1 (h ▸ hx)
      obtain ⟨h1, h2⟩ := h x (List.mem_cons_of_mem _ hx)
      exact ⟨h1, by rw [brelseSt_given, Function.update_noteq hxb]; exact h2⟩)]
    rw [brelseSt_eq, setGiven_setGiven, setGiven_given]
    congr 2
    funext x
    by_cases hxb : x = b
    · subst hxb
      simp
    · simp [Function.update_noteq hxb, hxb]

theorem held_release (s s2 : Sys) (l : List Int) (hq : ∀ x, x ∈ l → s.given x = false)
    (hg : s2.given = (heldSt s l).given) :
    setGiven s2 (fun x => if x ∈ l then false else s2.given x) = setGiven s2 s.given := by
  congr 1
  funext x
  rw [hg]
  unfold heldSt
  simp only [setGiven_given]
  by_cases hx : x ∈ l
  · simp [hx, hq x hx]
  · simp [hx]

theorem dirBlocks_range {idm : idaemon_t} {s : Sys} (hd : DirWF idm s) (x : Int)
    (hx : x ∈ dirBlocks idm.icache s) : 0 ≤ x ∧ s.usable_start ≤ x ∧ Valid s x := by
  obtain ⟨k, hk, rfl⟩ := dirBlocks_mem hx
  have hv := fblock_valid hd.wf (hd.mapped k hk)
  exact ⟨(valid_range hd.geom hv).1, hv.1.1, hv⟩

/-- The method `iget` on a directory in a sound state. -/
theorem iget_spec {idm : idaemon_t} {s : Sys} (hd : DirWF idm s) (name : Name) :
    iget idm s name =
      .ok ((match dirLookup (bufdata s) (dirBlocks idm.icache s) name with
        | some v => (v, 0)
        | none => (0, -ENOENT)), s) := by
  unfold iget
  rw [if_neg (by rw [hd.isdir]; simp), all_dirents_spec hd]
  simp only [ok_bind]
  rw [dirent_lookup_eq, bufdata_heldSt]
  simp only [liftE_ok, ok_bind]
  rw [dirent_brelse_spec _ _ (dirBlocks_nodup hd) (by
    intro x hx
    refine ⟨(dirBlocks_range hd x hx).1, ?_⟩
    unfold heldSt
    simp [hx])]
  rw [held_release s _ _ (fun x hx => hd.quiet x (dirBlocks_range hd x hx).2.1) rfl]
  have : setGiven (heldSt s (dirBlocks idm.icache s)) s.given = s := rfl
  rw [this]
  cases dirLookup (bufdata s) (dirBlocks idm.icache s) name with
  | some v => rfl
  | none => rfl

/-! ## Adding a directory entry -/

/-- New contents of a data block of the inode: the block pointers stay as they are. -/
theorem data_update {ic : icache_t} {s s2 : Sys} {k : Nat} {d : Block}
    (hG : Geom s) (hwf : PtrWF ic s) (hk : fblock ic s k ≠ 0) (hc : Consts s s2)
    (hd : bufdata s2 = Function.update (bufdata s) (fblock ic s k) d) :
    PtrWF ic s2 ∧ (∀ p, ptr ic s2 p = ptr ic s p) := by
  have hv := fblock_valid hwf hk
  have hp : ∀ p, ptr ic s2 p = ptr ic s p := by
    apply ptr_congr ic ic s s2 rfl rfl
    intro j _
    rw [hd, Function.update_noteq (fblock_not_chain hwf hk j)]
  have hu : ∀ x, InMap s x → used s2 x = used s x := by
    intro x hx
    apply used_congr hc hG _ x hx
    intro y hy
    rw [hd, Function.update_noteq]
    have := hv.1.1
    omega
  refine ⟨?_, hp⟩
  constructor
  · intro p hp0
    rw [hp] at hp0 ⊢
    have := hwf.valid p hp0
    exact ⟨(inMap_consts hc _).mpr this.1, by rw [hu _ this.1]; exact this.2⟩
  · intro p q hp0 hpq
    rw [hp] at hp0
    rw [hp, hp] at hpq
    exact hwf.inj p q hp0 hpq

theorem slotEmpty_first (d : Block) : ∀ n j0 j, slotEmpty d n j0 = some j →
    ∀ j2, j0 ≤ j2 → j2 < j → nameAt d j2 ≠ [] := by
  intro n
  induction n with
  | zero => intro j0 j h; cases h
  | succ n ih =>
    intro j0 j h j2 h1 h2
    simp only [slotEmpty] at h
    split at h
    · simp only [Option.some.injEq] at h
      omega
    · rename_i hne
      by_cases hj : j2 = j0
      · subst hj; exact hne
      · exact ih (j0 + 1) j h j2 (by omega) h2

theorem slotEmpty_none (d : Block) : ∀ n j0, slotEmpty d n j0 = none →
    ∀ j2, j0 ≤ j2 → j2 < j0 + n → nameAt d j2 ≠ [] := by
  intro n
  induction n with
  | zero => intro j0 _ j2 h1 h2; omega
  | succ n ih =>
    intro j0 h j2 h1 h2
    simp only [slotEmpty] at h
    split at h
    · cases h
    · rename_i hne
      by_cases hj : j2 = j0
      · subst hj; exact hne
      · exact ih (j0 + 1) h j2 (by omega) (by omega)

theorem dirEmpty_some (data : Int → Block) : ∀ (ds : List Int) (i0 i j : Nat),
    dirEmpty data ds i0 = some (i, j) →
    i0 ≤ i ∧ i - i0 < ds.length ∧ j < 23 ∧ nameAt (data (ds.getD (i - i0) 0)) j = [] ∧
      (∀ j2, j2 < j → nameAt (data (ds.getD (i - i0) 0)) j2 ≠ []) ∧
      (∀ i2 j2, i2 < i - i0 → j2 < 23 → nameAt (data (ds.getD i2 0)) j2 ≠ []) := by
  intro ds
  induction ds with
  | nil => intro i0 i j h; cases h
  | cons b rest ih =>
    intro i0 i j h
    simp only [dirEmpty] at h
    cases hs : slotEmpty (data b) 23 0 with
    | some j1 =>
      rw [hs] at h
      simp only [Option.some.injEq, Prod.mk.injEq] at h
      obtain ⟨rfl, rfl⟩ := h
      obtain ⟨_, h2, h3⟩ := slotEmpty_some _ _ _ _ hs
      refine ⟨le_refl _, by simp, by omega, by simpa using h3, ?_, fun i2 j2 h _ => by omega⟩
      intro j2 hj2
      simp only [Nat.sub_self, List.getD_cons_zero]
      exact slotEmpty_first _ _ _ _ hs j2 (Nat.zero_le _) hj2
    | none =>
      rw [hs] at h
      obtain ⟨h1, h2, h3, h4, h5, h6⟩ := ih (i0 + 1) i j h
      have e : i - i0 = (i - (i0 + 1)) + 1 := by omega
      refine ⟨by omega, by simp; omega, h3, ?_, ?_, ?_⟩
      · rw [e, List.getD_cons_succ]; exact h4
      · rw [e, List.getD_cons_succ]; exact h5
      · intro i2 j2 hi2 hj2
        cases i2 with
        | zero =>
          simp only [List.getD_cons_zero]
          exact slotEmpty_none _ _ _ hs j2 (Nat.zero_le _) (by omega)
        | succ i3 =>
          rw [List.getD_cons_succ]
          exact h6 i3 j2 (by omega) hj2

theorem iinsert_exists {idm : idaemon_t} {s : Sys} (hd : DirWF idm s) (name : Name)
    (v w : Int) (h : dirLookup (bufdata s) (dirBlocks idm.icache s) name = some w) :
    iinsert idm s name v = .ok (-EEXIST, idm, s) := by
  unfold iinsert
  rw [all_dirents_spec hd]
  simp only [ok_bind]
  rw [dirent_lookup_eq, bufdata_heldSt, h]
  simp only [liftE_ok, ok_bind, if_true]
  rw [dirent_brelse_spec _ _ (dirBlocks_nodup hd) (by
    intro x hx
    refine ⟨(dirBlocks_range hd x hx).1, ?_⟩
    unfold heldSt
    simp [hx])]
  rw [held_release s _ _ (fun x hx => hd.quiet x (dirBlocks_range hd x hx).2.1) rfl]
  rfl

theorem iinsert_reuse_eq {idm : idaemon_t} {s : Sys} (hd : DirWF idm s) (name : Name)
    (v : Int) (hv1 : -2 ^ 63 ≤ v) (hv2 : v < 2 ^ 63) (i j : Nat)
    (h : dirLookup (bufdata s) (dirBlocks idm.icache s) name = none)
    (he : dirEmpty (bufdata s) (dirBlocks idm.icache s) 0 = some (i, j)) :
    iinsert idm s name v =
      (do
        let s2 ← log_write (setdata (heldSt s (dirBlocks idm.icache s))
          ((dirBlocks idm.icache s).getD i 0)
          (putEntry (bufdata s ((dirBlocks idm.icache s).getD i 0)) j name v))
          ((dirBlocks idm.icache s).getD i 0)
        let s3 ← dirent_brelse s2 (dirBlocks idm.icache s)
        .ok (0, idm, s3)) := by
  obtain ⟨_, h2, h3, h4, _, _⟩ := dirEmpty_some _ _ _ _ _ he
  simp only [Nat.sub_zero] at h2 h4
  unfold iinsert
  rw [all_dirents_spec hd]
  simp only [ok_bind]
  rw [dirent_lookup_eq, bufdata_heldSt, h]
  simp only [liftE_ok, ok_bind, Bool.false_eq_true, if_false]
  unfold dirent_add
  rw [dirent_getempty_eq, bufdata_heldSt, he]
  simp only [liftE_ok, ok_bind, if_true, bufdata_heldSt]
  rw [filename_eq _ j h3, h4]
  simp only [liftE_ok, ok_bind, ne_eq, not_true_eq_false, if_false]
  have hw := w_entry_eq (bufdata s ((dirBlocks idm.icache s).getD i 0)) j name v h3 hv1 hv2
  cases hwf : w_filename (bufdata s ((dirBlocks idm.icache s).getD i 0)) (j : Int) name with
  | error e =>
    rw [hwf] at hw
    cases hw
  | ok d2 =>
    rw [hwf] at hw
    simp only [ok_bind] at hw
    simp only [liftE_ok, ok_bind]
    rw [hw]
    simp only [liftE_ok, ok_bind, Bool.false_eq_true, if_false]
    generalize log_write _ _ = r
    cases r <;> rfl

theorem getD_dirBlocks {idm : idaemon_t} {s : Sys} {i : Nat}
    (hi : i < (dirBlocks idm.icache s).length) :
    (dirBlocks idm.icache s).getD i 0 = fblock idm.icache s i ∧
      i < (idm.icache.size / 512).toNat := by
  have hl : (dirBlocks idm.icache s).length = (idm.icache.size / 512).toNat := by
    simp [dirBlocks]
  rw [List.getD_eq_getElem _ _ hi]
  unfold dirBlocks
  simp only [List.getElem_map, List.getElem_range, true_and]
  omega

theorem dirBlocks_congr {ic ic2 : icache_t} {s s2 : Sys} (hs : ic2.size = ic.size)
    (hf : ∀ k, k < (ic.size / 512).toNat → fblock ic2 s2 k = fblock ic s k) :
    dirBlocks ic2 s2 = dirBlocks ic s := by
  unfold dirBlocks
  rw [hs]
  apply List.map_congr_left
  intro k hk
  rw [List.mem_range] at hk
  exact hf k hk

/-- The entry goes into the first empty slot: what `iinsert` leaves behind if it returns. -/
theorem iinsert_reuse_ok {idm idm2 : idaemon_t} {s s2 : Sys} (hd : DirWF idm s) (name : Name)
    (v e : Int) (hv1 : -2 ^ 63 ≤ v) (hv2 : v < 2 ^ 63) (i j : Nat)
    (h : dirLookup (bufdata s) (dirBlocks idm.icache s) name = none)
    (he : dirEmpty (bufdata s) (dirBlocks idm.icache s) 0 = some (i, j))
    (hr : iinsert idm s name v = .ok (e, idm2, s2)) :
    e = 0 ∧ idm2 = idm ∧
      bufdata s2 = Function.update (bufdata s) ((dirBlocks idm.icache s).getD i 0)
        (putEntry (bufdata s ((dirBlocks idm.icache s).getD i 0)) j name v) ∧
      s2.given = s.given ∧ Consts s s2 ∧ DirWF idm s2 ∧
      dirBlocks idm.icache s2 = dirBlocks idm.icache s := by
  rw [iinsert_reuse_eq hd name v hv1 hv2 i j h he] at hr
  simp only [bind_eq_ok] at hr
  obtain ⟨s3, h3, s4, h4, h5⟩ := hr
  simp only [Except.ok.injEq, Prod.mk.injEq] at h5
  obtain ⟨rfl, rfl, rfl⟩ := h5
  obtain ⟨hd3, hg3, hc3, _, _⟩ := log_write_ok h3
  rw [dirent_brelse_spec _ _ (dirBlocks_nodup hd) (by
    intro x hx
    refine ⟨(dirBlocks_range hd x hx).1, ?_⟩
    rw [hg3, setdata_given]
    unfold heldSt
    simp [hx])] at h4
  rw [held_release s _ _ (fun x hx => hd.quiet x (dirBlocks_range hd x hx).2.1)
    (by rw [hg3, setdata_given])] at h4
  simp only [Except.ok.injEq] at h4
  subst h4
  obtain ⟨_, h2, _, _, _, _⟩ := dirEmpty_some _ _ _ _ _ he
  simp only [Nat.sub_zero] at h2
  obtain ⟨hgd, hik⟩ := getD_dirBlocks h2
  have hdat : bufdata (setGiven s3 s.given) = Function.update (bufdata s)
      ((dirBlocks idm.icache s).getD i 0)
      (putEntry (bufdata s ((dirBlocks idm.icache s).getD i 0)) j name v) := by
    rw [bufdata_setGiven, hd3, bufdata_setdata, bufdata_heldSt]
  have hcs : Consts s (setGiven s3 s.given) :=
    ⟨hc3.superb, hc3.fst, hc3.flen, hc3.usable, hc3.ifb, hc3.ifo⟩
  have hkm := hd.mapped i hik
  obtain ⟨w1, w2⟩ := data_update hd.geom hd.wf hkm hcs (by rw [hdat, hgd])
  have hfb : ∀ k, fblock idm.icache (setGiven s3 s.given) k = fblock idm.icache s k :=
    fun k => w2 (fpos k)
  refine ⟨rfl, rfl, hdat, rfl, hcs, ?_, dirBlocks_congr rfl (fun k _ => hfb k)⟩
  exact ⟨geom_consts hd.geom hcs, w1, by
      intro x hx
      rw [hcs.usable] at hx
      exact hd.quiet x hx, hd.isdir, hd.size_nonneg, hd.size_mod,
    fun k hk => by rw [hfb]; exact hd.mapped k hk⟩

theorem update_update_same {α : Type} (f : Int → α) (b : Int) (x y : α) :
    Function.update (Function.update f b x) b y = Function.update f b y := by
  funext z
  by_cases hz : z = b
  · subst hz; simp
  · simp [Function.update_noteq hz]

/-- The directory has no empty slot: what `iinsert` leaves behind if it returns. -/
theorem iinsert_extend_ok {idm idm2 : idaemon_t} {s s2 : Sys} (hd : DirWF idm s) (name : Name)
    (v e : Int) (hv1 : -2 ^ 63 ≤ v) (hv2 : v < 2 ^ 63)
    (h : dirLookup (bufdata s) (dirBlocks idm.icache s) name = none)
    (he : dirEmpty (bufdata s) (dirBlocks idm.icache s) 0 = none)
    (hr : iinsert idm s name v = .ok (e, idm2, s2)) :
    e = 0 ∧ idm2.icache.size = idm.icache.size + 512 ∧
      (∃ nb, nb ∉ dirBlocks idm.icache s ∧
        dirBlocks idm2.icache s2 = dirBlocks idm.icache s ++ [nb] ∧
        bufdata s2 nb = putEntry zeroBlock 0 name v) ∧
      (∀ b, b ∈ dirBlocks idm.icache s → bufdata s2 b = bufdata s b) ∧
      s2.given = s.given ∧ Consts s s2 ∧ DirWF idm2 s2 ∧ idm2.blkno = idm.blkno ∧
      idm2.ioff = idm.ioff := by
  unfold iinsert at hr
  rw [all_dirents_spec hd] at hr
  simp only [ok_bind] at hr
  rw [dirent_lookup_eq, bufdata_heldSt, h] at hr
  simp only [liftE_ok, ok_bind, Bool.false_eq_true, if_false] at hr
  unfold dirent_add at hr
  rw [dirent_getempty_eq, bufdata_heldSt, he] at hr
  simp only [liftE_ok, ok_bind, Bool.false_eq_true, if_false, bind_eq_ok] at hr
  obtain ⟨⟨idmR, sR⟩, ⟨⟨⟨dd, deoff, dorel⟩, idmA, sA⟩, ⟨⟨blkn, idm1, sO⟩, hO, sB, hB, hA⟩,
    fn, hfn, hrest⟩, s7, h7, hfin⟩ := hr
  simp only [Except.ok.injEq, Prod.mk.injEq] at hA hfin
  obtain ⟨⟨rfl, rfl, rfl⟩, rfl, rfl⟩ := hA
  obtain ⟨rfl, rfl, rfl⟩ := hfin
  simp only at hB hfn hrest h7
  have hS1d := bufdata_heldSt s (dirBlocks idm.icache s)
  have hS1c := consts_heldSt s (dirBlocks idm.icache s)
  have hG1 := geom_consts hd.geom hS1c
  have hwf1 := ptrWF_same hd.wf hS1d hS1c
  obtain ⟨e1, e2, e3, e4, e5, e6⟩ := offsetblk_write_ok hG1 hwf1 hd.size_nonneg hO
  obtain ⟨_, _, hgb, rfl⟩ := bread_ok hB
  have hzb : bufdata (setdata (breadSt sO blkn) blkn zeroBlock) blkn = zeroBlock := by
    rw [bufdata_setdata, Function.update_same]
  rw [hzb, liftE_eq_ok] at hfn
  have hfn0 := filename_eq zeroBlock 0 (by omega)
  rw [hfn0, nameAt_zeroBlock] at hfn
  simp only [Except.ok.injEq] at hfn
  subst hfn
  simp only [ne_eq, not_true_eq_false, if_false, hzb, if_true] at hrest
  have hw := w_entry_eq zeroBlock 0 name v (by omega) hv1 hv2
  cases hwf : w_filename zeroBlock ((0 : Nat) : Int) name with
  | error er =>
    rw [hwf] at hw
    cases hw
  | ok d2 =>
    rw [hwf] at hw hrest
    simp only [ok_bind, liftE_ok] at hw hrest
    rw [hw] at hrest
    simp only [ok_bind, liftE_ok, bind_eq_ok] at hrest
    obtain ⟨s5, h5, s6, h6, hR⟩ := hrest
    simp only [Except.ok.injEq, Prod.mk.injEq] at hR
    obtain ⟨rfl, rfl⟩ := hR
    obtain ⟨hd5, hg5, hc5, _, _⟩ := log_write_ok h5
    obtain ⟨_, rfl⟩ := brelse_ok h6
    have hg6 : (brelseSt s5 blkn).given = (heldSt s (dirBlocks idm.icache s)).given := by
      rw [brelseSt_given, hg5, setdata_given, setdata_given, breadSt_given,
        given_release _ _ hgb, e3]
    rw [dirent_brelse_spec _ _ (dirBlocks_nodup hd) (by
      intro x hx
      refine ⟨(dirBlocks_range hd x hx).1, ?_⟩
      rw [hg6]
      unfold heldSt
      simp [hx])] at h7
    rw [held_release s _ _ (fun x hx => hd.quiet x (dirBlocks_range hd x hx).2.1) hg6] at h7
    simp only [Except.ok.injEq] at h7
    subst h7
    have hdat : bufdata (setGiven (brelseSt s5 blkn) s.given) =
        Function.update (bufdata sO) blkn (putEntry zeroBlock 0 name v) := by
      rw [bufdata_setGiven, bufdata_brelseSt, hd5, bufdata_setdata, bufdata_setdata,
        bufdata_breadSt, update_update_same]
    have hcO : Consts s sO := consts_trans hS1c e1.consts
    have hcs : Consts s (setGiven (brelseSt s5 blkn) s.given) :=
      consts_trans hcO ⟨hc5.superb, hc5.fst, hc5.flen, hc5.usable, hc5.ifb, hc5.ifo⟩
    have hGO := geom_consts hd.geom hcO
    have hN : (idm.icache.size / 512).toNat ≤ (idm.icache.size / 512).toNat := le_refl _
    have hkm := e6 _ hN
    obtain ⟨w1, w2⟩ := data_update hGO e2 hkm
      (consts_trans (consts_symm hcO) hcs) (by rw [hdat, e5])
    have hfb : ∀ k, fblock idm1.icache (setGiven (brelseSt s5 blkn) s.given) k =
        fblock idm1.icache sO k := fun k => w2 (fpos k)
    have hold : ∀ k, k < (idm.icache.size / 512).toNat →
        fblock idm1.icache sO k = fblock idm.icache s k := by
      intro k hk
      have h0 : fblock idm.icache (heldSt s (dirBlocks idm.icache s)) k ≠ 0 := by
        rw [fblock_same hS1d]; exact hd.mapped k hk
      have := e1.keep (fpos k) h0
      rw [show ptr idm1.icache sO (fpos k) = fblock idm1.icache sO k from rfl] at this
      rw [this]
      exact fblock_same hS1d k
    have hnb : blkn ∉ dirBlocks idm.icache s := by
      intro hmem
      obtain ⟨k, hk, hkb⟩ := dirBlocks_mem hmem
      rw [← hold k hk, e5] at hkb
      have := fblock_inj e2 hkm hkb
      omega
    have hsn := hd.size_nonneg
    have hsm := hd.size_mod
    have hsz : ((idm1.icache.size + 512) / 512).toNat = (idm.icache.size / 512).toNat + 1 := by
      rw [e4.size]; omega
    have hic2 := fblock_icache_congr idm1.icache
      { idm1.icache with size := idm1.icache.size + 512 }
      (setGiven (brelseSt s5 blkn) s.given) rfl rfl
    have hdold : ∀ b, b ∈ dirBlocks idm.icache s →
        bufdata (setGiven (brelseSt s5 blkn) s.given) b = bufdata s b := by
      intro b hb
      have hbn : b ≠ blkn := fun h => hnb (h ▸ hb)
      rw [hdat, Function.update_noteq hbn]
      obtain ⟨k, hk, rfl⟩ := dirBlocks_mem hb
      have hv := fblock_valid hd.wf (hd.mapped k hk)
      rw [e1.data _ (by rw [hS1c.usable]; exact hv.1.1) (by
          intro hf
          have h1 := (free_same hS1d hS1c _).mp hf
          have := hv.2
          rw [h1.2] at this
          cases this) (by
          intro jj
          rw [chainZ_same hS1d]
          exact fblock_not_chain hd.wf (hd.mapped k hk) jj)]
      rfl
    refine ⟨rfl, by show idm1.icache.size + 512 = _; rw [e4.size], ⟨blkn, hnb, ?_, ?_⟩,
      hdold, rfl, hcs, ?_, e4.blkno, e4.ioff⟩
    · unfold dirBlocks
      show List.map (fblock { idm1.icache with size := idm1.icache.size + 512 } _)
        (List.range ((idm1.icache.size + 512) / 512).toNat) = _
      rw [hsz, List.range_succ, List.map_append, hic2]
      congr 1
      · apply List.map_congr_left
        intro k hk
        rw [List.mem_range] at hk
        rw [hfb, hold k hk]
      · simp only [List.map_cons, List.map_nil]
        rw [hfb, ← e5]
    · rw [hdat, Function.update_same]
    · refine ⟨geom_consts hd.geom hcs, ptrWF_icache_congr idm1.icache _ rfl rfl w1, ?_, ?_, ?_,
        ?_, ?_⟩
      · intro x hx
        rw [hcs.usable] at hx
        exact hd.quiet x hx
      · show idm1.icache.itype = I_DIR
        rw [e4.itype]; exact hd.isdir
      · show 0 ≤ idm1.icache.size + 512
        rw [e4.size]; omega
      · show (idm1.icache.size + 512) % 512 = 0
        rw [e4.size]; omega
      · intro k hk
        have hk2 : k < ((idm1.icache.size + 512) / 512).toNat := hk
        rw [hsz] at hk2
        show fblock { idm1.icache with size := idm1.icache.size + 512 } _ k ≠ 0
        rw [hic2, hfb]
        exact e6 k (by omega)

theorem dirEmpty_none (data : Int → Block) : ∀ (ds : List Int) (i0 : Nat),
    dirEmpty data ds i0 = none → ∀ b, b ∈ ds → ∀ j, j < 23 → nameAt (data b) j ≠ [] := by
  intro ds
  induction ds with
  | nil => intro i0 _ b hb; cases hb
  | cons b0 rest ih =>
    intro i0 h b hb j hj
    simp only [dirEmpty] at h
    cases hs : slotEmpty (data b0) 23 0 with
    | some j1 => rw [hs] at h; cases h
    | none =>
      rw [hs] at h
      rcases List.mem_cons.mp hb with hb | hb
      · subst hb
        exact slotEmpty_none _ _ _ hs j (Nat.zero_le _) (by omega)
      · exact ih (i0 + 1) h b hb j hj

theorem slotLookup_zeroBlock (n2 : Name) (h : n2 ≠ []) : ∀ n j0,
    slotLookup zeroBlock n2 n j0 = none := by
  intro n j0
  apply slotLookup_none_of_names
  intro j _ _
  rw [nameAt_zeroBlock]
  exact fun hh => h hh.symm

theorem log_write_room (s : Sys) (b : Int)
    (h : b ∈ s.logblks ∨ (s.logblks.length : Int) + 1 < s.loglen) :
    ∃ s2, log_write s b = .ok s2 := by
  unfold log_write log_append
  simp only
  by_cases hm : b ∈ s.logblks
  · rw [if_pos hm]
    exact ⟨_, rfl⟩
  · rw [if_neg hm]
    rcases h with h | h
    · exact absurd h hm
    · rw [if_neg (by
        simp only [List.length_append, List.length_singleton]
        push_cast
        omega)]
      exact ⟨_, rfl⟩

theorem iget_of_lookup {idm idm2 : idaemon_t} {s s2 : Sys} (hd : DirWF idm s)
    (hd2 : DirWF idm2 s2) (n2 : Name)
    (h : dirLookup (bufdata s2) (dirBlocks idm2.icache s2) n2 =
      dirLookup (bufdata s) (dirBlocks idm.icache s) n2) :
    ∃ r, iget idm s n2 = .ok (r, s) ∧ iget idm2 s2 n2 = .ok (r, s2) := by
  rw [iget_spec hd, iget_spec hd2, h]
  exact ⟨_, rfl, rfl⟩

/-- What `iinsert` of a new name leaves behind if it returns: the directory is sound, holds
the name for the given inode number, and holds every other name as before. -/
theorem iinsert_new_ok {idm idm2 : idaemon_t} {s s2 : Sys} (hd : DirWF idm s) (name : Name)
    (v e : Int) (hg : GoodName name) (hv1 : -2 ^ 63 ≤ v) (hv2 : v < 2 ^ 63)
    (hnone : dirLookup (bufdata s) (dirBlocks idm.icache s) name = none)
    (hr : iinsert idm s name v = .ok (e, idm2, s2)) :
    e = 0 ∧ DirWF idm2 s2 ∧
      dirLookup (bufdata s2) (dirBlocks idm2.icache s2) name = some v ∧
      (∀ n2, n2 ≠ name → n2 ≠ [] →
        dirLookup (bufdata s2) (dirBlocks idm2.icache s2) n2 =
          dirLookup (bufdata s) (dirBlocks idm.icache s) n2) := by
  cases hemp : dirEmpty (bufdata s) (dirBlocks idm.icache s) 0 with
  | some ij =>
    obtain ⟨i, j⟩ := ij
    obtain ⟨r1, r2, r3, r4, r5, r6, r7⟩ :=
      iinsert_reuse_ok hd name v e hv1 hv2 i j hnone hemp hr
    subst r2
    obtain ⟨_, q2, q3, q4, q5, q6⟩ := dirEmpty_some _ _ _ _ _ hemp
    simp only [Nat.sub_zero] at q2 q4 q5 q6
    have hmem : (dirBlocks idm2.icache s).getD i 0 ∈ dirBlocks idm2.icache s := by
      rw [List.getD_eq_getElem _ _ q2]
      exact List.getElem_mem _
    refine ⟨r1, r6, ?_, ?_⟩
    · rw [r7, r3, dirLookup_update_same _ _ _ _ _ q3 hg hv1 hv2 _ hmem hnone]
    · intro n2 hn1 hn2
      rw [r7, r3]
      exact dirLookup_update_other _ _ _ _ _ _ q4 hg hn1 hn2 _
  | none =>
    obtain ⟨r1, r2, ⟨nb, r3, r4, r5⟩, r6, r7, r8, r9, _, _⟩ :=
      iinsert_extend_ok hd name v e hv1 hv2 hnone hemp hr
    have hold : ∀ n2, dirLookup (bufdata s2) (dirBlocks idm.icache s) n2 =
        dirLookup (bufdata s) (dirBlocks idm.icache s) n2 :=
      fun n2 => dirLookup_congr _ _ n2 _ r6
    refine ⟨r1, r9, ?_, ?_⟩
    · rw [r4, dirLookup_append, hold, hnone]
      simp only [dirLookup]
      rw [r5, slotLookup_putEntry_same _ _ _ _ hg hv1 hv2 23 0 (Nat.zero_le _) (by omega)
        (slotLookup_zeroBlock name hg.1 23 0)]
    · intro n2 hn1 hn2
      rw [r4, dirLookup_append, hold]
      cases dirLookup (bufdata s) (dirBlocks idm.icache s) n2 with
      | some w => rfl
      | none =>
        simp only [dirLookup]
        rw [r5, slotLookup_putEntry_other _ _ _ _ _ (nameAt_zeroBlock 0) hg hn1 hn2,
          slotLookup_zeroBlock n2 hn2]

/-- An inode whose only block is its first direct block. -/
theorem ptrWF_direct0 (ic : icache_t) (s : Sys) (h : ic.indir = 0)
    (ha : ∀ i, 0 < i → i < 10 → ic.addrs i = 0) (hv : Valid s (ic.addrs 0)) : PtrWF ic s := by
  have hp : ∀ p, ptr ic s p ≠ 0 → p = Pos.direct 0 := by
    intro p hp
    cases p with
    | direct i =>
      by_cases hi : i = 0
      · rw [hi]
      · exfalso
        apply hp
        simp only [ptr]
        split
        · exact ha i (by omega) (by assumption)
        · rfl
    | root => exact absurd h hp
    | slot j t =>
      exfalso
      apply hp
      simp [ptr, slotZ, chainZ_empty ic s h j]
  constructor
  · intro p hp0
    have := hp p hp0
    subst this
    exact hv
  · intro p q hp0 hpq
    rw [hp p hp0, hp q (by rw [← hpq]; exact hp0)]

theorem dirWF_root : DirWF rootIdm fsSys :=
  ⟨⟨by decide, by decide, by decide, by decide, by decide⟩,
    ptrWF_direct0 _ _ rfl (fun i h1 _ => by
      show (if i = 0 then (65 : Int) else 0) = 0
      rw [if_neg (by omega)]) ⟨⟨by decide, by decide⟩, by decide!⟩,
    fun _ _ => rfl, rfl, by decide, by decide,
    fun k hk => by
      have : k = 0 := by
        have h1 : (rootIdm.icache.size / 512).toNat = 1 := by decide
        omega
      subst this
      decide!⟩

theorem goodName_a : GoodName nameA :=
  ⟨by decide, by decide, by
    intro c hc
    simp only [nameA, List.mem_singleton] at hc
    subst hc
    decide⟩

/-! ## Fields of an inode slot -/

theorem fieldr_rdb (blk : Block) (f : Nat) (hf : f ≤ 63) :
    fieldr blk (f : Int) = .ok (rdb blk f) := by
  unfold fieldr
  rw [readn_rdb _ _ (by omega) (by omega), Int.toNat_ofNat]

theorem fieldw_put8 (blk : Block) (f : Nat) (v : Int) (hf : f ≤ 63) :
    fieldw blk (f : Int) v = .ok (put8 blk (f * 8) v) := by
  unfold fieldw
  rw [writen_put8 _ _ _ (by omega) (by omega), Int.toNat_ofNat]

theorem ifield_eq (io f : Nat) : ifield (io : Int) (f : Int) = ((io * 16 + f : Nat) : Int) := by
  unfold ifield NIWORDS NIADDRS
  push_cast
  ring

theorem ifield_eq6 (io i : Nat) :
    ifield (io : Int) (6 + (i : Int)) = ((io * 16 + (6 + i) : Nat) : Int) := by
  unfold ifield NIWORDS NIADDRS
  push_cast
  ring

theorem rdb_put8 (d : Block) (t t2 : Nat) (v : Int) (h1 : -2 ^ 63 ≤ v) (h2 : v < 2 ^ 63) :
    rdb (put8 d (t * 8) v) t2 = if t2 = t then v else rdb d t2 := by
  by_cases h : t2 = t
  · subst h
    rw [if_pos rfl, rdb_put8_same _ _ _ h1 h2]
  · rw [if_neg h, rdb_put8_other _ _ _ _ h]

theorem clearAddrs_rdb (io : Nat) : ∀ (n i : Nat) (blk : Block) (f : Nat),
    rdb (clearAddrs io n i blk) f =
      if io * 16 + (6 + i) ≤ f ∧ f < io * 16 + (6 + i) + n then 0 else rdb blk f := by
  intro n
  induction n with
  | zero =>
    intro i blk f
    simp only [clearAddrs]
    rw [if_neg (by omega)]
  | succ n ih =>
    intro i blk f
    simp only [clearAddrs]
    rw [ih, rdb_put8 _ _ _ _ (by omega) (by omega)]
    by_cases h1 : f = io * 16 + (6 + i)
    · subst h1
      rw [if_neg (by omega), if_pos rfl, if_pos (by omega)]
    · rw [if_neg h1]
      by_cases h2 : io * 16 + (6 + (i + 1)) ≤ f ∧ f < io * 16 + (6 + (i + 1)) + n
      · rw [if_pos h2, if_pos (by omega)]
      · rw [if_neg h2, if_neg (by omega)]

theorem storeAddrs_other (io : Nat) (a : Nat → Int) : ∀ (n i : Nat) (blk : Block) (f : Nat),
    (f < io * 16 + (6 + i) ∨ io * 16 + (6 + i) + n ≤ f) →
    rdb (storeAddrs io a n i blk) f = rdb blk f := by
  intro n
  induction n with
  | zero => intro i blk f _; rfl
  | succ n ih =>
    intro i blk f h
    simp only [storeAddrs]
    rw [ih _ _ _ (by omega), rdb_put8_other _ _ _ _ (by omega)]

theorem storeAddrs_bytes (io : Nat) (a : Nat → Int) : ∀ (n i : Nat) (blk : Block) (k : Nat),
    (k < (io * 16 + (6 + i)) * 8 ∨ (io * 16 + (6 + i) + n) * 8 ≤ k) →
    storeAddrs io a n i blk k = blk k := by
  intro n
  induction n with
  | zero => intro i blk k _; rfl
  | succ n ih =>
    intro i blk k h
    simp only [storeAddrs]
    rw [ih _ _ _ (by omega)]
    unfold put8
    rw [if_neg (by omega)]

theorem inoInit_fields (blk : Block) (io : Nat) (t maj min : Int)
    (ht1 : -2 ^ 63 ≤ t) (ht2 : t < 2 ^ 63) (hma1 : -2 ^ 63 ≤ maj) (hma2 : maj < 2 ^ 63)
    (hmi1 : -2 ^ 63 ≤ min) (hmi2 : min < 2 ^ 63) :
    inoField (inoInit blk io t maj min) io 0 = t ∧
      inoField (inoInit blk io t maj min) io 1 = 1 ∧
      inoField (inoInit blk io t maj min) io 2 = 0 ∧
      inoField (inoInit blk io t maj min) io 3 = maj ∧
      inoField (inoInit blk io t maj min) io 4 = min ∧
      inoField (inoInit blk io t maj min) io 5 = 0 ∧
      (∀ i, i < 10 → inoField (inoInit blk io t maj min) io (6 + i) = 0) := by
  unfold inoField inoInit
  refine ⟨?_, ?_, ?_, ?_, ?_, ?_, ?_⟩
  · rw [clearAddrs_rdb, if_neg (by omega)]
    rw [rdb_put8_other _ _ _ _ (by omega), rdb_put8_other _ _ _ _ (by omega),
      rdb_put8_other _ _ _ _ (by omega), rdb_put8_other _ _ _ _ (by omega),
      rdb_put8_other _ _ _ _ (by omega), rdb_put8_same _ _ _ ht1 ht2]
  · rw [clearAddrs_rdb, if_neg (by omega)]
    rw [rdb_put8_other _ _ _ _ (by omega), rdb_put8_other _ _ _ _ (by omega),
      rdb_put8_other _ _ _ _ (by omega), rdb_put8_other _ _ _ _ (by omega),
      rdb_put8_same _ _ _ (by omega) (by omega)]
  · rw [clearAddrs_rdb, if_neg (by omega)]
    rw [rdb_put8_other _ _ _ _ (by omega), rdb_put8_other _ _ _ _ (by omega),
      rdb_put8_other _ _ _ _ (by omega), rdb_put8_same _ _ _ (by omega) (by omega)]
  · rw [clearAddrs_rdb, if_neg (by omega)]
    rw [rdb_put8_other _ _ _ _ (by omega), rdb_put8_other _ _ _ _ (by omega),
      rdb_put8_same _ _ _ hma1 hma2]
  · rw [clearAddrs_rdb, if_neg (by omega)]
    rw [rdb_put8_other _ _ _ _ (by omega), rdb_put8_same _ _ _ hmi1 hmi2]
  · rw [clearAddrs_rdb, if_neg (by omega)]
    rw [rdb_put8_same _ _ _ (by omega) (by omega)]
  · intro i hi
    rw [clearAddrs_rdb, if_pos (by omega)]

theorem inoFlush_other (blk : Block) (io : Nat) (ic : icache_t) (f : Nat)
    (h : f < io * 16 ∨ io * 16 + 16 ≤ f) : rdb (inoFlush blk io ic) f = rdb blk f := by
  unfold inoFlush
  rw [storeAddrs_other _ _ _ _ _ _ (by omega)]
  rw [rdb_put8_other _ _ _ _ (by omega), rdb_put8_other _ _ _ _ (by omega),
    rdb_put8_other _ _ _ _ (by omega), rdb_put8_other _ _ _ _ (by omega),
    rdb_put8_other _ _ _ _ (by omega), rdb_put8_other _ _ _ _ (by omega)]

theorem inode_w_addr_eq (blk : Block) (io i : Nat) (v : Int) (hio : io ≤ 3) (hi : i < 10) :
    inode_w_addr blk (io : Int) (i : Int) v = .ok (put8 blk ((io * 16 + (6 + i)) * 8) v) := by
  unfold inode_w_addr
  rw [if_neg (by unfold NIADDRS; omega), ifield_eq6, fieldw_put8 _ _ _ (by omega)]

theorem icreate_addrs_eq (io : Nat) (hio : io ≤ 3) : ∀ (n i : Nat) (blk : Block), i + n ≤ 10 →
    icreate_addrs (io : Int) n i blk = .ok (clearAddrs io n i blk) := by
  intro n
  induction n with
  | zero => intro i blk _; rfl
  | succ n ih =>
    intro i blk h
    simp only [icreate_addrs, clearAddrs]
    rw [inode_w_addr_eq _ _ _ _ hio (by omega)]
    exact ih _ _ (by omega)

theorem flushto_addrs_eq (io : Nat) (ic : icache_t) (hio : io ≤ 3) :
    ∀ (n i : Nat) (blk : Block), i + n ≤ 10 →
    flushto_addrs (io : Int) ic n i blk = .ok (storeAddrs io ic.addrs n i blk) := by
  intro n
  induction n with
  | zero => intro i blk _; rfl
  | succ n ih =>
    intro i blk h
    simp only [flushto_addrs, storeAddrs]
    rw [inode_w_addr_eq _ _ _ _ hio (by omega)]
    exact ih _ _ (by omega)

theorem ifield_nat (io f : Nat) : ifield (io : Int) (f : Int) = ((io * 16 + f : Nat) : Int) :=
  ifield_eq io f

theorem icreate_writes_eq (blk : Block) (io : Nat) (t maj min : Int) (hio : io ≤ 3)
    (ht : ¬ (t < I_FIRST ∨ t > I_LAST)) :
    (do
      let b ← inode_w_itype blk (io : Int) t
      let b ← inode_w_linkcount b (io : Int) 1
      let b ← inode_w_size b (io : Int) 0
      let b ← inode_w_major b (io : Int) maj
      let b ← inode_w_minor b (io : Int) min
      let b ← inode_w_indirect b (io : Int) 0
      icreate_addrs (io : Int) 10 0 b : Except String Block) = .ok (inoInit blk io t maj min) := by
  unfold inode_w_itype inode_w_linkcount inode_w_size inode_w_major inode_w_minor
    inode_w_indirect
  rw [if_neg ht]
  have e0 := ifield_eq io 0
  have e1 := ifield_eq io 1
  have e2 := ifield_eq io 2
  have e3 := ifield_eq io 3
  have e4 := ifield_eq io 4
  have e5 := ifield_eq io 5
  simp only [Nat.cast_ofNat, Nat.cast_zero, Nat.cast_one] at e0 e1 e2 e3 e4 e5
  rw [e0, e1, e2, e3, e4, e5]
  rw [fieldw_put8 _ _ _ (by omega)]
  simp only [Except.bind, bind]
  rw [fieldw_put8 _ _ _ (by omega)]
  simp only [Except.bind, bind]
  rw [fieldw_put8 _ _ _ (by omega)]
  simp only [Except.bind, bind]
  rw [fieldw_put8 _ _ _ (by omega)]
  simp only [Except.bind, bind]
  rw [fieldw_put8 _ _ _ (by omega)]
  simp only [Except.bind, bind]
  rw [fieldw_put8 _ _ _ (by omega)]
  simp only [Except.bind, bind]
  rw [icreate_addrs_eq _ hio _ _ _ (by omega)]
  rfl

/-! ## Allocation of an inode -/

theorem layout_of_consts {s s2 : Sys} (h : Consts s s2) : Layout s s2 :=
  ⟨h.superb, h.fst, h.flen, h.usable⟩

theorem layout_refl (s : Sys) : Layout s s := ⟨rfl, rfl, rfl, rfl⟩

theorem layout_trans {a b c : Sys} (h1 : Layout a b) (h2 : Layout b c) : Layout a c :=
  ⟨h2.superb.trans h1.superb, h2.fst.trans h1.fst, h2.flen.trans h1.flen,
    h2.usable.trans h1.usable⟩

theorem layout_setHint (s : Sys) (b o : Int) : Layout s (setHint s b o) := ⟨rfl, rfl, rfl, rfl⟩

theorem geom_layout {s s2 : Sys} (hG : Geom s) (h : Layout s s2) : Geom s2 :=
  ⟨by rw [h.fst]; exact hG.free_pos, by rw [h.fst, h.flen, h.usable]; exact hG.free_below,
    by rw [h.flen]; exact hG.len_nonneg, by rw [h.superb, h.usable]; exact hG.super_below,
    by rw [h.usable, h.flen]; exact hG.range⟩

theorem inMap_layout {s s2 : Sys} (h : Layout s s2) (x : Int) : InMap s2 x ↔ InMap s x := by
  unfold InMap
  rw [h.usable, h.flen]

/-- The bit of a block in the free map depends on the layout and on the free-map blocks only. -/
theorem used_layout {s s2 : Sys} (h : Layout s s2) (hG : Geom s)
    (hd : ∀ x, x < s.usable_start → bufdata s2 x = bufdata s x) (x : Int) (hx : InMap s x) :
    used s2 x = used s x := by
  have hc : Consts s (setHint s2 s.ifreeblk s.ifreeoff) := ⟨h.superb, h.fst, h.flen, h.usable,
    rfl, rfl⟩
  exact used_congr hc hG hd x hx

/-- What a successful `ialloc` does: it hands out the next slot of the current block of free
inodes, or slot 0 of a block that was free and is zeroed. -/
theorem ialloc_ok {s s2 : Sys} {bn io : Int} (hG : Geom s)
    (h : ialloc s = .ok ((bn, io), s2)) :
    Layout s s2 ∧ s2.given = s.given ∧
      ((s.ifreeblk ≠ 0 ∧ bn = s.ifreeblk ∧ io = s.ifreeoff ∧ bufdata s2 = bufdata s ∧
          s2.logblks = s.logblks ∧ s2.loglen = s.loglen) ∨
        (s.ifreeblk = 0 ∧ io = 0 ∧ Free s bn ∧ bufdata s2 bn = zeroBlock ∧
          (∀ x, s.usable_start ≤ x → x ≠ bn → bufdata s2 x = bufdata s x) ∧
          (∀ x, InMap s x → used s2 x = (decide (x = bn) || used s x)))) := by
  unfold ialloc at h
  by_cases hf : s.ifreeblk ≠ 0
  · rw [if_pos hf] at h
    simp only [Except.ok.injEq, Prod.mk.injEq] at h
    obtain ⟨⟨rfl, rfl⟩, rfl⟩ := h
    refine ⟨?_, ?_, Or.inl ⟨hf, rfl, rfl, ?_, ?_, ?_⟩⟩
    all_goals (split <;> first | rfl | exact ⟨rfl, rfl, rfl, rfl⟩)
  · rw [if_neg hf] at h
    have hf0 : s.ifreeblk = 0 := by
      by_contra hh
      exact hf hh
    simp only [bind_eq_ok] at h
    obtain ⟨⟨b, sB⟩, hB, s3, h3, s4, h4, s5, h5, h6⟩ := h
    simp only at h3 h4 h5 h6
    simp only [Except.ok.injEq, Prod.mk.injEq] at h6
    obtain ⟨⟨e1, e2⟩, e3⟩ := h6
    obtain ⟨b1, b2, b3, b4, b5⟩ := balloc_ok hB hG
    obtain ⟨_, _, hg3, e4⟩ := bread_ok h3
    subst e4
    obtain ⟨hd4, hg4, hc4, _, _⟩ := log_write_ok h4
    obtain ⟨_, e5⟩ := brelse_ok h5
    subst e5
    have hb : s4.ifreeblk = b := hc4.ifb
    have ho : s4.ifreeoff = 0 := hc4.ifo
    have hbn : bn = b := by rw [← e1]; exact hb
    have hio : io = 0 := by rw [← e2]; exact ho
    subst hbn
    have hL : Layout s s2 := by
      rw [← e3]
      refine ⟨?_, ?_, ?_, ?_⟩
      · show s4.superb_start = _
        rw [hc4.superb]; exact b2.superb
      · show s4.free_start = _
        rw [hc4.fst]; exact b2.fst
      · show s4.free_len = _
        rw [hc4.flen]; exact b2.flen
      · show s4.usable_start = _
        rw [hc4.usable]; exact b2.usable
    have hdat : bufdata s2 = Function.update (bufdata sB) bn zeroBlock := by
      rw [← e3]
      show bufdata s4 = _
      rw [hd4, bufdata_setdata]
      rfl
    have hgiv : s2.given = s.given := by
      rw [← e3]
      show Function.update s4.given s4.ifreeblk false = _
      rw [hg4, hb]
      show Function.update (Function.update sB.given bn true) bn false = _
      rw [given_release _ _ hg3, b3]
    have hused : ∀ x, InMap s x → used s2 x = (decide (x = bn) || used s x) := by
      intro x hx
      rw [← b5 x hx]
      have hLB : Layout sB s2 :=
        ⟨by rw [hL.superb, b2.superb], by rw [hL.fst, b2.fst], by rw [hL.flen, b2.flen],
          by rw [hL.usable, b2.usable]⟩
      refine used_layout hLB (geom_consts hG b2) ?_ x ((inMap_consts b2 x).mpr hx)
      intro y hy
      rw [hdat, Function.update_noteq]
      rw [b2.usable] at hy
      have := b1.1.1
      omega
    refine ⟨hL, hgiv, Or.inr ⟨hf0, hio, b1, ?_, ?_, hused⟩⟩
    · rw [hdat, Function.update_same]
    · intro x hx hne
      rw [hdat, Function.update_noteq hne]
      exact b4 x hx

theorem inoInit_of_writes {b0 b1 b2 b3 b4 b5 b6 b7 : Block} {io : Nat} {t maj min : Int}
    (hio : io ≤ 3) (ht : ¬ (t < I_FIRST ∨ t > I_LAST))
    (h1 : inode_w_itype b0 (io : Int) t = .ok b1)
    (h2 : inode_w_linkcount b1 (io : Int) 1 = .ok b2)
    (h3 : inode_w_size b2 (io : Int) 0 = .ok b3)
    (h4 : inode_w_major b3 (io : Int) maj = .ok b4)
    (h5 : inode_w_minor b4 (io : Int) min = .ok b5)
    (h6 : inode_w_indirect b5 (io : Int) 0 = .ok b6)
    (h7 : icreate_addrs (io : Int) 10 0 b6 = .ok b7) : b7 = inoInit b0 io t maj min := by
  have h := icreate_writes_eq b0 io t maj min hio ht
  rw [h1] at h
  simp only [bind, Except.bind] at h
  rw [h2] at h
  simp only [bind, Except.bind] at h
  rw [h3] at h
  simp only [bind, Except.bind] at h
  rw [h4] at h
  simp only [bind, Except.bind] at h
  rw [h5] at h
  simp only [bind, Except.bind] at h
  rw [h6] at h
  simp only [bind, Except.bind] at h
  rw [h7] at h
  simp only [Except.ok.injEq] at h
  exact h

/-- What the allocation and initialisation of the new inode in `icreate` does. -/
theorem newinode_ok {s s1 s2 s3 s4 : Sys} {bn io t maj min : Int}
    {b1 b2 b3 b4 b5 b6 b7 : Block} (hG : Geom s)
    (hv : s.ifreeblk ≠ 0 → Valid s s.ifreeblk ∧ 0 ≤ s.ifreeoff ∧ s.ifreeoff < 4)
    (ht : ¬ (t < I_FIRST ∨ t > I_LAST))
    (hA : ialloc s = .ok ((bn, io), s1)) (hB : bread s1 bn = .ok s2)
    (h1 : inode_w_itype (bufdata s2 bn) io t = .ok b1)
    (h2 : inode_w_linkcount b1 io 1 = .ok b2)
    (h3 : inode_w_size b2 io 0 = .ok b3)
    (h4 : inode_w_major b3 io maj = .ok b4)
    (h5 : inode_w_minor b4 io min = .ok b5)
    (h6 : inode_w_indirect b5 io 0 = .ok b6)
    (h7 : icreate_addrs io 10 0 b6 = .ok b7)
    (hL : log_write (setdata s2 bn b7) bn = .ok s3) (hR : brelse s3 bn = .ok s4) :
    ∃ (ioN : Nat) (base : Block), io = (ioN : Int) ∧ ioN ≤ 3 ∧ Layout s s4 ∧
      s4.given = s.given ∧ InMap s bn ∧ Valid s4 bn ∧
      (s.ifreeblk ≠ 0 → bn = s.ifreeblk ∧ io = s.ifreeoff) ∧ (s.ifreeblk = 0 → Free s bn) ∧
      bufdata s4 bn = inoInit base ioN t maj min ∧
      (∀ x, s.usable_start ≤ x → x ≠ bn → bufdata s4 x = bufdata s x) ∧
      (∀ x, InMap s x → used s4 x = (decide (x = bn) || used s x)) := by
  obtain ⟨a1, a2, a3⟩ := ialloc_ok hG hA
  obtain ⟨_, _, hg2, rfl⟩ := bread_ok hB
  obtain ⟨hd3, hg3, hc3, _, _⟩ := log_write_ok hL
  obtain ⟨_, rfl⟩ := brelse_ok hR
  have hL4 : Layout s (brelseSt s3 bn) :=
    layout_trans a1 ⟨hc3.superb, hc3.fst, hc3.flen, hc3.usable⟩
  have hgiv : (brelseSt s3 bn).given = s.given := by
    rw [brelseSt_given, hg3]
    show Function.update (Function.update s1.given bn true) bn false = _
    rw [given_release _ _ hg2, a2]
  have hio : ∃ ioN : Nat, io = (ioN : Int) ∧ ioN ≤ 3 := by
    rcases a3 with ⟨c1, _, c3, _⟩ | ⟨_, c2, _⟩
    · obtain ⟨_, v2, v3⟩ := hv c1
      exact ⟨io.toNat, by omega, by omega⟩
    · exact ⟨0, by simpa using c2, by omega⟩
  obtain ⟨ioN, rfl, hioN⟩ := hio
  have hb7 := inoInit_of_writes hioN ht h1 h2 h3 h4 h5 h6 h7
  have hdat : bufdata (brelseSt s3 bn) = Function.update (bufdata s1) bn b7 := by
    rw [bufdata_brelseSt, hd3, bufdata_setdata]
    rfl
  have hIM : InMap s bn := by
    rcases a3 with ⟨c1, c2, _⟩ | ⟨_, _, c3, _⟩
    · rw [c2]; exact (hv c1).1.1
    · exact c3.1
  have hother : ∀ x, s.usable_start ≤ x → x ≠ bn → bufdata s1 x = bufdata s x := by
    intro x hx hne
    rcases a3 with ⟨_, _, _, c4, _⟩ | ⟨_, _, _, _, c5, _⟩
    · rw [c4]
    · exact c5 x hx hne
  have hused1 : ∀ x, InMap s x → used s1 x = (decide (x = bn) || used s x) := by
    intro x hx
    rcases a3 with ⟨c1, c2, _, c4, _⟩ | ⟨_, _, _, _, _, c6⟩
    · have e : used s1 x = used s x :=
        used_layout a1 hG (fun y _ => by rw [c4]) x hx
      rw [e]
      by_cases hxb : x = bn
      · subst hxb
        have := (hv c1).1.2
        rw [← c2] at this
        rw [this]
        simp
      · simp [hxb]
    · exact c6 x hx
  have hused : ∀ x, InMap s x → used (brelseSt s3 bn) x = (decide (x = bn) || used s x) := by
    intro x hx
    rw [← hused1 x hx]
    refine used_layout (s := s1) ⟨by rw [hL4.superb, a1.superb], by rw [hL4.fst, a1.fst],
      by rw [hL4.flen, a1.flen], by rw [hL4.usable, a1.usable]⟩ (geom_layout hG a1) ?_ x
      ((inMap_layout a1 x).mpr hx)
    intro y hy
    rw [hdat, Function.update_noteq]
    rw [a1.usable] at hy
    have := hIM.1
    omega
  refine ⟨ioN, bufdata s1 bn, rfl, hioN, hL4, hgiv, hIM, ?_, ?_, ?_, ?_, ?_, hused⟩
  · refine ⟨(inMap_layout hL4 bn).mpr hIM, ?_⟩
    rw [hused bn hIM]
    simp
  · intro c1
    rcases a3 with ⟨_, c2, c3, _⟩ | ⟨c0, _⟩
    · exact ⟨c2, c3⟩
    · exact absurd c0 c1
  · intro c0
    rcases a3 with ⟨c1, _⟩ | ⟨_, _, c3, _⟩
    · exact absurd c0 c1
    · exact c3
  · rw [hdat, Function.update_same, hb7]
    rfl
  · intro x hx hne
    rw [hdat, Function.update_noteq hne]
    exact hother x hx hne

/-! ## Blocks that do not belong to a directory are left alone by `iinsert` -/

theorem usable_pos {s : Sys} (hG : Geom s) : 0 < s.usable_start := by
  have h1 := hG.free_pos
  have h2 := hG.free_below
  have h3 := hG.len_nonneg
  omega

/-- A block in use that the inode does not keep is not touched by an extension of the inode. -/
theorem ext_foreign {ic ic2 : icache_t} {s s2 : Sys} (hG : Geom s) (he : Ext ic s ic2 s2)
    {b : Int} (hb1 : s.usable_start ≤ b) (hb2 : ¬ Free s b) (hb3 : ∀ p, ptr ic s p ≠ b) :
    bufdata s2 b = bufdata s b ∧ (∀ p, ptr ic2 s2 p ≠ b) ∧ ¬ Free s2 b := by
  refine ⟨he.data b hb1 hb2 (fun j => by rw [← ptr_cpos]; exact hb3 _), ?_,
    fun hf => hb2 (he.mono b hf)⟩
  intro p
  by_cases h0 : ptr ic s p = 0
  · by_cases h2 : ptr ic2 s2 p = 0
    · rw [h2]
      have := usable_pos hG
      omega
    · intro hh
      have := he.fresh p h0 h2
      rw [hh] at this
      exact hb2 this
  · rw [he.keep p h0]
    exact hb3 p

/-- What `iinsert` of a new name leaves alone: a block in use that the directory does not
keep. -/
theorem iinsert_frame {idm idm2 : idaemon_t} {s s2 : Sys} (hd : DirWF idm s) (name : Name)
    (v e : Int) (hv1 : -2 ^ 63 ≤ v) (hv2 : v < 2 ^ 63)
    (h : dirLookup (bufdata s) (dirBlocks idm.icache s) name = none)
    (hr : iinsert idm s name v = .ok (e, idm2, s2))
    {b : Int} (hb1 : s.usable_start ≤ b) (hb2 : ¬ Free s b)
    (hb3 : ∀ p, ptr idm.icache s p ≠ b) :
    bufdata s2 b = bufdata s b ∧ (∀ p, ptr idm2.icache s2 p ≠ b) ∧ ¬ Free s2 b := by
  cases he : dirEmpty (bufdata s) (dirBlocks idm.icache s) 0 with
  | some ij =>
    obtain ⟨i, j⟩ := ij
    obtain ⟨_, rfl, hdat, _, hcs, hd2, _⟩ := iinsert_reuse_ok hd name v e hv1 hv2 i j h he hr
    obtain ⟨_, h2, _, _, _, _⟩ := dirEmpty_some _ _ _ _ _ he
    simp only [Nat.sub_zero] at h2
    obtain ⟨hgd, hik⟩ := getD_dirBlocks h2
    have hkm := hd.mapped i hik
    obtain ⟨_, w2⟩ := data_update hd.geom hd.wf hkm hcs (by rw [hdat, hgd])
    have hne : b ≠ (dirBlocks idm2.icache s).getD i 0 := by
      rw [hgd]
      exact fun hh => hb3 (fpos i) hh.symm
    refine ⟨by rw [hdat, Function.update_noteq hne], fun p => by rw [w2]; exact hb3 p, ?_⟩
    intro hf
    apply hb2
    refine ⟨(inMap_consts hcs b).mp hf.1, ?_⟩
    rw [← used_congr hcs hd.geom ?_ b ((inMap_consts hcs b).mp hf.1)]
    · exact hf.2
    · intro x hx
      rw [hdat, Function.update_noteq]
      have hm : (dirBlocks idm2.icache s).getD i 0 ∈ dirBlocks idm2.icache s := by
        rw [List.getD_eq_getElem _ _ h2]
        exact List.getElem_mem _
      have := (dirBlocks_range hd _ hm).2.1
      omega
  | none =>
    unfold iinsert at hr
    rw [all_dirents_spec hd] at hr
    simp only [ok_bind] at hr
    rw [dirent_lookup_eq, bufdata_heldSt, h] at hr
    simp only [liftE_ok, ok_bind, Bool.false_eq_true, if_false] at hr
    unfold dirent_add at hr
    rw [dirent_getempty_eq, bufdata_heldSt, he] at hr
    simp only [liftE_ok, ok_bind, Bool.false_eq_true, if_false, bind_eq_ok] at hr
    obtain ⟨⟨idmR, sR⟩, ⟨⟨⟨dd, deoff, dorel⟩, idmA, sA⟩, ⟨⟨blkn, idm1, sO⟩, hO, sB, hB, hA⟩,
      fn, hfn, hrest⟩, s7, h7, hfin⟩ := hr
    simp only [Except.ok.injEq, Prod.mk.injEq] at hA hfin
    obtain ⟨⟨rfl, rfl, rfl⟩, rfl, rfl⟩ := hA
    obtain ⟨rfl, rfl, rfl⟩ := hfin
    simp only at hB hfn hrest h7
    have hS1d := bufdata_heldSt s (dirBlocks idm.icache s)
    have hS1c := consts_heldSt s (dirBlocks idm.icache s)
    have hG1 := geom_consts hd.geom hS1c
    have hwf1 := ptrWF_same hd.wf hS1d hS1c
    obtain ⟨e1, e2, e3, e4, e5, e6⟩ := offsetblk_write_ok hG1 hwf1 hd.size_nonneg hO
    obtain ⟨_, _, hgb, rfl⟩ := bread_ok hB
    have hzb : bufdata (setdata (breadSt sO blkn) blkn zeroBlock) blkn = zeroBlock := by
      rw [bufdata_setdata, Function.update_same]
    rw [hzb, liftE_eq_ok] at hfn
    have hfn0 := filename_eq zeroBlock 0 (by omega)
    rw [hfn0, nameAt_zeroBlock] at hfn
    simp only [Except.ok.injEq] at hfn
    subst hfn
    simp only [ne_eq, not_true_eq_false, if_false, hzb, if_true] at hrest
    have hw := w_entry_eq zeroBlock 0 name v (by omega) hv1 hv2
    cases hwf : w_filename zeroBlock ((0 : Nat) : Int) name with
    | error er =>
      rw [hwf] at hw
      cases hw
    | ok d2 =>
      rw [hwf] at hw hrest
      simp only [ok_bind, liftE_ok] at hw hrest
      rw [hw] at hrest
      simp only [ok_bind, liftE_ok, bind_eq_ok] at hrest
      obtain ⟨s5, h5, s6, h6, hR⟩ := hrest
      simp only [Except.ok.injEq, Prod.mk.injEq] at hR
      obtain ⟨rfl, rfl⟩ := hR
      obtain ⟨hd5, hg5, hc5, _, _⟩ := log_write_ok h5
      obtain ⟨_, rfl⟩ := brelse_ok h6
      have hg6 : (brelseSt s5 blkn).given = (heldSt s (dirBlocks idm.icache s)).given := by
        rw [brelseSt_given, hg5, setdata_given, setdata_given, breadSt_given,
          given_release _ _ hgb, e3]
      rw [dirent_brelse_spec _ _ (dirBlocks_nodup hd) (by
        intro x hx
        refine ⟨(dirBlocks_range hd x hx).1, ?_⟩
        rw [hg6]
        unfold heldSt
        simp [hx])] at h7
      rw [held_release s _ _ (fun x hx => hd.quiet x (dirBlocks_range hd x hx).2.1) hg6] at h7
      simp only [Except.ok.injEq] at h7
      subst h7
      have hdat : bufdata (setGiven (brelseSt s5 blkn) s.given) =
          Function.update (bufdata sO) blkn (putEntry zeroBlock 0 name v) := by
        rw [bufdata_setGiven, bufdata_brelseSt, hd5, bufdata_setdata, bufdata_setdata,
          bufdata_breadSt, update_update_same]
      have hcO : Consts s sO := consts_trans hS1c e1.consts
      have hcs : Consts s (setGiven (brelseSt s5 blkn) s.given) :=
        consts_trans hcO ⟨hc5.superb, hc5.fst, hc5.flen, hc5.usable, hc5.ifb, hc5.ifo⟩
      have hGO := geom_consts hd.geom hcO
      have hN : (idm.icache.size / 512).toNat ≤ (idm.icache.size / 512).toNat := le_refl _
      have hkm := e6 _ hN
      obtain ⟨w1, w2⟩ := data_update hGO e2 hkm
        (consts_trans (consts_symm hcO) hcs) (by rw [hdat, e5])
      obtain ⟨f1, f2, f3⟩ := ext_foreign hG1 e1 (b := b) hb1
        (fun hf => hb2 ((free_same hS1d hS1c b).mp hf))
        (fun p => by rw [ptr_same hS1d]; exact hb3 p)
      have hbn : b ≠ blkn := by
        rw [e5]
        exact fun hh => f2 (fpos _) hh.symm
      refine ⟨?_, ?_, ?_⟩
      · rw [hdat, Function.update_noteq hbn, f1]
        rfl
      · intro p
        have hp : ptr { idm1.icache with size := idm1.icache.size + 512 }
            (setGiven (brelseSt s5 blkn) s.given) =
            ptr idm1.icache (setGiven (brelseSt s5 blkn) s.given) :=
          ptr_icache_congr _ rfl rfl
        show ptr { idm1.icache with size := idm1.icache.size + 512 } _ p ≠ b
        rw [hp, w2]
        exact f2 p
      · intro hf
        apply f3
        have hco : Consts sO (setGiven (brelseSt s5 blkn) s.given) :=
          consts_trans (consts_symm hcO) hcs
        refine ⟨(inMap_consts hco b).mp hf.1, ?_⟩
        rw [← used_congr hco hGO ?_ b ((inMap_consts hco b).mp hf.1)]
        · exact hf.2
        · intro x hx
          rw [hdat, Function.update_noteq]
          have hv := (fblock_valid e2 hkm).1.1
          rw [← e5] at hv
          omega

/-! ## Writing the cached inode back: `flushto` and `iupdate` -/

theorem icache_flushto_ok {ic : icache_t} {blk b2 : Block} {io : Nat} {ch : Bool}
    (hio : io ≤ 3) (h : icache_flushto ic blk (io : Int) = .ok (b2, ch)) :
    b2 = inoFlush blk io ic := by
  unfold icache_flushto at h
  simp only [bind_eq_ok] at h
  obtain ⟨jt, _, jl, _, js, _, jma, _, jmi, _, ji, _, ret, _, c1, h1, c2, h2, c3, h3, c4, h4,
    c5, h5, c6, h6, c7, h7, h8⟩ := h
  simp only [Except.ok.injEq, Prod.mk.injEq] at h8
  obtain ⟨rfl, _⟩ := h8
  unfold inode_w_itype at h1
  split at h1
  · cases h1
  unfold inode_w_linkcount at h2
  unfold inode_w_size at h3
  unfold inode_w_major at h4
  unfold inode_w_minor at h5
  unfold inode_w_indirect at h6
  have e0 := ifield_eq io 0
  have e1 := ifield_eq io 1
  have e2 := ifield_eq io 2
  have e3 := ifield_eq io 3
  have e4 := ifield_eq io 4
  have e5 := ifield_eq io 5
  simp only [Nat.cast_ofNat, Nat.cast_zero, Nat.cast_one] at e0 e1 e2 e3 e4 e5
  rw [e0, fieldw_put8 _ _ _ (by omega)] at h1
  rw [e1, fieldw_put8 _ _ _ (by omega)] at h2
  rw [e2, fieldw_put8 _ _ _ (by omega)] at h3
  rw [e3, fieldw_put8 _ _ _ (by omega)] at h4
  rw [e4, fieldw_put8 _ _ _ (by omega)] at h5
  rw [e5, fieldw_put8 _ _ _ (by omega)] at h6
  rw [flushto_addrs_eq _ _ hio _ _ _ (by omega)] at h7
  simp only [Except.ok.injEq] at h1 h2 h3 h4 h5 h6 h7
  subst h1 h2 h3 h4 h5 h6
  exact h7.symm

/-- What a successful `iupdate` changes: the slot of the inode in its inode block. -/
theorem iupdate_ok {idm : idaemon_t} {s s2 : Sys} {io : Nat} (hio : idm.ioff = (io : Int))
    (hio3 : io ≤ 3) (h : iupdate idm s = .ok s2) :
    bufdata s2 = Function.update (bufdata s) idm.blkno
        (inoFlush (bufdata s idm.blkno) io idm.icache) ∧
      s2.given = s.given ∧ Consts s s2 := by
  unfold iupdate at h
  simp only [bind_eq_ok] at h
  obtain ⟨s3, h3, ⟨blk, ch⟩, h4, hrest⟩ := h
  obtain ⟨_, _, hg3, rfl⟩ := bread_ok h3
  rw [liftE_eq_ok, hio] at h4
  have hb := icache_flushto_ok hio3 h4
  subst hb
  have key : ∃ s5, bufdata s5 = Function.update (bufdata s) idm.blkno
      (inoFlush (bufdata s idm.blkno) io idm.icache) ∧
      s5.given = Function.update s.given idm.blkno true ∧ Consts s s5 ∧
      brelse s5 idm.blkno = .ok s2 := by
    cases ch with
    | true =>
      simp only [if_true, bind_eq_ok] at hrest
      obtain ⟨s5, h5, h6⟩ := hrest
      obtain ⟨hd5, hg5, hc5, _, _⟩ := log_write_ok h5
      exact ⟨s5, by rw [hd5, bufdata_setdata]; rfl, by rw [hg5]; rfl,
        ⟨hc5.superb, hc5.fst, hc5.flen, hc5.usable, hc5.ifb, hc5.ifo⟩, h6⟩
    | false =>
      simp only [Bool.false_eq_true, if_false, ok_bind] at hrest
      exact ⟨setdata (breadSt s idm.blkno) idm.blkno
        (inoFlush (bufdata (breadSt s idm.blkno) idm.blkno) io idm.icache),
        by rw [bufdata_setdata]; rfl, rfl, ⟨rfl, rfl, rfl, rfl, rfl, rfl⟩, hrest⟩
  obtain ⟨s5, k1, k2, k3, h6⟩ := key
  obtain ⟨_, rfl⟩ := brelse_ok h6
  refine ⟨by rw [bufdata_brelseSt]; exact k1, ?_,
    ⟨k3.superb, k3.fst, k3.flen, k3.usable, k3.ifb, k3.ifo⟩⟩
  rw [brelseSt_given, k2, given_release _ _ hg3]

/-! ## Inode numbers of blocks below `2^61` -/

theorem biencode_eq (b io : Int) (hb : 0 ≤ b) (hb2 : b < 2 ^ 61) (h0 : 0 ≤ io) (h3 : io < 4) :
    biencode b io = .ok (b * 4 + io) := by
  unfold biencode
  rw [if_neg (by omega), wrap64_eq _ (by omega) (by omega)]

theorem bidecode_eq (b io : Int) (hb : 0 ≤ b) (hb2 : b < 2 ^ 61) (h0 : 0 ≤ io) (h3 : io < 4) :
    bidecode (b * 4 + io) = (b, io) := by
  unfold bidecode
  have e : toUInt64 (b * 4 + io) = (b * 4 + io).toNat := by
    unfold toUInt64
    congr 1
    omega
  rw [e]
  congr 1 <;> omega

/-! ## `icreate` -/

theorem heldSt_release (s4 s : Sys) (ds : List Int) (h : s4.given = (heldSt s ds).given) :
    heldSt (setGiven s4 s.given) ds = s4 := by
  unfold heldSt
  rw [setGiven_setGiven]
  show setGiven s4 (heldSt s ds).given = s4
  rw [← h]
  rfl

theorem icreate_found {idm : idaemon_t} {s : Sys} (hd : DirWF idm s) (name : Name)
    (t maj min w : Int) (ht : ¬ (t ≤ I_INVALID ∨ t > I_LAST)) (hn : name ≠ [])
    (hc : ¬ (t ≠ I_DEV ∧ (maj ≠ 0 ∨ min ≠ 0)))
    (h : dirLookup (bufdata s) (dirBlocks idm.icache s) name = some w) :
    icreate idm s name t maj min = .ok ((w, -EEXIST), idm, s) := by
  unfold icreate
  rw [if_neg ht, if_neg hn, if_neg hc, all_dirents_spec hd]
  simp only [ok_bind]
  rw [dirent_lookup_eq, bufdata_heldSt, h]
  simp only [liftE_ok, ok_bind, if_true]
  rw [dirent_brelse_spec _ _ (dirBlocks_nodup hd) (by
    intro x hx
    refine ⟨(dirBlocks_range hd x hx).1, ?_⟩
    unfold heldSt
    simp [hx])]
  rw [held_release s _ _ (fun x hx => hd.quiet x (dirBlocks_range hd x hx).2.1) rfl]
  rfl

theorem valid_of_used {s s2 : Sys} (hL : Layout s s2) {bn x : Int}
    (hu : ∀ x, InMap s x → used s2 x = (decide (x = bn) || used s x)) (hx : Valid s x) :
    Valid s2 x := by
  refine ⟨(inMap_layout hL x).mpr hx.1, ?_⟩
  rw [hu x hx.1, hx.2]
  simp

/-- The run of `icreate` for a name that the directory does not have: an inode is allocated
and initialised, and the rest is what `iinsert` of the new inode number does. -/
theorem icreate_inv {idm idm2 : idaemon_t} {s sZ : Sys} (hd : DirWF idm s)
    (hi : InodeOK idm s) (name : Name) (t maj min v e : Int)
    (ht : ¬ (t ≤ I_INVALID ∨ t > I_LAST)) (hn : name ≠ [])
    (hc : ¬ (t ≠ I_DEV ∧ (maj ≠ 0 ∨ min ≠ 0)))
    (hnone : dirLookup (bufdata s) (dirBlocks idm.icache s) name = none)
    (hr : icreate idm s name t maj min = .ok ((v, e), idm2, sZ)) :
    ∃ (sX : Sys) (bn : Int) (io : Nat) (base : Block),
      e = 0 ∧ v = bn * 4 + io ∧ io ≤ 3 ∧ 0 ≤ bn ∧ bn < 2 ^ 31 ∧
      DirWF idm sX ∧ dirBlocks idm.icache sX = dirBlocks idm.icache s ∧
      (∀ b, b ∈ dirBlocks idm.icache s → bufdata sX b = bufdata s b) ∧
      bufdata sX bn = inoInit base io t maj min ∧ Valid sX bn ∧
      (∀ p, ptr idm.icache sX p ≠ bn) ∧ (bn = idm.blkno → (io : Int) ≠ idm.ioff) ∧
      Valid sX idm.blkno ∧ (∀ p, ptr idm.icache sX p ≠ idm.blkno) ∧
      iinsert idm sX name v = .ok (0, idm2, sZ) := by
  unfold icreate at hr
  rw [if_neg ht, if_neg hn, if_neg hc, all_dirents_spec hd] at hr
  simp only [ok_bind] at hr
  rw [dirent_lookup_eq, bufdata_heldSt, hnone] at hr
  simp only [liftE_ok, ok_bind, Bool.false_eq_true, if_false, bind_eq_ok, liftE_eq_ok] at hr
  obtain ⟨⟨⟨bn, io⟩, s1⟩, hA, s2, hB, b1, h1, b2, h2, b3, h3, b4, h4, b5, h5, b6, h6, b7, h7,
    s3, hL, s4, hR, ⟨idmD, s5⟩, hD, v2, hV, s6, hZ, hfin⟩ := hr
  simp only [Except.ok.injEq, Prod.mk.injEq] at hfin
  obtain ⟨⟨rfl, rfl⟩, rfl, rfl⟩ := hfin
  simp only at hB h1 hL hR hD hV hZ
  have hS1d := bufdata_heldSt s (dirBlocks idm.icache s)
  have hS1c := consts_heldSt s (dirBlocks idm.icache s)
  have hG1 := geom_consts hd.geom hS1c
  have ht2 : ¬ (t < I_FIRST ∨ t > I_LAST) := by
    unfold I_INVALID at ht
    omega
  have hbr := bread_ok hB
  obtain ⟨ioN, base, rfl, hio, hL4, hgiv, hIM, hV4, hh1, hh0, hdat, hoth, hused⟩ :=
    newinode_ok hG1 (fun hne => ⟨(valid_same hS1d hS1c _).mpr (hi.hint_valid hne),
      hi.hint_lo hne, hi.hint_hi hne⟩) ht2 hA hB h1 h2 h3 h4 h5 h6 h7 hL hR
  have hbnp : ∀ p, ptr idm.icache s p ≠ bn := by
    intro p
    by_cases hp : ptr idm.icache s p = 0
    · rw [hp]
      have := usable_pos hd.geom
      have := hIM.1
      have : (heldSt s (dirBlocks idm.icache s)).usable_start = s.usable_start := rfl
      omega
    · by_cases hf : s.ifreeblk ≠ 0
      · have e1 : bn = s.ifreeblk := (hh1 hf).1
        rw [e1]
        exact hi.hint_not_data hf p
      · have hf0 : s.ifreeblk = 0 := by
          by_contra hh
          exact hf hh
        exact valid_ne_free (hd.wf.valid p hp) ((free_same hS1d hS1c _).mp (hh0 hf0))
  have hLX : Layout s (setGiven s4 s.given) := ⟨hL4.superb, hL4.fst, hL4.flen, hL4.usable⟩
  have hdX : ∀ x, s.usable_start ≤ x → x ≠ bn → bufdata (setGiven s4 s.given) x = bufdata s x :=
    hoth
  have huX : ∀ x, InMap s x → used (setGiven s4 s.given) x = (decide (x = bn) || used s x) :=
    hused
  have hptr : ∀ p, ptr idm.icache (setGiven s4 s.given) p = ptr idm.icache s p := by
    apply ptr_congr _ _ _ _ rfl rfl
    intro j hj
    have hv := chain_valid hd.wf hj
    exact hdX _ hv.1.1 (by rw [← ptr_cpos]; exact hbnp _)
  have hwfX : PtrWF idm.icache (setGiven s4 s.given) := by
    refine ⟨?_, ?_⟩
    · intro p hp
      rw [hptr] at hp ⊢
      exact valid_of_used hLX huX (hd.wf.valid p hp)
    · intro p q hp hpq
      rw [hptr] at hp
      rw [hptr, hptr] at hpq
      exact hd.wf.inj p q hp hpq
  have hDX : DirWF idm (setGiven s4 s.given) := by
    refine ⟨geom_layout hd.geom hLX, hwfX, ?_, hd.isdir, hd.size_nonneg, hd.size_mod, ?_⟩
    · intro x hx
      rw [hLX.usable] at hx
      exact hd.quiet x hx
    · intro k hk
      show ptr idm.icache _ (fpos k) ≠ 0
      rw [hptr]
      exact hd.mapped k hk
  have hdb : dirBlocks idm.icache (setGiven s4 s.given) = dirBlocks idm.icache s :=
    dirBlocks_congr rfl (fun k _ => hptr (fpos k))
  have hdd : ∀ b, b ∈ dirBlocks idm.icache s → bufdata (setGiven s4 s.given) b = bufdata s b := by
    intro b hb
    obtain ⟨k, hk, rfl⟩ := dirBlocks_mem hb
    exact hdX _ (fblock_valid hd.wf (hd.mapped k hk)).1.1 (hbnp _)
  have hv2 := biencode_eq bn ioN hbr.1 (by have := hbr.2.1; omega) (by omega) (by omega)
  rw [hv2] at hV
  simp only [Except.ok.injEq] at hV
  subst hV
  refine ⟨setGiven s4 s.given, bn, ioN, base, rfl, rfl, hio, hbr.1, hbr.2.1, hDX, hdb, hdd, hdat,
    hV4, fun p => by rw [hptr]; exact hbnp p, ?_, valid_of_used hLX huX hi.ino_valid,
    fun p => by rw [hptr]; exact hi.ino_not_data p, ?_⟩
  · intro hbb
    by_cases hf : s.ifreeblk ≠ 0
    · have e1 : bn = s.ifreeblk := (hh1 hf).1
      have e2 : (ioN : Int) = s.ifreeoff := (hh1 hf).2
      rw [e2]
      exact hi.hint_not_self (by rw [← e1]; exact hbb)
    · have hf0 : s.ifreeblk = 0 := by
        by_contra hh
        exact hf hh
      exact absurd hbb.symm
        (valid_ne_free hi.ino_valid ((free_same hS1d hS1c _).mp (hh0 hf0)))
  · unfold iinsert
    rw [all_dirents_spec hDX, hdb]
    simp only [ok_bind]
    rw [heldSt_release s4 s _ hgiv, dirent_lookup_eq,
      dirLookup_congr (bufdata s) (bufdata s4) name _ (fun b hb => hdd b hb), hnone]
    simp only [liftE_ok, ok_bind, Bool.false_eq_true, if_false]
    rw [bidecode_eq bn ioN hbr.1 (by have := hbr.2.1; omega) (by omega) (by omega)]
    simp only [hD, ok_bind, hZ]

/-! ## The accessors of an inode slot -/

theorem inode_itype_eq (blk : Block) (io : Nat) (hio : io ≤ 3) :
    inode_itype blk (io : Int) =
      if inoField blk io 0 < I_FIRST ∨ inoField blk io 0 > I_LAST then .error "weird inode type"
      else .ok (inoField blk io 0) := by
  unfold inode_itype
  have e0 := ifield_eq io 0
  simp only [Nat.cast_zero] at e0
  rw [e0, fieldr_rdb _ _ (by omega)]
  rfl

theorem inode_linkcount_eq (blk : Block) (io : Nat) (hio : io ≤ 3) :
    inode_linkcount blk (io : Int) = .ok (inoField blk io 1) := by
  unfold inode_linkcount
  have e0 := ifield_eq io 1
  simp only [Nat.cast_one] at e0
  rw [e0, fieldr_rdb _ _ (by omega)]
  rfl

theorem inode_size_eq (blk : Block) (io : Nat) (hio : io ≤ 3) :
    inode_size blk (io : Int) = .ok (inoField blk io 2) := by
  unfold inode_size
  have e0 := ifield_eq io 2
  simp only [Nat.cast_ofNat] at e0
  rw [e0, fieldr_rdb _ _ (by omega)]
  rfl

theorem inode_major_eq (blk : Block) (io : Nat) (hio : io ≤ 3) :
    inode_major blk (io : Int) = .ok (inoField blk io 3) := by
  unfold inode_major
  have e0 := ifield_eq io 3
  simp only [Nat.cast_ofNat] at e0
  rw [e0, fieldr_rdb _ _ (by omega)]
  rfl

theorem inode_minor_eq (blk : Block) (io : Nat) (hio : io ≤ 3) :
    inode_minor blk (io : Int) = .ok (inoField blk io 4) := by
  unfold inode_minor
  have e0 := ifield_eq io 4
  simp only [Nat.cast_ofNat] at e0
  rw [e0, fieldr_rdb _ _ (by omega)]
  rfl

theorem inode_indirect_eq (blk : Block) (io : Nat) (hio : io ≤ 3) :
    inode_indirect blk (io : Int) = .ok (inoField blk io 5) := by
  unfold inode_indirect
  have e0 := ifield_eq io 5
  simp only [Nat.cast_ofNat] at e0
  rw [e0, fieldr_rdb _ _ (by omega)]
  rfl

theorem inode_addr_eq (blk : Block) (io i : Nat) (hio : io ≤ 3) (hi : i < 10) :
    inode_addr blk (io : Int) (i : Int) = .ok (inoField blk io (6 + i)) := by
  unfold inode_addr
  rw [if_neg (by unfold NIADDRS; omega), ifield_eq6, fieldr_rdb _ _ (by omega)]
  rfl

/-! ## `iinsert` and `iupdate` on a directory -/

theorem iinsert_meta {idm idm2 : idaemon_t} {s s2 : Sys} (hd : DirWF idm s) (name : Name)
    (v e : Int) (hv1 : -2 ^ 63 ≤ v) (hv2 : v < 2 ^ 63)
    (h : dirLookup (bufdata s) (dirBlocks idm.icache s) name = none)
    (hr : iinsert idm s name v = .ok (e, idm2, s2)) :
    idm2.blkno = idm.blkno ∧ idm2.ioff = idm.ioff ∧ s2.given = s.given ∧ Consts s s2 := by
  cases he : dirEmpty (bufdata s) (dirBlocks idm.icache s) 0 with
  | some ij =>
    obtain ⟨i, j⟩ := ij
    obtain ⟨_, hidm, _, hg, hcs, _, _⟩ := iinsert_reuse_ok hd name v e hv1 hv2 i j h he hr
    rw [hidm]
    exact ⟨rfl, rfl, hg, hcs⟩
  | none =>
    obtain ⟨_, _, _, _, hg, hcs, _, hb, ho⟩ := iinsert_extend_ok hd name v e hv1 hv2 h he hr
    exact ⟨hb, ho, hg, hcs⟩

/-- What `iupdate` does to a directory whose inode block is none of its own blocks: the
directory reads as before. -/
theorem iupdate_dir {idm : idaemon_t} {s s2 : Sys} {io : Nat} (hd : DirWF idm s)
    (hio : idm.ioff = (io : Int)) (hio3 : io ≤ 3) (hv : Valid s idm.blkno)
    (hp : ∀ p, ptr idm.icache s p ≠ idm.blkno) (h : iupdate idm s = .ok s2) :
    DirWF idm s2 ∧ dirBlocks idm.icache s2 = dirBlocks idm.icache s ∧
      (∀ b, b ≠ idm.blkno → bufdata s2 b = bufdata s b) ∧
      bufdata s2 idm.blkno = inoFlush (bufdata s idm.blkno) io idm.icache ∧
      s2.given = s.given ∧ Consts s s2 ∧ (∀ x, InMap s x → used s2 x = used s x) := by
  obtain ⟨hdat, hg, hc⟩ := iupdate_ok hio hio3 h
  have hoth : ∀ b, b ≠ idm.blkno → bufdata s2 b = bufdata s b := by
    intro b hb
    rw [hdat, Function.update_noteq hb]
  have hptr : ∀ p, ptr idm.icache s2 p = ptr idm.icache s p := by
    apply ptr_congr _ _ _ _ rfl rfl
    intro j _
    exact hoth _ (by rw [← ptr_cpos]; exact hp _)
  have hused : ∀ x, InMap s x → used s2 x = used s x := by
    intro x hx
    refine used_congr hc hd.geom ?_ x hx
    intro y hy
    apply hoth
    have := hv.1.1
    omega
  refine ⟨⟨geom_consts hd.geom hc, ⟨?_, ?_⟩, ?_, hd.isdir, hd.size_nonneg, hd.size_mod, ?_⟩,
    dirBlocks_congr rfl (fun k _ => hptr (fpos k)), hoth, ?_, hg, hc, hused⟩
  · intro p hp0
    rw [hptr] at hp0 ⊢
    have hvp := hd.wf.valid p hp0
    exact ⟨(inMap_consts hc _).mpr hvp.1, by rw [hused _ hvp.1]; exact hvp.2⟩
  · intro p q hp0 hpq
    rw [hptr] at hp0
    rw [hptr, hptr] at hpq
    exact hd.wf.inj p q hp0 hpq
  · intro x hx
    rw [hc.usable] at hx
    rw [hg]
    exact hd.quiet x hx
  · intro k hk
    show ptr idm.icache s2 (fpos k) ≠ 0
    rw [hptr]
    exact hd.mapped k hk
  · rw [hdat, Function.update_same]

/-! ## `iupdate` returns -/

theorem flushto_cmp_total (blk : Block) (io : Nat) (ic : icache_t) (hio : io ≤ 3) :
    ∀ (n i : Nat) (ret : Bool), i + n ≤ 10 →
    ∃ r, flushto_cmp blk (io : Int) ic n i ret = .ok r := by
  intro n
  induction n with
  | zero => intro i ret _; exact ⟨ret, rfl⟩
  | succ n ih =>
    intro i ret h
    simp only [flushto_cmp]
    rw [inode_addr_eq _ _ _ hio (by omega)]
    exact ih _ _ (by omega)

theorem icache_flushto_total (ic : icache_t) (blk : Block) (io : Nat) (hio : io ≤ 3)
    (hd : ¬ (inoField blk io 0 < I_FIRST ∨ inoField blk io 0 > I_LAST))
    (hc : ¬ (ic.itype < I_FIRST ∨ ic.itype > I_LAST)) :
    ∃ ch, icache_flushto ic blk (io : Int) = .ok (inoFlush blk io ic, ch) := by
  unfold icache_flushto
  rw [inode_itype_eq _ _ hio, if_neg hd, inode_linkcount_eq _ _ hio, inode_size_eq _ _ hio,
    inode_major_eq _ _ hio, inode_minor_eq _ _ hio, inode_indirect_eq _ _ hio]
  simp only [ok_bind]
  obtain ⟨r, hr⟩ := flushto_cmp_total blk io ic hio 10 0
    (decide (inoField blk io 0 ≠ ic.itype ∨ inoField blk io 1 ≠ ic.links ∨
      inoField blk io 2 ≠ ic.size ∨ inoField blk io 3 ≠ ic.major ∨
      inoField blk io 4 ≠ ic.minor ∨ inoField blk io 5 ≠ ic.indir)) (by omega)
  rw [hr]
  simp only [ok_bind]
  unfold inode_w_itype inode_w_linkcount inode_w_size inode_w_major inode_w_minor
    inode_w_indirect
  rw [if_neg hc]
  have e0 := ifield_eq io 0
  have e1 := ifield_eq io 1
  have e2 := ifield_eq io 2
  have e3 := ifield_eq io 3
  have e4 := ifield_eq io 4
  have e5 := ifield_eq io 5
  simp only [Nat.cast_ofNat, Nat.cast_zero, Nat.cast_one] at e0 e1 e2 e3 e4 e5
  rw [e0, e1, e2, e3, e4, e5]
  rw [fieldw_put8 _ _ _ (by omega)]
  simp only [ok_bind]
  rw [fieldw_put8 _ _ _ (by omega)]
  simp only [ok_bind]
  rw [fieldw_put8 _ _ _ (by omega)]
  simp only [ok_bind]
  rw [fieldw_put8 _ _ _ (by omega)]
  simp only [ok_bind]
  rw [fieldw_put8 _ _ _ (by omega)]
  simp only [ok_bind]
  rw [fieldw_put8 _ _ _ (by omega)]
  simp only [ok_bind]
  rw [flushto_addrs_eq _ _ hio _ _ _ (by omega)]
  exact ⟨r, rfl⟩

/-- `iupdate` returns when the inode block can be read, the inode types on the device and in
the cache are valid, and the log has room for the inode block. -/
theorem iupdate_total (idm : idaemon_t) (s : Sys) (io : Nat) (hio : idm.ioff = (io : Int))
    (hio3 : io ≤ 3) (hb0 : 0 ≤ idm.blkno) (hb1 : idm.blkno < 2 ^ 31)
    (hg : s.given idm.blkno = false)
    (hd : ¬ (inoField (bufdata s idm.blkno) io 0 < I_FIRST ∨
      inoField (bufdata s idm.blkno) io 0 > I_LAST))
    (hc : ¬ (idm.icache.itype < I_FIRST ∨ idm.icache.itype > I_LAST))
    (hroom : idm.blkno ∈ s.logblks ∨ (s.logblks.length : Int) + 1 < s.loglen) :
    ∃ s2, iupdate idm s = .ok s2 := by
  unfold iupdate
  rw [bread_eq s _ hb0 hb1 hg]
  simp only [ok_bind, bufdata_breadSt]
  obtain ⟨ch, hch⟩ := icache_flushto_total idm.icache (bufdata s idm.blkno) io hio3 hd hc
  rw [hio, hch]
  simp only [liftE_ok, ok_bind]
  cases ch with
  | false =>
    simp only [Bool.false_eq_true, if_false, ok_bind]
    rw [brelse_eq _ _ hb0 (by
      show Function.update s.given idm.blkno true idm.blkno = true
      simp)]
    exact ⟨_, rfl⟩
  | true =>
    simp only [if_true]
    obtain ⟨s3, h3⟩ := log_write_room (setdata (breadSt s idm.blkno) idm.blkno
      (inoFlush (bufdata s idm.blkno) io idm.icache)) idm.blkno hroom
    rw [h3]
    simp only [ok_bind]
    obtain ⟨_, hg3, _, _, _⟩ := log_write_ok h3
    rw [brelse_eq _ _ hb0 (by
      rw [hg3]
      show Function.update s.given idm.blkno true idm.blkno = true
      simp)]
    exact ⟨_, rfl⟩

/-- `case CREATE` for a request that has arrived at its directory. -/
theorem serve_create_eq (idm : idaemon_t) (s : Sys) (r : ireq_t) (hr : CreateReq r) :
    serve_create idm s r =
      if idm.icache.itype ≠ I_DIR then .ok (Served.reply { err := -ENOTDIR }, idm, s)
      else (do
        let ((cnext, err), idm, s) ← icreate idm s r.cr_name r.cr_type r.cr_major r.cr_minor
        let s ← iupdate idm s
        .ok (Served.reply { cnext := cnext, err := err, major := r.cr_major,
                            minor := r.cr_minor }, idm, s)) := by
  unfold serve_create forwardreq
  rw [hr.forus]
  simp only [ok_bind]
  rw [if_neg (by
    intro h
    rcases hr.type with h1 | h1 | h1
    · exact h.1 h1
    · exact h.2.1 h1
    · exact h.2.2 h1)]

theorem valid_of_not_free {s : Sys} {b : Int} (h1 : InMap s b) (h2 : ¬ Free s b) : Valid s b := by
  refine ⟨h1, ?_⟩
  cases hu : used s b with
  | true => rfl
  | false => exact absurd ⟨h1, hu⟩ h2

theorem not_free_of_valid {s : Sys} {b : Int} (h : Valid s b) : ¬ Free s b := by
  intro hf
  have := h.2
  rw [hf.2] at this
  cases this

theorem createReq_checks {r : ireq_t} (hr : CreateReq r) :
    ¬ (r.cr_type ≤ I_INVALID ∨ r.cr_type > I_LAST) ∧
      ¬ (r.cr_type ≠ I_DEV ∧ (r.cr_major ≠ 0 ∨ r.cr_minor ≠ 0)) ∧
      -2 ^ 63 ≤ r.cr_type ∧ r.cr_type < 2 ^ 63 ∧
      ¬ (r.cr_type < I_FIRST ∨ r.cr_type > I_LAST) := by
  have ht := hr.type
  unfold I_FILE I_DIR I_DEV at ht
  unfold I_INVALID I_LAST I_FIRST I_DEV
  refine ⟨by omega, ?_, by omega, by omega, by omega⟩
  rintro ⟨h1, h2⟩
  have := hr.nodev h1
  omega

/-- The new inode as the actor of the directory leaves it behind. -/
theorem create_success {idm idm2 : idaemon_t} {s s2 : Sys} {r : ireq_t} {res : Served}
    (hr : CreateReq r) (hd : DirWF idm s) (hi : InodeOK idm s) (hg : GoodName r.cr_name)
    (hnone : dirLookup (bufdata s) (dirBlocks idm.icache s) r.cr_name = none)
    (h : serve_create idm s r = .ok (res, idm2, s2)) :
    ∃ (bn : Int) (io : Nat),
      res = Served.reply { cnext := bn * 4 + io, err := 0, major := r.cr_major,
                           minor := r.cr_minor } ∧
      0 ≤ bn ∧ bn < 2 ^ 31 ∧ io ≤ 3 ∧
      inoField (bufdata s2 bn) io 0 = r.cr_type ∧
      inoField (bufdata s2 bn) io 1 = 1 ∧
      inoField (bufdata s2 bn) io 2 = 0 ∧
      inoField (bufdata s2 bn) io 3 = r.cr_major ∧
      inoField (bufdata s2 bn) io 4 = r.cr_minor ∧
      inoField (bufdata s2 bn) io 5 = 0 ∧
      (∀ i, i < 10 → inoField (bufdata s2 bn) io (6 + i) = 0) ∧
      DirWF idm2 s2 ∧
      iget idm2 s2 r.cr_name = .ok ((bn * 4 + io, 0), s2) := by
  obtain ⟨c1, c2, c3, c4, c5⟩ := createReq_checks hr
  rw [serve_create_eq idm s r hr, if_neg (by rw [hd.isdir]; simp)] at h
  simp only [bind_eq_ok] at h
  obtain ⟨⟨⟨cn, er⟩, idmC, sC⟩, hC, sU, hU, hfin⟩ := h
  simp only [Except.ok.injEq, Prod.mk.injEq] at hfin
  obtain ⟨rfl, rfl, rfl⟩ := hfin
  simp only at hU
  obtain ⟨sX, bn, io, base, rfl, rfl, hio, hb0, hb1, hDX, hdb, hdd, hdat, hVbn, hpbn, hself,
    hVino, hpino, hins⟩ := icreate_inv hd hi r.cr_name r.cr_type r.cr_major r.cr_minor cn er c1
      hg.1 c2 hnone hC
  have hv1 : -2 ^ 63 ≤ bn * 4 + (io : Int) := by omega
  have hv2 : bn * 4 + (io : Int) < 2 ^ 63 := by omega
  have hnoneX : dirLookup (bufdata sX) (dirBlocks idm.icache sX) r.cr_name = none := by
    rw [hdb, dirLookup_congr (bufdata s) (bufdata sX) _ _ hdd, hnone]
  obtain ⟨_, hDC, hlk, _⟩ := iinsert_new_ok hDX r.cr_name _ 0 hg hv1 hv2 hnoneX hins
  have higet : iget idmC sC r.cr_name = .ok ((bn * 4 + (io : Int), 0), sC) := by
    rw [iget_spec hDC, hlk]
  obtain ⟨hbk, hof, hgC, hcC⟩ := iinsert_meta hDX r.cr_name _ 0 hv1 hv2 hnoneX hins
  obtain ⟨f1, _, _⟩ := iinsert_frame hDX r.cr_name _ 0 hv1 hv2 hnoneX hins hVbn.1.1
    (not_free_of_valid hVbn) hpbn
  obtain ⟨_, g2, g3⟩ := iinsert_frame hDX r.cr_name _ 0 hv1 hv2 hnoneX hins hVino.1.1
    (not_free_of_valid hVino) hpino
  have hVC : Valid sC idmC.blkno := by
    rw [hbk]
    exact valid_of_not_free ((inMap_consts hcC _).mpr hVino.1) g3
  have hioD : idmC.ioff = ((idm.ioff.toNat : Nat) : Int) := by
    rw [hof]
    have := hi.ioff_lo
    omega
  have hioD3 : idm.ioff.toNat ≤ 3 := by
    have := hi.ioff_hi
    omega
  obtain ⟨hDU, hdbU, hothU, hinoU, _, _, _⟩ := iupdate_dir hDC hioD hioD3 hVC
    (by rw [hbk]; exact g2) hU
  have hfield : ∀ f, f < 16 → inoField (bufdata sU bn) io f =
      inoField (inoInit base io r.cr_type r.cr_major r.cr_minor) io f := by
    intro f hf
    rw [← hdat, ← f1]
    by_cases hbb : bn = idmC.blkno
    · rw [hbb, hinoU]
      unfold inoField
      apply inoFlush_other
      have hne := hself (hbb.trans hbk)
      have := hi.ioff_lo
      omega
    · rw [hothU bn hbb]
  obtain ⟨i0, i1, i2, i3, i4, i5, i6⟩ := inoInit_fields base io r.cr_type r.cr_major r.cr_minor
    c3 c4 hr.major.1 hr.major.2 hr.minor.1 hr.minor.2
  have hlook : dirLookup (bufdata sU) (dirBlocks idmC.icache sU) r.cr_name =
      dirLookup (bufdata sC) (dirBlocks idmC.icache sC) r.cr_name := by
    rw [hdbU]
    apply dirLookup_congr
    intro b hb
    apply hothU
    obtain ⟨k, _, rfl⟩ := dirBlocks_mem hb
    rw [hbk]
    exact g2 (fpos k)
  refine ⟨bn, io, rfl, hb0, hb1, hio, ?_, ?_, ?_, ?_, ?_, ?_, ?_, hDU, ?_⟩
  · rw [hfield 0 (by omega)]; exact i0
  · rw [hfield 1 (by omega)]; exact i1
  · rw [hfield 2 (by omega)]; exact i2
  · rw [hfield 3 (by omega)]; exact i3
  · rw [hfield 4 (by omega)]; exact i4
  · rw [hfield 5 (by omega)]; exact i5
  · intro i hi10
    rw [hfield (6 + i) (by omega)]
    exact i6 i hi10
  · rw [iget_spec hDC] at higet
    simp only [Except.ok.injEq, Prod.mk.injEq, and_true] at higet
    rw [iget_spec hDU, hlook, higet]

theorem ptr_direct0_only (ic : icache_t) (s : Sys) (h : ic.indir = 0)
    (ha : ∀ i, 0 < i → i < 10 → ic.addrs i = 0) (p : Pos) :
    ptr ic s p = 0 ∨ ptr ic s p = ic.addrs 0 := by
  cases p with
  | direct i =>
    by_cases hi : i = 0
    · subst hi
      right
      rfl
    · left
      simp only [ptr]
      split
      · exact ha i (by omega) (by assumption)
      · rfl
  | root => exact Or.inl h
  | slot j t =>
    left
    simp [ptr, slotZ, chainZ_empty ic s h j]

theorem inodeOK_root : InodeOK rootIdm fsSys := by
  refine ⟨⟨⟨by decide, by decide⟩, by decide!⟩, by decide, by decide, ?_, ?_, ?_, ?_, ?_, ?_⟩
  · intro p
    rcases ptr_direct0_only rootIdm.icache fsSys rfl (fun i h1 _ => by
      show (if i = 0 then (65 : Int) else 0) = 0
      rw [if_neg (by omega)]) p with h | h
    · rw [h]; decide
    · rw [h]; decide
  all_goals first | (intro h; exact absurd rfl h) | (intro h; exact absurd h (by decide))

theorem createReq_a : CreateReq createA :=
  ⟨rfl, Or.inl rfl, fun _ => ⟨rfl, rfl⟩, ⟨by decide, by decide⟩, ⟨by decide, by decide⟩⟩

/-! ## Blocks that do not belong to a file are left alone by `iwrite` -/

theorem fileOK_file : FileOK fileIdm fileSys :=
  ⟨⟨by decide, by decide, by decide, by decide, by decide⟩,
    ptrWF_empty _ _ rfl (fun _ _ => rfl), fun _ _ => rfl, by decide,
    ⟨⟨by decide, by decide⟩, by decide!⟩, by decide, by decide,
    fun p => by rw [ptr_empty fileIdm.icache fileSys rfl (fun _ _ => rfl) p]; decide⟩

/-! ## Reading up to the end of a file -/

/-- A destination that reaches beyond the end of the file is read like one that ends at the
end of the file. -/
theorem iread1_loop_trunc {idm : idaemon_t} {s : Sys} (o sz m : Nat) (hG : Geom s)
    (hwf : PtrWF idm.icache s) (hq : Quiet s)
    (hm : ((o + m : Nat) : Int) = idm.icache.size) (hsz : m ≤ sz)
    (hmap : ∀ p, o ≤ p → p < o + m → fblock idm.icache s (p / 512) ≠ 0) :
    ∀ (n c : Nat) (acc : List Byte), c < m →
      iread1_loop idm.icache.size sz o n c acc idm s =
        iread1_loop idm.icache.size m o n c acc idm s := by
  intro n
  induction n with
  | zero =>
    intro c acc hc
    have h1 : ((c : Nat) : Int) < (sz : Int) := by omega
    have h2 : ((c : Nat) : Int) < (m : Int) := by omega
    simp only [iread1_loop, h1, h2, if_true]
  | succ n ih =>
    intro c acc hc
    have h1 : ((c : Nat) : Int) < (sz : Int) := by omega
    have h2 : ((c : Nat) : Int) < (m : Int) := by omega
    unfold iread1_loop
    simp only [h1, h2, not_true_eq_false, if_false]
    have hoff : (0 : Int) ≤ (o : Int) + (c : Int) := by omega
    have hdiv : (((o : Int) + (c : Int)) / 512).toNat = (o + c) / 512 := by omega
    have hmodi : ((o : Int) + (c : Int)) % 512 = (((o + c) % 512 : Nat) : Int) := by omega
    have hk : fblock idm.icache s (((o : Int) + (c : Int)) / 512).toNat ≠ 0 := by
      rw [hdiv]; exact hmap (o + c) (by omega) (by omega)
    have hv := fblock_valid hwf hk
    rw [blkslice_read hG hwf hoff (by push_cast at hm; omega) hk (quiet_chain hwf hq)
      (hq _ hv.1.1)]
    simp only [ok_bind, bufdata_breadSt]
    have hvr := valid_range hG hv
    rw [brelse_eq _ _ hvr.1 (by simp)]
    simp only [ok_bind]
    have hst : brelseSt (breadSt s (fblock idm.icache s (((o : Int) + (c : Int)) / 512).toNat))
        (fblock idm.icache s (((o : Int) + (c : Int)) / 512).toNat) = s := by
      rw [brelseSt_eq, breadSt_given, given_release _ _ (hq _ hv.1.1)]
      rfl
    rw [hst, hdiv, hmodi]
    push_cast at hm
    generalize hbsp : (if 512 - (((o + c) % 512 : Nat) : Int) > idm.icache.size - ((o : Int) + c)
      then idm.icache.size - ((o : Int) + c) else 512 - (((o + c) % 512 : Nat) : Int)) = bsp
    have hb1 : bsp ≤ idm.icache.size - ((o : Int) + c) := by
      rw [← hbsp]; split <;> omega
    have hb2 : 1 ≤ bsp := by
      rw [← hbsp]; split <;> omega
    have hf1 : ¬ ((sz : Int) - (c : Int) < bsp) := by omega
    have hf2 : ¬ ((m : Int) - (c : Int) < bsp) := by omega
    simp only [hf1, hf2, if_false, decide_False, or_false]
    by_cases hend : (o : Int) + ((c : Int) + bsp) = idm.icache.size
    · simp only [hend, true_or, if_true]
    · simp only [hend, false_or, Bool.false_eq_true, if_false]
      have e1 : (c : Int) + bsp = ((c + bsp.toNat : Nat) : Int) := by omega
      rw [e1]
      exact ih (c + bsp.toNat) _ (by omega)

/-- The method `iread1` on a file all of whose blocks exist: it copies up to the end of the
file or of the destination. -/
theorem iread1_eof {idm : idaemon_t} {s : Sys} (o : Nat) (dst : List Byte) (hG : Geom s)
    (hwf : PtrWF idm.icache s) (hq : Quiet s)
    (hmap : ∀ p, o ≤ p → (p : Int) < idm.icache.size → fblock idm.icache s (p / 512) ≠ 0) :
    iread1 idm s dst o =
      .ok (((min dst.length (idm.icache.size - o).toNat : Nat), 0,
        fbytes idm.icache s o (min dst.length (idm.icache.size - o).toNat) ++
          dst.drop (min dst.length (idm.icache.size - o).toNat)), s) := by
  by_cases hin : ((o + dst.length : Nat) : Int) ≤ idm.icache.size
  · have hmin : min dst.length (idm.icache.size - o).toNat = dst.length := by
      push_cast at hin
      omega
    rw [hmin, iread1_spec o dst hG hwf hq hin (fun p h1 h2 => hmap p h1 (by
      push_cast at hin
      omega))]
    simp
  · unfold iread1
    by_cases hge : (o : Int) ≥ idm.icache.size
    · have hmin : min dst.length (idm.icache.size - o).toNat = 0 := by omega
      rw [hmin]
      simp [hge, fbytes_zero]
    · simp only [hge, if_false]
      push_cast at hin
      have hm : ((o + (idm.icache.size - o).toNat : Nat) : Int) = idm.icache.size := by
        push_cast
        omega
      have hmin : min dst.length (idm.icache.size - o).toNat =
          (idm.icache.size - o).toNat := by omega
      have hmap2 : ∀ p, o ≤ p → p < o + (idm.icache.size - o).toNat →
          fblock idm.icache s (p / 512) ≠ 0 := fun p h1 h2 => hmap p h1 (by omega)
      have ht := iread1_loop_trunc o dst.length (idm.icache.size - o).toNat hG hwf hq hm
        (by omega) hmap2 dst.length 0 [] (by omega)
      have hs := iread1_loop_spec o (idm.icache.size - o).toNat hG hwf hq (le_of_eq hm) hmap2
        dst.length 0 [] (Nat.zero_le _) (by omega)
      rw [show ((0 : Nat) : Int) = 0 from rfl] at ht hs
      rw [ht, hs, hmin]
      simp [fbytes_length]

theorem layInto_nil : ∀ dsts : List (List Byte), layInto [] dsts = dsts := by
  intro dsts
  induction dsts with
  | nil => rfl
  | cons d rest ih => simp [layInto, ih]

theorem fbytes_take (ic : icache_t) (s : Sys) (a n j : Nat) (h : j ≤ n) :
    (fbytes ic s a n).take j = fbytes ic s a j := by
  have e : n = j + (n - j) := by omega
  rw [e, fbytes_add, List.take_left' (fbytes_length _ _ _ _)]

theorem fbytes_drop (ic : icache_t) (s : Sys) (a n j : Nat) (h : j ≤ n) :
    (fbytes ic s a n).drop j = fbytes ic s (a + j) (n - j) := by
  have e : n = j + (n - j) := by omega
  rw [e, fbytes_add, List.drop_left' (fbytes_length _ _ _ _)]
  congr 1
  omega

/-- The loop of `iread` on a file all of whose blocks exist. -/
theorem iread_loop_eof {idm : idaemon_t} {s : Sys} (o : Nat) (hG : Geom s)
    (hwf : PtrWF idm.icache s) (hq : Quiet s)
    (hmap : ∀ p, o ≤ p → (p : Int) < idm.icache.size → fblock idm.icache s (p / 512) ≠ 0) :
    ∀ (dsts : List (List Byte)) (c : Nat) (done : List (List Byte)),
      iread_loop idm o dsts c done s =
        .ok (((c + min (dsts.map List.length).sum (idm.icache.size - (o + c : Nat)).toNat : Nat),
          0, done ++ layInto (fbytes idm.icache s (o + c)
            (min (dsts.map List.length).sum (idm.icache.size - (o + c : Nat)).toNat)) dsts),
          s) := by
  intro dsts
  induction dsts with
  | nil =>
    intro c done
    simp [iread_loop, layInto]
  | cons d rest ih =>
    intro c done
    unfold iread_loop
    have hcast : ((o : Int) + (c : Int)) = ((o + c : Nat) : Int) := by push_cast; rfl
    rw [hcast, iread1_eof (o + c) d hG hwf hq (fun p h1 h2 => hmap p (by omega) h2)]
    simp only [ok_bind, ne_eq, not_true_eq_false, if_false, List.map_cons, List.sum_cons]
    generalize hrem : (idm.icache.size - ((o + c : Nat) : Int)).toNat = rem
    generalize hrs : (List.map List.length rest).sum = t
    by_cases hshort : rem < d.length
    · have e1 : min d.length rem = rem := by omega
      have e2 : min (d.length + t) rem = rem := by omega
      rw [e1, e2, if_pos (by omega)]
      have e3 : ((c : Int) + (rem : Int)) = ((c + rem : Nat) : Int) := by push_cast; rfl
      rw [e3]
      simp only [layInto]
      have ht : (fbytes idm.icache s (o + c) rem).take d.length =
          fbytes idm.icache s (o + c) rem :=
        List.take_of_length_le (by rw [fbytes_length]; omega)
      have hd : (fbytes idm.icache s (o + c) rem).drop d.length = [] :=
        List.drop_of_length_le (by rw [fbytes_length]; omega)
      rw [ht, hd, fbytes_length, layInto_nil]
    · have e1 : min d.length rem = d.length := by omega
      rw [e1, if_neg (by omega)]
      have e3 : ((c : Int) + (d.length : Int)) = ((c + d.length : Nat) : Int) := by
        push_cast; rfl
      rw [e3, ih (c + d.length) (done ++ [fbytes idm.icache s (o + c) d.length ++
        d.drop d.length]), hrs]
      have e4 : (idm.icache.size - ((o + (c + d.length) : Nat) : Int)).toNat =
          rem - d.length := by
        rw [← hrem]
        push_cast
        omega
      rw [e4]
      have e5 : c + d.length + min t (rem - d.length) = c + min (d.length + t) rem := by omega
      have e6 : min (d.length + t) rem - d.length = min t (rem - d.length) := by omega
      rw [e5]
      simp only [layInto]
      rw [fbytes_take _ _ _ _ _ (by omega), fbytes_drop _ _ _ _ _ (by omega), fbytes_length, e6,
        List.append_assoc]
      have e7 : o + (c + d.length) = o + c + d.length := by omega
      rw [e7]
      rfl

/-- C12.  For an inode in a sound state all of whose blocks below the size exist, an offset
`o ≥ 0` and destination slices of total length `n`: `iread` returns, with error 0 and the
count `min(n, max(0, size - o))` (0 when `o ≥ size`); the destination slices afterwards hold
the file bytes `[o, o + count)` laid into them in order, every byte beyond the count is
what it was, and the state is the one before the call. -/
theorem iread_spec (idm : idaemon_t) (s : Sys) (dsts : List (List Byte)) (o : Int)
    (hG : Geom s) (hwf : PtrWF idm.icache s) (hq : Quiet s) (ho : 0 ≤ o)
    (hmap : ∀ p : Nat, (p : Int) < idm.icache.size → fblock idm.icache s (p / 512) ≠ 0) :
    iread idm s dsts o =
        .ok ((min (((dsts.map List.length).sum : Nat) : Int) (max 0 (idm.icache.size - o)), 0,
          layInto (fbytes idm.icache s o.toNat
            (min (((dsts.map List.length).sum : Nat) : Int)
              (max 0 (idm.icache.size - o))).toNat) dsts), s) ∧
      (o ≥ idm.icache.size → iread idm s dsts o = .ok ((0, 0, dsts), s)) := by
  have hoc : o = ((o.toNat : Nat) : Int) := by omega
  have key := iread_loop_eof o.toNat hG hwf hq (fun p _ h2 => hmap p h2) dsts 0 []
  have hk : iread idm s dsts o = iread_loop idm (o.toNat : Int) dsts ((0 : Nat) : Int) [] s := by
    unfold iread
    rw [← hoc]
    rfl
  rw [hk, key]
  simp only [Nat.add_zero, Nat.zero_add, List.nil_append]
  have e1 : ((min (dsts.map List.length).sum (idm.icache.size - (o.toNat : Int)).toNat : Nat) :
      Int) = min (((dsts.map List.length).sum : Nat) : Int) (max 0 (idm.icache.size - o)) := by
    generalize (List.map List.length dsts).sum = t
    omega
  have e2 : (min (((dsts.map List.length).sum : Nat) : Int)
      (max 0 (idm.icache.size - o))).toNat =
      min (dsts.map List.length).sum (idm.icache.size - (o.toNat : Int)).toNat := by
    rw [← e1]
    exact Int.toNat_ofNat _
  refine ⟨by rw [e1, e2], ?_⟩
  intro hge
  have e3 : min (dsts.map List.length).sum (idm.icache.size - (o.toNat : Int)).toNat = 0 := by
    generalize (List.map List.length dsts).sum = t
    omega
  rw [e3, fbytes_zero, layInto_nil]
  rfl

/-- C12 on the root directory of the example file system (512 bytes): a read of 5 bytes at
offset 510 copies the last two bytes of the inode and leaves the rest of the destinations. -/
theorem iread_spec_witness :
    iread rootIdm fsSys [[9, 9, 9], [9, 9]] 510 = .ok ((2, 0, [[0, 0, 9], [9, 9]]), fsSys) ∧
      iread rootIdm fsSys [[9, 9, 9], [9, 9]] 512 = .ok ((0, 0, [[9, 9, 9], [9, 9]]), fsSys) :=
  ⟨(iread_spec rootIdm fsSys [[9, 9, 9], [9, 9]] 510 dirWF_root.geom dirWF_root.wf
      dirWF_root.quiet (by decide) (fun p hp => by
        have h0 : p / 512 = 0 := by
          have : rootIdm.icache.size = 512 := rfl
          omega
        rw [h0]
        exact dirWF_root.mapped 0 (by decide))).1,
    (iread_spec rootIdm fsSys [[9, 9, 9], [9, 9]] 512 dirWF_root.geom dirWF_root.wf
      dirWF_root.quiet (by decide) (fun p hp => by
        have h0 : p / 512 = 0 := by
          have : rootIdm.icache.size = 512 := rfl
          omega
        rw [h0]
        exact dirWF_root.mapped 0 (by decide))).2 (by decide)⟩

/-- C13.  On a device whose free blocks hold old data, one byte is written at offset 6000 of
the empty file.  The write is answered with count 1 and error 0.  Afterwards position 0, in
the hole and in a new block reached through a direct pointer, reads the old byte `0xAA` of
the block that `balloc` handed out; position 5120, in the hole and in a new block reached
through the indirect block, reads 0; position 5632, in the block of the written byte but
before it, reads 0. -/
theorem hole_direct_not_zeroed :
    observe (writeThenRead 6000 0) (fun r => (r.1.count, r.1.err)) = some (1, 0) ∧
      observe (writeThenRead 6000 0) (fun r => (r.2.1.count, r.2.1.err)) = some (1, 0) ∧
      observe (writeThenRead 6000 0) (fun r => r.2.2) = some [[0xAA]] ∧
      observe (writeThenRead 6000 5120) (fun r => (r.2.1.err, r.2.2)) = some (0, [[0]]) ∧
      observe (writeThenRead 6000 5632) (fun r => (r.2.1.err, r.2.2)) = some (0, [[0]]) := by
  decide!

/-- C20.  For a block number `b` with `0 ≤ b` and `b * 4` below `2^63` and a slot `s` in
`[0, 3]`, `biencode(b, s)` is `b * 4 + s` and `bidecode` splits that number into `(b, s)`; for
every inode number `v ≥ 0`, `biencode` of the two parts of `bidecode(v)` is `v`; and
`biencode` panics, with "bad inode index", exactly when the slot is outside `[0, 3]`. -/
theorem biencode_bidecode_spec :
    (∀ b s : Int, 0 ≤ b → b * 4 < 2 ^ 63 → 0 ≤ s → s ≤ 3 →
      biencode b s = .ok (b * 4 + s) ∧ bidecode (b * 4 + s) = (b, s) ∧
      (do let v ← biencode b s; pure (bidecode v) : Except String (Int × Int)) = .ok (b, s)) ∧
    (∀ v : Int, 0 ≤ v → v < 2 ^ 63 → biencode (bidecode v).1 (bidecode v).2 = .ok v) ∧
    (∀ b s : Int, biencode b s = .error "bad inode index" ↔ (s < 0 ∨ s > 3)) ∧
    (∀ b s : Int, (∃ v, biencode b s = .ok v) ↔ (0 ≤ s ∧ s ≤ 3)) := by
  refine ⟨?_, ?_, ?_, ?_⟩
  · intro b s hb hb2 h0 h3
    have e1 := biencode_eq b s hb (by omega) h0 (by omega)
    have e2 := bidecode_eq b s hb (by omega) h0 (by omega)
    refine ⟨e1, e2, ?_⟩
    rw [e1]
    show Except.ok (bidecode (b * 4 + s)) = _
    rw [e2]
  · intro v h0 h1
    exact biencode_bidecode v (by omega) h1
  · intro b s
    unfold biencode
    constructor
    · intro h
      by_contra hc
      rw [if_neg (by omega)] at h
      cases h
    · intro h
      rw [if_pos (by omega)]
  · intro b s
    unfold biencode
    constructor
    · rintro ⟨v, h⟩
      by_contra hc
      rw [if_pos (by omega)] at h
      cases h
    · intro h
      rw [if_neg (by omega)]
      exact ⟨_, rfl⟩

/-- C20 at block 66, slot 1: the inode number is 265. -/
theorem biencode_bidecode_spec_witness :
    biencode 66 1 = .ok (66 * 4 + 1) ∧ bidecode (66 * 4 + 1) = (66, 1) ∧
      (do let v ← biencode 66 1; pure (bidecode v) : Except String (Int × Int)) = .ok (66, 1) :=
  biencode_bidecode_spec.1 66 1 (by decide) (by decide) (by decide) (by decide)


theorem idaemon_init_ok {s s2 : Sys} {q : Int} {idm : idaemon_t}
    (h : idaemon_init s q = .ok (idm, s2)) :
    s2 = s ∧ idm.priv = q ∧ idm.blkno = (bidecode q).1 ∧ idm.ioff = (bidecode q).2 ∧
      idm.memref = 0 ∧
      icache_fill (bufdata s (bidecode q).1) (bidecode q).2 = .ok idm.icache ∧
      s.given (bidecode q).1 = false := by
  unfold idaemon_init at h
  simp only [bind_eq_ok] at h
  obtain ⟨s1, h1, ic, h2, s3, h3, h4⟩ := h
  obtain ⟨_, _, hg, rfl⟩ := bread_ok h1
  rw [liftE_eq_ok] at h2
  obtain ⟨_, rfl⟩ := brelse_ok h3
  simp only [Except.ok.injEq, Prod.mk.injEq] at h4
  obtain ⟨rfl, rfl⟩ := h4
  refine ⟨?_, rfl, rfl, rfl, rfl, h2, hg⟩
  unfold brelseSt breadSt
  simp only [given_release _ _ hg]

theorem loadIdm_some {s : Sys} {q : Int} {idm : idaemon_t} (h : loadIdm s q = some idm) :
    idaemon_init s q = .ok (idm, s) := by
  unfold loadIdm at h
  cases hi : idaemon_init s q with
  | error e => rw [hi] at h; cases h
  | ok x =>
    rw [hi] at h
    simp only [Option.some.injEq] at h
    obtain ⟨a, b⟩ := x
    simp only at h
    subst h
    have h2 := (idaemon_init_ok hi).1
    subst h2
    rfl

theorem loadIdm_none {s : Sys} {q : Int} (h : loadIdm s q = none) :
    ∃ e, idaemon_init s q = .error e := by
  unfold loadIdm at h
  cases hi : idaemon_init s q with
  | error e => exact ⟨e, rfl⟩
  | ok x => rw [hi] at h; cases h

theorem memref_add_zero (i : idaemon_t) : ({ i with memref := i.memref + 0 } : idaemon_t) = i := by
  cases i; simp

theorem view_refl (fs : FS) (G : Int → Prop) : View fs fs G (fun _ => 0) (lockedOf fs) :=
  ⟨rfl, rfl, fun q => by
    cases actorOf fs q with
    | none => rfl
    | some i => simp [memref_add_zero], fun q h => Or.inl h, fun _ h => h, fun q h => by
    unfold lockedOf
    cases hq : fs.idms q with
    | none => exact absurd hq h
    | some i => rfl, fun q h => by
    unfold lockedOf at h
    cases hq : fs.idms q with
    | none => rw [hq] at h; cases h
    | some i => simp⟩

theorem dirWF_icache {idm idm2 : idaemon_t} {s : Sys} (hd : DirWF idm s)
    (h : idm2.icache = idm.icache) : DirWF idm2 s :=
  ⟨hd.geom, h ▸ hd.wf, hd.quiet, h ▸ hd.isdir, h ▸ hd.size_nonneg, h ▸ hd.size_mod,
    h ▸ hd.mapped⟩

/-- What `idaemon_ensure` does in a state viewed from `fs`. -/
theorem view_ensure {fs fs2 : FS} {G : Int → Prop} {m : Int → Int} {L : Int → Bool}
    (hv : View fs fs2 G m L) {q : Int} {idm : idaemon_t} (hq : 0 < q)
    (ha : actorOf fs q = some idm) (hL : L q = false) (hG : G q) :
    ∃ fs3, idaemon_ensure fs2 q = .ok ({ idm with memref := idm.memref + m q }, fs3) ∧
      View fs fs3 G m L ∧
      fs3.idms q = some { idm with memref := idm.memref + m q } ∧ fs3.locked q = false := by
  have hact := hv.actor q
  rw [ha] at hact
  simp only [Option.map_some'] at hact
  unfold idaemon_ensure
  rw [if_neg (by omega)]
  cases hr : fs2.idms q with
  | some i =>
    simp only
    have : i = { idm with memref := idm.memref + m q } := by
      unfold actorOf at hact
      rw [hr] at hact
      simpa using hact
    subst this
    refine ⟨fs2, rfl, hv, hr, ?_⟩
    rw [hv.lock q (by rw [hr]; simp), hL]
  | none =>
    simp only
    have hl : loadIdm fs2.sys q = some { idm with memref := idm.memref + m q } := by
      unfold actorOf at hact
      rw [hr] at hact
      exact hact
    rw [loadIdm_some hl]
    simp only [liftR, ok_bind]
    refine ⟨_, rfl, ⟨hv.sys, hv.iroot, ?_, ?_, ?_, ?_, ?_⟩, ?_, ?_⟩
    rotate_left 4
    · intro x hx
      by_cases hxq : x = q
      · subst hxq; simp
      · simp only [Function.update_noteq hxq]
        exact hv.lrun x hx
    · simp
    · simp
    · intro x
      by_cases hx : x = q
      · subst hx
        rw [← hv.actor x, hact]
        unfold actorOf
        simp
      · rw [← hv.actor x]
        unfold actorOf
        simp [Function.update_noteq hx]
    · intro x hx
      by_cases hxq : x = q
      · subst hxq; exact Or.inr hG
      · simp only [Function.update_noteq hxq] at hx
        exact hv.run x hx
    · intro x hx
      by_cases hxq : x = q
      · subst hxq; simp
      · simp only [Function.update_noteq hxq]
        exact hv.keep x hx
    · intro x hx
      by_cases hxq : x = q
      · subst hxq; simp [hL]
      · simp only [Function.update_noteq hxq] at hx ⊢
        exact hv.lock x hx

theorem view_mono {fs fs2 : FS} {G G2 : Int → Prop} {m : Int → Int} {L : Int → Bool}
    (hv : View fs fs2 G m L) (h : ∀ q, G q → G2 q) : View fs fs2 G2 m L :=
  ⟨hv.sys, hv.iroot, hv.actor, fun q hq => (hv.run q hq).imp id (h q), hv.keep, hv.lock,
    hv.lrun⟩

theorem view_congr {fs fs2 : FS} {G : Int → Prop} {m m2 : Int → Int} {L L2 : Int → Bool}
    (hv : View fs fs2 G m L) (hm : ∀ q, m2 q = m q) (hL : ∀ q, L2 q = L q) :
    View fs fs2 G m2 L2 := by
  have e1 : m2 = m := funext hm
  have e2 : L2 = L := funext hL
  rw [e1, e2]; exact hv

theorem visits_head (fs : FS) (P : Int) (path : List Name) : P ∈ Visits fs P path := by
  cases path with
  | nil => simp [Visits]
  | cons a l => simp [Visits]

/-- The running actor of `q` in a state viewed from `fs`. -/
theorem view_running {fs fs2 : FS} {G : Int → Prop} {m : Int → Int} {L : Int → Bool}
    (hv : View fs fs2 G m L) {q : Int} {idm : idaemon_t} (ha : actorOf fs q = some idm)
    (hr : fs2.idms q ≠ none) :
    fs2.idms q = some { idm with memref := idm.memref + m q } := by
  have hact := hv.actor q
  rw [ha] at hact
  simp only [Option.map_some'] at hact
  cases h : fs2.idms q with
  | none => exact absurd h hr
  | some i =>
    unfold actorOf at hact
    rw [h] at hact
    exact hact

theorem fs_update_self (fs : FS) (q : Int) (i : idaemon_t) (h : fs.idms q = some i) :
    FS.mk fs.sys (Function.update fs.idms q (some i)) fs.locked fs.iroot = fs := by
  have : Function.update fs.idms q (some i) = fs.idms := by
    rw [← h]; exact Function.update_eq_self q fs.idms
  rw [this]

/-- The state after the actor of `q` has changed its `mem_refs` by `k`. -/
theorem view_bump {fs fs2 : FS} {G : Int → Prop} {m : Int → Int} {L : Int → Bool}
    (hv : View fs fs2 G m L) {q : Int} {idm : idaemon_t} (ha : actorOf fs q = some idm)
    (hr : fs2.idms q ≠ none) (k : Int) (i2 : idaemon_t)
    (hi : i2 = { idm with memref := idm.memref + (m q + k) }) :
    View fs (FS.mk fs2.sys (Function.update fs2.idms q (some i2)) fs2.locked fs2.iroot) G
      (fun x => m x + if x = q then k else 0) L := by
  refine ⟨hv.sys, hv.iroot, ?_, ?_, ?_, ?_, ?_⟩
  rotate_left 4
  · intro x hx
    by_cases hxq : x = q
    · subst hxq; simp
    · simp only [Function.update_noteq hxq]
      exact hv.lrun x hx
  · intro x
    by_cases hx : x = q
    · subst hx
      rw [ha]
      unfold actorOf
      simp [hi]
    · have := hv.actor x
      unfold actorOf at this ⊢
      simp only [Function.update_noteq hx, if_neg hx, add_zero]
      exact this
  · intro x hx
    by_cases hxq : x = q
    · subst hxq; exact hv.run x hr
    · simp only [Function.update_noteq hxq] at hx
      exact hv.run x hx
  · intro x hx
    by_cases hxq : x = q
    · subst hxq; simp
    · simp only [Function.update_noteq hxq]
      exact hv.keep x hx
  · intro x hx
    by_cases hxq : x = q
    · subst hxq; exact hv.lock x hr
    · simp only [Function.update_noteq hxq] at hx
      exact hv.lock x hx

/-- A `Get(mem_inc)` request with the path `path`, sent to the running actor of `P`, is
answered by the inode `T` that the path leads to, whose `mem_refs` grows by one. -/
theorem view_get (mkdev : Int → Int → Int) (ffuel : Nat) {fs : FS} {G : Int → Prop}
    {L : Int → Bool} :
    ∀ (path : List Name) (P T : Int) (fs2 : FS) (m : Int → Int) (r : ireq_t),
      View fs fs2 G m L → r.path = path → r.fsref = false → r.memref = true →
      Resolves fs P path T →
      (∀ q, q ∈ Visits fs P path → Sound fs q ∧ L q = false ∧ G q) →
      fs2.idms P ≠ none →
      ∃ a fs3, deliver mkdev ffuel (path.length + 1) fs2 P false rtype_t.GET r = .ok (a, fs3) ∧
        a.resp.err = 0 ∧ a.resp.gnext = T ∧
        View fs fs3 G (fun q => m q + if q = T then 1 else 0) L := by
  intro path
  induction path with
  | nil =>
    intro P T fs2 m r hv hp hf hm hres hvis hrun
    simp only [Resolves] at hres
    subst hres
    obtain ⟨⟨hq, idm, ha, hpriv⟩, hl, _⟩ := hvis P (visits_head fs P [])
    have hi := view_running hv ha hrun
    have hlk : fs2.locked P = false := by rw [hv.lock P hrun, hl]
    simp only [deliver, List.length_nil, Nat.zero_add, hi, hlk, ne_eq, not_true_eq_false,
      if_false, idaemonize, serve_get, forwardreq, hp, ok_bind, hf, Bool.false_eq_true, hm,
      if_true, Step.ofServed, liftR]
    refine ⟨_, _, rfl, rfl, ?_, ?_⟩
    · exact hpriv
    · exact view_bump hv ha hrun 1 _ (by simp [add_assoc])
  | cons next rest ih =>
    intro P T fs2 m r hv hp hf hm hres hvis hrun
    simp only [Resolves] at hres
    obtain ⟨idm, Q, ha, hd, hlook, hres2⟩ := hres
    obtain ⟨⟨hq, idm0, ha0, hpriv⟩, hl, _⟩ := hvis P (visits_head fs P _)
    have hi := view_running hv ha hrun
    have hlk : fs2.locked P = false := by rw [hv.lock P hrun, hl]
    have hvq : Visits fs P (next :: rest) = P :: Visits fs Q rest := by
      simp only [Visits, ha, hlook]
    have hQ := hvis Q (by rw [hvq]; exact List.mem_cons_of_mem _ (visits_head fs Q rest))
    obtain ⟨⟨hQpos, idmQ, haQ, hprivQ⟩, hlQ, hGQ⟩ := hQ
    have hd2 : DirWF ({ idm with memref := idm.memref + m P } : idaemon_t) fs2.sys := by
      rw [hv.sys]; exact dirWF_icache hd rfl
    have hig := iget_spec hd2 next
    have hdb : dirBlocks ({ idm with memref := idm.memref + m P } : idaemon_t).icache fs2.sys =
        dirBlocks idm.icache fs.sys := by rw [hv.sys]
    rw [hdb, hv.sys, hlook] at hig
    simp only at hig
    rw [← hv.sys] at hig
    have hv2 : View fs (FS.mk fs2.sys (Function.update fs2.idms P
        (some ({ idm with memref := idm.memref + m P } : idaemon_t))) fs2.locked fs2.iroot)
        G m L := by
      rw [fs_update_self fs2 P _ hi]; exact hv
    obtain ⟨fs3, he, hv3, hrun3, _⟩ := view_ensure hv2 hQpos haQ hlQ hGQ
    obtain ⟨a, fs4, hdel, he1, he2, hv4⟩ := ih Q T fs3 m { r with path := rest } hv3
      rfl hf hm hres2 (fun q hq => hvis q (by rw [hvq]; exact List.mem_cons_of_mem _ hq))
      (by rw [hrun3]; simp)
    refine ⟨a, fs4, ?_, he1, he2, hv4⟩
    simp only [deliver, List.length_cons, hi, hlk, ne_eq, not_true_eq_false, if_false,
      idaemonize, serve_get, forwardreq, hp, hig, ok_bind, if_neg (not_le.mpr hQpos),
      Step.ofServed, liftR, he]
    exact hdel

/-- A `Lock` request sent with `idaemon_ensure` to an actor that is not locked. -/
theorem view_lock (mkdev : Int → Int → Int) (ffuel : Nat) {fs fs2 : FS} {G : Int → Prop}
    {m : Int → Int} {L : Int → Bool} (hv : View fs fs2 G m L) {q : Int}
    (hs : Sound fs q) (hL : L q = false) (hG : G q) :
    ∃ a fs3, ensure_send mkdev ffuel fs2 q rtype_t.LOCK {} = .ok (a, fs3) ∧ a.resp.err = 0 ∧
      View fs fs3 G m (Function.update L q true) ∧ fs3.idms q ≠ none := by
  obtain ⟨hq, idm, ha, _⟩ := hs
  obtain ⟨fs3, he, hv3, hr3, hl3⟩ := view_ensure hv hq ha hL hG
  refine ⟨answer_t.mk { err := 0 } none,
    FS.mk fs3.sys fs3.idms (Function.update fs3.locked q true) fs3.iroot, ?_, rfl, ?_, ?_⟩
  · simp only [ensure_send, he, ok_bind, send, deliver, List.length_nil, Nat.zero_add, hr3,
      hl3, ne_eq, not_true_eq_false, if_false, Bool.false_eq_true]
  · refine ⟨hv3.sys, hv3.iroot, hv3.actor, hv3.run, hv3.keep, ?_, ?_⟩
    · intro x hx
      by_cases hxq : x = q
      · subst hxq; simp
      · simp only [Function.update_noteq hxq]
        exact hv3.lock x hx
    · intro x hx
      by_cases hxq : x = q
      · subst hxq; show fs3.idms x ≠ none; rw [hr3]; simp
      · simp only [Function.update_noteq hxq] at hx
        exact hv3.lrun x hx
  · show fs3.idms q ≠ none
    rw [hr3]; simp

/-- An `Unlock` request sent on the lock channel of a locked actor. -/
theorem view_unlock (mkdev : Int → Int → Int) (ffuel : Nat) {fs fs2 : FS} {G : Int → Prop}
    {m : Int → Int} {L : Int → Bool} (hv : View fs fs2 G m L) {q : Int}
    (hL : L q = true) :
    ∃ a fs3, sendl mkdev ffuel fs2 q rtype_t.UNLOCK {} = .ok (a, fs3) ∧ a.resp.err = 0 ∧
      View fs fs3 G m (Function.update L q false) ∧ fs3.idms q ≠ none := by
  have hr := hv.lrun q hL
  have hlk : fs2.locked q = true := by rw [hv.lock q hr, hL]
  cases hi : fs2.idms q with
  | none => exact absurd hi hr
  | some i =>
    refine ⟨answer_t.mk { err := 0 } none,
      FS.mk fs2.sys fs2.idms (Function.update fs2.locked q false) fs2.iroot, ?_, rfl, ?_, ?_⟩
    · simp only [sendl, deliver, List.length_nil, Nat.zero_add, hi, hlk, ne_eq,
        not_true_eq_false, if_false, Bool.not_true, Bool.false_eq_true]
    · refine ⟨hv.sys, hv.iroot, hv.actor, hv.run, hv.keep, ?_, ?_⟩
      · intro x hx
        by_cases hxq : x = q
        · subst hxq; simp
        · simp only [Function.update_noteq hxq]
          exact hv.lock x hx
      · intro x hx
        by_cases hxq : x = q
        · subst hxq; simp at hx
        · simp only [Function.update_noteq hxq] at hx
          exact hv.lrun x hx
    · exact hr

/-- A `Lookup` request sent on the lock channel of a locked sound directory. -/
theorem view_lookup (mkdev : Int → Int → Int) (ffuel : Nat) {fs fs2 : FS} {G : Int → Prop}
    {m : Int → Int} {L : Int → Bool} (hv : View fs fs2 G m L) {P : Int} {idm : idaemon_t}
    (ha : actorOf fs P = some idm) (hd : DirWF idm fs.sys)
    (hL : L P = true) (name : Name) :
    ∃ a fs3, sendl mkdev ffuel fs2 P rtype_t.LOOKUP { path := [name] } = .ok (a, fs3) ∧
      (a.resp.gnext, a.resp.err) =
        (match dirLookup (bufdata fs.sys) (dirBlocks idm.icache fs.sys) name with
          | some v => (v, 0)
          | none => (0, -ENOENT)) ∧
      View fs fs3 G m L := by
  have hr := hv.lrun P hL
  have hlk : fs2.locked P = true := by rw [hv.lock P hr, hL]
  have hi := view_running hv ha hr
  have hd2 : DirWF ({ idm with memref := idm.memref + m P } : idaemon_t) fs2.sys := by
    rw [hv.sys]; exact dirWF_icache hd rfl
  have hig : iget ({ idm with memref := idm.memref + m P } : idaemon_t) fs2.sys name =
      .ok ((match dirLookup (bufdata fs.sys) (dirBlocks idm.icache fs.sys) name with
        | some v => (v, 0)
        | none => (0, -ENOENT)), fs2.sys) := by
    have h0 := iget_spec hd2 name
    simp only [hv.sys] at h0 ⊢
    exact h0
  generalize (match dirLookup (bufdata fs.sys) (dirBlocks idm.icache fs.sys) name with
        | some v => (v, (0 : Int))
        | none => (0, -ENOENT)) = X at hig ⊢
  refine ⟨answer_t.mk { gnext := X.1, err := X.2 } none, fs2, ?_, rfl, hv⟩
  simp only [sendl, deliver, List.length_cons, List.length_nil, hi, hlk, ne_eq,
    not_true_eq_false, if_false, idaemonize, serve_lookup, hig, ok_bind, Step.ofServed, liftR]
  rw [fs_update_self fs2 P _ hi]

/-- A `Stat` request without path sent on the lock channel of a locked actor whose inode
type is FILE, DIR or DEV. -/
theorem view_stat (mkdev : Int → Int → Int) (ffuel : Nat) {fs fs2 : FS} {G : Int → Prop}
    {m : Int → Int} {L : Int → Bool} (hv : View fs fs2 G m L) {C : Int} {idm : idaemon_t}
    (ha : actorOf fs C = some idm)
    (ht : idm.icache.itype = I_DIR ∨ idm.icache.itype = I_FILE ∨ idm.icache.itype = I_DEV)
    (hL : L C = true) :
    ∃ a fs3, sendl mkdev ffuel fs2 C rtype_t.STAT mkfstat = .ok (a, fs3) ∧ a.resp.err = 0 ∧
      View fs fs3 G m L := by
  have hr := hv.lrun C hL
  have hlk : fs2.locked C = true := by rw [hv.lock C hr, hL]
  have hi := view_running hv ha hr
  obtain ⟨md, hmd⟩ : ∃ md, mkmode mkdev ({ idm with memref := idm.memref + m C } : idaemon_t)
      = .ok md := by
    unfold mkmode
    rcases ht with h | h | h
    · exact ⟨_, by rw [if_pos (Or.inl h)]⟩
    · exact ⟨_, by rw [if_pos (Or.inr h)]⟩
    · by_cases h2 : idm.icache.itype = I_DIR ∨ idm.icache.itype = I_FILE
      · exact ⟨_, by rw [if_pos h2]⟩
      · exact ⟨_, by rw [if_neg h2, if_pos h]⟩
  refine ⟨answer_t.mk {} (some (stat_t.mk 0 idm.priv md idm.icache.size
    (mkdev idm.icache.major idm.icache.minor))), fs2, ?_, rfl, hv⟩
  simp only [sendl, deliver, mkfstat, List.length_nil, Nat.zero_add, hi, hlk, ne_eq,
    not_true_eq_false, if_false, idaemonize, serve_stat, forwardreq, ok_bind, hmd, liftE,
    liftR]
  rw [fs_update_self fs2 C _ hi]

/-- A `RefDec(memref)` request sent with `idaemon_ensure` to an actor that keeps a link or a
memory reference afterwards. -/
theorem view_refdec (mkdev : Int → Int → Int) (ffuel : Nat) {fs fs2 : FS} {G : Int → Prop}
    {m : Int → Int} {L : Int → Bool} (hv : View fs fs2 G m L) {q : Int} {idm : idaemon_t}
    (hq : 0 < q) (ha : actorOf fs q = some idm) (hL : L q = false) (hG : G q)
    (h1 : 0 ≤ idm.icache.links) (h2 : 0 ≤ idm.memref + m q - 1)
    (h3 : idm.icache.links ≠ 0 ∨ idm.memref + m q - 1 ≠ 0) :
    ∃ a fs3, ensure_send mkdev ffuel fs2 q rtype_t.REFDEC (mkrefdec true) = .ok (a, fs3) ∧
      a.resp.err = 0 ∧ View fs fs3 G (fun x => m x + if x = q then -1 else 0) L := by
  obtain ⟨fs3, he, hv3, hr3, hl3⟩ := view_ensure hv hq ha hL hG
  have hr3n : fs3.idms q ≠ none := by rw [hr3]; simp
  refine ⟨answer_t.mk {} none, FS.mk fs3.sys (Function.update fs3.idms q
    (some ({ idm with memref := idm.memref + m q - 1 } : idaemon_t))) fs3.locked fs3.iroot,
    ?_, rfl, ?_⟩
  · have hc1 : ¬ (idm.icache.links < 0 ∨ idm.memref + m q - 1 < 0) := by omega
    have hdec : goDec (idm.memref + m q) = idm.memref + m q - 1 := by
      unfold goDec
      rw [if_neg (by omega)]
    simp only [ensure_send, he, ok_bind, send, mkrefdec, if_true, deliver, List.length_nil,
      Nat.zero_add, hr3, hl3, ne_eq, not_true_eq_false, if_false, idaemonize, serve_refdec,
      irefdown, hdec, hc1, h3, liftR, Bool.not_true, Bool.false_eq_true]
  · exact view_bump hv3 ha hr3n (-1) _ (by simp [Int.sub_eq_add_neg, add_assoc])

theorem splitSlash_noslash : ∀ (l cur : Name), (47 : Byte) ∉ l → splitSlash l cur = [cur ++ l] := by
  intro l
  induction l with
  | nil => intro cur _; simp [splitSlash]
  | cons c rest ih =>
    intro cur h
    simp only [List.mem_cons, not_or] at h
    simp only [splitSlash]
    rw [if_neg (fun hc => h.1 hc.symm), ih _ h.2]
    simp

theorem splitSlash_mem : ∀ (l cur x : Name), x ∈ splitSlash l cur → (47 : Byte) ∉ cur →
    (47 : Byte) ∉ x := by
  intro l
  induction l with
  | nil =>
    intro cur x hx hc
    simp only [splitSlash, List.mem_singleton] at hx
    rw [hx]; exact hc
  | cons c rest ih =>
    intro cur x hx hc
    simp only [splitSlash] at hx
    by_cases h : c = 47
    · rw [if_pos h] at hx
      simp only [List.mem_cons] at hx
      rcases hx with hx | hx
      · rw [hx]; exact hc
      · exact ih [] x hx (by simp)
    · rw [if_neg h] at hx
      apply ih _ x hx
      simp only [List.mem_append, List.mem_singleton, not_or]
      exact ⟨hc, fun h2 => h h2.symm⟩

/-- A component of a path is not empty and holds no `/`. -/
theorem pathparts_mem {p x : Name} (h : x ∈ pathparts p) : x ≠ [] ∧ (47 : Byte) ∉ x := by
  unfold pathparts at h
  rw [List.mem_filter] at h
  exact ⟨by simpa using h.2, splitSlash_mem p [] x h.1 (by simp)⟩

theorem pathparts_single {x : Name} (h1 : x ≠ []) (h2 : (47 : Byte) ∉ x) : pathparts x = [x] := by
  unfold pathparts
  rw [splitSlash_noslash x [] h2]
  simp [h1]

theorem dirname_single {x : Name} (h1 : x ≠ []) (h2 : (47 : Byte) ∉ x) :
    dirname x = ([], x) := by
  unfold dirname
  rw [pathparts_single h1 h2]
  rfl

/-- The final component that `sdirname` returns is a component of the path, if not empty. -/
theorem sdirname_snd {p : Name} (h : (sdirname p).2 ≠ []) :
    (sdirname p).2 ≠ [] ∧ (47 : Byte) ∉ (sdirname p).2 := by
  have e : (sdirname p).2 = (dirname p).2 := rfl
  rw [e] at h ⊢
  unfold dirname at h ⊢
  cases hr : (pathparts p).reverse with
  | nil => rw [hr] at h; exact absurd rfl h
  | cons name revdirs =>
    simp only
    apply pathparts_mem (p := p)
    rw [← List.mem_reverse, hr]
    exact List.mem_cons_self _ _

theorem resolves_mem_visits (fs : FS) : ∀ (path : List Name) (P T : Int),
    Resolves fs P path T → T ∈ Visits fs P path := by
  intro path
  induction path with
  | nil => intro P T h; simp only [Resolves] at h; simp [Visits, h]
  | cons a l ih =>
    intro P T h
    simp only [Resolves] at h
    obtain ⟨idm, Q, ha, _, hl, hr⟩ := h
    simp only [Visits, ha, hl]
    exact List.mem_cons_of_mem _ (ih Q T hr)

/-- The first request of `lockall` for a parent path. -/
theorem view_namei (mkdev : Int → Int → Int) (ffuel : Nat) {fs fs2 : FS} {G : Int → Prop}
    {m : Int → Int} {L : Int → Bool} (hv : View fs fs2 G m L) (hroot : fs.idms fs.iroot ≠ none)
    (path : Name) (cwd T : Int)
    (hres : Resolves fs (namei_start fs path cwd) (pathparts path) T)
    (hvis : ∀ x, x ∈ Visits fs (namei_start fs path cwd) (pathparts path) →
      Sound fs x ∧ L x = false ∧ G x) :
    ∃ a fs3, req_namei mkdev ffuel fs2 rtype_t.GET (mkget_meminc path) path cwd = .ok (a, fs3) ∧
      a.resp.err = 0 ∧ a.resp.gnext = T ∧
      View fs fs3 G (fun q => m q + if q = T then 1 else 0) L := by
  unfold req_namei
  by_cases hc : path = [] ∨ path.head? ≠ some 47
  · have hst : namei_start fs path cwd = cwd := by unfold namei_start; rw [if_pos hc]
    rw [hst] at hres hvis
    obtain ⟨⟨hq, idm, ha, _⟩, hl, hG⟩ := hvis cwd (visits_head fs cwd _)
    obtain ⟨fs3, he, hv3, hr3, _⟩ := view_ensure hv hq ha hl hG
    obtain ⟨a, fs4, hd, h1, h2, hv4⟩ := view_get mkdev ffuel (pathparts path) cwd T fs3 m
      (mkget_meminc path) hv3 rfl rfl rfl hres hvis (by rw [hr3]; simp)
    refine ⟨a, fs4, ?_, h1, h2, hv4⟩
    rw [if_pos hc, he]
    simp only [ok_bind, send]
    exact hd
  · have hst : namei_start fs path cwd = fs.iroot := by unfold namei_start; rw [if_neg hc]
    rw [hst] at hres hvis
    obtain ⟨a, fs4, hd, h1, h2, hv4⟩ := view_get mkdev ffuel (pathparts path) fs.iroot T fs2 m
      (mkget_meminc path) hv rfl rfl rfl hres hvis (hv.keep _ hroot)
    refine ⟨a, fs4, ?_, h1, h2, hv4⟩
    rw [if_neg hc]
    simp only [send, hv.iroot]
    exact hd

/-- The closure `memdecf` of `lockall` increments `mem_refs`. -/
theorem view_memdecf (mkdev : Int → Int → Int) (ffuel : Nat) {fs fs2 : FS} {G : Int → Prop}
    {m : Int → Int} {L : Int → Bool} (hv : View fs fs2 G m L) {T : Int}
    (hs : Sound fs T) (hL : L T = false) (hG : G T) :
    ∃ fs3, memdecf mkdev ffuel fs2 T = .ok fs3 ∧
      View fs fs3 G (fun q => m q + if q = T then 1 else 0) L := by
  obtain ⟨hq, idm, ha, hp⟩ := hs
  obtain ⟨fs3, he, hv3, hr3, _⟩ := view_ensure hv hq ha hL hG
  obtain ⟨a, fs4, hd, h1, h2, hv4⟩ := view_get mkdev ffuel [] T T fs3 m mkref_direct hv3 rfl rfl
    rfl (by simp [Resolves]) (by
      intro x hx
      simp only [Visits, List.mem_singleton] at hx
      subst hx
      exact ⟨⟨hq, idm, ha, hp⟩, hL, hG⟩) (by rw [hr3]; simp)
  refine ⟨fs4, ?_, hv4⟩
  simp only [memdecf, ensure_send, he, ok_bind, send]
  have : mkref_direct.path.length + 1 = ([] : List Name).length + 1 := rfl
  rw [this, hd]
  simp [h1]

/-- The first loop of `lockall` on parents that can be locked. -/
theorem lockall_paths_spec (mkdev : Int → Int → Int) (ffuel : Nat) {fs : FS} {G : Int → Prop}
    {L : Int → Bool} (cwd : Int) (tgt : Name → Int) (ctgt : Name → Name → Int)
    (hroot : fs.idms fs.iroot ≠ none) :
    ∀ (rest acc : List itxpar) (pmems : List Int) (fs2 : FS) (m : Int → Int),
      View fs fs2 G m L → (∀ p, p ∈ rest → ParOK fs G L cwd tgt ctgt p) →
      ∃ pm fs3 m3, lockall_paths mkdev ffuel cwd rest acc pmems fs2 =
          .ok ((0, acc ++ rest.map (fun p => { p with priv := tgt p.path }), pm), fs3) ∧
        View fs fs3 G m3 L ∧ (∀ q, m q ≤ m3 q) ∧
        (∀ p, p ∈ rest → m (tgt p.path) + 1 ≤ m3 (tgt p.path)) := by
  intro rest
  induction rest with
  | nil =>
    intro acc pmems fs2 m hv _
    exact ⟨pmems, fs2, m, by simp [lockall_paths], hv, fun _ => le_refl _,
      fun p hp => absurd hp (List.not_mem_nil p)⟩
  | cons par rest ih =>
    intro acc pmems fs2 m hv hok
    have hp := hok par (List.mem_cons_self _ _)
    obtain ⟨a, fs3, hn, h1, h2, hv3⟩ := view_namei mkdev ffuel hv hroot par.path cwd
      (tgt par.path) hp.res hp.vis
    have hT := hp.vis _ (resolves_mem_visits fs _ _ _ hp.res)
    have hstep : ∃ fs4 m4, (if a.resp.gnext ∈ pmems then memdecf mkdev ffuel fs3 a.resp.gnext
          else (.ok fs3 : F FS)) = .ok fs4 ∧ View fs fs4 G m4 L ∧ (∀ q, m q ≤ m4 q) ∧
          m (tgt par.path) + 1 ≤ m4 (tgt par.path) := by
      by_cases hmem : a.resp.gnext ∈ pmems
      · rw [if_pos hmem, h2]
        obtain ⟨fs4, hm4, hv4⟩ := view_memdecf mkdev ffuel hv3 hT.1 hT.2.1 hT.2.2
        refine ⟨fs4, _, hm4, hv4, ?_, ?_⟩
        · intro q
          by_cases hq : q = tgt par.path
          · simp [hq]; omega
          · simp [hq]
        · simp
      · rw [if_neg hmem]
        refine ⟨fs3, _, rfl, hv3, ?_, ?_⟩
        · intro q
          by_cases hq : q = tgt par.path <;> simp [hq]
        · simp
    obtain ⟨fs4, m4, hs4, hv4, hle4, hT4⟩ := hstep
    obtain ⟨pm, fs5, m5, hl5, hv5, hle5, hT5⟩ := ih (acc ++ [{ par with priv := tgt par.path }])
      (setKey pmems (tgt par.path)) fs4 m4 hv4
      (fun p hp => hok p (List.mem_cons_of_mem _ hp))
    refine ⟨pm, fs5, m5, ?_, hv5, fun q => le_trans (hle4 q) (hle5 q), ?_⟩
    · simp only [lockall_paths, hn, ok_bind, h1, ne_eq, not_true_eq_false, if_false, h2]
      rw [h2] at hs4
      by_cases hmem : tgt par.path ∈ pmems
      · rw [if_pos hmem] at hs4 ⊢
        rw [hs4]
        simp only [ok_bind]
        rw [hl5]
        simp
      · rw [if_neg hmem] at hs4 ⊢
        simp only [Except.ok.injEq] at hs4
        subst hs4
        rw [hl5]
        simp
    · intro p hp
      simp only [List.mem_cons] at hp
      rcases hp with rfl | hp
      · exact le_trans hT4 (hle5 _)
      · exact le_trans (by have := hle4 (tgt p.path); omega) (hT5 p hp)

theorem mem_setKey (l : List Int) (k x : Int) : x ∈ setKey l k ↔ x ∈ l ∨ x = k := by
  unfold setKey
  by_cases h : k ∈ l
  · rw [if_pos h]
    constructor
    · exact Or.inl
    · rintro (h2 | h2)
      · exact h2
      · rw [h2]; exact h
  · rw [if_neg h]; simp

/-- The statement `if !added[k] { sorted = append(sorted, k) }; added[k] = true`. -/
theorem roundInv_add {sorted added : List Int} (hn : sorted.Nodup)
    (ha : ∀ x, x ∈ added ↔ x ∈ sorted) (k : Int) :
    (if k ∈ added then sorted else sorted ++ [k]).Nodup ∧
      (∀ x, x ∈ setKey added k ↔ x ∈ (if k ∈ added then sorted else sorted ++ [k])) ∧
      (∀ x, x ∈ (if k ∈ added then sorted else sorted ++ [k]) ↔ x ∈ sorted ∨ x = k) := by
  by_cases h : k ∈ added
  · simp only [if_pos h]
    refine ⟨hn, ?_, ?_⟩
    · intro x
      rw [mem_setKey, ha]
      constructor
      · rintro (h2 | h2)
        · exact h2
        · rw [h2]; exact (ha k).1 h
      · exact Or.inl
    · intro x
      constructor
      · exact Or.inl
      · rintro (h2 | h2)
        · exact h2
        · rw [h2]; exact (ha k).1 h
  · simp only [if_neg h]
    refine ⟨?_, ?_, ?_⟩
    · rw [List.nodup_append]
      refine ⟨hn, List.nodup_singleton k, ?_⟩
      intro a h1 h2
      simp only [List.mem_singleton] at h2
      subst h2
      exact h ((ha a).2 h1)
    · intro x; rw [mem_setKey, ha]; simp
    · intro x; simp

theorem round_pars_spec : ∀ (pars : List itxpar) (st : round_t), RoundInv st →
    RoundInv (round_pars pars st) ∧ (round_pars pars st).cmems = st.cmems ∧
      ∀ x, x ∈ (round_pars pars st).sorted ↔ x ∈ st.sorted ∨ x ∈ pars.map (fun p => p.priv) := by
  intro pars
  induction pars with
  | nil => intro st h; exact ⟨h, rfl, fun x => by simp [round_pars]⟩
  | cons p rest ih =>
    intro st h
    obtain ⟨h1, h2, h3⟩ := roundInv_add h.1 h.2 p.priv
    obtain ⟨i1, i2, i3⟩ := ih { st with
      sorted := if p.priv ∈ st.added then st.sorted else st.sorted ++ [p.priv],
      added := setKey st.added p.priv } ⟨h1, h2⟩
    refine ⟨i1, i2, ?_⟩
    intro x
    simp only [round_pars]
    rw [i3]
    simp only [h3, List.map_cons, List.mem_cons]
    tauto

/-- The inner loop of "add children to sorted inums" when every child exists. -/
theorem round_childs_spec (mkdev : Int → Int → Int) (ffuel : Nat) {fs : FS} {G : Int → Prop}
    {L : Int → Bool} (pmems : List Int) (P : Int) (cf : Name → Int)
    (hP : Sound fs P ∧ L P = false ∧ G P) :
    ∀ (rest acc : List itxchild) (st : round_t) (fs2 : FS) (m : Int → Int),
      View fs fs2 G m L → RoundInv st →
      (∀ c, c ∈ rest → c.path ≠ [] ∧ (47 : Byte) ∉ c.path ∧
        (∃ idm, actorOf fs P = some idm ∧ DirWF idm fs.sys ∧
          dirLookup (bufdata fs.sys) (dirBlocks idm.icache fs.sys) c.path = some (cf c.path)) ∧
        Sound fs (cf c.path) ∧ L (cf c.path) = false ∧ G (cf c.path)) →
      ∃ st3 fs3 m3, round_childs mkdev ffuel pmems P rest acc st fs2 =
          .ok ((0, acc ++ rest.map (fun c => foundChild (cf c.path) c), st3), fs3) ∧
        View fs fs3 G m3 L ∧ RoundInv st3 ∧ (∀ q, m q ≤ m3 q) ∧
        (∀ c, c ∈ rest → m (cf c.path) + 1 ≤ m3 (cf c.path)) ∧
        (∀ x, x ∈ st3.sorted ↔ x ∈ st.sorted ∨ x ∈ rest.map (fun c => cf c.path)) := by
  intro rest
  induction rest with
  | nil =>
    intro acc st fs2 m hv hi _
    exact ⟨st, fs2, m, by simp [round_childs], hv, hi, fun _ => le_refl _,
      fun c hc => absurd hc (List.not_mem_nil c), fun x => by simp⟩
  | cons c rest ih =>
    intro acc st fs2 m hv hi hok
    obtain ⟨hc1, hc2, ⟨idm, ha, hd, hl⟩, hcs, hcl, hcg⟩ := hok c (List.mem_cons_self _ _)
    obtain ⟨hPs, hPl, hPg⟩ := hP
    obtain ⟨fs3, he, hv3, hr3, _⟩ := view_ensure hv hPs.1 ha hPl hPg
    have hres : Resolves fs P [c.path] (cf c.path) := by
      simp only [Resolves]
      exact ⟨idm, cf c.path, ha, hd, hl, rfl⟩
    have hvis : ∀ x, x ∈ Visits fs P [c.path] → Sound fs x ∧ L x = false ∧ G x := by
      intro x hx
      simp only [Visits, ha, hl, List.mem_cons, List.mem_singleton, List.not_mem_nil,
        or_false] at hx
      rcases hx with rfl | rfl
      · exact ⟨hPs, hPl, hPg⟩
      · exact ⟨hcs, hcl, hcg⟩
    obtain ⟨a, fs4, hdl, h1, h2, hv4⟩ := view_get mkdev ffuel [c.path] P (cf c.path) fs3 m
      (mkget_meminc c.path) hv3 (by simp [mkget_meminc, pathparts_single hc1 hc2]) rfl rfl hres
      hvis (by rw [hr3]; simp)
    obtain ⟨k1, k2, k3⟩ := roundInv_add hi.1 hi.2 (cf c.path)
    obtain ⟨st5, fs5, m5, hl5, hv5, hi5, hle5, hT5, hm5⟩ :=
      ih (acc ++ [foundChild (cf c.path) c])
        { sorted := if cf c.path ∈ st.added then st.sorted else st.sorted ++ [cf c.path],
          added := setKey st.added (cf c.path), cmems := setKey st.cmems (cf c.path) }
        fs4 _ hv4 ⟨k1, k2⟩ (fun c2 hc2 => hok c2 (List.mem_cons_of_mem _ hc2))
    refine ⟨st5, fs5, m5, ?_, hv5, hi5, ?_, ?_, ?_⟩
    · have hlen : (mkget_meminc c.path).path.length + 1 = [c.path].length + 1 := by
        simp [mkget_meminc, pathparts_single hc1 hc2]
      have hne : ¬ ((0 : Int) = -ENOENT) := by decide
      simp only [round_childs, ensure_send, he, ok_bind, send, hlen, hdl, h1, hne, if_false,
        ne_eq, not_true_eq_false, h2]
      unfold foundChild at hl5
      rw [hl5]
      simp [foundChild]
    · intro q
      refine le_trans ?_ (hle5 q)
      by_cases hq : q = cf c.path
      · simp [hq]
      · simp [hq]
    · intro c2 hc2
      simp only [List.mem_cons] at hc2
      rcases hc2 with rfl | hc2
      · refine le_trans ?_ (hle5 _)
        simp
      · refine le_trans ?_ (hT5 c2 hc2)
        by_cases hq : cf c2.path = cf c.path
        · simp [hq]
        · simp [hq]
    · intro x
      rw [hm5]
      simp only [k3, List.map_cons, List.mem_cons]
      tauto

/-- The loop "add children to sorted inums" when every child exists. -/
theorem round_children_spec (mkdev : Int → Int → Int) (ffuel : Nat) {fs : FS} {G : Int → Prop}
    {L : Int → Bool} (pmems : List Int) (cwd : Int) (tgt : Name → Int)
    (ctgt : Name → Name → Int) :
    ∀ (rest acc : List itxpar) (st : round_t) (fs2 : FS) (m : Int → Int),
      View fs fs2 G m L → RoundInv st → (∀ p, p ∈ rest → ParOK fs G L cwd tgt ctgt p) →
      ∃ st3 fs3 m3, round_children mkdev ffuel pmems
            (rest.map (fun p => { p with priv := tgt p.path })) acc st fs2 =
          .ok ((0, acc ++ rest.map (foundPar tgt ctgt), st3), fs3) ∧
        View fs fs3 G m3 L ∧ RoundInv st3 ∧ (∀ q, m q ≤ m3 q) ∧
        (∀ p, p ∈ rest → ∀ c, c ∈ p.childs →
          m (ctgt p.path c.path) + 1 ≤ m3 (ctgt p.path c.path)) ∧
        (∀ x, x ∈ st3.sorted ↔
          x ∈ st.sorted ∨ ∃ p, p ∈ rest ∧ ∃ c, c ∈ p.childs ∧ ctgt p.path c.path = x) := by
  intro rest
  induction rest with
  | nil =>
    intro acc st fs2 m hv hi _
    exact ⟨st, fs2, m, by simp [round_children], hv, hi, fun _ => le_refl _,
      fun p hp => absurd hp (List.not_mem_nil p), fun x => by simp⟩
  | cons p rest ih =>
    intro acc st fs2 m hv hi hok
    have hp := hok p (List.mem_cons_self _ _)
    have hT := hp.vis _ (resolves_mem_visits fs _ _ _ hp.res)
    obtain ⟨st3, fs3, m3, hc3, hv3, hi3, hle3, hT3, hm3⟩ :=
      round_childs_spec mkdev ffuel pmems (tgt p.path) (ctgt p.path) hT p.childs [] st fs2 m
        hv hi hp.child
    obtain ⟨st5, fs5, m5, hc5, hv5, hi5, hle5, hT5, hm5⟩ :=
      ih (acc ++ [foundPar tgt ctgt p]) st3 fs3 m3 hv3 hi3
        (fun p2 hp2 => hok p2 (List.mem_cons_of_mem _ hp2))
    refine ⟨st5, fs5, m5, ?_, hv5, hi5, fun q => le_trans (hle3 q) (hle5 q), ?_, ?_⟩
    · simp only [List.map_cons, round_children, hc3, ok_bind, List.nil_append, ne_eq,
        not_true_eq_false, if_false]
      unfold foundPar at hc5
      simp only at hc5
      rw [hc5]
      simp [foundPar]
    · intro p2 hp2 c hc
      simp only [List.mem_cons] at hp2
      rcases hp2 with rfl | hp2
      · exact le_trans (hT3 c hc) (hle5 _)
      · exact le_trans (by have := hle3 (ctgt p2.path c.path); omega) (hT5 p2 hp2 c hc)
    · intro x
      rw [hm5, hm3]
      constructor
      · rintro ((h | h) | ⟨p2, hp2, c, hc, e⟩)
        · exact Or.inl h
        · rw [List.mem_map] at h
          obtain ⟨c, hc, e⟩ := h
          exact Or.inr ⟨p, List.mem_cons_self _ _, c, hc, e⟩
        · exact Or.inr ⟨p2, List.mem_cons_of_mem _ hp2, c, hc, e⟩
      · rintro (h | ⟨p2, hp2, c, hc, e⟩)
        · exact Or.inl (Or.inl h)
        · rcases List.mem_cons.1 hp2 with rfl | hp2
          · exact Or.inl (Or.inr (List.mem_map.2 ⟨c, hc, e⟩))
          · exact Or.inr ⟨p2, hp2, c, hc, e⟩

/-- The loop "sort inums, lock in order" on distinct sound actors that are not locked. -/
theorem round_locks_spec (mkdev : Int → Int → Int) (ffuel : Nat) {fs : FS} {G : Int → Prop}
    {m : Int → Int} (pars : List itxpar) :
    ∀ (l lch clk : List Int) (fs2 : FS) (L2 : Int → Bool),
      View fs fs2 G m L2 → l.Nodup → (∀ q, q ∈ l → Sound fs q ∧ L2 q = false ∧ G q) →
      ∃ lch3 clk3 fs3 L3, round_locks mkdev ffuel pars l lch clk fs2 = .ok ((lch3, clk3), fs3) ∧
        View fs fs3 G m L3 ∧ (∀ q, L3 q = (decide (q ∈ l) || L2 q)) ∧
        (∀ q, q ∈ lch3 ↔ q ∈ lch ∨ q ∈ l) := by
  intro l
  induction l with
  | nil =>
    intro lch clk fs2 L2 hv _ _
    exact ⟨lch, clk, fs2, L2, by simp [round_locks], hv, fun q => by simp, fun q => by simp⟩
  | cons i rest ih =>
    intro lch clk fs2 L2 hv hn hok
    obtain ⟨hs, hl, hg⟩ := hok i (List.mem_cons_self _ _)
    obtain ⟨a, fs3, he, h1, hv3, hr3⟩ := view_lock mkdev ffuel hv hs hl hg
    rw [List.nodup_cons] at hn
    obtain ⟨lch5, clk5, fs5, L5, hl5, hv5, hL5, hm5⟩ := ih (setKey lch i)
      (if pars.any (fun p => p.childs.any (fun c => c.priv = i)) then setKey clk i else clk)
      fs3 (Function.update L2 i true) hv3 hn.2 (by
        intro q hq
        obtain ⟨h1, h2, h3⟩ := hok q (List.mem_cons_of_mem _ hq)
        refine ⟨h1, ?_, h3⟩
        have hne : q ≠ i := fun h => hn.1 (by rw [← h]; exact hq)
        rw [Function.update_noteq hne]
        exact h2)
    refine ⟨lch5, clk5, fs5, L5, ?_, hv5, ?_, ?_⟩
    · simp only [round_locks, he, ok_bind, h1, ne_eq, not_true_eq_false, if_false]
      exact hl5
    · intro q
      rw [hL5]
      by_cases hq : q = i
      · subst hq; simp
      · simp [Function.update_noteq hq, hq]
    · intro q
      rw [hm5, mem_setKey]
      simp only [List.mem_cons]
      tauto

theorem set_lchans_childs_spec (lchans : List Int) (cf : Name → Int) :
    ∀ (cs : List itxchild), (∀ c, c ∈ cs → cf c.path ∈ lchans) →
      set_lchans_childs lchans (cs.map (fun c => foundChild (cf c.path) c)) =
        .ok (cs.map (fun c => lockedChild (cf c.path) c)) := by
  intro cs
  induction cs with
  | nil => intro _; rfl
  | cons c rest ih =>
    intro h
    have h1 := h c (List.mem_cons_self _ _)
    have h2 := ih (fun c2 hc2 => h c2 (List.mem_cons_of_mem _ hc2))
    simp only [List.map_cons, set_lchans_childs, foundChild, Bool.not_true, Bool.false_eq_true,
      if_false, h1, not_true_eq_false]
    simp only [foundChild] at h2
    rw [h2]
    rfl

theorem set_lchans_spec (lchans : List Int) (tgt : Name → Int) (ctgt : Name → Name → Int) :
    ∀ (ps : List itxpar),
      (∀ p, p ∈ ps → tgt p.path ∈ lchans ∧ ∀ c, c ∈ p.childs → ctgt p.path c.path ∈ lchans) →
      set_lchans lchans (ps.map (foundPar tgt ctgt)) = .ok (ps.map (lockedPar tgt ctgt)) := by
  intro ps
  induction ps with
  | nil => intro _; rfl
  | cons p rest ih =>
    intro h
    obtain ⟨h1, h2⟩ := h p (List.mem_cons_self _ _)
    have h3 := ih (fun c2 hc2 => h c2 (List.mem_cons_of_mem _ hc2))
    have h4 := set_lchans_childs_spec lchans (ctgt p.path) p.childs h2
    simp only [List.map_cons, set_lchans, foundPar, h1, not_true_eq_false, if_false, h4,
      ok_bind]
    simp only [foundPar] at h3
    rw [h3]
    rfl

/-- The verification of the children of one locked parent when nothing has changed. -/
theorem verify_childs_spec (mkdev : Int → Int → Int) (ffuel : Nat) {fs : FS} {G : Int → Prop}
    {m : Int → Int} {L : Int → Bool} (P : Int) (idm : idaemon_t) (cf : Name → Int)
    (ua uf : FS → F FS) (ha : actorOf fs P = some idm) (hd : DirWF idm fs.sys)
    (hL : L P = true) :
    ∀ (cs : List itxchild) (fs2 : FS), View fs fs2 G m L →
      (∀ c, c ∈ cs → c.path ≠ [] ∧ (47 : Byte) ∉ c.path ∧
        dirLookup (bufdata fs.sys) (dirBlocks idm.icache fs.sys) c.path = some (cf c.path)) →
      ∃ fs3, verify_childs mkdev ffuel (some P) ua uf
          (cs.map (fun c => lockedChild (cf c.path) c)) fs2 = .ok (verdict_t.good, fs3) ∧
        View fs fs3 G m L := by
  intro cs
  induction cs with
  | nil => intro fs2 hv _; exact ⟨fs2, rfl, hv⟩
  | cons c rest ih =>
    intro fs2 hv h
    obtain ⟨h1, h2, h3⟩ := h c (List.mem_cons_self _ _)
    obtain ⟨a, fs3, hs, hr, hv3⟩ := view_lookup mkdev ffuel hv ha hd hL c.path
    rw [h3] at hr
    simp only [Prod.mk.injEq] at hr
    obtain ⟨fs4, h4, hv4⟩ := ih fs3 hv3 (fun c2 hc2 => h c2 (List.mem_cons_of_mem _ hc2))
    refine ⟨fs4, ?_, hv4⟩
    have hne : ¬ ((0 : Int) = -ENOENT) := by decide
    simp only [List.map_cons, verify_childs, lockedChild, mklookup, dirname_single h1 h2,
      ne_eq, not_true_eq_false, if_false, send_lchan, hs, ok_bind, hr.1, hr.2,
      Bool.not_true, Bool.false_eq_true, and_false, hne]
    exact h4

/-- The verification of a round when nothing has changed. -/
theorem verify_pars_spec (mkdev : Int → Int → Int) (ffuel : Nat) {fs : FS} {G : Int → Prop}
    {m : Int → Int} {L : Int → Bool} (tgt : Name → Int) (ctgt : Name → Name → Int)
    (ua uf : FS → F FS) :
    ∀ (ps : List itxpar) (fs2 : FS), View fs fs2 G m L →
      (∀ p, p ∈ ps → L (tgt p.path) = true ∧ ∀ c, c ∈ p.childs →
        c.path ≠ [] ∧ (47 : Byte) ∉ c.path ∧
        ∃ idm, actorOf fs (tgt p.path) = some idm ∧ DirWF idm fs.sys ∧
          dirLookup (bufdata fs.sys) (dirBlocks idm.icache fs.sys) c.path
            = some (ctgt p.path c.path)) →
      ∃ fs3, verify_pars mkdev ffuel ua uf (ps.map (lockedPar tgt ctgt)) fs2 =
          .ok (verdict_t.good, fs3) ∧ View fs fs3 G m L := by
  intro ps
  induction ps with
  | nil => intro fs2 hv _; exact ⟨fs2, rfl, hv⟩
  | cons p rest ih =>
    intro fs2 hv h
    obtain ⟨h1, h2⟩ := h p (List.mem_cons_self _ _)
    have hstep : ∃ fs3, verify_childs mkdev ffuel (some (tgt p.path)) ua uf
        (p.childs.map (fun c => lockedChild (ctgt p.path c.path) c)) fs2 =
          .ok (verdict_t.good, fs3) ∧ View fs fs3 G m L := by
      cases hc : p.childs with
      | nil => exact ⟨fs2, rfl, hv⟩
      | cons c0 cs0 =>
        obtain ⟨_, _, idm, ha, hd, _⟩ := h2 c0 (by rw [hc]; exact List.mem_cons_self _ _)
        rw [← hc]
        apply verify_childs_spec mkdev ffuel (tgt p.path) idm (ctgt p.path) ua uf ha hd h1
          p.childs fs2 hv
        intro c hcm
        obtain ⟨q1, q2, idm2, ha2, _, hl2⟩ := h2 c hcm
        rw [ha] at ha2
        simp only [Option.some.injEq] at ha2
        subst ha2
        exact ⟨q1, q2, hl2⟩
    obtain ⟨fs3, h3, hv3⟩ := hstep
    obtain ⟨fs4, h4, hv4⟩ := ih fs3 hv3 (fun c2 hc2 => h c2 (List.mem_cons_of_mem _ hc2))
    refine ⟨fs4, ?_, hv4⟩
    simp only [List.map_cons, verify_pars, lockedPar, h3, ok_bind]
    exact h4

theorem mem_txPrivs (tgt : Name → Int) (ctgt : Name → Name → Int) (x : Int) :
    ∀ (ps : List itxpar), x ∈ txPrivs tgt ctgt ps ↔
      ∃ p, p ∈ ps ∧ (x = tgt p.path ∨ ∃ c, c ∈ p.childs ∧ ctgt p.path c.path = x) := by
  intro ps
  induction ps with
  | nil => simp [txPrivs]
  | cons p rest ih =>
    simp only [txPrivs, parPrivs, List.mem_append, List.mem_cons, List.mem_map, ih,
      exists_eq_or_imp]

theorem parOK_sound {fs : FS} {G : Int → Prop} {L : Int → Bool} {cwd : Int} {tgt : Name → Int}
    {ctgt : Name → Name → Int} {ps : List itxpar}
    (hok : ∀ p, p ∈ ps → ParOK fs G L cwd tgt ctgt p) {x : Int}
    (hx : x ∈ txPrivs tgt ctgt ps) : Sound fs x ∧ L x = false ∧ G x := by
  rw [mem_txPrivs] at hx
  obtain ⟨p, hp, h | ⟨c, hc, rfl⟩⟩ := hx
  · rw [h]
    exact (hok p hp).vis _ (resolves_mem_visits fs _ _ _ (hok p hp).res)
  · obtain ⟨_, _, _, h⟩ := (hok p hp).child c hc
    exact h

/-- The loop `for !done` of `lockall` on a transaction whose parents and children all exist
and are not locked: one round locks them all. -/
theorem lockall_rounds_spec (mkdev : Int → Int → Int) (ffuel n : Nat) {fs : FS}
    {G : Int → Prop} {L : Int → Bool} (pmems : List Int) (cwd : Int) (tgt : Name → Int)
    (ctgt : Name → Name → Int) (ps : List itxpar) (fs2 : FS) (m : Int → Int)
    (hv : View fs fs2 G m L) (hok : ∀ p, p ∈ ps → ParOK fs G L cwd tgt ctgt p) :
    ∃ fs3 m3 L3, lockall_rounds mkdev ffuel pmems (n + 1)
          (ps.map (fun p => { p with priv := tgt p.path })) fs2 =
        .ok ((0, ps.map (lockedPar tgt ctgt)), fs3) ∧
      View fs fs3 G m3 L3 ∧ (∀ q, m q ≤ m3 q) ∧
      (∀ p, p ∈ ps → ∀ c, c ∈ p.childs →
        m (ctgt p.path c.path) + 1 ≤ m3 (ctgt p.path c.path)) ∧
      (∀ q, L3 q = (decide (q ∈ txPrivs tgt ctgt ps) || L q)) := by
  have hinv0 : RoundInv ({} : round_t) := ⟨List.nodup_nil, fun x => Iff.rfl⟩
  obtain ⟨i1, i2, i3⟩ := round_pars_spec (ps.map (fun p => { p with priv := tgt p.path })) {}
    hinv0
  obtain ⟨st3, fs3, m3, hc3, hv3, hi3, hle3, hT3, hm3⟩ :=
    round_children_spec mkdev ffuel pmems cwd tgt ctgt ps [] _ fs2 m hv i1 hok
  have hmem : ∀ x, x ∈ sortInts st3.sorted ↔ x ∈ txPrivs tgt ctgt ps := by
    intro x
    unfold sortInts
    rw [(List.perm_insertionSort _ _).mem_iff, hm3, i3, mem_txPrivs]
    simp only [List.not_mem_nil, false_or, List.mem_map, List.map_map]
    constructor
    · rintro (⟨p, hp, rfl⟩ | ⟨p, hp, c, hc, e⟩)
      · exact ⟨p, hp, Or.inl rfl⟩
      · exact ⟨p, hp, Or.inr ⟨c, hc, e⟩⟩
    · rintro ⟨p, hp, h | ⟨c, hc, e⟩⟩
      · exact Or.inl ⟨p, hp, h.symm⟩
      · exact Or.inr ⟨p, hp, c, hc, e⟩
  have hnd : (sortInts st3.sorted).Nodup := by
    unfold sortInts
    rw [(List.perm_insertionSort _ _).nodup_iff]
    exact hi3.1
  obtain ⟨lch, clk, fs4, L4, hl4, hv4, hL4, hm4⟩ :=
    round_locks_spec mkdev ffuel (ps.map (foundPar tgt ctgt)) (sortInts st3.sorted) [] [] fs3 L
      hv3 hnd (fun q hq => parOK_sound hok ((hmem q).1 hq))
  have hL4b : ∀ q, L4 q = (decide (q ∈ txPrivs tgt ctgt ps) || L q) := by
    intro q
    rw [hL4, decide_eq_decide.2 (hmem q)]
  have hin : ∀ q, q ∈ txPrivs tgt ctgt ps → q ∈ lch := by
    intro q hq
    rw [hm4]
    exact Or.inr ((hmem q).2 hq)
  have hs := set_lchans_spec lch tgt ctgt ps (by
    intro p hp
    refine ⟨hin _ ((mem_txPrivs _ _ _ _).2 ⟨p, hp, Or.inl rfl⟩), ?_⟩
    intro c hc
    exact hin _ ((mem_txPrivs _ _ _ _).2 ⟨p, hp, Or.inr ⟨c, hc, rfl⟩⟩))
  obtain ⟨fs5, h5, hv5⟩ := verify_pars_spec mkdev ffuel tgt ctgt
    (round_unlockall mkdev ffuel (ps.map (lockedPar tgt ctgt)) lch clk st3.cmems)
    (round_unlockfail mkdev ffuel (ps.map (lockedPar tgt ctgt)) lch clk st3.cmems pmems)
    ps fs4 hv4 (by
      intro p hp
      refine ⟨?_, ?_⟩
      · rw [hL4b]
        simp [(mem_txPrivs tgt ctgt (tgt p.path) ps).2 ⟨p, hp, Or.inl rfl⟩]
      · intro c hc
        obtain ⟨q1, q2, q3, _⟩ := (hok p hp).child c hc
        exact ⟨q1, q2, q3⟩)
  refine ⟨fs5, m3, L4, ?_, hv5, hle3, hT3, hL4b⟩
  simp only [lockall_rounds]
  simp only [List.nil_append] at hc3
  rw [hc3]
  simp only [ok_bind, ne_eq, not_true_eq_false, if_false]
  rw [hl4]
  simp only [ok_bind]
  rw [hs]
  simp only [ok_bind]
  rw [h5]
  rfl

theorem lockedPar_reset (tgt : Name → Int) (ctgt : Name → Name → Int) (ps : List itxpar) :
    (lockall_reset ps).map (lockedPar tgt ctgt) = ps.map (lockedPar tgt ctgt) := by
  unfold lockall_reset
  rw [List.map_map]
  apply List.map_congr_left
  intro p _
  simp only [Function.comp, lockedPar, List.map_map, lockedChild]
  rfl

theorem parOK_reset {fs : FS} {G : Int → Prop} {L : Int → Bool} {cwd : Int} {tgt : Name → Int}
    {ctgt : Name → Name → Int} {ps : List itxpar}
    (hok : ∀ p, p ∈ ps → ParOK fs G L cwd tgt ctgt p) :
    ∀ p, p ∈ lockall_reset ps → ParOK fs G L cwd tgt ctgt p := by
  intro p hp
  unfold lockall_reset at hp
  rw [List.mem_map] at hp
  obtain ⟨p0, hp0, rfl⟩ := hp
  have h := hok p0 hp0
  refine ⟨h.res, h.vis, ?_⟩
  intro c hc
  simp only [List.mem_map] at hc
  obtain ⟨c0, hc0, rfl⟩ := hc
  exact h.child c0 hc0

theorem txPrivs_reset (tgt : Name → Int) (ctgt : Name → Name → Int) (ps : List itxpar) :
    txPrivs tgt ctgt (lockall_reset ps) = txPrivs tgt ctgt ps := by
  induction ps with
  | nil => rfl
  | cons p rest ih =>
    unfold lockall_reset at ih ⊢
    simp only [List.map_cons, txPrivs, ih, parPrivs, List.map_map]
    rfl

/-- The method `lockall` on a transaction whose parents and children all exist and are not
locked returns 0 after one round: every parent and child is locked and has at least one
memory reference more. -/
theorem lockall_spec (mkdev : Int → Int → Int) (ffuel n : Nat) {fs : FS} {G : Int → Prop}
    (itx : inodetx_t) (tgt : Name → Int) (ctgt : Name → Name → Int)
    (hroot : fs.idms fs.iroot ≠ none)
    (hok : ∀ p, p ∈ itx.dpaths → ParOK fs G (lockedOf fs) itx.cwd tgt ctgt p) :
    ∃ fs3 m3 L3, itx.lockall mkdev ffuel (n + 1) fs =
        .ok ((0, { itx with dpaths := itx.dpaths.map (lockedPar tgt ctgt) }), fs3) ∧
      View fs fs3 G m3 L3 ∧ (∀ q, 0 ≤ m3 q) ∧
      (∀ q, q ∈ txPrivs tgt ctgt itx.dpaths → 1 ≤ m3 q) ∧
      (∀ q, L3 q = (decide (q ∈ txPrivs tgt ctgt itx.dpaths) || lockedOf fs q)) := by
  have hok2 := parOK_reset hok
  obtain ⟨pm, fs1, m1, h1, hv1, hle1, hT1⟩ := lockall_paths_spec mkdev ffuel itx.cwd tgt ctgt
    hroot (lockall_reset itx.dpaths) [] [] fs (fun _ => 0) (view_refl fs G) hok2
  obtain ⟨fs3, m3, L3, h3, hv3, hle3, hT3, hL3⟩ := lockall_rounds_spec mkdev ffuel n pm itx.cwd
    tgt ctgt (lockall_reset itx.dpaths) fs1 m1 hv1 hok2
  refine ⟨fs3, m3, L3, ?_, hv3, fun q => le_trans (hle1 q) (hle3 q), ?_, ?_⟩
  · simp only [inodetx_t.lockall, h1, ok_bind, List.nil_append, ne_eq, not_true_eq_false,
      if_false, h3, lockedPar_reset]
  · intro q hq
    rw [← txPrivs_reset, mem_txPrivs] at hq
    obtain ⟨p, hp, h | ⟨c, hc, rfl⟩⟩ := hq
    · rw [h]
      have := hT1 p hp
      have := hle3 (tgt p.path)
      omega
    · have := hT3 p hp c hc
      have := hle1 (ctgt p.path c.path)
      omega
  · intro q
    rw [hL3, txPrivs_reset]

/-- The inner loop of the first pass of `unlockall`: every child that is still locked is
unlocked. -/
theorem doit_childs_locks (mkdev : Int → Int → Int) (ffuel : Nat) {fs : FS} {G : Int → Prop}
    {m : Int → Int} (cf : Name → Int) :
    ∀ (cs : List itxchild) (did : List Int) (fs2 : FS) (L2 : Int → Bool),
      View fs fs2 G m L2 → (∀ c, c ∈ cs → L2 (cf c.path) = !decide (cf c.path ∈ did)) →
      ∃ did3 fs3 L3, doit_childs mkdev ffuel true
          (cs.map (fun c => lockedChild (cf c.path) c)) did fs2 = .ok (did3, fs3) ∧
        View fs fs3 G m L3 ∧ (∀ q, q ∈ did3 ↔ q ∈ did ∨ q ∈ cs.map (fun c => cf c.path)) ∧
        (∀ q, L3 q = (L2 q && !decide (q ∈ cs.map (fun c => cf c.path)))) := by
  intro cs
  induction cs with
  | nil =>
    intro did fs2 L2 hv _
    exact ⟨did, fs2, L2, rfl, hv, fun q => by simp, fun q => by simp⟩
  | cons c rest ih =>
    intro did fs2 L2 hv hpre
    have hc := hpre c (List.mem_cons_self _ _)
    by_cases hd : cf c.path ∈ did
    · obtain ⟨did3, fs3, L3, h3, hv3, hm3, hL3⟩ := ih did fs2 L2 hv
        (fun c2 hc2 => hpre c2 (List.mem_cons_of_mem _ hc2))
      refine ⟨did3, fs3, L3, ?_, hv3, ?_, ?_⟩
      · simp only [List.map_cons, doit_childs, lockedChild, hd, not_true_eq_false, and_false,
          if_false]
        exact h3
      · intro q
        rw [hm3]
        simp only [List.map_cons, List.mem_cons]
        constructor
        · rintro (h | h)
          · exact Or.inl h
          · exact Or.inr (Or.inr h)
        · rintro (h | h | h)
          · exact Or.inl h
          · rw [h]; exact Or.inl hd
          · exact Or.inr h
      · intro q
        rw [hL3]
        by_cases hq : q = cf c.path
        · subst hq
          rw [hc]
          simp [hd]
        · simp [hq]
    · have hl : L2 (cf c.path) = true := by rw [hc]; simp [hd]
      obtain ⟨a, fs3, hs, he, hv3, _⟩ := view_unlock mkdev ffuel hv hl
      obtain ⟨did5, fs5, L5, h5, hv5, hm5, hL5⟩ := ih (setKey did (cf c.path)) fs3
        (Function.update L2 (cf c.path) false) hv3 (by
          intro c2 hc2
          by_cases hq : cf c2.path = cf c.path
          · rw [hq]; simp [mem_setKey]
          · rw [Function.update_noteq hq, hpre c2 (List.mem_cons_of_mem _ hc2)]
            simp [mem_setKey, hq])
      refine ⟨did5, fs5, L5, ?_, hv5, ?_, ?_⟩
      · simp only [List.map_cons, doit_childs, lockedChild, hd, not_false_eq_true, and_self,
          if_true, unlockall_one, send_lchan, hs, ok_bind, he, ne_eq, not_true_eq_false,
          if_false]
        exact h5
      · intro q
        rw [hm5, mem_setKey]
        simp only [List.map_cons, List.mem_cons]
        tauto
      · intro q
        rw [hL5]
        by_cases hq : q = cf c.path
        · subst hq; simp
        · simp [Function.update_noteq hq, hq]

theorem setKey_of_mem {l : List Int} {k : Int} (h : k ∈ l) : setKey l k = l := by
  unfold setKey; rw [if_pos h]

/-- The first pass of `unlockall`: every parent and child that is still locked is
unlocked. -/
theorem doit_locks (mkdev : Int → Int → Int) (ffuel : Nat) {fs : FS} {G : Int → Prop}
    {m : Int → Int} (tgt : Name → Int) (ctgt : Name → Name → Int) :
    ∀ (ps : List itxpar) (did : List Int) (fs2 : FS) (L2 : Int → Bool),
      View fs fs2 G m L2 → (∀ q, q ∈ txPrivs tgt ctgt ps → L2 q = !decide (q ∈ did)) →
      ∃ did3 fs3 L3, doit mkdev ffuel true (ps.map (lockedPar tgt ctgt)) did fs2 =
          .ok (did3, fs3) ∧
        View fs fs3 G m L3 ∧ (∀ q, q ∈ did3 ↔ q ∈ did ∨ q ∈ txPrivs tgt ctgt ps) ∧
        (∀ q, L3 q = (L2 q && !decide (q ∈ txPrivs tgt ctgt ps))) := by
  intro ps
  induction ps with
  | nil =>
    intro did fs2 L2 hv _
    exact ⟨did, fs2, L2, rfl, hv, fun q => by simp [txPrivs], fun q => by simp [txPrivs]⟩
  | cons p rest ih =>
    intro did fs2 L2 hv hpre
    have hP := hpre (tgt p.path) (by simp [txPrivs, parPrivs])
    have hstep : ∃ fs3 L3, (tgt p.path ∉ did →
          unlockall_one mkdev ffuel true fs2 (some (tgt p.path)) (tgt p.path) = .ok fs3) ∧
        (tgt p.path ∈ did → fs3 = fs2) ∧
        View fs fs3 G m L3 ∧ (∀ q, L3 q = (L2 q && !decide (q = tgt p.path))) := by
      by_cases hd : tgt p.path ∈ did
      · refine ⟨fs2, L2, fun h => absurd hd h, fun _ => rfl, hv, ?_⟩
        intro q
        by_cases hq : q = tgt p.path
        · subst hq; rw [hP]; simp [hd]
        · simp [hq]
      · have hl : L2 (tgt p.path) = true := by rw [hP]; simp [hd]
        obtain ⟨a, fs3, hs, he, hv3, _⟩ := view_unlock mkdev ffuel hv hl
        refine ⟨fs3, _, ?_, fun h => absurd h hd, hv3, ?_⟩
        · intro _
          simp only [unlockall_one, if_true, send_lchan, hs, ok_bind, he, ne_eq,
            not_true_eq_false, if_false]
        · intro q
          by_cases hq : q = tgt p.path
          · subst hq; simp
          · simp [Function.update_noteq hq, hq]
    obtain ⟨fs3, L3, h3a, h3b, hv3, hL3⟩ := hstep
    have hcm : ∀ c, c ∈ p.childs → ctgt p.path c.path ∈ txPrivs tgt ctgt (p :: rest) := by
      intro c hc
      simp only [txPrivs, parPrivs, List.mem_append, List.mem_cons, List.mem_map]
      exact Or.inl (Or.inr ⟨c, hc, rfl⟩)
    have hrm : ∀ q, q ∈ txPrivs tgt ctgt rest → q ∈ txPrivs tgt ctgt (p :: rest) := by
      intro q hq
      simp only [txPrivs, List.mem_append]
      exact Or.inr hq
    obtain ⟨did4, fs4, L4, h4, hv4, hm4, hL4⟩ := doit_childs_locks mkdev ffuel (ctgt p.path)
      p.childs (setKey did (tgt p.path)) fs3 L3 hv3 (by
        intro c hc
        rw [hL3, hpre _ (hcm c hc)]
        by_cases hq : ctgt p.path c.path = tgt p.path <;> simp [mem_setKey, hq])
    obtain ⟨did5, fs5, L5, h5, hv5, hm5, hL5⟩ := ih did4 fs4 L4 hv4 (by
      intro q hq
      rw [hL4, hL3, hpre q (hrm q hq)]
      have e : (q ∈ did4) = (q ∈ did ∨ q = tgt p.path ∨
          q ∈ p.childs.map (fun c => ctgt p.path c.path)) := by
        rw [hm4, mem_setKey]; simp only [or_assoc]
      simp only [e]
      by_cases hA : q ∈ did <;> by_cases hB : q = tgt p.path <;>
        by_cases hC : q ∈ p.childs.map (fun c => ctgt p.path c.path) <;> simp [hA, hB, hC])
    refine ⟨did5, fs5, L5, ?_, hv5, ?_, ?_⟩
    · rw [List.map_cons, doit]
      have e1 : (lockedPar tgt ctgt p).priv = tgt p.path := rfl
      have e2 : (lockedPar tgt ctgt p).lchan = some (tgt p.path) := rfl
      have e3 : (lockedPar tgt ctgt p).childs =
          p.childs.map (fun c => lockedChild (ctgt p.path c.path) c) := rfl
      rw [e1, e2, e3]
      by_cases hd : tgt p.path ∈ did
      · rw [if_neg (not_not.mpr hd)]
        have := h3b hd
        subst this
        rw [setKey_of_mem hd] at h4
        simp only [pure, Except.pure, ok_bind]
        rw [h4]
        exact h5
      · rw [if_pos hd, h3a hd]
        simp only [pure, Except.pure, ok_bind]
        rw [h4]
        exact h5
    · intro q
      rw [hm5, hm4, mem_setKey]
      simp only [txPrivs, parPrivs, List.mem_append, List.mem_cons]
      tauto
    · intro q
      rw [hL5, hL4, hL3]
      simp only [txPrivs, parPrivs, List.mem_append, List.mem_cons]
      by_cases hB : q = tgt p.path <;>
        by_cases hC : q ∈ p.childs.map (fun c => ctgt p.path c.path) <;>
        by_cases hD : q ∈ txPrivs tgt ctgt rest <;> simp [hB, hC, hD]

/-- One `RefDec(memref)` of the second pass of `unlockall`. -/
theorem view_decref (mkdev : Int → Int → Int) (ffuel : Nat) {fs fs2 : FS} {G : Int → Prop}
    {m : Int → Int} {L : Int → Bool} (hv : View fs fs2 G m L) {q : Int} (lchan : Option Int)
    (hr : RefOK fs G q) (hL : L q = false) (hm : 1 ≤ m q) :
    ∃ fs3, unlockall_one mkdev ffuel false fs2 lchan q = .ok fs3 ∧
      View fs fs3 G (fun x => m x + if x = q then -1 else 0) L := by
  obtain ⟨⟨hq, _⟩, hG, idm, ha, hl, hmr⟩ := hr
  obtain ⟨a, fs3, hs, he, hv3⟩ := view_refdec mkdev ffuel hv hq ha hL hG (le_of_lt hl)
    (by omega) (Or.inl (ne_of_gt hl))
  refine ⟨fs3, ?_, hv3⟩
  simp only [unlockall_one, Bool.false_eq_true, if_false, hs, ok_bind, he, ne_eq,
    not_true_eq_false]

/-- The inner loop of the second pass of `unlockall`. -/
theorem doit_childs_refs (mkdev : Int → Int → Int) (ffuel : Nat) {fs : FS} {G : Int → Prop}
    {L : Int → Bool} (cf : Name → Int) :
    ∀ (cs : List itxchild) (did : List Int) (fs2 : FS) (m2 : Int → Int),
      View fs fs2 G m2 L →
      (∀ c, c ∈ cs → RefOK fs G (cf c.path) ∧ L (cf c.path) = false ∧
        (cf c.path ∉ did → 1 ≤ m2 (cf c.path))) →
      ∃ did3 fs3 m3, doit_childs mkdev ffuel false
          (cs.map (fun c => lockedChild (cf c.path) c)) did fs2 = .ok (did3, fs3) ∧
        View fs fs3 G m3 L ∧ (∀ q, q ∈ did3 ↔ q ∈ did ∨ q ∈ cs.map (fun c => cf c.path)) ∧
        (∀ q, q ∉ did3 → m3 q = m2 q) := by
  intro cs
  induction cs with
  | nil =>
    intro did fs2 m2 hv _
    exact ⟨did, fs2, m2, rfl, hv, fun q => by simp, fun q _ => rfl⟩
  | cons c rest ih =>
    intro did fs2 m2 hv hpre
    obtain ⟨hr, hl, hm⟩ := hpre c (List.mem_cons_self _ _)
    by_cases hd : cf c.path ∈ did
    · obtain ⟨did3, fs3, m3, h3, hv3, hm3, hk3⟩ := ih did fs2 m2 hv
        (fun c2 hc2 => hpre c2 (List.mem_cons_of_mem _ hc2))
      refine ⟨did3, fs3, m3, ?_, hv3, ?_, hk3⟩
      · simp only [List.map_cons, doit_childs, lockedChild, hd, not_true_eq_false, and_false,
          if_false]
        exact h3
      · intro q
        rw [hm3]
        simp only [List.map_cons, List.mem_cons]
        constructor
        · rintro (h | h)
          · exact Or.inl h
          · exact Or.inr (Or.inr h)
        · rintro (h | h | h)
          · exact Or.inl h
          · rw [h]; exact Or.inl hd
          · exact Or.inr h
    · obtain ⟨fs3, hs, hv3⟩ := view_decref mkdev ffuel hv (some (cf c.path)) hr hl (hm hd)
      obtain ⟨did5, fs5, m5, h5, hv5, hm5, hk5⟩ := ih (setKey did (cf c.path)) fs3 _ hv3 (by
          intro c2 hc2
          obtain ⟨q1, q2, q3⟩ := hpre c2 (List.mem_cons_of_mem _ hc2)
          refine ⟨q1, q2, ?_⟩
          intro hn
          rw [mem_setKey, not_or] at hn
          simp only [if_neg hn.2, add_zero]
          exact q3 hn.1)
      refine ⟨did5, fs5, m5, ?_, hv5, ?_, ?_⟩
      · simp only [List.map_cons, doit_childs, lockedChild, hd, not_false_eq_true, and_self,
          if_true, hs, ok_bind]
        exact h5
      · intro q
        rw [hm5, mem_setKey]
        simp only [List.map_cons, List.mem_cons]
        tauto
      · intro q hq
        rw [hk5 q hq]
        have : q ≠ cf c.path := by
          intro h
          apply hq
          rw [hm5, mem_setKey]
          exact Or.inl (Or.inr h)
        simp [this]

/-- The second pass of `unlockall`: one memory reference of every parent and child is
dropped. -/
theorem doit_refs (mkdev : Int → Int → Int) (ffuel : Nat) {fs : FS} {G : Int → Prop}
    {L : Int → Bool} (tgt : Name → Int) (ctgt : Name → Name → Int) :
    ∀ (ps : List itxpar) (did : List Int) (fs2 : FS) (m2 : Int → Int),
      View fs fs2 G m2 L →
      (∀ q, q ∈ txPrivs tgt ctgt ps → RefOK fs G q ∧ L q = false ∧ (q ∉ did → 1 ≤ m2 q)) →
      ∃ did3 fs3 m3, doit mkdev ffuel false (ps.map (lockedPar tgt ctgt)) did fs2 =
          .ok (did3, fs3) ∧
        View fs fs3 G m3 L ∧ (∀ q, q ∈ did3 ↔ q ∈ did ∨ q ∈ txPrivs tgt ctgt ps) ∧
        (∀ q, q ∉ did3 → m3 q = m2 q) := by
  intro ps
  induction ps with
  | nil =>
    intro did fs2 m2 hv _
    exact ⟨did, fs2, m2, rfl, hv, fun q => by simp [txPrivs], fun q _ => rfl⟩
  | cons p rest ih =>
    intro did fs2 m2 hv hpre
    have hPm : tgt p.path ∈ txPrivs tgt ctgt (p :: rest) := by simp [txPrivs, parPrivs]
    obtain ⟨hPr, hPl, hPk⟩ := hpre _ hPm
    have hcm : ∀ c, c ∈ p.childs → ctgt p.path c.path ∈ txPrivs tgt ctgt (p :: rest) := by
      intro c hc
      simp only [txPrivs, parPrivs, List.mem_append, List.mem_cons, List.mem_map]
      exact Or.inl (Or.inr ⟨c, hc, rfl⟩)
    have hrm : ∀ q, q ∈ txPrivs tgt ctgt rest → q ∈ txPrivs tgt ctgt (p :: rest) := by
      intro q hq
      simp only [txPrivs, List.mem_append]
      exact Or.inr hq
    have hstep : ∃ fs3 m3, (tgt p.path ∉ did →
          unlockall_one mkdev ffuel false fs2 (some (tgt p.path)) (tgt p.path) = .ok fs3) ∧
        (tgt p.path ∈ did → fs3 = fs2) ∧
        View fs fs3 G m3 L ∧ (∀ q, q ≠ tgt p.path → m3 q = m2 q) := by
      by_cases hd : tgt p.path ∈ did
      · exact ⟨fs2, m2, fun h => absurd hd h, fun _ => rfl, hv, fun _ _ => rfl⟩
      · obtain ⟨fs3, hs, hv3⟩ := view_decref mkdev ffuel hv (some (tgt p.path)) hPr hPl (hPk hd)
        refine ⟨fs3, _, fun _ => hs, fun h => absurd h hd, hv3, ?_⟩
        intro q hq
        simp [hq]
    obtain ⟨fs3, m3, h3a, h3b, hv3, hk3⟩ := hstep
    obtain ⟨did4, fs4, m4, h4, hv4, hm4, hk4⟩ := doit_childs_refs mkdev ffuel (ctgt p.path)
      p.childs (setKey did (tgt p.path)) fs3 m3 hv3 (by
        intro c hc
        obtain ⟨q1, q2, q3⟩ := hpre _ (hcm c hc)
        refine ⟨q1, q2, ?_⟩
        intro hn
        rw [mem_setKey, not_or] at hn
        rw [hk3 _ hn.2]
        exact q3 hn.1)
    obtain ⟨did5, fs5, m5, h5, hv5, hm5, hk5⟩ := ih did4 fs4 m4 hv4 (by
      intro q hq
      obtain ⟨q1, q2, q3⟩ := hpre q (hrm q hq)
      refine ⟨q1, q2, ?_⟩
      intro hn
      rw [hm4, mem_setKey, not_or, not_or] at hn
      rw [hk4 q (by rw [hm4, mem_setKey]; tauto), hk3 q hn.1.2]
      exact q3 hn.1.1)
    refine ⟨did5, fs5, m5, ?_, hv5, ?_, ?_⟩
    · rw [List.map_cons, doit]
      have e1 : (lockedPar tgt ctgt p).priv = tgt p.path := rfl
      have e2 : (lockedPar tgt ctgt p).lchan = some (tgt p.path) := rfl
      have e3 : (lockedPar tgt ctgt p).childs =
          p.childs.map (fun c => lockedChild (ctgt p.path c.path) c) := rfl
      rw [e1, e2, e3]
      by_cases hd : tgt p.path ∈ did
      · rw [if_neg (not_not.mpr hd)]
        have := h3b hd
        subst this
        rw [setKey_of_mem hd] at h4
        simp only [pure, Except.pure, ok_bind]
        rw [h4]
        exact h5
      · rw [if_pos hd, h3a hd]
        simp only [pure, Except.pure, ok_bind]
        rw [h4]
        exact h5
    · intro q
      rw [hm5, hm4, mem_setKey]
      simp only [txPrivs, parPrivs, List.mem_append, List.mem_cons]
      tauto
    · intro q hq
      have hn : q ∉ did4 := by
        intro h; apply hq; rw [hm5]; exact Or.inl h
      have hn2 : q ≠ tgt p.path := by
        intro h; apply hn; rw [hm4, mem_setKey]; exact Or.inl (Or.inr h)
      rw [hk5 q hq, hk4 q hn, hk3 q hn2]

/-- The method `unlockall` after a `lockall` that has locked every parent and child: all of
them are unlocked and one memory reference of each is dropped. -/
theorem unlockall_spec (mkdev : Int → Int → Int) (ffuel : Nat) {fs fs2 : FS} {G : Int → Prop}
    {m : Int → Int} {L2 : Int → Bool} (tgt : Name → Int) (ctgt : Name → Name → Int)
    (ps : List itxpar) (cwd : Int) (hne : ps ≠ []) (hv : View fs fs2 G m L2)
    (hl : ∀ q, q ∈ txPrivs tgt ctgt ps → L2 q = true)
    (hr : ∀ q, q ∈ txPrivs tgt ctgt ps → RefOK fs G q ∧ 1 ≤ m q) :
    ∃ fs3 m3, inodetx_t.unlockall mkdev ffuel
        { dpaths := ps.map (lockedPar tgt ctgt), cwd := cwd } fs2 = .ok fs3 ∧
      View fs fs3 G m3 (fun q => L2 q && !decide (q ∈ txPrivs tgt ctgt ps)) := by
  obtain ⟨did3, fs3, L3, h3, hv3, _, hL3⟩ := doit_locks mkdev ffuel tgt ctgt ps [] fs2 L2 hv
    (by intro q hq; rw [hl q hq]; simp)
  obtain ⟨did4, fs4, m4, h4, hv4, _, _⟩ := doit_refs mkdev ffuel tgt ctgt ps [] fs3 m hv3 (by
    intro q hq
    refine ⟨(hr q hq).1, ?_, fun _ => (hr q hq).2⟩
    rw [hL3]
    simp [hq])
  refine ⟨fs4, m4, ?_, view_congr hv4 (fun _ => rfl) (fun q => (hL3 q).symm)⟩
  have hlen : ¬ ((ps.map (lockedPar tgt ctgt)).length = 0) := by
    rw [List.length_map]
    intro h
    exact hne (List.length_eq_zero.1 h)
  simp only [inodetx_t.unlockall, hlen, if_false, h3, ok_bind, h4]

/-- What a view of `fs` keeps: the blocks, and the cached inode of every actor. -/
theorem view_frame {fs fs2 : FS} {G : Int → Prop} {m : Int → Int} {L : Int → Bool}
    (hv : View fs fs2 G m L) :
    fs2.sys = fs.sys ∧ fs2.iroot = fs.iroot ∧
      (∀ x, (actorOf fs2 x).map (fun i => i.icache) = (actorOf fs x).map (fun i => i.icache)) ∧
      (∀ x, lockedOf fs2 x = L x) := by
  refine ⟨hv.sys, hv.iroot, ?_, ?_⟩
  · intro x
    rw [hv.actor x]
    cases actorOf fs x with
    | none => rfl
    | some i => rfl
  · intro x
    unfold lockedOf
    cases h : fs2.idms x with
    | none =>
      simp only
      cases hL : L x with
      | false => rfl
      | true => exact absurd h (hv.lrun x hL)
    | some i =>
      simp only
      exact hv.lock x (by rw [h]; simp)

theorem resolves_unique (fs : FS) : ∀ (path : List Name) (P T T2 : Int),
    Resolves fs P path T → Resolves fs P path T2 → T = T2 := by
  intro path
  induction path with
  | nil =>
    intro P T T2 h1 h2
    simp only [Resolves] at h1 h2
    rw [← h1, ← h2]
  | cons a l ih =>
    intro P T T2 h1 h2
    simp only [Resolves] at h1 h2
    obtain ⟨i1, Q1, a1, _, l1, r1⟩ := h1
    obtain ⟨i2, Q2, a2, _, l2, r2⟩ := h2
    rw [a1] at a2
    simp only [Option.some.injEq] at a2
    subst a2
    rw [l1] at l2
    simp only [Option.some.injEq] at l2
    subst l2
    exact ih Q1 T T2 r1 r2

theorem find_lockedPar (tgt : Name → Int) (ctgt : Name → Name → Int) (path : Name) :
    ∀ (ps : List itxpar), (ps.map (lockedPar tgt ctgt)).find? (fun p => p.path = path) =
      (ps.find? (fun p => p.path = path)).map (lockedPar tgt ctgt) := by
  intro ps
  induction ps with
  | nil => rfl
  | cons p rest ih =>
    simp only [List.map_cons, List.find?_cons]
    have e : (lockedPar tgt ctgt p).path = p.path := rfl
    rw [e]
    by_cases h : p.path = path
    · simp [h]
    · simp [h, ih]

theorem find_lockedChild (cf : Name → Int) (name : Name) :
    ∀ (cs : List itxchild), (cs.map (fun c => lockedChild (cf c.path) c)).find?
        (fun c => c.path = name) =
      (cs.find? (fun c => c.path = name)).map (fun c => lockedChild (cf c.path) c) := by
  intro cs
  induction cs with
  | nil => rfl
  | cons c rest ih =>
    simp only [List.map_cons, List.find?_cons]
    have e : (lockedChild (cf c.path) c).path = c.path := rfl
    rw [e]
    by_cases h : c.path = name
    · simp [h]
    · simp [h, ih]

/-- The part of `fs_rename` from `lockall` on, for a transaction whose parents and children
all exist and whose children `ofn` and `nfn` are one inode: nothing but locks and memory
references is touched, and the result is 0. -/
theorem fs_rename_core (mkdev : Int → Int → Int) (ffuel n : Nat) {fs : FS}
    (itx : inodetx_t) (tgt : Name → Int) (ctgt : Name → Name → Int)
    (odirs ofn ndirs nfn : Name) (po pn : itxpar) (co cn : itxchild)
    (hroot : fs.idms fs.iroot ≠ none)
    (hok : ∀ p, p ∈ itx.dpaths →
      ParOK fs (fun _ => True) (lockedOf fs) itx.cwd tgt ctgt p)
    (hlink : ∀ q, q ∈ txPrivs tgt ctgt itx.dpaths → Linked fs q)
    (hfo : itx.dpaths.find? (fun p => p.path = odirs) = some po)
    (hco : po.childs.find? (fun c => c.path = ofn) = some co)
    (hfn : itx.dpaths.find? (fun p => p.path = ndirs) = some pn)
    (hcn : pn.childs.find? (fun c => c.path = nfn) = some cn)
    (hsame : ctgt po.path co.path = ctgt pn.path cn.path) :
    ∃ fs2, (do
        let ((err, itx), fs) ← itx.lockall mkdev ffuel (n + 1) fs
        if err ≠ 0 then .ok (err, fs)
        else do
          let (a, fs) ← must_succeed (itx.sendc mkdev ffuel fs odirs ofn rtype_t.STAT mkfstat)
          let odir : Bool := stat_mode a = I_DIR
          let newexists ← itx.childfound ndirs nfn
          if newexists then do
            let po ← itx.privforc odirs ofn
            let pn ← itx.privforc ndirs nfn
            if po = pn then unlocked_return mkdev ffuel itx 0 fs
            else fs_rename_replace mkdev ffuel itx fs odirs ofn ndirs nfn odir
          else fs_rename_move mkdev ffuel itx fs odirs ofn ndirs nfn odir : F (Int × FS))
        = .ok (0, fs2) ∧
      fs2.sys = fs.sys ∧ fs2.iroot = fs.iroot ∧
      (∀ x, (actorOf fs2 x).map (fun i => i.icache) = (actorOf fs x).map (fun i => i.icache)) ∧
      (∀ x, lockedOf fs2 x = lockedOf fs x) := by
  obtain ⟨fs3, m3, L3, h3, hv3, hm0, hm1, hL3⟩ := lockall_spec mkdev ffuel n itx tgt ctgt hroot hok
  have hpo : po ∈ itx.dpaths := List.mem_of_find?_eq_some hfo
  have hcom : co ∈ po.childs := List.mem_of_find?_eq_some hco
  have hCm : ctgt po.path co.path ∈ txPrivs tgt ctgt itx.dpaths :=
    (mem_txPrivs _ _ _ _).2 ⟨po, hpo, Or.inr ⟨co, hcom, rfl⟩⟩
  obtain ⟨idmC, haC, _, _, htC⟩ := hlink _ hCm
  have hLC : L3 (ctgt po.path co.path) = true := by rw [hL3]; simp [hCm]
  obtain ⟨a, fs4, hs4, he4, hv4⟩ := view_stat mkdev ffuel hv3 haC htC hLC
  have hne : itx.dpaths ≠ [] := List.ne_nil_of_mem hpo
  obtain ⟨fs5, m5, h5, hv5⟩ := unlockall_spec mkdev ffuel tgt ctgt itx.dpaths itx.cwd hne hv4
    (by intro q hq; rw [hL3]; simp [hq])
    (by
      intro q hq
      obtain ⟨idm, ha, hl, hmr, _⟩ := hlink q hq
      exact ⟨⟨(parOK_sound hok hq).1, trivial, idm, ha, hl, hmr⟩, hm1 q hq⟩)
  obtain ⟨f1, f2, f3, f4⟩ := view_frame hv5
  refine ⟨fs5, ?_, f1, f2, f3, ?_⟩
  · have hlen : ¬ ((itx.dpaths.map (lockedPar tgt ctgt)).length = 0) := by
      rw [List.length_map]
      intro h
      exact hne (List.length_eq_zero.1 h)
    have e1 : ∀ p, (lockedPar tgt ctgt p).childs =
        p.childs.map (fun c => lockedChild (ctgt p.path c.path) c) := fun _ => rfl
    have e2 : ∀ C c, (lockedChild C c).lchan = some C := fun _ _ => rfl
    have e3 : ∀ C c, (lockedChild C c).found = true := fun _ _ => rfl
    have e4 : ∀ C c, (lockedChild C c).priv = C := fun _ _ => rfl
    rw [hsame] at hs4
    simp only [h3, ok_bind, ne_eq, not_true_eq_false, if_false, must_succeed,
      inodetx_t.sendc, hlen, find_lockedPar, hfo, Option.map_some', e1, e2, e3, e4,
      find_lockedChild, hco, send_lchan, hs4, he4, inodetx_t.childfound, hfn, hcn,
      if_true, inodetx_t.privforc, Bool.not_true, Bool.false_eq_true, hsame, unlocked_return,
      h5]
  · intro x
    rw [f4]
    by_cases hx : x ∈ txPrivs tgt ctgt itx.dpaths
    · have := (parOK_sound hok hx).2.1
      simp [hL3, hx, this]
    · simp [hL3, hx]

/-- A parent of a transaction can be locked when its path and its children are names in the
sense of `NameOK`. -/
theorem parOK_of_names {fs : FS} {cwd : Int} {tgt : Name → Int} {C : Int} {p : itxpar}
    {P : Int} (ht : tgt p.path = P)
    (hres : Resolves fs (namei_start fs p.path cwd) (pathparts p.path) P)
    (hvis : ∀ x, x ∈ Visits fs (namei_start fs p.path cwd) (pathparts p.path) →
      Sound fs x ∧ lockedOf fs x = false)
    (hC : Sound fs C ∧ lockedOf fs C = false)
    (hch : ∀ c, c ∈ p.childs → c.path ≠ [] ∧ (47 : Byte) ∉ c.path ∧
      ∃ idm, actorOf fs P = some idm ∧ DirWF idm fs.sys ∧
        dirLookup (bufdata fs.sys) (dirBlocks idm.icache fs.sys) c.path = some C) :
    ParOK fs (fun _ => True) (lockedOf fs) cwd tgt (fun _ _ => C) p := by
  refine ⟨ht ▸ hres, fun x hx => ⟨(hvis x hx).1, (hvis x hx).2, trivial⟩, ?_⟩
  intro c hc
  obtain ⟨q1, q2, q3⟩ := hch c hc
  rw [ht]
  exact ⟨q1, q2, q3, hC.1, hC.2, trivial⟩

theorem fs_rename_unfold (mkdev : Int → Int → Int) (ffuel rounds : Nat) (fs : FS)
    (oldp newp : Name) (cwd : Int) (odirs ofn ndirs nfn : Name)
    (hso : sdirname oldp = (odirs, ofn)) (hsn : sdirname newp = (ndirs, nfn))
    (h1 : ofn ≠ []) (h2 : nfn ≠ []) :
    fs_rename mkdev ffuel rounds fs oldp newp cwd = (do
      let itx := ((inodetx_t.init cwd).addpath odirs).addpath ndirs
      let itx ← itx.addchild odirs ofn true
      let itx ← itx.addchild ndirs nfn false
      let ((err, itx), fs) ← itx.lockall mkdev ffuel rounds fs
      if err ≠ 0 then .ok (err, fs)
      else do
        let (a, fs) ← must_succeed (itx.sendc mkdev ffuel fs odirs ofn rtype_t.STAT mkfstat)
        let odir : Bool := stat_mode a = I_DIR
        let newexists ← itx.childfound ndirs nfn
        if newexists then do
          let po ← itx.privforc odirs ofn
          let pn ← itx.privforc ndirs nfn
          if po = pn then unlocked_return mkdev ffuel itx 0 fs
          else fs_rename_replace mkdev ffuel itx fs odirs ofn ndirs nfn odir
        else fs_rename_move mkdev ffuel itx fs odirs ofn ndirs nfn odir) := by
  unfold fs_rename
  rw [hso, hsn]
  simp only [h1, h2, or_self, if_false]

/-- The transaction of `fs_rename` for two names in one directory path. -/
theorem rename_tx_same (cwd : Int) (dirs ofn nfn : Name) (h1 : ofn ≠ []) (h2 : nfn ≠ []) :
    (do
      let itx ← (((inodetx_t.init cwd).addpath dirs).addpath dirs).addchild dirs ofn true
      itx.addchild dirs nfn false : F inodetx_t) =
    .ok { dpaths := [{ path := dirs, childs :=
            if nfn = ofn then [{ path := ofn, mustexist := true }]
            else [{ path := ofn, mustexist := true }, { path := nfn, mustexist := false }] }],
          cwd := cwd } := by
  by_cases h : nfn = ofn
  · subst h
    simp [inodetx_t.init, inodetx_t.addpath, inodetx_t.addchild, addchild_in, h1]
  · have h' : ¬ ofn = nfn := fun e => h e.symm
    simp [inodetx_t.init, inodetx_t.addpath, inodetx_t.addchild, addchild_in, h1, h2, h, h']

/-- The transaction of `fs_rename` for names in two directory paths. -/
theorem rename_tx_two (cwd : Int) (odirs ndirs ofn nfn : Name) (h1 : ofn ≠ []) (h2 : nfn ≠ [])
    (hd : odirs ≠ ndirs) :
    (do
      let itx ← (((inodetx_t.init cwd).addpath odirs).addpath ndirs).addchild odirs ofn true
      itx.addchild ndirs nfn false : F inodetx_t) =
    .ok { dpaths := [{ path := odirs, childs := [{ path := ofn, mustexist := true }] },
                     { path := ndirs, childs := [{ path := nfn, mustexist := false }] }],
          cwd := cwd } := by
  have hd' : ¬ ndirs = odirs := fun e => hd e.symm
  simp [inodetx_t.init, inodetx_t.addpath, inodetx_t.addchild, addchild_in, h1, h2, hd, hd']

/-- C18 (amended).  Let `p` and `q` be two names of the inode `C` (or one name twice): their
final components are not empty, the paths before them lead through sound directories, whose
actors are not locked, to the directories `P1` and `P2`, which hold the final components as
entries for `C`; and let `P1`, `P2` and `C` exist (a link, no negative reference count, a
valid type).  Then `fs_rename(p, q)` returns 0 and leaves every block of the device, the
cached inode (with the link count) of every actor and every lock as they were. -/
theorem fs_rename_same_inode (mkdev : Int → Int → Int) (ffuel n : Nat) (fs : FS)
    (p q : Name) (cwd P1 P2 C : Int) (hroot : fs.idms fs.iroot ≠ none)
    (h1 : NameOK fs cwd p P1 C) (h2 : NameOK fs cwd q P2 C)
    (hl1 : Linked fs P1) (hl2 : Linked fs P2) (hlC : Linked fs C) :
    ∃ fs2, fs_rename mkdev ffuel (n + 1) fs p q cwd = .ok (0, fs2) ∧
      fs2.sys = fs.sys ∧ fs2.iroot = fs.iroot ∧
      (∀ x, (actorOf fs2 x).map (fun i => i.icache) = (actorOf fs x).map (fun i => i.icache)) ∧
      (∀ x, lockedOf fs2 x = lockedOf fs x) := by
  rcases hso : sdirname p with ⟨odirs, ofn⟩
  rcases hsn : sdirname q with ⟨ndirs, nfn⟩
  obtain ⟨a1, a2, a3, ⟨idm1, a4, a5, a6⟩, a7⟩ := h1
  obtain ⟨b1, b2, b3, ⟨idm2, b4, b5, b6⟩, b7⟩ := h2
  have ho := sdirname_snd a1
  have hn := sdirname_snd b1
  rw [hso] at a1 a2 a3 a6 ho
  rw [hsn] at b1 b2 b3 b6 hn
  simp only at a1 a2 a3 a6 ho b1 b2 b3 b6 hn
  rw [fs_rename_unfold mkdev ffuel (n + 1) fs p q cwd odirs ofn ndirs nfn hso hsn a1 b1]
  by_cases hd : odirs = ndirs
  · subst hd
    have hP : P2 = P1 := resolves_unique fs _ _ _ _ b2 a2
    subst hP
    rw [a4] at b4
    simp only [Option.some.injEq] at b4
    subst b4
    have htx := rename_tx_same cwd odirs ofn nfn a1 b1
    simp only [bind_eq_ok] at htx
    obtain ⟨itx1, e1, e2⟩ := htx
    have hnf : ∃ cn, (if nfn = ofn then [({ path := ofn, mustexist := true } : itxchild)]
          else [{ path := ofn, mustexist := true }, { path := nfn, mustexist := false }]).find?
          (fun c => c.path = nfn) = some cn := by
      by_cases h : nfn = ofn
      · exact ⟨{ path := ofn, mustexist := true }, by simp [h]⟩
      · have h' : ¬ ofn = nfn := fun e => h e.symm
        exact ⟨{ path := nfn, mustexist := false }, by simp [h, h']⟩
    obtain ⟨cn, hcn⟩ := hnf
    obtain ⟨fs2, hcore, r1, r2, r3, r4⟩ := fs_rename_core mkdev ffuel n
      { dpaths := [{ path := odirs, childs :=
            if nfn = ofn then [{ path := ofn, mustexist := true }]
            else [{ path := ofn, mustexist := true }, { path := nfn, mustexist := false }] }],
          cwd := cwd }
      (fun _ => P2) (fun _ _ => C) odirs ofn odirs nfn
      { path := odirs, childs :=
          if nfn = ofn then [{ path := ofn, mustexist := true }]
          else [{ path := ofn, mustexist := true }, { path := nfn, mustexist := false }] }
      { path := odirs, childs :=
          if nfn = ofn then [{ path := ofn, mustexist := true }]
          else [{ path := ofn, mustexist := true }, { path := nfn, mustexist := false }] }
      { path := ofn, mustexist := true } cn
      hroot
      (by
        intro p hp
        simp only [List.mem_singleton] at hp
        subst hp
        refine parOK_of_names rfl a2 a3 a7 ?_
        intro c hc
        simp only at hc
        by_cases h : nfn = ofn
        · rw [if_pos h, List.mem_singleton] at hc
          subst hc
          exact ⟨ho.1, ho.2, idm1, a4, a5, a6⟩
        · rw [if_neg h] at hc
          simp only [List.mem_cons, List.mem_singleton, List.not_mem_nil, or_false] at hc
          rcases hc with rfl | rfl
          · exact ⟨ho.1, ho.2, idm1, a4, a5, a6⟩
          · exact ⟨hn.1, hn.2, idm1, a4, b5, b6⟩)
      (by
        intro x hx
        simp only [txPrivs, parPrivs, List.append_nil, List.mem_cons, List.mem_map] at hx
        rcases hx with rfl | ⟨_, _, rfl⟩
        · exact hl1
        · exact hlC)
      (by simp) (by by_cases h : nfn = ofn <;> simp [h]) (by simp) hcn rfl
    refine ⟨fs2, ?_, r1, r2, r3, r4⟩
    simp only [e1, e2, ok_bind]
    exact hcore
  · have htx := rename_tx_two cwd odirs ndirs ofn nfn a1 b1 hd
    simp only [bind_eq_ok] at htx
    obtain ⟨itx1, e1, e2⟩ := htx
    have hd' : ¬ ndirs = odirs := fun e => hd e.symm
    obtain ⟨fs2, hcore, r1, r2, r3, r4⟩ := fs_rename_core mkdev ffuel n
      { dpaths := [{ path := odirs, childs := [{ path := ofn, mustexist := true }] },
                   { path := ndirs, childs := [{ path := nfn, mustexist := false }] }],
        cwd := cwd }
      (fun path => if path = odirs then P1 else P2) (fun _ _ => C) odirs ofn ndirs nfn
      { path := odirs, childs := [{ path := ofn, mustexist := true }] }
      { path := ndirs, childs := [{ path := nfn, mustexist := false }] }
      { path := ofn, mustexist := true } { path := nfn, mustexist := false }
      hroot
      (by
        intro p hp
        simp only [List.mem_cons, List.mem_singleton, List.not_mem_nil, or_false] at hp
        rcases hp with rfl | rfl
        · refine parOK_of_names (by simp) a2 a3 a7 ?_
          intro c hc
          simp only [List.mem_singleton] at hc
          subst hc
          exact ⟨ho.1, ho.2, idm1, a4, a5, a6⟩
        · refine parOK_of_names (by simp [hd']) b2 b3 b7 ?_
          intro c hc
          simp only [List.mem_singleton] at hc
          subst hc
          exact ⟨hn.1, hn.2, idm2, b4, b5, b6⟩)
      (by
        intro x hx
        simp only [txPrivs, parPrivs, List.append_nil, List.mem_cons, List.mem_map,
          List.mem_append, List.mem_singleton, List.not_mem_nil, or_false, if_true, hd',
          if_false, List.map_cons, List.map_nil] at hx
        rcases hx with (rfl | rfl) | rfl | rfl
        · exact hl1
        · exact hlC
        · exact hl2
        · exact hlC)
      (by simp) (by simp) (by simp [hd]) (by simp) rfl
    refine ⟨fs2, ?_, r1, r2, r3, r4⟩
    simp only [e1, e2, ok_bind]
    exact hcore

theorem sound_of_eval {fs : FS} {q : Int} (h : 0 < q)
    (h2 : (actorOf fs q).map (fun i => i.priv) = some q) : Sound fs q := by
  cases ha : actorOf fs q with
  | none => rw [ha] at h2; cases h2
  | some i =>
    rw [ha] at h2
    simp only [Option.map_some', Option.some.injEq] at h2
    exact ⟨h, i, ha, h2⟩

theorem linked_of_eval {fs : FS} {q : Int}
    (h : (actorOf fs q).map (fun i => (decide (0 < i.icache.links) && decide (0 ≤ i.memref) &&
      (decide (i.icache.itype = I_DIR) || decide (i.icache.itype = I_FILE) ||
        decide (i.icache.itype = I_DEV)))) = some true) : Linked fs q := by
  cases ha : actorOf fs q with
  | none => rw [ha] at h; cases h
  | some i =>
    rw [ha] at h
    simp only [Option.map_some', Option.some.injEq, Bool.and_eq_true, Bool.or_eq_true,
      decide_eq_true_eq] at h
    exact ⟨i, ha, h.1.1, h.1.2, by tauto⟩

theorem dirWF_link : DirWF iroot0 linkSys :=
  ⟨⟨by decide, by decide, by decide, by decide, by decide⟩,
    ptrWF_direct0 _ _ rfl (fun i h1 _ => by
      show (if i = 0 then (65 : Int) else 0) = 0
      rw [if_neg (by omega)]) ⟨⟨by decide, by decide⟩, by decide!⟩,
    fun _ _ => rfl, rfl, by decide, by decide,
    fun k hk => by
      have : k = 0 := by
        have h1 : (iroot0.icache.size / 512).toNat = 1 := by decide
        omega
      subst this
      decide!⟩

set_option maxRecDepth 100000 in
theorem sound_link_root : Sound linkFS 256 ∧ lockedOf linkFS 256 = false :=
  ⟨sound_of_eval (by decide) (by decide!), by decide!⟩

set_option maxRecDepth 100000 in
theorem sound_link_file : Sound linkFS 257 ∧ lockedOf linkFS 257 = false :=
  ⟨sound_of_eval (by decide) (by decide!), by decide!⟩

set_option maxRecDepth 100000 in
theorem linked_link_root : Linked linkFS 256 := linked_of_eval (by decide!)

set_option maxRecDepth 100000 in
theorem linked_link_file : Linked linkFS 257 := linked_of_eval (by decide!)

set_option maxRecDepth 100000 in
/-- In `linkFS` the paths `/a` and `/b` name the inode 257 in the root directory 256. -/
theorem nameOK_link (path : Name) (hp : path = pA ∨ path = pB) :
    NameOK linkFS 256 path 256 257 := by
  have hs : (sdirname path).1 = pRoot ∧ ((sdirname path).2 = [97] ∨ (sdirname path).2 = [98]) := by
    rcases hp with rfl | rfl
    · exact ⟨by decide, Or.inl (by decide)⟩
    · exact ⟨by decide, Or.inr (by decide)⟩
  obtain ⟨h1, h2⟩ := hs
  have hstart : namei_start linkFS pRoot 256 = 256 := by decide
  have hparts : pathparts pRoot = [] := by decide
  refine ⟨?_, ?_, ?_, ⟨iroot0, rfl, dirWF_link, ?_⟩, sound_link_file⟩
  · rcases h2 with h | h <;> rw [h] <;> decide
  · rw [h1, hstart, hparts]
    rfl
  · rw [h1, hstart, hparts]
    intro x hx
    simp only [Visits, List.mem_singleton] at hx
    subst hx
    exact sound_link_root
  · rcases h2 with h | h <;> rw [h] <;> decide!

theorem link_root_runs : linkFS.idms linkFS.iroot ≠ none := by
  show (some iroot0 : Option idaemon_t) ≠ none
  simp

/-- Witness for C18: in `linkFS`, where `/a` and `/b` are two names of inode 257,
`fs_rename("/a", "/b")` returns 0 and changes no block. -/
theorem fs_rename_same_inode_witness :
    NameOK linkFS 256 pA 256 257 ∧ NameOK linkFS 256 pB 256 257 ∧
    ∃ fs2, fs_rename mkdev0 8 (0 + 1) linkFS pA pB 256 = .ok (0, fs2) ∧
      fs2.sys = linkFS.sys ∧ fs2.iroot = linkFS.iroot ∧
      (∀ x, (actorOf fs2 x).map (fun i => i.icache) =
        (actorOf linkFS x).map (fun i => i.icache)) ∧
      (∀ x, lockedOf fs2 x = lockedOf linkFS x) :=
  ⟨nameOK_link pA (Or.inl rfl), nameOK_link pB (Or.inr rfl),
    fs_rename_same_inode mkdev0 8 0 linkFS pA pB 256 256 256 257 link_root_runs
      (nameOK_link pA (Or.inl rfl)) (nameOK_link pB (Or.inr rfl)) linked_link_root
      linked_link_root linked_link_file⟩

set_option maxRecDepth 100000 in
/-- Counterexample to C18 as stated: in `linkFS` the path `/` resolves (`fs_stat` reports
inode 256), but `fs_rename("/", "/")` returns `-ENOENT`, because the final component of `/`
is empty. -/
theorem fs_rename_same_inode_counterexample :
    statOf linkFS pRoot = some (0, some 256) ∧
    observeF (fs_rename mkdev0 8 1 linkFS pRoot pRoot 256) (fun x => x.1) = some (-ENOENT) := by
  decide!

set_option maxRecDepth 100000 in
/-- C14 (code_bug): `lockall` of the transaction of `fs_unlink("/nosuch")` on `linkFS`, where
the root directory has no entry `nosuch`, returns `-ENOENT` and locks nothing, but leaves
`mem_refs` of the root directory at 2, where it was 0: the closure `memdecf`, which is to take
back the increment, sends the request of `mkref_direct`, a `Get` that increments.
`fs_unlink("/nosuch")` itself returns `-ENOENT` with the same effect. -/
theorem lockall_failure_leaks_memref :
    memrefOf linkFS 256 = some 0 ∧
    observeF (txNosuch >>= fun itx => itx.lockall mkdev0 8 1 linkFS)
        (fun x => (x.1.1, memrefOf x.2 256, lockedAmong x.2 [256, 257]))
      = some (-ENOENT, some 2, []) ∧
    observeF (fs_unlink mkdev0 8 1 linkFS pNosuch 256)
        (fun x => (x.1, memrefOf x.2 256, lockedAmong x.2 [256, 257]))
      = some (-ENOENT, some 2, []) := by
  decide!

set_option maxRecDepth 100000 in
/-- C15 (code_bug): `lockall` followed by `unlockall` does not restore `mem_refs`, although
`lockall` returns 0 and every inode is unlocked afterwards.  On `linkFS1`, where `mem_refs` of
the root directory 256 and of the file 257 are 0: (1) with the children `a` and `b` of `/`,
two names of inode 257, `mem_refs` of 257 ends at 1; (2) with the parent paths `/` and `/.`,
`mem_refs` of the root directory ends at 2; (3) with the child `.` of `/`, which is the parent
itself, `mem_refs` of the root directory ends at 1. -/
theorem lockall_unlockall_leaks_memref :
    memrefOf linkFS1 256 = some 0 ∧ memrefOf linkFS1 257 = some 0 ∧
    observeF (lock_unlock mkdev0 8 1 txAB linkFS1)
        (fun x => (x.1, memrefOf x.2 256, memrefOf x.2 257)) = some (0, some 0, some 1) ∧
    observeF (lock_unlock mkdev0 8 1 (.ok txTwoPaths) linkFS1)
        (fun x => (x.1, memrefOf x.2 256, memrefOf x.2 257)) = some (0, some 2, some 0) ∧
    observeF (lock_unlock mkdev0 8 1 txDot linkFS1)
        (fun x => (x.1, memrefOf x.2 256, memrefOf x.2 257)) = some (0, some 1, some 0) ∧
    observeF (lock_unlock mkdev0 8 1 txAB linkFS1)
        (fun x => lockedAmong x.2 [256, 257]) = some [] ∧
    observeF (lock_unlock mkdev0 8 1 (.ok txTwoPaths) linkFS1)
        (fun x => lockedAmong x.2 [256, 257]) = some [] ∧
    observeF (lock_unlock mkdev0 8 1 txDot linkFS1)
        (fun x => lockedAmong x.2 [256, 257]) = some [] := by
  decide!

set_option maxRecDepth 100000 in
/-- C16 (code_bug): on `linkFS1`, where `/a` is inode 257 with 2 links,
`fs_link("/a", "/aaaaaaaaaaaaaab")` with a new name of 15 bytes returns 0 and the link count
of 257 becomes 3, but the path `new` does not resolve afterwards (`fs_stat` returns
`-ENOENT`): the entry was stored under the first 14 bytes of the name.  `fs_link` lacks the
check of `fs_mkdir` and `fs_open` that answers `-ENAMETOOLONG`. -/
theorem fs_link_long_name_unresolved :
    statOf linkFS1 pA = some (0, some 257) ∧ linksOf linkFS1 257 = some 2 ∧
    observeF (fs_link mkdev0 8 linkFS1 pA pLong 256)
        (fun x => (x.1, linksOf x.2 257, statOf x.2 pLong, statOf x.2 pLong14))
      = some (0, some 3, some (-ENOENT, none), some (0, some 257)) ∧
    observeF (fs_mkdir mkdev0 8 1 linkFS1 pLong 256) (fun x => x.1) = some (-ENAMETOOLONG) := by
  decide!

set_option maxRecDepth 100000 in
/-- C17 (code_bug): `fs_rename` returns 0 and `new` does not resolve afterwards.  (1) On
`linkFS1`, where `/a` is inode 257, `fs_rename("/a", "/aaaaaaaaaaaaaab")` with a new name of
15 bytes, which names nothing, returns 0; afterwards `fs_stat` of `new` and of `old` both
return `-ENOENT`: the inode is reachable only under the first 14 bytes of the name.  (2) On
`dirFS`, where `/d` is a directory and `/d/e` does not exist, `fs_rename("/d", "/d/e")`
returns 0 and afterwards neither `/d/e` nor `/d` resolves: the directory was entered into
itself and removed from the root directory. -/
theorem fs_rename_new_unresolved :
    statOf linkFS1 pA = some (0, some 257) ∧ statOf linkFS1 pLong = some (-ENOENT, none) ∧
    observeF (fs_rename mkdev0 8 1 linkFS1 pA pLong 256)
        (fun x => (x.1, statOf x.2 pLong)) = some (0, some (-ENOENT, none)) ∧
    observeF (fs_rename mkdev0 8 1 linkFS1 pA pLong 256)
        (fun x => (statOf x.2 pA, statOf x.2 pLong14))
      = some (some (-ENOENT, none), some (0, some 257)) ∧
    observeF (fs_stat mkdev0 8 dirFS pD 256) (fun x => (x.1.1, x.1.2.map (fun st => st.mode)))
      = some (0, some I_DIR) ∧
    statOf dirFS pDE = some (-ENOENT, none) ∧
    observeF (fs_rename mkdev0 8 1 dirFS pD pDE 256)
        (fun x => (x.1, statOf x.2 pDE)) = some (0, some (-ENOENT, none)) ∧
    observeF (fs_rename mkdev0 8 1 dirFS pD pDE 256)
        (fun x => statOf x.2 pD) = some (some (-ENOENT, none)) := by
  decide!


/-- The type that `flushto` has stored in slot `io` reads back. -/
theorem inoFlush_type (blk : Block) (io : Nat) (ic : icache_t)
    (ht1 : -2 ^ 63 ≤ ic.itype) (ht2 : ic.itype < 2 ^ 63) :
    inoField (inoFlush blk io ic) io 0 = ic.itype := by
  unfold inoField inoFlush
  rw [storeAddrs_other _ _ _ _ _ _ (by omega)]
  rw [rdb_put8_other _ _ _ _ (by omega), rdb_put8_other _ _ _ _ (by omega),
    rdb_put8_other _ _ _ _ (by omega), rdb_put8_other _ _ _ _ (by omega),
    rdb_put8_other _ _ _ _ (by omega), rdb_put8_same _ _ _ ht1 ht2]

/-- C22 (code_bug): for every header block and every value `n`, `w_logdest(p, n)` and
`logdest(p)` with `p = 56` and with `p = 61` pass the check `p < 0 || p > 62` and then access
bytes `64 + 8p .. 71 + 8p`, which lie past the 512 bytes of the block: the access is a
run-time panic.  For `p = 55`, the last destination that lies inside the block, the value
written is read back. -/
theorem logdest_past_block (blk : Block) (n : Int) :
    w_logdest blk 56 n = .error "index out of range" ∧
    logdest blk 56 = .error "index out of range" ∧
    w_logdest blk 61 n = .error "index out of range" ∧
    logdest blk 61 = .error "index out of range" ∧
    (w_logdest blk 55 n >>= fun b => logdest b 55) = .ok (wrap64 n) := by
  refine ⟨?_, ?_, ?_, ?_, ?_⟩
  · simp [w_logdest, fieldw, writen]
  · simp [logdest, fieldr, readn]
  · simp [w_logdest, fieldw, writen]
  · simp [logdest, fieldr, readn]
  · have h1 := w_logdest_eq blk 55 n (le_refl _)
    simp only [Nat.cast_ofNat] at h1
    rw [h1]
    have h2 := logdest_eq (put8 blk ((8 + 55) * 8) n) 55 (le_refl _)
    simp only [Nat.cast_ofNat] at h2
    show logdest _ 55 = _
    rw [h2, hdrDest_put8_same]

set_option maxRecDepth 100000 in
/-- C23 (code_bug): with a log of 11 blocks (`fslog.loglen = 10`), `log_daemon` computes one
ticket.  After the one admission (a second `op_begin` is not admitted) the operation logs the
10 distinct blocks 100 to 109: the first 9 are appended, and the append of the tenth aborts
with "log larger than log len". -/
theorem log_overflow_within_tickets :
    sysLog11.loglen = 10 ∧ (log_epoch sysLog11).tickets = 1 ∧
    observe (log_daemon_from [logev.admission, logev.admission] (log_epoch sysLog11) sysLog11)
        (fun x => (x.1.given, x.1.adm)) = some (1, false) ∧
    observe (log_daemon_from [logev.admission, logev.incoming 100, logev.incoming 101,
        logev.incoming 102, logev.incoming 103, logev.incoming 104, logev.incoming 105,
        logev.incoming 106, logev.incoming 107, logev.incoming 108]
        (log_epoch sysLog11) sysLog11) (fun x => x.2.logblks.length) = some 9 ∧
    abortMsg (log_daemon_from [logev.admission, logev.incoming 100, logev.incoming 101,
        logev.incoming 102, logev.incoming 103, logev.incoming 104, logev.incoming 105,
        logev.incoming 106, logev.incoming 107, logev.incoming 108, logev.incoming 109]
        (log_epoch sysLog11) sysLog11) = some "log larger than log len" := by
  decide!

theorem commit_log_loop_loglen (lstart : Int) : ∀ (l : List Int) (i : Int) (s s2 : Sys),
    commit_log_loop lstart l i s = .ok s2 → s2.loglen = s.loglen := by
  intro l
  induction l with
  | nil =>
    intro i s s2 h
    simp only [commit_log_loop, Except.ok.injEq] at h
    rw [← h]
  | cons lbn rest ih =>
    intro i s s2 h
    simp only [commit_log_loop, bind_eq_ok, liftE_eq_ok] at h
    obtain ⟨hd, _, s3, h3, s4, h4, s5, h5, s6, h6, h7⟩ := h
    obtain ⟨_, _, _, rfl⟩ := bread_ok h3
    obtain ⟨_, _, _, rfl⟩ := bread_ok h4
    obtain ⟨_, rfl⟩ := brelse_ok h5
    obtain ⟨_, rfl⟩ := brelse_ok h6
    rw [ih _ _ _ h7]
    rfl

theorem commit_install_loop_loglen : ∀ (l : List Int) (s s2 : Sys),
    commit_install_loop l s = .ok s2 → s2.loglen = s.loglen := by
  intro l
  induction l with
  | nil =>
    intro s s2 h
    simp only [commit_install_loop, Except.ok.injEq] at h
    rw [← h]
  | cons lbn rest ih =>
    intro s s2 h
    simp only [commit_install_loop, bind_eq_ok] at h
    obtain ⟨s3, h3, h4⟩ := h
    obtain ⟨_, _, _, rfl⟩ := bread_ok h3
    split at h4
    · cases h4
    · simp only [bind_eq_ok] at h4
      obtain ⟨s5, h5, h6⟩ := h4
      obtain ⟨_, rfl⟩ := brelse_ok h5
      rw [ih _ _ h6]
      rfl

/-- The method `commit` leaves `fslog.loglen` as it is. -/
theorem commit_loglen {s s2 : Sys} (h : commit s = .ok s2) : s2.loglen = s.loglen := by
  unfold commit at h
  split at h
  · simp only [Except.ok.injEq] at h
    rw [← h]
  · simp only [bind_eq_ok, liftE_eq_ok] at h
    obtain ⟨s3, h3, rnum, _, h4⟩ := h
    obtain ⟨_, _, _, rfl⟩ := bread_ok h3
    split at h4
    · cases h4
    · simp only [bind_eq_ok, liftE_eq_ok] at h4
      obtain ⟨s5, h5, hd, _, s6, h6, hd2, _, s7, h7, h8⟩ := h4
      simp only [Except.ok.injEq] at h8
      obtain ⟨_, rfl⟩ := brelse_ok h7
      rw [← h8]
      have e5 := commit_log_loop_loglen _ _ _ _ _ h5
      have e6 := commit_install_loop_loglen _ _ _ h6
      show s6.loglen = s.loglen
      rw [e6]
      show s5.loglen = s.loglen
      rw [e5]
      rfl

theorem epochInv_start (s : Sys) (h : 10 ≤ s.loglen) : EpochInv (log_epoch s) s := by
  have h1 : 1 ≤ goDiv s.loglen 10 := by
    rw [goDiv_nonneg _ _ (by omega) (by omega)]
    omega
  refine ⟨rfl, le_refl _, ?_, ?_, rfl⟩
  · show (0 : Int) ≤ goDiv s.loglen 10
    omega
  · show (true = true) ↔ (0 : Int) < goDiv s.loglen 10
    simp only [true_iff]
    omega

/-- One iteration of `log_daemon` keeps `EpochInv`, and it calls `commit` only on an `op_end`
that returns the last ticket that is out. -/
theorem epochInv_step {d d2 : logd_t} {s s2 : Sys} {e : logev} {c : Bool}
    (h10 : 10 ≤ s.loglen) (hi : EpochInv d s)
    (h : log_daemon_step d s e = .ok ((d2, c), s2)) :
    s2.loglen = s.loglen ∧ EpochInv d2 s2 ∧
      (c = true → e = logev.done ∧ d.returned + 1 = d.given) := by
  cases e with
  | incoming nb =>
    simp only [log_daemon_step] at h
    split at h
    · cases h
    · simp only [bind_eq_ok, Except.ok.injEq, Prod.mk.injEq] at h
      obtain ⟨s3, h3, ⟨rfl, rfl⟩, rfl⟩ := h
      have hl : s3.loglen = s.loglen := by
        unfold log_append at h3
        split at h3
        · simp only [Except.ok.injEq] at h3
          rw [← h3]
        · split at h3
          · cases h3
          · simp only [Except.ok.injEq] at h3
            rw [← h3]
      refine ⟨hl, ⟨by rw [hl]; exact hi.tickets, hi.given_nonneg, hi.given_le, hi.adm, hi.t⟩, ?_⟩
      intro hc
      cases hc
  | done =>
    simp only [log_daemon_step] at h
    split at h
    · rename_i ht
      simp only [bind_eq_ok, Except.ok.injEq, Prod.mk.injEq] at h
      obtain ⟨s3, h3, ⟨rfl, rfl⟩, rfl⟩ := h
      have hl := commit_loglen h3
      refine ⟨hl, epochInv_start s3 (by rw [hl]; exact h10), ?_⟩
      intro _
      have := hi.t
      exact ⟨rfl, by omega⟩
    · simp only [Except.ok.injEq, Prod.mk.injEq] at h
      obtain ⟨⟨rfl, rfl⟩, rfl⟩ := h
      refine ⟨rfl, ⟨hi.tickets, hi.given_nonneg, hi.given_le, hi.adm, ?_⟩, ?_⟩
      · show d.t - 1 = d.given - (d.returned + 1)
        have := hi.t
        omega
      · intro hc
        cases hc
  | admission =>
    simp only [log_daemon_step] at h
    cases ha : d.adm with
    | false =>
      rw [ha] at h
      simp only [Bool.not_false, if_true, Except.ok.injEq, Prod.mk.injEq] at h
      obtain ⟨⟨rfl, rfl⟩, rfl⟩ := h
      exact ⟨rfl, hi, fun hc => by cases hc⟩
    | true =>
      rw [ha] at h
      simp only [Bool.not_true, Bool.false_eq_true, if_false, Except.ok.injEq,
        Prod.mk.injEq] at h
      obtain ⟨⟨rfl, rfl⟩, rfl⟩ := h
      have hlt := hi.adm.1 ha
      refine ⟨rfl, ⟨hi.tickets, ?_, ?_, ?_, ?_⟩, fun hc => by cases hc⟩
      · show 0 ≤ d.given + 1
        have := hi.given_nonneg
        omega
      · show d.given + 1 ≤ d.tickets
        omega
      · show (if d.given + 1 = d.tickets then false else true) = true ↔
          d.given + 1 < d.tickets
        by_cases hq : d.given + 1 = d.tickets
        · rw [if_pos hq]
          simp only [Bool.false_eq_true, false_iff]
          omega
        · rw [if_neg hq]
          simp only [true_iff]
          omega
      · show d.t + 1 = d.given + 1 - d.returned
        have := hi.t
        omega

/-- The states that `log_daemon` reaches satisfy `EpochInv`. -/
theorem epochInv_run : ∀ (evs : List logev) (d d2 : logd_t) (s s2 : Sys), 10 ≤ s.loglen →
    EpochInv d s → log_daemon_from evs d s = .ok (d2, s2) →
    s2.loglen = s.loglen ∧ EpochInv d2 s2 := by
  intro evs
  induction evs with
  | nil =>
    intro d d2 s s2 _ hi h
    simp only [log_daemon_from, Except.ok.injEq, Prod.mk.injEq] at h
    obtain ⟨rfl, rfl⟩ := h
    exact ⟨rfl, hi⟩
  | cons e rest ih =>
    intro d d2 s s2 h10 hi h
    simp only [log_daemon_from, bind_eq_ok] at h
    obtain ⟨⟨⟨d1, c⟩, s1⟩, h1, h2⟩ := h
    obtain ⟨e1, e2, _⟩ := epochInv_step h10 hi h1
    obtain ⟨f1, f2⟩ := ih d1 d2 s1 s2 (by rw [e1]; exact h10) e2 h2
    exact ⟨f1.trans e1, f2⟩

/-- The ticket cap when the log gives at least one ticket (`fslog.loglen ≥ 10`).  In every
state that `log_daemon` reaches from the start of an epoch, by any sequence of `log_write`,
`op_end` and `op_begin` events, the number of tickets granted in the current epoch is at most
`loglen / 10`, and the counter `t` is the number of tickets granted minus the number
returned; and an iteration calls `commit` only when it is an `op_end` that returns the last
ticket that is out. -/
theorem log_daemon_tickets (s : Sys) (h10 : 10 ≤ s.loglen) (evs : List logev) (d2 : logd_t)
    (s2 : Sys) (h : log_daemon_from evs (log_epoch s) s = .ok (d2, s2)) :
    0 ≤ d2.given ∧ d2.given ≤ goDiv s.loglen 10 ∧ d2.t = d2.given - d2.returned ∧
      (∀ e d3 s3, log_daemon_step d2 s2 e = .ok ((d3, true), s3) →
        e = logev.done ∧ d2.returned + 1 = d2.given) := by
  obtain ⟨e1, e2⟩ := epochInv_run evs _ _ _ _ h10 (epochInv_start s h10) h
  refine ⟨e2.given_nonneg, ?_, e2.t, ?_⟩
  · have := e2.given_le
    rw [e2.tickets, e1] at this
    exact this
  · intro e d3 s3 h3
    exact (epochInv_step (by rw [e1]; exact h10) e2 h3).2.2 rfl

set_option maxRecDepth 100000 in
/-- An instance of the ticket cap: with a log of 11 blocks, after three `op_begin` and one
`op_end` one ticket has been granted. -/
theorem log_daemon_tickets_witness :
    (10 : Int) ≤ sysLog11.loglen ∧
    (runOr (log_daemon_from [logev.admission, logev.admission, logev.admission, logev.done]
      (log_epoch sysLog11) sysLog11) (log_epoch sysLog11, sysLog11)).1.given
        ≤ goDiv sysLog11.loglen 10 :=
  ⟨by decide, (log_daemon_tickets sysLog11 (by decide)
    [logev.admission, logev.admission, logev.admission, logev.done] _ _
    (run_ok _ (log_epoch sysLog11, sysLog11) (by decide!))).2.1⟩

set_option maxRecDepth 100000 in
/-- C24 (code_bug): with a log of 10 blocks (`fslog.loglen = 9`) the daemon computes
`9 / 10 = 0` tickets; the test `given == tickets` comes after the increment of `given`, so it
never holds: after two `op_begin` two tickets have been granted, after five five, and `adm` is
still open, while with a log of 11 blocks (one ticket) `adm` is closed after the first. -/
theorem log_daemon_zero_tickets :
    sysLog10.loglen = 9 ∧ (log_epoch sysLog10).tickets = 0 ∧
    observe (log_daemon_from [logev.admission, logev.admission] (log_epoch sysLog10) sysLog10)
        (fun x => (x.1.given, x.1.t, x.1.adm)) = some (2, 2, true) ∧
    observe (log_daemon_from [logev.admission, logev.admission, logev.admission,
        logev.admission, logev.admission] (log_epoch sysLog10) sysLog10)
        (fun x => (x.1.given, x.1.t, x.1.adm)) = some (5, 5, true) ∧
    (log_epoch sysLog11).tickets = 1 ∧
    observe (log_daemon_from [logev.admission] (log_epoch sysLog11) sysLog11)
        (fun x => (x.1.given, x.1.t, x.1.adm)) = some (1, 1, false) := by
  decide!

set_option maxRecDepth 100000 in
/-- C25: on the device `crashDisk`, whose log header holds `recover_num = 1` with the new root
inode block in the log, `fs_init` returns the root inode 256; recovery has installed the new
root inode (size 1024, second block 66) in block 64, on the device and in the cache, and has
cleared `recover_num`; but the inode cache of the root actor holds the inode as it was before
recovery (size 512, second block 0), while an actor of the same inode that is initialised
after `fs_init` caches size 1024 and second block 66. -/
theorem fs_init_root_cache_stale :
    (recovernum (crashDisk 3)).toOption = some 1 ∧
    observeF crashMount (fun r => r.1) = some 256 ∧
    crashFS.iroot = 256 ∧
    (recovernum (crashFS.sys.disk 3)).toOption = some 0 ∧
    inoField (crashFS.sys.disk 64) 0 2 = 1024 ∧
    inoField (crashFS.sys.disk 64) 0 7 = 66 ∧
    inoField (bufdata crashFS.sys 64) 0 2 = 1024 ∧
    inoField (bufdata crashFS.sys 64) 0 7 = 66 ∧
    (crashFS.idms 256).map (fun i => (i.blkno, i.ioff, i.icache.size, i.icache.addrs 1))
      = some (64, 0, 512, 0) ∧
    observe (idaemon_init crashFS.sys 256) (fun r => (r.1.icache.size, r.1.icache.addrs 1))
      = some (1024, 66) := by
  decide!

/-- The loop of `chk_evict` removes only buffers that are neither dirty nor given out, keeps
the others as they are and in their order, and removes at most `evictn` buffers when two
removals bring the number of buffers to 1024 or below. -/
theorem chk_evict_loop_spec {β : Type} (dirty : β → Bool) (given : Int → Bool) :
    ∀ (l : List (Int × β)) (evictn len : Int),
    (chk_evict_loop dirty given l evictn len).Sublist l ∧
      (∀ e, e ∈ l → e ∉ chk_evict_loop dirty given l evictn len →
        dirty e.2 = false ∧ given e.1 = false) ∧
      (1 ≤ evictn → len ≤ 1024 + evictn →
        (l.length : Int) ≤ (chk_evict_loop dirty given l evictn len).length + evictn) := by
  intro l
  induction l with
  | nil =>
    intro evictn len
    refine ⟨List.Sublist.refl _, ?_, ?_⟩
    · intro e he
      simp at he
    · intro h _
      simp only [chk_evict_loop, List.length_nil, Nat.cast_zero]
      omega
  | cons x rest ih =>
    intro evictn len
    obtain ⟨i, bb⟩ := x
    simp only [chk_evict_loop]
    by_cases hc : (!dirty bb) = true ∧ (!given i) = true
    · rw [if_pos hc]
      have hcl : dirty bb = false ∧ given i = false := by
        simpa using hc
      by_cases hb : evictn - 1 = 0 ∧ len - 1 ≤ 1024
      · rw [if_pos hb]
        refine ⟨List.sublist_cons_self _ _, ?_, ?_⟩
        · intro e he hne
          rcases List.mem_cons.1 he with h | h
          · rw [h]
            exact hcl
          · exact absurd h hne
        · intro _ _
          simp only [List.length_cons, Nat.cast_add, Nat.cast_one]
          omega
      · rw [if_neg hb]
        obtain ⟨a1, a2, a3⟩ := ih (evictn - 1) (len - 1)
        refine ⟨a1.trans (List.sublist_cons_self _ _), ?_, ?_⟩
        · intro e he hne
          rcases List.mem_cons.1 he with h | h
          · rw [h]
            exact hcl
          · exact a2 e h hne
        · intro h1 h2
          have := a3 (by omega) (by omega)
          simp only [List.length_cons, Nat.cast_add, Nat.cast_one]
          omega
    · rw [if_neg hc]
      obtain ⟨a1, a2, a3⟩ := ih evictn len
      refine ⟨a1.cons₂ _, ?_, ?_⟩
      · intro e he hne
        rcases List.mem_cons.1 he with h | h
        · rw [h] at hne
          exact absurd (List.mem_cons_self _ _) hne
        · exact a2 e h (fun hm => hne (List.mem_cons_of_mem _ hm))
      · intro h1 h2
        have := a3 h1 h2
        simp only [List.length_cons, Nat.cast_add, Nat.cast_one]
        omega

/-- What a call of `chk_evict` that returns has done: the buffers that stay cached are
unchanged and in their order, every buffer that was removed is neither dirty nor given out,
and of at most 1026 buffers at most 2 have been removed. -/
theorem chk_evict_kept {β : Type} (dirty : β → Bool) (given : Int → Bool)
    (blocks b2 : List (Int × β)) (h : chk_evict dirty given blocks = .ok b2) :
    b2.Sublist blocks ∧
      (∀ e, e ∈ blocks → e ∉ b2 → dirty e.2 = false ∧ given e.1 = false) ∧
      (blocks.length ≤ 1026 → blocks.length ≤ b2.length + 2) := by
  unfold chk_evict at h
  by_cases hl : blocks.length ≤ 1024
  · rw [if_pos hl] at h
    simp only [Except.ok.injEq] at h
    subst h
    exact ⟨List.Sublist.refl _, fun e he hne => absurd he hne, fun _ => by omega⟩
  · rw [if_neg hl] at h
    simp only at h
    split at h
    · cases h
    · simp only [Except.ok.injEq] at h
      subst h
      obtain ⟨a1, a2, a3⟩ := chk_evict_loop_spec dirty given blocks 2 blocks.length
      refine ⟨a1, a2, ?_⟩
      intro h26
      have := a3 (by omega) (by omega)
      omega

/-! ## The block cache daemon: one handle per block, waiters served in order -/

theorem int32_id (v : Int) (h0 : 0 ≤ v) (h1 : v < 2 ^ 31) : int32 v = v := by
  unfold int32
  omega

theorem mem_of_lookup {β : Type} : ∀ (l : List (Int × β)) (k : Int) (v : β),
    l.lookup k = some v → (k, v) ∈ l := by
  intro l
  induction l with
  | nil => intro k v h; cases h
  | cons x rest ih =>
    intro k v h
    obtain ⟨k2, v2⟩ := x
    rw [List.lookup_cons] at h
    by_cases hk : k = k2
    · subst hk
      simp only [beq_self_eq_true, Option.some.injEq] at h
      subst h
      exact List.mem_cons_self _ _
    · have hb : (k == k2) = false := by simpa using hk
      rw [hb] at h
      exact List.mem_cons_of_mem _ (ih k v h)

theorem lookup_of_mem {β : Type} : ∀ (l : List (Int × β)) (k : Int) (v : β),
    (l.map Prod.fst).Nodup → (k, v) ∈ l → l.lookup k = some v := by
  intro l
  induction l with
  | nil => intro k v _ h; cases h
  | cons x rest ih =>
    intro k v hn h
    obtain ⟨k2, v2⟩ := x
    rw [List.map_cons, List.nodup_cons] at hn
    rw [List.lookup_cons]
    rcases List.mem_cons.1 h with h2 | h2
    · simp only [Prod.mk.injEq] at h2
      obtain ⟨rfl, rfl⟩ := h2
      simp
    · have hk : k ≠ k2 := by
        intro hk
        subst hk
        exact hn.1 (List.mem_map.2 ⟨(k, v), h2, rfl⟩)
      have hb : (k == k2) = false := by simpa using hk
      rw [hb]
      exact ih k v hn.2 h2

theorem lookup_none {β : Type} (l : List (Int × β)) (k : Int) (h : l.lookup k = none) :
    k ∉ l.map Prod.fst := by
  intro hm
  obtain ⟨e, he, hk⟩ := List.mem_map.1 hm
  rw [List.lookup_eq_none_iff] at h
  have := h e he
  rw [hk] at this
  simp at this

theorem lookup_isSome_of_key {β : Type} (l : List (Int × β)) (k : Int)
    (h : k ∈ l.map Prod.fst) : ∃ v, l.lookup k = some v := by
  cases hl : l.lookup k with
  | none => exact absurd h (lookup_none l k hl)
  | some v => exact ⟨v, rfl⟩

theorem suffix_snoc {α : Type} {l1 l2 : List α} (x : α) (h : l1 <:+ l2) :
    l1 ++ [x] <:+ l2 ++ [x] := by
  obtain ⟨t, ht⟩ := h
  exact ⟨t, by rw [← ht, List.append_assoc]⟩

/-- After the release of the one handle of a block, no handle of the block is left. -/
theorem eraseP_unique (bfin : Int) (p : bchandle → Bool) : ∀ (out : List bchandle),
    (out.map (fun h => h.blkno)).Nodup → (∀ h ∈ out, p h = true → h.blkno = bfin) →
    (∃ h ∈ out, p h = true) → ∀ h ∈ out.eraseP p, h.blkno ≠ bfin := by
  intro out
  induction out with
  | nil => intro _ _ h; obtain ⟨h, hm, _⟩ := h; cases hm
  | cons x rest ih =>
    intro hn hp hex h hm
    rw [List.map_cons, List.nodup_cons] at hn
    by_cases hx : p x = true
    · rw [List.eraseP_cons_of_pos hx] at hm
      have hxb := hp x (List.mem_cons_self _ _) hx
      intro hh
      apply hn.1
      rw [hxb, ← hh]
      exact List.mem_map.2 ⟨h, hm, rfl⟩
    · rw [List.eraseP_cons_of_neg hx] at hm
      rcases List.mem_cons.1 hm with hm | hm
      · subst hm
        intro hh
        obtain ⟨h2, hm2, hp2⟩ := hex
        rcases List.mem_cons.1 hm2 with e | e
        · subst e
          exact hx hp2
        · apply hn.1
          rw [hh, ← hp _ (List.mem_cons_of_mem _ e) hp2]
          exact List.mem_map.2 ⟨h2, e, rfl⟩
      · have hex2 : ∃ h ∈ rest, p h = true := by
          obtain ⟨h2, hm2, hp2⟩ := hex
          rcases List.mem_cons.1 hm2 with e | e
          · subst e
            exact absurd hp2 hx
          · exact ⟨h2, e, hp2⟩
        exact ih hn.2 (fun h hh => hp h (List.mem_cons_of_mem _ hh)) hex2 h hm

theorem bcInv_init : BcInv bc_init where
  keys := List.nodup_nil
  blocks_ok := fun e he => by cases he
  out_nodup := List.nodup_nil
  out_ok := fun h hh => by cases hh
  wait_given := fun b hb => absurd rfl hb
  reads_nodup := List.nodup_nil
  reads_ok := fun r hr => by cases hr
  fifo := fun _ => List.nil_suffix

theorem fifo_arrive (w w2 : Int → List Nat) (hist : List (Int × Nat)) (b : Int) (ack : Nat)
    (hf : ∀ x, w x <:+ (hist.filter (fun e => e.1 = x)).map Prod.snd)
    (hne : ∀ x, x ≠ b → w2 x = w x) (hb : w2 b = w b ++ [ack] ∨ w2 b = []) :
    ∀ x, w2 x <:+ ((hist ++ [(b, ack)]).filter (fun e => e.1 = x)).map Prod.snd := by
  intro x
  rw [List.filter_append, List.map_append]
  by_cases hx : x = b
  · subst hx
    have h1 : List.filter (fun e : Int × Nat => decide (e.1 = x)) [(x, ack)] = [(x, ack)] := by
      simp
    rw [h1]
    rcases hb with hb | hb
    · rw [hb]
      exact suffix_snoc ack (hf x)
    · rw [hb]
      exact List.nil_suffix
  · have h1 : List.filter (fun e : Int × Nat => decide (e.1 = x)) [(b, ack)] = [] := by
      simp [Ne.symm hx]
    rw [h1, hne x hx, List.map_nil, List.append_nil]
    exact hf x

theorem given_not_true {g : Option Bool} (h : (!g.getD false) = true) : g ≠ some true := by
  intro hg
  rw [hg] at h
  simp at h

theorem given_true {g : Option Bool} (h : ¬ (!g.getD false) = true) : g = some true := by
  cases g with
  | none => simp at h
  | some v =>
    cases v
    · simp at h
    · rfl

/-- A request keeps the invariant. -/
theorem bcInv_req (st : bcdaemon_t) (hI : BcInv st) (b : Int) (ack : Nat) (h1 : b < 2 ^ 31)
    (st2 : bcdaemon_t) (h : bc_daemon_step st (bcev.req b ack) = .ok st2) : BcInv st2 := by
  simp only [bc_daemon_step] at h
  by_cases hneg : b < 0
  · rw [if_pos hneg] at h
    cases h
  rw [if_neg hneg] at h
  by_cases hin : (!(st.given b).getD false) = true
  · rw [if_pos hin] at h
    have hng := given_not_true hin
    have hwb : st.waiters b = [] := by
      by_contra hw
      exact hng (hI.wait_given b hw)
    have hnh : ∀ h ∈ st.out, h.blkno ≠ b := by
      intro h hh hb
      have := (hI.out_ok h hh).2.1
      rw [hb] at this
      exact hng this
    have hnr : b ∉ st.reads := fun hr => hng (hI.reads_ok b hr).2.2.1
    simp only [Except.ok.injEq] at h
    subst h
    unfold bc_read
    cases hl : st.blocks.lookup b with
    | none =>
      simp only [hl]
      exact {
        keys := hI.keys
        blocks_ok := hI.blocks_ok
        out_nodup := hI.out_nodup
        out_ok := fun h hh => by
          obtain ⟨a1, a2, a3⟩ := hI.out_ok h hh
          refine ⟨a1, ?_, a3⟩
          show Function.update st.given b (some true) h.blkno = some true
          rw [Function.update_noteq (hnh h hh)]
          exact a2
        wait_given := fun x hx => by
          show Function.update st.given b (some true) x = some true
          by_cases hxb : x = b
          · subst hxb
            simp
          · rw [Function.update_noteq hxb]
            apply hI.wait_given
            have : (Function.update st.waiters b (st.waiters b ++ [ack])) x ≠ [] := hx
            rwa [Function.update_noteq hxb] at this
        reads_nodup := by
          show (st.reads ++ [b]).Nodup
          rw [List.nodup_append]
          refine ⟨hI.reads_nodup, List.nodup_singleton _, ?_⟩
          intro x hx hx2
          rw [List.mem_singleton] at hx2
          subst hx2
          exact hnr hx
        reads_ok := fun r hr => by
          have hr2 : r ∈ st.reads ++ [b] := hr
          show 0 ≤ r ∧ r < 2 ^ 31 ∧ Function.update st.given b (some true) r = some true ∧
            r ∉ st.blocks.map Prod.fst ∧
            Function.update st.waiters b (st.waiters b ++ [ack]) r ≠ [] ∧
            ∀ h ∈ st.out, h.blkno ≠ r
          rcases List.mem_append.1 hr2 with hr3 | hr3
          · obtain ⟨a1, a2, a3, a4, a5, a6⟩ := hI.reads_ok r hr3
            have hrb : r ≠ b := fun e => hnr (e ▸ hr3)
            rw [Function.update_noteq hrb, Function.update_noteq hrb]
            exact ⟨a1, a2, a3, a4, a5, a6⟩
          · rw [List.mem_singleton] at hr3
            subst hr3
            refine ⟨by omega, h1, by simp, lookup_none _ _ hl, by simp, hnh⟩
        fifo := fifo_arrive st.waiters _ st.hist b ack hI.fifo
          (fun x hx => Function.update_noteq hx _ _)
          (Or.inl (Function.update_same _ _ _)) }
    | some ret =>
      simp only [hl]
      have hmem := mem_of_lookup _ _ _ hl
      exact {
        keys := hI.keys
        blocks_ok := hI.blocks_ok
        out_nodup := by
          show ((st.out ++ [bchandle.mk b ack (some (ret.id, ret.block))]).map
            (fun h => h.blkno)).Nodup
          rw [List.map_append, List.nodup_append]
          refine ⟨hI.out_nodup, List.nodup_singleton _, ?_⟩
          intro x hx hx2
          simp only [List.map_cons, List.map_nil, List.mem_singleton] at hx2
          subst hx2
          obtain ⟨h, hh, hb⟩ := List.mem_map.1 hx
          exact hnh h hh hb
        out_ok := fun h hh => by
          have hh2 : h ∈ st.out ++ [bchandle.mk b ack (some (ret.id, ret.block))] := hh
          show 0 ≤ h.blkno ∧ Function.update st.given b (some true) h.blkno = some true ∧
            ∃ buf, (h.blkno, buf) ∈ st.blocks ∧ h.buf = some (buf.id, buf.block)
          rcases List.mem_append.1 hh2 with hh3 | hh3
          · obtain ⟨a1, a2, a3⟩ := hI.out_ok h hh3
            rw [Function.update_noteq (hnh h hh3)]
            exact ⟨a1, a2, a3⟩
          · rw [List.mem_singleton] at hh3
            subst hh3
            exact ⟨by show 0 ≤ b; omega, by simp, ret, hmem, rfl⟩
        wait_given := fun x hx => by
          show Function.update st.given b (some true) x = some true
          by_cases hxb : x = b
          · subst hxb
            simp
          · rw [Function.update_noteq hxb]
            exact hI.wait_given x hx
        reads_nodup := hI.reads_nodup
        reads_ok := fun r hr => by
          obtain ⟨a1, a2, a3, a4, a5, a6⟩ := hI.reads_ok r hr
          have hrb : r ≠ b := fun e => hnr (e ▸ hr)
          show 0 ≤ r ∧ r < 2 ^ 31 ∧ Function.update st.given b (some true) r = some true ∧
            r ∉ st.blocks.map Prod.fst ∧ st.waiters r ≠ [] ∧
            ∀ h ∈ st.out ++ [bchandle.mk b ack (some (ret.id, ret.block))], h.blkno ≠ r
          rw [Function.update_noteq hrb]
          refine ⟨a1, a2, a3, a4, a5, ?_⟩
          intro h hh
          rcases List.mem_append.1 hh with hh3 | hh3
          · exact a6 h hh3
          · rw [List.mem_singleton] at hh3
            subst hh3
            exact fun e => hrb e.symm
        fifo := fifo_arrive st.waiters _ st.hist b ack hI.fifo (fun x _ => rfl) (Or.inr hwb) }
  · rw [if_neg hin] at h
    have hg := given_true hin
    simp only [Except.ok.injEq] at h
    subst h
    exact {
      keys := hI.keys
      blocks_ok := hI.blocks_ok
      out_nodup := hI.out_nodup
      out_ok := hI.out_ok
      wait_given := fun x hx => by
        by_cases hxb : x = b
        · subst hxb
          exact hg
        · apply hI.wait_given
          have : (Function.update st.waiters b (st.waiters b ++ [ack])) x ≠ [] := hx
          rwa [Function.update_noteq hxb] at this
      reads_nodup := hI.reads_nodup
      reads_ok := fun r hr => by
        obtain ⟨a1, a2, a3, a4, a5, a6⟩ := hI.reads_ok r hr
        refine ⟨a1, a2, a3, a4, ?_, a6⟩
        show Function.update st.waiters b (st.waiters b ++ [ack]) r ≠ []
        by_cases hrb : r = b
        · subst hrb
          simp
        · rw [Function.update_noteq hrb]
          exact a5
      fifo := fifo_arrive st.waiters _ st.hist b ack hI.fifo
        (fun x hx => Function.update_noteq hx _ _)
        (Or.inl (Function.update_same _ _ _)) }

/-- A handle that `brelse` can give up for `bfin` is the handle of block `bfin`, and holds the
cached buffer. -/
theorem releases_blkno (st : bcdaemon_t) (hI : BcInv st) (bfin : Int) (h : bchandle)
    (hh : h ∈ st.out) (hp : releases bfin h = true) :
    h.blkno = bfin ∧ 0 ≤ bfin ∧ st.given bfin = some true ∧
      ∃ buf, (bfin, buf) ∈ st.blocks ∧ h.buf = some (buf.id, bfin) := by
  obtain ⟨a1, a2, buf, a3, a4⟩ := hI.out_ok h hh
  have hb := hI.blocks_ok _ a3
  simp only at hb
  unfold releases at hp
  rw [a4] at hp
  simp only [Option.map_some', decide_eq_true_eq, Option.some.injEq] at hp
  have e : h.blkno = bfin := by rw [← hb, hp]
  rw [e] at a1 a2 a3
  refine ⟨e, a1, a2, buf, a3, ?_⟩
  rw [a4, hp]

/-- The step of `bc_daemon` on a release. -/
theorem bc_release (st : bcdaemon_t) (hI : BcInv st) (bfin : Int)
    (hen : bc_enabled st (bcev.done bfin) = true) :
    ∃ (h0 : bchandle) (buf : cbuf), h0 ∈ st.out ∧ h0.blkno = bfin ∧ (bfin, buf) ∈ st.blocks ∧
      h0.buf = some (buf.id, bfin) ∧ buf.block = bfin ∧ 0 ≤ bfin ∧
      st.given bfin = some true ∧
      (∀ h ∈ st.out.eraseP (releases bfin), h.blkno ≠ bfin) ∧
      (st.waiters bfin = [] → bc_daemon_step st (bcev.done bfin)
        = .ok { st with out := st.out.eraseP (releases bfin),
                        given := Function.update st.given bfin (some false) }) ∧
      (∀ c q, st.waiters bfin = c :: q → bc_daemon_step st (bcev.done bfin)
        = .ok { st with out := st.out.eraseP (releases bfin) ++
                          [bchandle.mk bfin c (some (buf.id, bfin))],
                        waiters := Function.update st.waiters bfin q }) := by
  simp only [bc_enabled, List.any_eq_true] at hen
  obtain ⟨h0, hh0, hp0⟩ := hen
  obtain ⟨e1, e2, e3, buf, e4, e5⟩ := releases_blkno st hI bfin h0 hh0 hp0
  have hb := hI.blocks_ok _ e4
  simp only at hb
  have hun := eraseP_unique bfin (releases bfin) st.out hI.out_nodup
    (fun h hh hp => (releases_blkno st hI bfin h hh hp).1) ⟨h0, hh0, hp0⟩
  have hl := lookup_of_mem _ _ _ hI.keys e4
  refine ⟨h0, buf, hh0, e1, e4, e5, hb, e2, e3, hun, ?_, ?_⟩
  · intro hw
    simp only [bc_daemon_step]
    rw [if_neg (by omega), e3]
    simp only [Option.getD_some, Bool.not_true, Bool.false_eq_true, if_false, qpop, hw]
  · intro c q hw
    simp only [bc_daemon_step]
    rw [if_neg (by omega), e3]
    simp only [Option.getD_some, Bool.not_true, Bool.false_eq_true, if_false, qpop, hw,
      bc_send, hl, Option.map_some', hb]

/-- A release keeps the invariant. -/
theorem bcInv_done (st : bcdaemon_t) (hI : BcInv st) (bfin : Int)
    (hen : bc_enabled st (bcev.done bfin) = true)
    (st2 : bcdaemon_t) (h : bc_daemon_step st (bcev.done bfin) = .ok st2) : BcInv st2 := by
  obtain ⟨h0, buf, hh0, e1, e4, e5, hb, e2, e3, hun, r1, r2⟩ := bc_release st hI bfin hen
  have hsub : ∀ h ∈ st.out.eraseP (releases bfin), h ∈ st.out :=
    fun h hh => List.mem_of_mem_eraseP hh
  have hnd : ((st.out.eraseP (releases bfin)).map (fun h => h.blkno)).Nodup :=
    List.Nodup.sublist ((List.eraseP_sublist _).map _) hI.out_nodup
  have hrd : ∀ r ∈ st.reads, r ≠ bfin := by
    intro r hr e
    exact (hI.reads_ok r hr).2.2.2.2.2 h0 hh0 (e1.trans e.symm)
  cases hw : st.waiters bfin with
  | nil =>
    rw [r1 hw] at h
    simp only [Except.ok.injEq] at h
    subst h
    exact {
      keys := hI.keys
      blocks_ok := hI.blocks_ok
      out_nodup := hnd
      out_ok := fun h hh => by
        obtain ⟨a1, a2, a3⟩ := hI.out_ok h (hsub h hh)
        refine ⟨a1, ?_, a3⟩
        show Function.update st.given bfin (some false) h.blkno = some true
        rw [Function.update_noteq (hun h hh)]
        exact a2
      wait_given := fun x hx => by
        show Function.update st.given bfin (some false) x = some true
        have hxb : x ≠ bfin := by
          intro e
          subst e
          exact hx hw
        rw [Function.update_noteq hxb]
        exact hI.wait_given x hx
      reads_nodup := hI.reads_nodup
      reads_ok := fun r hr => by
        obtain ⟨a1, a2, a3, a4, a5, a6⟩ := hI.reads_ok r hr
        refine ⟨a1, a2, ?_, a4, a5, fun h hh => a6 h (hsub h hh)⟩
        show Function.update st.given bfin (some false) r = some true
        rw [Function.update_noteq (hrd r hr)]
        exact a3
      fifo := hI.fifo }
  | cons c q =>
    rw [r2 c q hw] at h
    simp only [Except.ok.injEq] at h
    subst h
    exact {
      keys := hI.keys
      blocks_ok := hI.blocks_ok
      out_nodup := by
        show ((st.out.eraseP (releases bfin) ++ [bchandle.mk bfin c (some (buf.id, bfin))]).map
          (fun h => h.blkno)).Nodup
        rw [List.map_append, List.nodup_append]
        refine ⟨hnd, List.nodup_singleton _, ?_⟩
        intro x hx hx2
        simp only [List.map_cons, List.map_nil, List.mem_singleton] at hx2
        subst hx2
        obtain ⟨h, hh, hbb⟩ := List.mem_map.1 hx
        exact hun h hh hbb
      out_ok := fun h hh => by
        have hh2 : h ∈ st.out.eraseP (releases bfin) ++
          [bchandle.mk bfin c (some (buf.id, bfin))] := hh
        rcases List.mem_append.1 hh2 with hh3 | hh3
        · exact hI.out_ok h (hsub h hh3)
        · rw [List.mem_singleton] at hh3
          subst hh3
          exact ⟨e2, e3, buf, e4, by rw [hb]⟩
      wait_given := fun x hx => by
        by_cases hxb : x = bfin
        · subst hxb
          exact e3
        · apply hI.wait_given
          have : (Function.update st.waiters bfin q) x ≠ [] := hx
          rwa [Function.update_noteq hxb] at this
      reads_nodup := hI.reads_nodup
      reads_ok := fun r hr => by
        obtain ⟨a1, a2, a3, a4, a5, a6⟩ := hI.reads_ok r hr
        refine ⟨a1, a2, a3, a4, ?_, ?_⟩
        · show Function.update st.waiters bfin q r ≠ []
          rw [Function.update_noteq (hrd r hr)]
          exact a5
        · intro h hh
          have hh2 : h ∈ st.out.eraseP (releases bfin) ++
            [bchandle.mk bfin c (some (buf.id, bfin))] := hh
          rcases List.mem_append.1 hh2 with hh3 | hh3
          · exact a6 h (hsub h hh3)
          · rw [List.mem_singleton] at hh3
            subst hh3
            exact fun e => hrd r hr e.symm
      fifo := fun x => by
        show Function.update st.waiters bfin q x <:+ _
        by_cases hxb : x = bfin
        · subst hxb
          rw [Function.update_same]
          have := hI.fifo x
          rw [hw] at this
          exact (List.suffix_cons c q).trans this
        · rw [Function.update_noteq hxb]
          exact hI.fifo x }

/-- The completion of a disk read keeps the invariant. -/
theorem bcInv_bnew (st : bcdaemon_t) (hI : BcInv st) (rd : Int) (order : List (Int × cbuf))
    (hen : bc_enabled st (bcev.bnew rd order) = true)
    (st2 : bcdaemon_t) (h : bc_daemon_step st (bcev.bnew rd order) = .ok st2) : BcInv st2 := by
  simp only [bc_enabled, Bool.and_eq_true, decide_eq_true_eq] at hen
  obtain ⟨hrd, hperm⟩ := hen
  obtain ⟨b1, b2, b3, b4, b5, b6⟩ := hI.reads_ok rd hrd
  have h32 := int32_id rd b1 b2
  simp only [bc_daemon_step, h32, b3, Option.isNone_some, Bool.false_eq_true, if_false] at h
  cases hev : chk_evict (fun b : cbuf => st.dirty b.id) (fun i => (st.given i).getD false)
      order with
  | error e =>
    rw [hev] at h
    cases h
  | ok blocks2 =>
    rw [hev] at h
    obtain ⟨s1, s2, _⟩ := chk_evict_kept _ _ order blocks2 hev
    cases hw : st.waiters rd with
    | nil => exact absurd hw b5
    | cons c q =>
      simp only [ok_bind, qpop, hw, bc_send, Option.map_some', Except.ok.injEq] at h
      subst h
      have hin : ∀ e ∈ blocks2, e ∈ st.blocks := fun e he => hperm.subset (s1.subset he)
      have hk2 : (blocks2.map Prod.fst).Nodup :=
        List.Nodup.sublist (s1.map _) ((hperm.map _).nodup_iff.2 hI.keys)
      have hkeep : ∀ e ∈ st.blocks, st.given e.1 = some true → e ∈ blocks2 := by
        intro e he hg
        by_contra hne
        have := (s2 e (hperm.symm.subset he) hne).2
        rw [hg] at this
        simp at this
      exact {
        keys := by
          show (((rd, cbuf.mk st.nextid rd) ::
            blocks2.filter (fun e => decide (e.1 ≠ rd))).map Prod.fst).Nodup
          rw [List.map_cons, List.nodup_cons]
          refine ⟨?_, List.Nodup.sublist ((List.filter_sublist _).map _) hk2⟩
          intro hm
          obtain ⟨e, he, hk⟩ := List.mem_map.1 hm
          have := (List.mem_filter.1 he).2
          simp only [decide_eq_true_eq] at this
          exact this hk
        blocks_ok := fun e he => by
          have he2 : e ∈ (rd, cbuf.mk st.nextid rd) ::
            blocks2.filter (fun e => decide (e.1 ≠ rd)) := he
          rcases List.mem_cons.1 he2 with he3 | he3
          · subst he3
            rfl
          · exact hI.blocks_ok e (hin e (List.mem_filter.1 he3).1)
        out_nodup := by
          show ((st.out ++ [bchandle.mk rd c (some (st.nextid, rd))]).map
            (fun h => h.blkno)).Nodup
          rw [List.map_append, List.nodup_append]
          refine ⟨hI.out_nodup, List.nodup_singleton _, ?_⟩
          intro x hx hx2
          simp only [List.map_cons, List.map_nil, List.mem_singleton] at hx2
          subst hx2
          obtain ⟨h, hh, hbb⟩ := List.mem_map.1 hx
          exact b6 h hh hbb
        out_ok := fun h hh => by
          have hh2 : h ∈ st.out ++ [bchandle.mk rd c (some (st.nextid, rd))] := hh
          show 0 ≤ h.blkno ∧ st.given h.blkno = some true ∧
            ∃ buf, (h.blkno, buf) ∈ (rd, cbuf.mk st.nextid rd) ::
              blocks2.filter (fun e => decide (e.1 ≠ rd)) ∧ h.buf = some (buf.id, buf.block)
          rcases List.mem_append.1 hh2 with hh3 | hh3
          · obtain ⟨a1, a2, buf, a3, a4⟩ := hI.out_ok h hh3
            refine ⟨a1, a2, buf, ?_, a4⟩
            apply List.mem_cons_of_mem
            rw [List.mem_filter]
            refine ⟨hkeep _ a3 a2, ?_⟩
            simp only [decide_eq_true_eq]
            exact b6 h hh3
          · rw [List.mem_singleton] at hh3
            subst hh3
            exact ⟨b1, b3, cbuf.mk st.nextid rd, List.mem_cons_self _ _, rfl⟩
        wait_given := fun x hx => by
          by_cases hxb : x = rd
          · subst hxb
            exact b3
          · apply hI.wait_given
            have : (Function.update st.waiters rd q) x ≠ [] := hx
            rwa [Function.update_noteq hxb] at this
        reads_nodup := hI.reads_nodup.erase rd
        reads_ok := fun r hr => by
          have hr2 : r ∈ st.reads.erase rd := hr
          rw [hI.reads_nodup.mem_erase_iff] at hr2
          obtain ⟨hne, hr3⟩ := hr2
          obtain ⟨a1, a2, a3, a4, a5, a6⟩ := hI.reads_ok r hr3
          refine ⟨a1, a2, a3, ?_, ?_, ?_⟩
          · show r ∉ ((rd, cbuf.mk st.nextid rd) ::
              blocks2.filter (fun e => decide (e.1 ≠ rd))).map Prod.fst
            rw [List.map_cons, List.mem_cons]
            rintro (e | e)
            · exact hne e
            · obtain ⟨x, hx, hk⟩ := List.mem_map.1 e
              exact a4 (List.mem_map.2 ⟨x, hin x (List.mem_filter.1 hx).1, hk⟩)
          · show Function.update st.waiters rd q r ≠ []
            rw [Function.update_noteq hne]
            exact a5
          · intro h hh
            have hh2 : h ∈ st.out ++ [bchandle.mk rd c (some (st.nextid, rd))] := hh
            rcases List.mem_append.1 hh2 with hh3 | hh3
            · exact a6 h hh3
            · rw [List.mem_singleton] at hh3
              subst hh3
              exact fun e => hne e.symm
        fifo := fun x => by
          show Function.update st.waiters rd q x <:+ _
          by_cases hxb : x = rd
          · subst hxb
            rw [Function.update_same]
            have := hI.fifo x
            rw [hw] at this
            exact (List.suffix_cons c q).trans this
          · rw [Function.update_noteq hxb]
            exact hI.fifo x }

/-- A change of a flag `dirty` keeps the invariant. -/
theorem bcInv_mark (st : bcdaemon_t) (hI : BcInv st) (id : Nat) (d : Bool)
    (st2 : bcdaemon_t) (h : bc_daemon_step st (bcev.mark id d) = .ok st2) : BcInv st2 := by
  simp only [bc_daemon_step, Except.ok.injEq] at h
  subst h
  exact ⟨hI.keys, hI.blocks_ok, hI.out_nodup, hI.out_ok, hI.wait_given, hI.reads_nodup,
    hI.reads_ok, hI.fifo⟩

/-- Every step of `bc_daemon` keeps the invariant. -/
theorem bcInv_step (st : bcdaemon_t) (hI : BcInv st) (e : bcev)
    (hr : ∀ b a, e = bcev.req b a → b < 2 ^ 31) (hen : bc_enabled st e = true)
    (st2 : bcdaemon_t) (h : bc_daemon_step st e = .ok st2) : BcInv st2 := by
  cases e with
  | req b a => exact bcInv_req st hI b a (hr b a rfl) st2 h
  | done bfin => exact bcInv_done st hI bfin hen st2 h
  | bnew rd order => exact bcInv_bnew st hI rd order hen st2 h
  | mark id d => exact bcInv_mark st hI id d st2 h

/-- The invariant holds in every state that `bc_daemon` reaches. -/
theorem bcInv_run : ∀ (evs : List bcev) (st st2 : bcdaemon_t), BcInv st →
    (∀ b a, bcev.req b a ∈ evs → b < 2 ^ 31) →
    bc_daemon_from evs st = .ok st2 → BcInv st2 := by
  intro evs
  induction evs with
  | nil =>
    intro st st2 hI _ h
    simp only [bc_daemon_from, Except.ok.injEq] at h
    subst h
    exact hI
  | cons e es ih =>
    intro st st2 hI hr h
    unfold bc_daemon_from at h
    by_cases hen : bc_enabled st e = true
    · rw [if_pos hen] at h
      simp only [bind_eq_ok] at h
      obtain ⟨st1, h1, h2⟩ := h
      exact ih st1 st2
        (bcInv_step st hI e (fun b a he => hr b a (he ▸ List.mem_cons_self _ _)) hen st1 h1)
        (fun b a hm => hr b a (List.mem_cons_of_mem _ hm)) h2
    · rw [if_neg hen] at h
      cases h

theorem bcState_ok (r : Except String bcdaemon_t) (h : (handlesOf r).isSome = true) :
    r = .ok (bcState r) := by
  cases r with
  | error e => simp [handlesOf] at h
  | ok st => rfl

/-- C21 (amended).  In every state that `bc_daemon` reaches by requests for block numbers
below `2^31`, releases and completions of disk reads: no two outstanding handles are for the
same block number; the waiters of every block are the last requests for it, in the order of
their arrival; and a release of block `bfin` gives up the handle of `bfin` and is served
without panic: when requests wait for `bfin`, the one that arrived first is taken off the
queue and receives the buffer of the handle that was given up, which is then the only handle
of `bfin`, and `bfin` stays given out; when none waits, `bfin` is no longer given out and has
no handle. -/
theorem bc_daemon_handles (evs : List bcev) (st : bcdaemon_t)
    (hr : ∀ b a, bcev.req b a ∈ evs → b < 2 ^ 31) (h : bc_daemon evs = .ok st) :
    (st.out.map (fun h => h.blkno)).Nodup ∧
    (∀ b, st.waiters b <:+ (st.hist.filter (fun e => e.1 = b)).map Prod.snd) ∧
    (∀ bfin, bc_enabled st (bcev.done bfin) = true →
      ∃ (h0 : bchandle) (st2 : bcdaemon_t), h0 ∈ st.out ∧ h0.blkno = bfin ∧ h0.buf ≠ none ∧
        bc_daemon_step st (bcev.done bfin) = .ok st2 ∧
        (∀ c q, st.waiters bfin = c :: q →
          st2.waiters bfin = q ∧ st2.given bfin = some true ∧
          bchandle.mk bfin c h0.buf ∈ st2.out ∧
          (∀ h ∈ st2.out, h.blkno = bfin → h = bchandle.mk bfin c h0.buf)) ∧
        (st.waiters bfin = [] →
          st2.given bfin = some false ∧ ∀ h ∈ st2.out, h.blkno ≠ bfin)) := by
  have hI := bcInv_run evs bc_init st bcInv_init hr h
  refine ⟨hI.out_nodup, hI.fifo, ?_⟩
  intro bfin hen
  obtain ⟨h0, buf, hh0, e1, e4, e5, hb, e2, e3, hun, r1, r2⟩ := bc_release st hI bfin hen
  cases hw : st.waiters bfin with
  | nil =>
    refine ⟨h0, _, hh0, e1, by rw [e5]; simp, r1 hw, ?_, ?_⟩
    · intro c q hc
      cases hc
    · intro _
      exact ⟨by simp, hun⟩
  | cons c q =>
    refine ⟨h0, _, hh0, e1, by rw [e5]; simp, r2 c q hw, ?_, ?_⟩
    · intro c2 q2 hc
      simp only [List.cons.injEq] at hc
      obtain ⟨rfl, rfl⟩ := hc
      refine ⟨by simp, e3, ?_, ?_⟩
      · rw [e5]
        simp
      · intro h hh hbf
        simp only [List.mem_append, List.mem_singleton] at hh
        rcases hh with hh | hh
        · exact absurd hbf (hun h hh)
        · rw [hh, e5]
    · intro hc
      cases hc

set_option maxRecDepth 100000 in
/-- Witness for C21: after three requests for block 5 and the completion of the disk read,
the first requester holds the one handle of block 5 and the other two wait in the order of
their arrival. -/
theorem bc_daemon_handles_witness :
    handlesOf (bc_daemon evsQueue) = some [bchandle.mk 5 0 (some (0, 5))] ∧
    (bcState (bc_daemon evsQueue)).waiters 5 = [1, 2] ∧
    bc_enabled (bcState (bc_daemon evsQueue)) (bcev.done 5) = true ∧
    handlesOf (bc_daemon (evsQueue ++ [bcev.done 5])) = some [bchandle.mk 5 1 (some (0, 5))] ∧
    (((bcState (bc_daemon evsQueue)).out.map (fun h => h.blkno)).Nodup ∧
    (∀ b, (bcState (bc_daemon evsQueue)).waiters b <:+
      ((bcState (bc_daemon evsQueue)).hist.filter (fun e => e.1 = b)).map Prod.snd) ∧
    (∀ bfin, bc_enabled (bcState (bc_daemon evsQueue)) (bcev.done bfin) = true →
      ∃ (h0 : bchandle) (st2 : bcdaemon_t), h0 ∈ (bcState (bc_daemon evsQueue)).out ∧
        h0.blkno = bfin ∧ h0.buf ≠ none ∧
        bc_daemon_step (bcState (bc_daemon evsQueue)) (bcev.done bfin) = .ok st2 ∧
        (∀ c q, (bcState (bc_daemon evsQueue)).waiters bfin = c :: q →
          st2.waiters bfin = q ∧ st2.given bfin = some true ∧
          bchandle.mk bfin c h0.buf ∈ st2.out ∧
          (∀ h ∈ st2.out, h.blkno = bfin → h = bchandle.mk bfin c h0.buf)) ∧
        ((bcState (bc_daemon evsQueue)).waiters bfin = [] →
          st2.given bfin = some false ∧ ∀ h ∈ st2.out, h.blkno ≠ bfin))) :=
  ⟨by decide!, by decide!, by decide!, by decide!,
    bc_daemon_handles evsQueue (bcState (bc_daemon evsQueue))
      (by
        intro b a hm
        simp only [evsQueue, List.mem_cons, bcev.req.injEq, List.mem_singleton,
          List.mem_nil_iff, or_false, false_or, reduceCtorEq] at hm
        rcases hm with hm | hm | hm <;> omega)
      (bcState_ok _ (by decide!))⟩

set_option maxRecDepth 100000 in
/-- Counterexample to C21 as stated: block 5 is held by the first requester when the disk
read for block `2^32 + 5` completes; its buffer carries the block number `int32(2^32 + 5) =
5`, the check of the key 5 in `given` passes, and the second requester of block 5 receives
the new buffer: two handles of block 5 are outstanding, with different buffers. -/
theorem bc_daemon_handles_counterexample :
    int32 (2 ^ 32 + 5) = 5 ∧
    handlesOf (bc_daemon evsTrim)
      = some [bchandle.mk 5 0 (some (0, 5)), bchandle.mk 5 1 (some (1, 5))] ∧
    (bcState (bc_daemon evsTrim)).waiters (2 ^ 32 + 5) = [2] := by
  decide!

/-! ## The allocator finds the lowest clear bit -/

theorem mask_ne_zero (b : Byte) (m : Nat) (h : bitset b m = true) :
    ¬ ((1 <<< m) &&& b.val = 0) := by
  intro hz
  unfold bitset at h
  rw [Nat.one_shiftLeft] at hz
  have h1 := Nat.testBit_and (2 ^ m) b.val m
  rw [hz, Nat.zero_testBit, Nat.testBit_two_pow_self, h] at h1
  simp at h1

theorem mask_eq_zero (b : Byte) (m : Nat) (h : bitset b m = false) :
    (1 <<< m) &&& b.val = 0 := by
  unfold bitset at h
  rw [Nat.one_shiftLeft]
  apply Nat.eq_of_testBit_eq
  intro i
  rw [Nat.testBit_and, Nat.zero_testBit, Nat.testBit_two_pow]
  by_cases hi : m = i
  · subst hi
    simp [h]
  · simp [hi]

/-- The loop of `freebit` returns the lowest clear bit. -/
theorem freebit_loop_run (b : Byte) : ∀ (n m bit : Nat), m ≤ bit → bit < m + n →
    bitset b bit = false → (∀ j, m ≤ j → j < bit → bitset b j = true) →
    freebit_loop b n m = .ok bit := by
  intro n
  induction n with
  | zero => intro m bit h1 h2; omega
  | succ n ih =>
    intro m bit h1 h2 h3 h4
    unfold freebit_loop
    by_cases hm : m = bit
    · subst hm
      rw [if_pos (mask_eq_zero b m h3)]
    · rw [if_neg (mask_ne_zero b m (h4 m (le_refl _) (by omega)))]
      exact ih (m + 1) bit (by omega) (by omega) h3 (fun j hj1 hj2 => h4 j (by omega) hj2)

set_option maxRecDepth 100000 in
theorem byte_full (c : Byte) : (∀ j, j < 8 → bitset c j = true) → c = 0xff := by
  unfold bitset
  revert c
  decide

theorem byte_not_full (c : Byte) (bit : Nat) (h8 : bit < 8) (hb : bitset c bit = false) :
    c ≠ 0xff := by
  intro h
  subst h
  unfold bitset at hb
  have : ∀ j, j < 8 → (0xff : Byte).val.testBit j = true := by decide
  rw [this bit h8] at hb
  cases hb

/-- The inner loop of `balloc1` passes the bytes `0xff` and stops at the first other byte, with
its lowest clear bit. -/
theorem balloc1_bytes_run (d : Block) : ∀ (n idx oct bit : Nat), idx ≤ oct → oct < idx + n →
    (∀ o, idx ≤ o → o < oct → d o = 0xff) → bit < 8 → bitset (d oct) bit = false →
    (∀ j, j < bit → bitset (d oct) j = true) →
    balloc1_bytes d n idx = .ok (some (oct, bit)) := by
  intro n
  induction n with
  | zero => intro idx oct bit h1 h2; omega
  | succ n ih =>
    intro idx oct bit h1 h2 h3 h4 h5 h6
    unfold balloc1_bytes
    by_cases hm : idx = oct
    · subst hm
      rw [if_pos (byte_not_full _ bit h4 h5)]
      unfold freebit
      rw [freebit_loop_run (d idx) 8 0 bit (by omega) (by omega) h5 (fun j _ hj => h6 j hj)]
      rfl
    · rw [if_neg (by rw [h3 idx (le_refl _) (by omega)]; simp)]
      exact ih (idx + 1) oct bit (by omega) (by omega) (fun o ho1 ho2 => h3 o (by omega) ho2)
        h4 h5 h6

/-- The inner loop of `balloc1` finds nothing in bytes that are all `0xff`. -/
theorem balloc1_bytes_none (d : Block) : ∀ (n idx : Nat),
    (∀ o, idx ≤ o → o < idx + n → d o = 0xff) → balloc1_bytes d n idx = .ok none := by
  intro n
  induction n with
  | zero => intro idx _; rfl
  | succ n ih =>
    intro idx h
    unfold balloc1_bytes
    rw [if_neg (by rw [h idx (le_refl _) (by omega)]; simp)]
    exact ih (idx + 1) (fun o ho1 ho2 => h o (by omega) (by omega))

/-- The release of the buffer of the previous iteration in the loop of `balloc1`. -/
theorem release_prev (s : Sys) (g : Int → Bool) (blk : Option Int) :
    s.given = (match blk with
      | none => g
      | some bp => Function.update g bp true) →
    (∀ bp, blk = some bp → g bp = false ∧ 0 ≤ bp) →
    (match blk with
      | some b => brelse s b
      | none => .ok s) = (.ok (setGiven s g) : R Sys) := by
  intro hgv hgb
  cases blk with
  | none =>
    simp only at hgv ⊢
    rw [← hgv]
    rfl
  | some bp =>
    simp only at hgv ⊢
    obtain ⟨hg0, hp0⟩ := hgb bp rfl
    rw [brelse_eq s bp hp0 (by rw [hgv]; simp), brelseSt_eq, hgv, given_release g bp hg0]

/-- The outer loop of `balloc1` passes the bitmap blocks that are full and stops at the first
block with a clear bit, which it keeps held. -/
theorem balloc1_loop_run (fst : Int) : ∀ (n : Nat) (i : Int) (blk : Option Int) (s : Sys)
    (g : Int → Bool) (blkn : Int) (oct bit : Nat),
    s.given = (match blk with
      | none => g
      | some bp => Function.update g bp true) →
    (∀ bp, blk = some bp → g bp = false ∧ 0 ≤ bp) →
    i ≤ blkn → blkn < i + n →
    (∀ j, i ≤ j → j ≤ blkn → 0 ≤ fst + j ∧ fst + j < 2 ^ 31 ∧ g (fst + j) = false) →
    (∀ j, i ≤ j → j < blkn → ∀ o, o < 512 → bufdata s (fst + j) o = 0xff) →
    oct < 512 → (∀ o, o < oct → bufdata s (fst + blkn) o = 0xff) → bit < 8 →
    bitset (bufdata s (fst + blkn) oct) bit = false →
    (∀ j, j < bit → bitset (bufdata s (fst + blkn) oct) j = true) →
    balloc1_loop fst n i blk s
      = .ok ((some (blkn, oct, bit), some (fst + blkn)),
          setGiven s (Function.update g (fst + blkn) true)) := by
  intro n
  induction n with
  | zero => intro i blk s g blkn oct bit _ _ h1 h2; omega
  | succ n ih =>
    intro i blk s g blkn oct bit hgv hgb h1 h2 hrd hfull ho hoct hb hbit hlow
    have hrel := release_prev s g blk hgv hgb
    obtain ⟨r1, r2, r3⟩ := hrd i (le_refl _) h1
    have hread : bread (setGiven s g) (fst + i)
        = .ok (setGiven s (Function.update g (fst + i) true)) := by
      rw [bread_eq _ _ r1 r2 (by simpa using r3), breadSt_eq]
      rfl
    unfold balloc1_loop
    refine Eq.trans (congrArg (fun m : R Sys => m >>= _) hrel) ?_
    simp only [ok_bind]
    rw [hread]
    simp only [ok_bind, bufdata_setGiven]
    by_cases hm : i = blkn
    · subst hm
      rw [balloc1_bytes_run _ 512 0 oct bit (by omega) (by omega)
        (fun o _ ho2 => hoct o ho2) hb hbit hlow]
      rfl
    · rw [balloc1_bytes_none _ 512 0 (fun o _ ho2 => hfull i (le_refl _) (by omega) o (by omega))]
      simp only [liftE, ok_bind]
      have := ih (i + 1) (some (fst + i)) (setGiven s (Function.update g (fst + i) true)) g
        blkn oct bit rfl
        (by intro bp hbp; simp only [Option.some.injEq] at hbp; subst hbp; exact ⟨r3, r1⟩)
        (by omega) (by omega) (fun j hj1 hj2 => hrd j (by omega) hj2)
        (fun j hj1 hj2 o ho => by
          rw [bufdata_setGiven]; exact hfull j (by omega) hj2 o ho)
        ho (by rw [bufdata_setGiven]; exact hoct) hb
        (by rw [bufdata_setGiven]; exact hbit) (by rw [bufdata_setGiven]; exact hlow)
      rw [this]
      rfl

/-- The bit of a block in the free map is the bit of the bitmap at the offset of the block
from `usable_start`. -/
theorem used_mapBit (s : Sys) (k : Nat) : used s (s.usable_start + k) = mapBit s k := by
  unfold used mapBit
  have h : (s.usable_start + (k : Int) - s.usable_start).toNat = k := by omega
  rw [h]

/-- With the lowest clear bit of the bitmap at index `k`, `balloc1` returns
`usable_start + k`. -/
theorem balloc1_run (s : Sys) (k : Nat) (hG : Geom s)
    (hheld : ∀ i, 0 ≤ i → i < s.free_len → s.given (s.free_start + i) = false)
    (hroom : s.free_start + ((k / 4096 : Nat) : Int) ∈ s.logblks ∨
      (s.logblks.length : Int) + 1 < s.loglen)
    (hk : (k : Int) < s.free_len * 4096) (hclear : mapBit s k = false)
    (hlow : ∀ j, j < k → mapBit s j = true) :
    ∃ s2, balloc1 s = .ok (s.usable_start + k, s2) := by
  have hfp := hG.free_pos
  have hfb := hG.free_below
  have hrg := hG.range
  have hln := hG.len_nonneg
  have hloop := balloc1_loop_run s.free_start s.free_len.toNat 0 none s s.given
    ((k / 4096 : Nat) : Int) (k % 4096 / 8) (k % 8) rfl (by intro bp hbp; cases hbp)
    (by omega) (by omega)
    (fun j hj1 hj2 => ⟨by omega, by omega, hheld j hj1 (by omega)⟩)
    (fun j hj1 hj2 o ho => by
      apply byte_full
      intro b hb
      have h := hlow (j.toNat * 4096 + o * 8 + b) (by omega)
      unfold mapBit at h
      have q1 : (j.toNat * 4096 + o * 8 + b) / 4096 = j.toNat := by omega
      have q2 : (j.toNat * 4096 + o * 8 + b) % 4096 / 8 = o := by omega
      have q3 : (j.toNat * 4096 + o * 8 + b) % 8 = b := by omega
      have q4 : ((j.toNat : Nat) : Int) = j := by omega
      rw [q1, q2, q3, q4] at h
      exact h)
    (by omega)
    (fun o ho => by
      apply byte_full
      intro b hb
      have h := hlow (k / 4096 * 4096 + o * 8 + b) (by omega)
      unfold mapBit at h
      have q1 : (k / 4096 * 4096 + o * 8 + b) / 4096 = k / 4096 := by omega
      have q2 : (k / 4096 * 4096 + o * 8 + b) % 4096 / 8 = o := by omega
      have q3 : (k / 4096 * 4096 + o * 8 + b) % 8 = b := by omega
      rw [q1, q2, q3] at h
      exact h)
    (by omega) hclear
    (fun b hb => by
      have h := hlow (k / 4096 * 4096 + k % 4096 / 8 * 8 + b) (by omega)
      unfold mapBit at h
      have q1 : (k / 4096 * 4096 + k % 4096 / 8 * 8 + b) / 4096 = k / 4096 := by omega
      have q2 : (k / 4096 * 4096 + k % 4096 / 8 * 8 + b) % 4096 / 8 = k % 4096 / 8 := by omega
      have q3 : (k / 4096 * 4096 + k % 4096 / 8 * 8 + b) % 8 = b := by omega
      rw [q1, q2, q3] at h
      exact h)
  obtain ⟨s5, h5⟩ := log_write_room
    (setdata (setGiven s (Function.update s.given (s.free_start + ((k / 4096 : Nat) : Int)) true))
      (s.free_start + ((k / 4096 : Nat) : Int))
      (Function.update (bufdata s (s.free_start + ((k / 4096 : Nat) : Int))) (k % 4096 / 8)
        (setbit (bufdata s (s.free_start + ((k / 4096 : Nat) : Int)) (k % 4096 / 8)) (k % 8))))
    (s.free_start + ((k / 4096 : Nat) : Int)) hroom
  obtain ⟨_, hg5, hc5, _, _⟩ := log_write_ok h5
  refine ⟨brelseSt s5 (s.free_start + ((k / 4096 : Nat) : Int)), ?_⟩
  unfold balloc1
  rw [if_neg (by omega), hloop]
  simp only [ok_bind, bufdata_setGiven]
  rw [h5]
  simp only [ok_bind]
  rw [brelse_eq s5 _ (by omega) (by rw [hg5]; simp [setdata, setGiven])]
  simp only [ok_bind]
  have hu : (brelseSt s5 (s.free_start + ((k / 4096 : Nat) : Int))).usable_start
      = s.usable_start := hc5.usable
  rw [hu]
  have hv : s.usable_start + ((k / 4096 : Nat) : Int) * (512 * 8) + ((k % 4096 / 8 : Nat) : Int) * 8
      + ((k % 8 : Nat) : Int) = s.usable_start + (k : Int) := by omega
  rw [hv]

/-- C27.  On a device with a sound layout, when the bitmap blocks are not held and the log has
room for the bitmap block that changes: if bit `k` of the free bitmap is clear and every bit
below `k` (counted by bitmap block, then byte, then bit from the least significant one) is
set, `balloc1` returns `usable_start + k`; afterwards bit `k` is set, every other bit of the
bitmap is as before, the layout and the held buffers are as before, and a second `balloc1`
that returns, returns another block number. -/
theorem balloc1_lowest_clear (s : Sys) (k : Nat) (hG : Geom s)
    (hheld : ∀ i, 0 ≤ i → i < s.free_len → s.given (s.free_start + i) = false)
    (hroom : s.free_start + ((k / 4096 : Nat) : Int) ∈ s.logblks ∨
      (s.logblks.length : Int) + 1 < s.loglen)
    (hk : (k : Int) < s.free_len * 4096) (hclear : mapBit s k = false)
    (hlow : ∀ j, j < k → mapBit s j = true) :
    ∃ s2, balloc1 s = .ok (s.usable_start + k, s2) ∧
      (∀ j : Nat, (j : Int) < s.free_len * 4096 →
        mapBit s2 j = (decide (j = k) || mapBit s j)) ∧
      Consts s s2 ∧ s2.given = s.given ∧
      (∀ b3 s3, balloc1 s2 = .ok (b3, s3) → b3 ≠ s.usable_start + k) := by
  obtain ⟨s2, hrun⟩ := balloc1_run s k hG hheld hroom hk hclear hlow
  obtain ⟨_, hc, hg, _, hu⟩ := balloc_ok hrun hG
  have hbits : ∀ j : Nat, (j : Int) < s.free_len * 4096 →
      mapBit s2 j = (decide (j = k) || mapBit s j) := by
    intro j hj
    have h1 := hu (s.usable_start + j) ⟨by omega, by omega⟩
    rw [used_mapBit s j] at h1
    have h2 := used_mapBit s2 j
    rw [hc.usable] at h2
    rw [← h2, h1]
    congr 1
    simp
  refine ⟨s2, hrun, hbits, hc, hg, ?_⟩
  intro b3 s3 h3 hb3
  have hG2 : Geom s2 :=
    ⟨by rw [hc.fst]; exact hG.free_pos, by rw [hc.fst, hc.flen, hc.usable]; exact hG.free_below,
      by rw [hc.flen]; exact hG.len_nonneg, by rw [hc.superb, hc.usable]; exact hG.super_below,
      by rw [hc.flen, hc.usable]; exact hG.range⟩
  obtain ⟨⟨_, hfree⟩, _⟩ := balloc_ok h3 hG2
  rw [hb3, ← hc.usable, used_mapBit s2 k, hbits k hk] at hfree
  simp at hfree

set_option maxRecDepth 100000 in
/-- Witness for C27: in `mapSys` the first bitmap byte is `0xff` and the second is `0x0b`, so
the lowest clear bit is bit 10; `balloc1` returns block `64 + 10`. -/
theorem balloc1_lowest_clear_witness :
    Geom mapSys ∧ mapBit mapSys 10 = false ∧ (∀ j, j < 10 → mapBit mapSys j = true) ∧
    observe (balloc1 mapSys) (fun r => r.1) = some 74 ∧
    ∃ s2, balloc1 mapSys = .ok (mapSys.usable_start + ((10 : Nat) : Int), s2) ∧
      (∀ j : Nat, (j : Int) < mapSys.free_len * 4096 →
        mapBit s2 j = (decide (j = 10) || mapBit mapSys j)) ∧
      Consts mapSys s2 ∧ s2.given = mapSys.given ∧
      (∀ b3 s3, balloc1 s2 = .ok (b3, s3) → b3 ≠ mapSys.usable_start + ((10 : Nat) : Int)) :=
  have hG : Geom mapSys := ⟨by decide, by decide, by decide, by decide, by decide⟩
  have hc : mapBit mapSys 10 = false := by decide!
  have hl : ∀ j, j < 10 → mapBit mapSys j = true := by decide!
  ⟨hG, hc, hl, by decide!,
    balloc1_lowest_clear mapSys 10 hG (fun _ _ _ => rfl) (Or.inr (by decide)) (by decide) hc hl⟩

/-- The list without repetitions, every element at the place of its first occurrence. -/
theorem dedup_first_step (pre rest : List Int) (b : Int) (h : b ∈ pre) :
    ((pre ++ b :: rest).reverse.dedup).reverse = ((pre ++ rest).reverse.dedup).reverse := by
  congr 1
  simp only [List.reverse_append, List.reverse_cons, List.append_assoc, List.singleton_append]
  rw [List.dedup_append, List.dedup_append rest.reverse]
  rw [List.dedup_cons_of_mem (by simpa using h)]

/-- What a sequence of `append` calls that does not overflow leaves in `log.blks`. -/
theorem log_appends_blks : ∀ (l : List Int) (s s2 : Sys), s.logblks.Nodup →
    log_appends s l = .ok s2 →
    s2.logblks = ((s.logblks ++ l).reverse.dedup).reverse ∧ s2.loglen = s.loglen := by
  intro l
  induction l with
  | nil =>
    intro s s2 hnd h
    simp only [log_appends, Except.ok.injEq] at h
    subst h
    refine ⟨?_, rfl⟩
    rw [List.append_nil, List.Nodup.dedup (List.nodup_reverse.2 hnd), List.reverse_reverse]
  | cons b rest ih =>
    intro s s2 hnd h
    simp only [log_appends, bind_eq_ok] at h
    obtain ⟨s1, h1, h2⟩ := h
    unfold log_append at h1
    by_cases hb : b ∈ s.logblks
    · rw [if_pos hb] at h1
      simp only [Except.ok.injEq] at h1
      subst h1
      obtain ⟨e1, e2⟩ := ih s s2 hnd h2
      exact ⟨by rw [e1, dedup_first_step _ _ _ hb], e2⟩
    · rw [if_neg hb] at h1
      split at h1
      · cases h1
      · simp only [Except.ok.injEq] at h1
        subst h1
        obtain ⟨e1, e2⟩ := ih _ s2 (by
          show (s.logblks ++ [b]).Nodup
          rw [List.nodup_append]
          refine ⟨hnd, List.nodup_singleton b, ?_⟩
          intro x hx hx2
          simp only [List.mem_singleton] at hx2
          subst hx2
          exact hb hx) h2
        refine ⟨?_, e2⟩
        rw [e1]
        show ((s.logblks ++ [b] ++ rest).reverse.dedup).reverse = _
        rw [List.append_assoc, List.singleton_append]

/-- C28.  After a sequence `l` of `log_t.append` calls on an empty log that does not overflow
the log, `log.blks` has no block id twice, holds exactly the ids of `l`, and lists them in the
order of their first occurrence in `l` (it is `l` with every later repetition removed);
appending an id that is in the list returns and leaves the state as it is. -/
theorem log_appends_spec (s s2 : Sys) (l : List Int) (h0 : s.logblks = [])
    (h : log_appends s l = .ok s2) :
    s2.logblks.Nodup ∧ (∀ x, x ∈ s2.logblks ↔ x ∈ l) ∧
      s2.logblks = (l.reverse.dedup).reverse ∧
      (∀ b, b ∈ s2.logblks → log_append s2 b = .ok s2) := by
  obtain ⟨e1, _⟩ := log_appends_blks l s s2 (by rw [h0]; exact List.nodup_nil) h
  rw [h0, List.nil_append] at e1
  refine ⟨?_, ?_, e1, ?_⟩
  · rw [e1]
    exact List.nodup_reverse.2 (List.nodup_dedup _)
  · intro x
    rw [e1]
    simp
  · intro b hb
    unfold log_append
    rw [if_pos hb]

set_option maxRecDepth 100000 in
/-- Witness for C28: on the empty log of `fsSys`, the appends of 70, 71, 70, 72, 71 leave the
list 70, 71, 72. -/
theorem log_appends_spec_witness :
    fsSys.logblks = [] ∧
    (runOr (log_appends fsSys [70, 71, 70, 72, 71]) fsSys).logblks = [70, 71, 72] ∧
    (runOr (log_appends fsSys [70, 71, 70, 72, 71]) fsSys).logblks.Nodup :=
  ⟨rfl, by decide!,
    (log_appends_spec fsSys _ [70, 71, 70, 72, 71] rfl (run_ok _ fsSys (by decide!))).1⟩

set_option maxRecDepth 100000 in
/-- C29 (code_bug): on the empty file of `fileSys` (size 0, no blocks), a `Write` without the
append flag whose only source slice is empty, at offset 1000, is answered with count 0 and
error 0, allocates no block (all direct addresses and the indirect address stay 0), but
leaves the size 1000, in the cache and in the inode block.  A `Read` at offset 0 afterwards
aborts the kernel with "bad block".  With offset 0 the size stays 0, and with no source slice
at all the size stays 0 too. -/
theorem empty_write_grows_file :
    fileIdm.icache.size = 0 ∧
    observe (serve_write fileIdm fileSys { dbufs := [[]], offset := 1000 })
        (fun r => (r.1.count, r.1.err, r.2.1.icache.size)) = some (0, 0, 1000) ∧
    observe (serve_write fileIdm fileSys { dbufs := [[]], offset := 1000 })
        (fun r => ((List.range 10).map r.2.1.icache.addrs, r.2.1.icache.indir))
      = some ([0, 0, 0, 0, 0, 0, 0, 0, 0, 0], 0) ∧
    observe (serve_write fileIdm fileSys { dbufs := [[]], offset := 1000 })
        (fun r => inoField (bufdata r.2.2 64) 1 2) = some 1000 ∧
    abortMsg (emptyWriteThenRead 1000 0) = some "bad block" ∧
    observe (serve_write fileIdm fileSys { dbufs := [[]], offset := 0 })
        (fun r => (r.1.count, r.1.err, r.2.1.icache.size)) = some (0, 0, 0) ∧
    observe (serve_write fileIdm fileSys { dbufs := [], offset := 1000 })
        (fun r => (r.1.count, r.1.err, r.2.1.icache.size)) = some (0, 0, 0) := by
  decide!

set_option maxRecDepth 100000 in
/-- C30 (code_bug): on `linkFS`, with the root directory as working directory, `fs_unlink` of
each of the paths `""`, `/` and `//` aborts the kernel with "child cannot be empty string"
(`addchild`), and `fs_mkdir` of each of them aborts with "icreate with no name" (`icreate`);
`fs_rename` of the same paths returns `-ENOENT`. -/
theorem empty_name_aborts :
    abortF (fs_unlink mkdev0 8 1 linkFS [] 256) = some "child cannot be empty string" ∧
    abortF (fs_unlink mkdev0 8 1 linkFS pRoot 256) = some "child cannot be empty string" ∧
    abortF (fs_unlink mkdev0 8 1 linkFS pSlashSlash 256)
      = some "child cannot be empty string" ∧
    abortF (fs_mkdir mkdev0 8 1 linkFS [] 256) = some "icreate with no name" ∧
    abortF (fs_mkdir mkdev0 8 1 linkFS pRoot 256) = some "icreate with no name" ∧
    abortF (fs_mkdir mkdev0 8 1 linkFS pSlashSlash 256) = some "icreate with no name" ∧
    observeF (fs_rename mkdev0 8 1 linkFS pRoot pA 256) (fun x => x.1) = some (-ENOENT) ∧
    observeF (fs_rename mkdev0 8 1 linkFS [] pSlashSlash 256) (fun x => x.1)
      = some (-ENOENT) := by
  decide!


/-- A call of `chk_evict` that returns leaves at most 1024 buffers. -/
theorem chk_evict_le {β : Type} (dirty : β → Bool) (given : Int → Bool)
    (blocks b2 : List (Int × β)) (h : chk_evict dirty given blocks = .ok b2) :
    b2.length ≤ 1024 := by
  unfold chk_evict at h
  by_cases hl : blocks.length ≤ 1024
  · rw [if_pos hl] at h
    simp only [Except.ok.injEq] at h
    subst h
    exact hl
  · rw [if_neg hl] at h
    simp only at h
    split at h
    · cases h
    · rename_i hle
      simp only [Except.ok.injEq] at h
      subst h
      omega

/-- Every step of `bc_daemon` leaves at most 1025 buffers in the cache: it adds a buffer only
after `chk_evict`. -/
theorem bc_step_blocks_le (st st2 : bcdaemon_t) (e : bcev) (h0 : st.blocks.length ≤ 1025)
    (h : bc_daemon_step st e = .ok st2) : st2.blocks.length ≤ 1025 := by
  cases e with
  | req b a =>
    simp only [bc_daemon_step] at h
    split at h
    · cases h
    · split at h
      · simp only [Except.ok.injEq] at h
        subst h
        unfold bc_read
        split
        · exact h0
        · exact h0
      · simp only [Except.ok.injEq] at h
        subst h
        exact h0
  | done bfin =>
    simp only [bc_daemon_step] at h
    split at h
    · cases h
    · split at h
      · cases h
      · cases hw : st.waiters bfin with
        | nil =>
          simp only [qpop, hw, Except.ok.injEq] at h
          subst h
          exact h0
        | cons c q =>
          simp only [qpop, hw, bc_send, Except.ok.injEq] at h
          subst h
          exact h0
  | bnew rd order =>
    simp only [bc_daemon_step] at h
    split at h
    · cases h
    · cases hev : chk_evict (fun b : cbuf => st.dirty b.id) (fun i => (st.given i).getD false)
          order with
      | error e =>
        rw [hev] at h
        cases h
      | ok blocks2 =>
        rw [hev] at h
        have hle := chk_evict_le _ _ order blocks2 hev
        have hf : (blocks2.filter (fun e => decide (e.1 ≠ int32 rd))).length ≤ 1024 :=
          le_trans (List.length_filter_le _ _) hle
        cases hw : st.waiters (int32 rd) with
        | nil =>
          simp only [ok_bind, qpop, hw] at h
          cases h
        | cons c q =>
          simp only [ok_bind, qpop, hw, bc_send, Except.ok.injEq] at h
          subst h
          show ((int32 rd, cbuf.mk st.nextid (int32 rd)) ::
            blocks2.filter (fun e => decide (e.1 ≠ int32 rd))).length ≤ 1025
          rw [List.length_cons]
          omega
  | mark id d =>
    simp only [bc_daemon_step, Except.ok.injEq] at h
    subst h
    exact h0

/-- In every state that `bc_daemon` reaches the cache holds at most 1025 buffers. -/
theorem bc_blocks_le : ∀ (evs : List bcev) (st st2 : bcdaemon_t), st.blocks.length ≤ 1025 →
    bc_daemon_from evs st = .ok st2 → st2.blocks.length ≤ 1025 := by
  intro evs
  induction evs with
  | nil =>
    intro st st2 h0 h
    simp only [bc_daemon_from, Except.ok.injEq] at h
    subst h
    exact h0
  | cons e es ih =>
    intro st st2 h0 h
    unfold bc_daemon_from at h
    split at h
    · simp only [bind_eq_ok] at h
      obtain ⟨st1, h1, h2⟩ := h
      exact ih st1 st2 (bc_step_blocks_le st st1 e h0 h1) h2
    · cases h

/-- C26.  For every cache state, whatever the representation of the buffers and the order of
the iteration: `chk_evict` returns the cache as it is when at most 1024 buffers are cached;
whenever it returns, the buffers that stay cached are unchanged and in their order, every
buffer that was removed is neither dirty nor given out, and of at most 1026 cached buffers at
most 2 have been removed.  In every state that `bc_daemon`, the only caller, reaches, at most
1025 buffers are cached, so that every call it makes removes at most 2 buffers. -/
theorem chk_evict_spec {β : Type} (dirty : β → Bool) (given : Int → Bool)
    (blocks : List (Int × β)) :
    (blocks.length ≤ 1024 → chk_evict dirty given blocks = .ok blocks) ∧
    (∀ b2, chk_evict dirty given blocks = .ok b2 →
      b2.Sublist blocks ∧
      (∀ e, e ∈ blocks → e ∉ b2 → dirty e.2 = false ∧ given e.1 = false) ∧
      (blocks.length ≤ 1026 → blocks.length ≤ b2.length + 2)) ∧
    (∀ (evs : List bcev) (st : bcdaemon_t) (order : List (Int × cbuf)),
      bc_daemon evs = .ok st → order.Perm st.blocks →
      order.length ≤ 1025 ∧
      ∀ b2, chk_evict (fun b => st.dirty b.id) (fun i => (st.given i).getD false) order = .ok b2 →
        order.length ≤ b2.length + 2) := by
  refine ⟨?_, fun b2 h => chk_evict_kept dirty given blocks b2 h, ?_⟩
  · intro h
    unfold chk_evict
    rw [if_pos h]
  · intro evs st order hrun hperm
    have hle : order.length ≤ 1025 := by
      rw [hperm.length_eq]
      exact bc_blocks_le evs bc_init st (by simp [bc_init]) hrun
    exact ⟨hle, fun b2 h => (chk_evict_kept _ _ order b2 h).2.2 (by omega)⟩

/-- When more than 1024 buffers are cached and the loop leaves at most 1024, `chk_evict`
returns what the loop leaves. -/
theorem chk_evict_runs (given : Int → Bool) (blocks : bcblocks)
    (h1 : ¬ blocks.length ≤ 1024)
    (h2 : ¬ (chk_evict_loop bbuf_t.dirty given blocks 2 blocks.length).length > 1024) :
    chk_evict bbuf_t.dirty given blocks
      = .ok (chk_evict_loop bbuf_t.dirty given blocks 2 blocks.length) := by
  unfold chk_evict
  rw [if_neg h1]
  simp only
  rw [if_neg h2]

set_option maxRecDepth 1000000 in
/-- Witness for C26: of 1026 clean buffers that are not given out, `chk_evict` removes the two
that the iteration visits first; a cache of 1024 buffers stays as it is; and after the events
`evsQueue` the cache of `bc_daemon` holds one buffer, which `chk_evict` keeps. -/
theorem chk_evict_spec_witness :
    cacheKeys (chk_evict bbuf_t.dirty (fun _ => false) (cleanCache 1026))
      = cacheKeys (.ok ((cleanCache 1026).drop 2)) ∧
    (cleanCache 1026).length ≤ 1026 ∧
    (cleanCache 1026).length
      ≤ (chk_evict_loop bbuf_t.dirty (fun _ => false) (cleanCache 1026) 2
          (cleanCache 1026).length).length + 2 ∧
    chk_evict bbuf_t.dirty (fun _ => false) (cleanCache 1024) = .ok (cleanCache 1024) ∧
    (bcState (bc_daemon evsQueue)).blocks.length = 1 ∧
    (bcState (bc_daemon evsQueue)).blocks.length ≤ 1025 := by
  have h1 : chk_evict bbuf_t.dirty (fun _ => false) (cleanCache 1026)
      = .ok (chk_evict_loop bbuf_t.dirty (fun _ => false) (cleanCache 1026) 2
          (cleanCache 1026).length) :=
    chk_evict_runs _ _ (by decide!) (by decide!)
  have h2 : (cleanCache 1026).length ≤ 1026 := by decide!
  have h3 : (cleanCache 1024).length ≤ 1024 := by decide!
  exact ⟨by decide!, h2,
    ((chk_evict_spec bbuf_t.dirty (fun _ => false) (cleanCache 1026)).2.1 _ h1).2.2 h2,
    (chk_evict_spec bbuf_t.dirty (fun _ => false) (cleanCache 1024)).1 h3, by decide!,
    ((chk_evict_spec bbuf_t.dirty (fun _ => false) (cleanCache 1026)).2.2 evsQueue
      (bcState (bc_daemon evsQueue)) (bcState (bc_daemon evsQueue)).blocks
      (bcState_ok _ (by decide!)) (List.Perm.refl _)).1⟩

set_option maxRecDepth 100000 in
/-- Counterexample to C27 as stated: in `fullLogSys` the layout is sound, nothing is held and
bit 10 is the lowest clear bit of the bitmap, but the log is full; `balloc1` sets the bit in
the buffer and then aborts the kernel in `log_write` with "log larger than log len". -/
theorem balloc1_lowest_clear_counterexample :
    Geom fullLogSys ∧ (∀ x, fullLogSys.given x = false) ∧
    mapBit fullLogSys 10 = false ∧ (∀ j, j < 10 → mapBit fullLogSys j = true) ∧
    (fullLogSys.logblks.length : Int) + 1 = fullLogSys.loglen ∧
    abortMsg (balloc1 fullLogSys) = some "log larger than log len" :=
  ⟨⟨by decide, by decide, by decide, by decide, by decide⟩, fun _ => rfl, by decide!,
    by decide!, by decide!, by decide!⟩

set_option maxRecDepth 100000 in
/-- Counterexample to C12 as stated: the inode `holeIdm` has size 1000 and no block, in a
state with a sound layout, sound block pointers and nothing held; `iread` of one byte at
offset 0 aborts the kernel with "bad block".  A `Write` of one empty slice at offset 1000 to
the empty file leaves the cache of its actor in this state. -/
theorem iread_spec_counterexample :
    Geom fileSys ∧ PtrWF holeIdm.icache fileSys ∧ Quiet fileSys ∧
    holeIdm.icache.size = 1000 ∧ fblock holeIdm.icache fileSys 0 = 0 ∧
    abortMsg (iread holeIdm fileSys [[0]] 0) = some "bad block" ∧
    observe (serve_write fileIdm fileSys { dbufs := [[]], offset := 1000 })
        (fun r => (r.2.1.icache.size, (List.range 10).map r.2.1.icache.addrs,
          r.2.1.icache.indir, r.2.1.icache.itype))
      = some (holeIdm.icache.size, (List.range 10).map holeIdm.icache.addrs,
          holeIdm.icache.indir, holeIdm.icache.itype) :=
  ⟨fileOK_file.geom, ptrWF_empty _ _ rfl (fun _ _ => rfl), fileOK_file.quiet, rfl, by decide!,
    by decide!, by decide!⟩

set_option maxRecDepth 100000 in
theorem dirWF_fullDir : DirWF rootIdm fullDirSys :=
  ⟨⟨by decide, by decide, by decide, by decide, by decide⟩,
    ptrWF_direct0 _ _ rfl (fun i h1 _ => by
      show (if i = 0 then (65 : Int) else 0) = 0
      rw [if_neg (by omega)]) ⟨⟨by decide, by decide⟩, by decide!⟩,
    fun _ _ => rfl, rfl, by decide, by decide,
    fun k hk => by
      have : k = 0 := by
        have h1 : (rootIdm.icache.size / 512).toNat = 1 := by decide
        omega
      subst this
      decide!⟩

set_option maxRecDepth 100000 in
theorem dirWF_fullDirMap : DirWF rootIdm fullDirMapSys :=
  ⟨⟨by decide, by decide, by decide, by decide, by decide⟩,
    ptrWF_direct0 _ _ rfl (fun i h1 _ => by
      show (if i = 0 then (65 : Int) else 0) = 0
      rw [if_neg (by omega)]) ⟨⟨by decide, by decide⟩, by decide!⟩,
    fun _ _ => rfl, rfl, by decide, by decide,
    fun k hk => by
      have : k = 0 := by
        have h1 : (rootIdm.icache.size / 512).toNat = 1 := by decide
        omega
      subst this
      decide!⟩

set_option maxRecDepth 100000 in
/-- Counterexample to C9 as stated: the root directory of `fullDirMapSys` is sound, has no
entry `a` and no empty slot, and no block of the device is free; `iinsert` of the name `a`
does not return 0 but aborts the kernel in `balloc` with "no free blocks". -/
theorem iinsert_spec_counterexample :
    DirWF rootIdm fullDirMapSys ∧ GoodName nameA ∧
    dirLookup (bufdata fullDirMapSys) (dirBlocks rootIdm.icache fullDirMapSys) nameA = none ∧
    dirEmpty (bufdata fullDirMapSys) (dirBlocks rootIdm.icache fullDirMapSys) 0 = none ∧
    abortMsg (iinsert rootIdm fullDirMapSys nameA 260) = some "no free blocks" :=
  ⟨dirWF_fullDirMap, goodName_a, by decide!, by decide!, by decide!⟩

set_option maxRecDepth 100000 in
theorem dirWF_fullMap : DirWF rootIdm fullMapSys :=
  ⟨⟨by decide, by decide, by decide, by decide, by decide⟩,
    ptrWF_direct0 _ _ rfl (fun i h1 _ => by
      show (if i = 0 then (65 : Int) else 0) = 0
      rw [if_neg (by omega)]) ⟨⟨by decide, by decide⟩, by decide!⟩,
    fun _ _ => rfl, rfl, by decide, by decide,
    fun k hk => by
      have : k = 0 := by
        have h1 : (rootIdm.icache.size / 512).toNat = 1 := by decide
        omega
      subst this
      decide!⟩

set_option maxRecDepth 100000 in
theorem inodeOK_fullMap : InodeOK rootIdm fullMapSys := by
  refine ⟨⟨⟨by decide, by decide⟩, by decide!⟩, by decide, by decide, ?_, ?_, ?_, ?_, ?_, ?_⟩
  · intro p
    rcases ptr_direct0_only rootIdm.icache fullMapSys rfl (fun i h1 _ => by
      show (if i = 0 then (65 : Int) else 0) = 0
      rw [if_neg (by omega)]) p with h | h
    · rw [h]; decide
    · rw [h]; decide
  all_goals first | (intro h; exact absurd rfl h) | (intro h; exact absurd h (by decide))

set_option maxRecDepth 100000 in
/-- Counterexample to C10 as stated: in `fullMapSys` the root directory and its inode slot are
sound, the directory has no entry `a`, and no block of the device is free; the request
`Create(a, FILE)` is not answered with error 0: `ialloc` needs a block for the new inode and
the kernel aborts in `balloc` with "no free blocks". -/
theorem serve_create_spec_counterexample :
    CreateReq createA ∧ DirWF rootIdm fullMapSys ∧ InodeOK rootIdm fullMapSys ∧
    GoodName createA.cr_name ∧
    dirLookup (bufdata fullMapSys) (dirBlocks rootIdm.icache fullMapSys) createA.cr_name
      = none ∧
    abortMsg (serve_create rootIdm fullMapSys createA) = some "no free blocks" :=
  ⟨createReq_a, dirWF_fullMap, inodeOK_fullMap, goodName_a, by decide!, by decide!⟩

theorem valOrF_ok {α : Type} (r : F α) (d : α) (h : abortF r = none) : r = .ok (valOrF r d) := by
  cases r with
  | ok a => rfl
  | error e => cases h

/-- The inner loop of "add children to sorted inums", whenever it ends without an error: the
children come back in their order, and `sorted` has gained the inums of the found ones. -/
theorem round_childs_inv (mkdev : Int → Int → Int) (ffuel : Nat) (pmems : List Int)
    (ppriv : Int) :
    ∀ (cs acc : List itxchild) (st : round_t) (fs : FS) (cs2 : List itxchild) (st2 : round_t)
      (fs2 : FS),
      round_childs mkdev ffuel pmems ppriv cs acc st fs = .ok ((0, cs2, st2), fs2) →
      RoundInv st →
      RoundInv st2 ∧ ∃ cs3, cs2 = acc ++ cs3 ∧
        ∀ x, x ∈ st2.sorted ↔ x ∈ st.sorted ∨ ∃ c, c ∈ cs3 ∧ c.found = true ∧ c.priv = x := by
  intro cs
  induction cs with
  | nil =>
    intro acc st fs cs2 st2 fs2 h hi
    simp only [round_childs, Except.ok.injEq, Prod.mk.injEq, true_and] at h
    obtain ⟨⟨rfl, rfl⟩, _⟩ := h
    exact ⟨hi, [], by simp, fun x => by simp⟩
  | cons c rest ih =>
    intro acc st fs cs2 st2 fs2 h hi
    unfold round_childs at h
    simp only [bind_eq_ok] at h
    obtain ⟨⟨a, fs1⟩, _, h⟩ := h
    dsimp only at h
    by_cases he : a.resp.err = -ENOENT
    · rw [if_pos he] at h
      by_cases hm : c.mustexist = true
      · rw [if_pos hm] at h
        simp only [bind_eq_ok] at h
        obtain ⟨_, _, _, _, h⟩ := h
        simp only [Except.ok.injEq, Prod.mk.injEq] at h
        rw [he] at h
        exact absurd h.1.1 (by decide)
      · rw [if_neg hm] at h
        obtain ⟨i1, cs3, i2, i3⟩ := ih _ _ _ _ _ _ h hi
        refine ⟨i1, { c with priv := 0, found := false, lchan := none } :: cs3,
          by rw [i2, List.append_assoc]; rfl, ?_⟩
        intro x
        rw [i3]
        simp
    · rw [if_neg he] at h
      by_cases h0 : a.resp.err = 0
      · rw [if_neg (by simp [h0])] at h
        obtain ⟨k1, k2, k3⟩ := roundInv_add hi.1 hi.2 a.resp.gnext
        obtain ⟨i1, cs3, i2, i3⟩ := ih _ _ _ _ _ _ h ⟨k1, k2⟩
        refine ⟨i1, { c with priv := a.resp.gnext, found := true, lchan := none } :: cs3,
          by rw [i2, List.append_assoc]; rfl, ?_⟩
        intro x
        rw [i3]
        simp only [k3, List.mem_cons, exists_eq_or_imp, true_and]
        constructor
        · rintro ((h1 | h1) | h1)
          · exact Or.inl h1
          · exact Or.inr (Or.inl h1.symm)
          · exact Or.inr (Or.inr h1)
        · rintro (h1 | h1 | h1)
          · exact Or.inl (Or.inl h1)
          · exact Or.inl (Or.inr h1.symm)
          · exact Or.inr h1
      · rw [if_pos h0] at h
        simp only [bind_eq_ok] at h
        obtain ⟨_, _, _, _, h⟩ := h
        simp only [Except.ok.injEq, Prod.mk.injEq] at h
        exact absurd h.1.1 h0

/-- The loop "add children to sorted inums", whenever it ends without an error: the parents
come back in their order with their inums, and `sorted` has gained the inums of the found
children. -/
theorem round_children_inv (mkdev : Int → Int → Int) (ffuel : Nat) (pmems : List Int) :
    ∀ (ps acc : List itxpar) (st : round_t) (fs : FS) (ps2 : List itxpar) (st2 : round_t)
      (fs2 : FS),
      round_children mkdev ffuel pmems ps acc st fs = .ok ((0, ps2, st2), fs2) →
      RoundInv st →
      RoundInv st2 ∧ ∃ ps3, ps2 = acc ++ ps3 ∧
        ps3.map (fun p => p.priv) = ps.map (fun p => p.priv) ∧
        ∀ x, x ∈ st2.sorted ↔ x ∈ st.sorted ∨
          ∃ p, p ∈ ps3 ∧ ∃ c, c ∈ p.childs ∧ c.found = true ∧ c.priv = x := by
  intro ps
  induction ps with
  | nil =>
    intro acc st fs ps2 st2 fs2 h hi
    simp only [round_children, Except.ok.injEq, Prod.mk.injEq, true_and] at h
    obtain ⟨⟨rfl, rfl⟩, _⟩ := h
    exact ⟨hi, [], by simp, rfl, fun x => by simp⟩
  | cons p rest ih =>
    intro acc st fs ps2 st2 fs2 h hi
    unfold round_children at h
    simp only [bind_eq_ok] at h
    obtain ⟨⟨⟨err, cs, st1⟩, fs1⟩, hc, h⟩ := h
    dsimp only at h
    by_cases h0 : err = 0
    · subst h0
      rw [if_neg (by simp)] at h
      obtain ⟨j1, cs3, j2, j3⟩ := round_childs_inv mkdev ffuel pmems p.priv _ _ _ _ _ _ _ hc hi
      obtain ⟨i1, ps3, i2, i3, i4⟩ := ih _ _ _ _ _ _ h j1
      refine ⟨i1, { p with childs := cs } :: ps3, by rw [i2, List.append_assoc]; rfl,
        by simp [i3], ?_⟩
      intro x
      rw [i4, j3]
      simp only [List.mem_cons, exists_eq_or_imp, j2, List.nil_append]
      constructor
      · rintro ((h1 | h1) | h1)
        · exact Or.inl h1
        · exact Or.inr (Or.inl h1)
        · exact Or.inr (Or.inr h1)
      · rintro (h1 | h1 | h1)
        · exact Or.inl (Or.inl h1)
        · exact Or.inl (Or.inr h1)
        · exact Or.inr h1
    · rw [if_pos h0] at h
      simp only [Except.ok.injEq, Prod.mk.injEq] at h
      exact absurd h.1.1 h0

/-- The lock loop handles the inums one after the other. -/
theorem round_locks_append (mkdev : Int → Int → Int) (ffuel : Nat) (pars : List itxpar) :
    ∀ (l1 l2 lch clk : List Int) (fs : FS),
      round_locks mkdev ffuel pars (l1 ++ l2) lch clk fs =
        (round_locks mkdev ffuel pars l1 lch clk fs >>= fun r =>
          round_locks mkdev ffuel pars l2 r.1.1 r.1.2 r.2) := by
  intro l1
  induction l1 with
  | nil => intro l2 lch clk fs; rfl
  | cons i rest ih =>
    intro l2 lch clk fs
    simp only [List.cons_append, round_locks]
    cases ensure_send mkdev ffuel fs i rtype_t.LOCK {} with
    | error e => rfl
    | ok r =>
      obtain ⟨a, fs1⟩ := r
      simp only [ok_bind]
      by_cases h : a.resp.err ≠ 0
      · simp only [if_pos h]
        rfl
      · simp only [if_neg h]
        exact ih _ _ _ _

/-- A `Lock` request that is answered: the actor now listens on its lock channel, and if it
ran before the request it listened on `idm.req`. -/
theorem lock_inv (mkdev : Int → Int → Int) (ffuel : Nat) (fs fs2 : FS) (i : Int)
    (a : answer_t) (h : ensure_send mkdev ffuel fs i rtype_t.LOCK {} = .ok (a, fs2)) :
    a.resp.err = 0 ∧ 0 < i ∧ fs2.locked = Function.update fs.locked i true ∧
      (fs.idms i ≠ none → fs.locked i = false) := by
  unfold ensure_send at h
  simp only [bind_eq_ok] at h
  obtain ⟨⟨idm, fs1⟩, he, h⟩ := h
  dsimp only at h
  unfold idaemon_ensure at he
  by_cases hi : i ≤ 0
  · rw [if_pos hi] at he; cases he
  rw [if_neg hi] at he
  have key : ∀ fs1 : FS, send mkdev ffuel fs1 i rtype_t.LOCK {} = .ok (a, fs2) →
      a.resp.err = 0 ∧ fs2.locked = Function.update fs1.locked i true ∧
        fs1.locked i = false := by
    intro fs1 h
    simp only [send, deliver, List.length_nil, Nat.zero_add] at h
    cases hd : fs1.idms i with
    | none => rw [hd] at h; cases h
    | some idm1 =>
      rw [hd] at h
      dsimp only at h
      cases hl : fs1.locked i with
      | true => simp [hl] at h
      | false =>
        simp only [hl, ne_eq, not_true_eq_false, if_false, Bool.false_eq_true, Except.ok.injEq,
          Prod.mk.injEq] at h
        obtain ⟨rfl, rfl⟩ := h
        exact ⟨rfl, rfl, rfl⟩
  cases hd : fs.idms i with
  | some idm0 =>
    rw [hd] at he
    simp only [Except.ok.injEq, Prod.mk.injEq] at he
    obtain ⟨_, rfl⟩ := he
    obtain ⟨k1, k2, k3⟩ := key _ h
    exact ⟨k1, by omega, k2, fun _ => k3⟩
  | none =>
    rw [hd] at he
    simp only [bind_eq_ok] at he
    obtain ⟨⟨idm1, s1⟩, _, he⟩ := he
    simp only [Except.ok.injEq, Prod.mk.injEq] at he
    obtain ⟨_, rfl⟩ := he
    obtain ⟨k1, k2, _⟩ := key _ h
    refine ⟨k1, by omega, ?_, fun hh => absurd rfl hh⟩
    rw [k2]
    simp

/-- The lock loop, whenever it returns: the keys of `lchans` are the inums in the order of
the requests, and exactly the actors of the inums have been switched to their lock
channels. -/
theorem round_locks_inv (mkdev : Int → Int → Int) (ffuel : Nat) (pars : List itxpar) :
    ∀ (l lch clk : List Int) (fs : FS) (lch2 clk2 : List Int) (fs2 : FS),
      round_locks mkdev ffuel pars l lch clk fs = .ok ((lch2, clk2), fs2) →
      l.Nodup → (∀ i, i ∈ l → i ∉ lch) →
      lch2 = lch ++ l ∧ (∀ i, i ∈ l → 0 < i) ∧
        (∀ q, fs2.locked q = (decide (q ∈ l) || fs.locked q)) ∧
        (∀ i, i ∈ l → fs.idms i ≠ none → fs.locked i = false) := by
  intro l
  induction l with
  | nil =>
    intro lch clk fs lch2 clk2 fs2 h _ _
    simp only [round_locks, Except.ok.injEq, Prod.mk.injEq] at h
    obtain ⟨⟨rfl, _⟩, rfl⟩ := h
    exact ⟨by simp, fun i hi => absurd hi (List.not_mem_nil i), fun q => by simp,
      fun i hi => absurd hi (List.not_mem_nil i)⟩
  | cons i rest ih =>
    intro lch clk fs lch2 clk2 fs2 h hn hl
    unfold round_locks at h
    simp only [bind_eq_ok] at h
    obtain ⟨⟨a, fs1⟩, he, h⟩ := h
    dsimp only at h
    obtain ⟨k1, k2, k3, k4⟩ := lock_inv mkdev ffuel fs fs1 i a he
    rw [if_neg (by simp [k1])] at h
    rw [List.nodup_cons] at hn
    have hlch : setKey lch i = lch ++ [i] := by
      unfold setKey
      rw [if_neg (hl i (List.mem_cons_self _ _))]
    obtain ⟨i1, i2, i3, i4⟩ := ih _ _ _ _ _ _ h hn.2 (by
      intro j hj
      rw [hlch]
      simp only [List.mem_append, List.mem_singleton, not_or]
      exact ⟨hl j (List.mem_cons_of_mem _ hj), fun hh => hn.1 (by rw [← hh]; exact hj)⟩)
    refine ⟨by rw [i1, hlch]; simp, ?_, ?_, ?_⟩
    · intro j hj
      rcases List.mem_cons.1 hj with rfl | hj
      · exact k2
      · exact i2 j hj
    · intro q
      rw [i3, k3]
      by_cases hq : q = i
      · subst hq; simp
      · simp [Function.update_noteq hq, hq]
    · intro j hj hr
      rcases List.mem_cons.1 hj with rfl | hj
      · exact k4 hr
      · have hne : j ≠ i := fun hh => hn.1 (by rw [← hh]; exact hj)
        by_cases hrun : fs1.idms j ≠ none
        · have := i4 j hj hrun
          rw [k3, Function.update_noteq hne] at this
          exact this
        · exfalso
          apply hrun
          -- a request to another actor leaves the actor of `j` running
          unfold ensure_send at he
          simp only [bind_eq_ok] at he
          obtain ⟨⟨idm, fs0⟩, he0, he⟩ := he
          dsimp only at he
          have h0 : fs0.idms j = fs.idms j := by
            unfold idaemon_ensure at he0
            by_cases hi : i ≤ 0
            · rw [if_pos hi] at he0; cases he0
            rw [if_neg hi] at he0
            cases hd : fs.idms i with
            | some idm0 =>
              rw [hd] at he0
              simp only [Except.ok.injEq, Prod.mk.injEq] at he0
              rw [← he0.2]
            | none =>
              rw [hd] at he0
              simp only [bind_eq_ok] at he0
              obtain ⟨⟨idm1, s1⟩, _, he0⟩ := he0
              simp only [Except.ok.injEq, Prod.mk.injEq] at he0
              rw [← he0.2]
              simp [Function.update_noteq hne]
          have h1 : fs1.idms = fs0.idms := by
            simp only [send, deliver, List.length_nil, Nat.zero_add] at he
            cases hd : fs0.idms i with
            | none => rw [hd] at he; cases he
            | some idm1 =>
              rw [hd] at he
              dsimp only at he
              cases hlk : fs0.locked i with
              | true => simp [hlk] at he
              | false =>
                simp only [hlk, ne_eq, not_true_eq_false, if_false, Bool.false_eq_true,
                  Except.ok.injEq, Prod.mk.injEq] at he
                rw [← he.2]
          rw [h1, h0]
          exact hr

/-- The lock loop returns when the actors of the inums run and listen on `idm.req`. -/
theorem round_locks_total (mkdev : Int → Int → Int) (ffuel : Nat) (pars : List itxpar) :
    ∀ (l lch clk : List Int) (fs : FS), l.Nodup →
      (∀ i, i ∈ l → 0 < i ∧ fs.idms i ≠ none ∧ fs.locked i = false) →
      ∃ r, round_locks mkdev ffuel pars l lch clk fs = .ok r := by
  intro l
  induction l with
  | nil => intro lch clk fs _ _; exact ⟨_, rfl⟩
  | cons i rest ih =>
    intro lch clk fs hn h
    obtain ⟨h1, h2, h3⟩ := h i (List.mem_cons_self _ _)
    rw [List.nodup_cons] at hn
    cases hd : fs.idms i with
    | none => exact absurd hd h2
    | some idm =>
      have he : ensure_send mkdev ffuel fs i rtype_t.LOCK {} =
          .ok (answer_t.mk { err := 0 } none,
            { fs with locked := Function.update fs.locked i true }) := by
        simp only [ensure_send, idaemon_ensure, if_neg (not_le.2 h1), hd, ok_bind, send, deliver,
          List.length_nil, Nat.zero_add, h3, ne_eq, not_true_eq_false, if_false,
          Bool.false_eq_true]
      obtain ⟨r, hr⟩ := ih (setKey lch i)
        (if pars.any (fun p => p.childs.any (fun c => c.priv = i)) then setKey clk i else clk)
        { fs with locked := Function.update fs.locked i true } hn.2 (by
          intro j hj
          obtain ⟨j1, j2, j3⟩ := h j (List.mem_cons_of_mem _ hj)
          have hne : j ≠ i := fun hh => hn.1 (by rw [← hh]; exact hj)
          exact ⟨j1, j2, by simp [Function.update_noteq hne, j3]⟩)
      refine ⟨r, ?_⟩
      simp only [round_locks, he, ok_bind, ne_eq, not_true_eq_false, if_false]
      exact hr

/-- C5.  One iteration of the loop `for !done` of `inodetx_t.lockall`, from the loop "remove
duplicate par inums" to the lock loop, for every transaction, every state of the actors and
every order in which the two loops over the map `dpaths` and the loops over the maps `childs`
visit their entries (`pars1` is the order of the first loop, `pars2` with its lists of
children the order of the second).  When the iteration reaches the lock loop (no child
lookup ended it with an error), with `pars3` the parents and their children as the lookups
left them:

* the slice `sorted` the lock loop walks is strictly ascending;
* an inum occurs in it exactly once if it is the inum of a parent or of a found child, however
  many paths and children resolve to it, and not at all otherwise;
* the iteration of `lockall` is the lock loop on that slice followed by the rest of the
  iteration;
* the lock loop sends its requests one by one in the order of the slice: at every position,
  it is the loop on the inums before, then one `Lock` request to the inum at the position
  (with the panic "lock must succeed" on an error), then the loop on the inums after;
* whenever the lock loop returns, the keys of `lchans` in the order in which the requests
  were answered are the slice, exactly the actors of the slice have been switched to their
  lock channels, and every one of them that ran before listened on `idm.req` until then;
* the lock loop returns when the actors of the slice run and listen on `idm.req` (no other
  operation holds them). -/
theorem lockall_lock_order (mkdev : Int → Int → Int) (ffuel : Nat) (pmems : List Int)
    (pars1 pars2 pars3 : List itxpar) (st3 : round_t) (fs fs3 : FS)
    (hperm : (pars1.map (fun p => p.priv)).Perm (pars2.map (fun p => p.priv)))
    (hrun : round_children mkdev ffuel pmems pars2 [] (round_pars pars1 {}) fs
      = .ok ((0, pars3, st3), fs3)) :
    (sortInts st3.sorted).Sorted (· < ·) ∧
    (∀ x, (((∃ p, p ∈ pars3 ∧ p.priv = x) ∨
          (∃ p, p ∈ pars3 ∧ ∃ c, c ∈ p.childs ∧ c.found = true ∧ c.priv = x)) →
        (sortInts st3.sorted).count x = 1) ∧
      (¬ ((∃ p, p ∈ pars3 ∧ p.priv = x) ∨
          (∃ p, p ∈ pars3 ∧ ∃ c, c ∈ p.childs ∧ c.found = true ∧ c.priv = x)) →
        (sortInts st3.sorted).count x = 0)) ∧
    (∀ n, pars1 = pars2 →
      lockall_rounds mkdev ffuel pmems (n + 1) pars2 fs =
        (round_locks mkdev ffuel pars3 (sortInts st3.sorted) [] [] fs3 >>= fun r =>
          set_lchans r.1.1 pars3 >>= fun pars4 =>
            verify_pars mkdev ffuel
              (round_unlockall mkdev ffuel pars4 r.1.1 r.1.2 st3.cmems)
              (round_unlockfail mkdev ffuel pars4 r.1.1 r.1.2 st3.cmems pmems) pars4 r.2
              >>= fun v =>
                match v.1 with
                | verdict_t.good => .ok ((0, pars4), v.2)
                | verdict_t.failed e => .ok ((e, pars4), v.2)
                | verdict_t.again => lockall_rounds mkdev ffuel pmems n pars4 v.2)) ∧
    (∀ l1 i l2, sortInts st3.sorted = l1 ++ i :: l2 →
      round_locks mkdev ffuel pars3 (sortInts st3.sorted) [] [] fs3 =
        (round_locks mkdev ffuel pars3 l1 [] [] fs3 >>= fun r1 =>
          ensure_send mkdev ffuel r1.2 i rtype_t.LOCK {} >>= fun r2 =>
            if r2.1.resp.err ≠ 0 then .error "lock must succeed"
            else round_locks mkdev ffuel pars3 l2 (setKey r1.1.1 i)
              (if pars3.any (fun p => p.childs.any (fun c => c.priv = i))
                then setKey r1.1.2 i else r1.1.2) r2.2)) ∧
    (∀ lch clk fs4,
      round_locks mkdev ffuel pars3 (sortInts st3.sorted) [] [] fs3 = .ok ((lch, clk), fs4) →
      lch = sortInts st3.sorted ∧
      (∀ q, fs4.locked q = (decide (q ∈ sortInts st3.sorted) || fs3.locked q)) ∧
      (∀ i, i ∈ sortInts st3.sorted → 0 < i ∧ (fs3.idms i ≠ none → fs3.locked i = false))) ∧
    ((∀ i, i ∈ sortInts st3.sorted → 0 < i ∧ fs3.idms i ≠ none ∧ fs3.locked i = false) →
      ∃ clk fs4, round_locks mkdev ffuel pars3 (sortInts st3.sorted) [] [] fs3
        = .ok ((sortInts st3.sorted, clk), fs4)) := by
  have hinit : RoundInv ({} : round_t) := ⟨List.nodup_nil, fun x => by simp⟩
  obtain ⟨h1, _, h2⟩ := round_pars_spec pars1 {} hinit
  obtain ⟨h3, ps3, h4, h5, h6⟩ :=
    round_children_inv mkdev ffuel pmems pars2 [] _ fs pars3 st3 fs3 hrun h1
  rw [List.nil_append] at h4
  subst h4
  have hperm2 : (sortInts st3.sorted).Perm st3.sorted := List.perm_insertionSort _ _
  have hnd : (sortInts st3.sorted).Nodup := hperm2.nodup_iff.2 h3.1
  have hsorted : (sortInts st3.sorted).Sorted (· < ·) :=
    (List.sorted_insertionSort _ _).lt_of_le hnd
  have hmem : ∀ x, x ∈ sortInts st3.sorted ↔ ((∃ p, p ∈ pars3 ∧ p.priv = x) ∨
      (∃ p, p ∈ pars3 ∧ ∃ c, c ∈ p.childs ∧ c.found = true ∧ c.priv = x)) := by
    intro x
    rw [hperm2.mem_iff, h6, h2]
    have e : x ∈ pars1.map (fun p => p.priv) ↔ ∃ p, p ∈ pars3 ∧ p.priv = x := by
      rw [hperm.mem_iff, ← h5, List.mem_map]
    simp only [List.not_mem_nil, false_or, e]
  refine ⟨hsorted, ?_, ?_, ?_, ?_, ?_⟩
  · intro x
    exact ⟨fun h => List.count_eq_one_of_mem hnd ((hmem x).2 h),
      fun h => List.count_eq_zero_of_not_mem (fun hx => h ((hmem x).1 hx))⟩
  · intro n he
    subst he
    simp only [lockall_rounds, hrun, ok_bind, ne_eq, not_true_eq_false, if_false]
  · intro l1 i l2 hl
    rw [hl, round_locks_append]
    cases round_locks mkdev ffuel pars3 l1 [] [] fs3 with
    | error e => rfl
    | ok r => rfl
  · intro lch clk fs4 h
    obtain ⟨k1, k2, k3, k4⟩ := round_locks_inv mkdev ffuel pars3 _ _ _ _ _ _ _ h hnd
      (fun i _ => List.not_mem_nil i)
    exact ⟨by rw [k1, List.nil_append], k3, fun i hi => ⟨k2 i hi, k4 i hi⟩⟩
  · intro h
    obtain ⟨⟨⟨lch, clk⟩, fs4⟩, hr⟩ := round_locks_total mkdev ffuel pars3 _ [] [] fs3 hnd h
    obtain ⟨k1, _⟩ := round_locks_inv mkdev ffuel pars3 _ _ _ _ _ _ _ hr hnd
      (fun i _ => List.not_mem_nil i)
    rw [List.nil_append] at k1
    subst k1
    exact ⟨clk, fs4, hr⟩

set_option maxRecDepth 100000 in
/-- C5 on the transaction `txWide` of `linkFS`: two parent paths that are both the root
directory (inode 256) with the children `a` and `b` (both inode 257), `.` (inode 256) and `n`
(not found), the second loop visiting the parents in the other order.  The slice is
`[256, 257]`, and the lock loop returns with `Lock` requests answered by exactly these two
actors, in this order. -/
theorem lockall_lock_order_witness :
    widePars.map (fun p => p.priv) = [256, 256] ∧
    observeF wideRound (fun x => x.1.1) = some 0 ∧
    widePars3.map (fun p => (p.priv, p.childs.map (fun c => (c.found, c.priv)))) =
      [(256, []), (256, [(true, 257), (true, 257), (true, 256), (false, 0)])] ∧
    sortInts wideSt3.sorted = [256, 257] ∧
    ([255, 256, 257, 258].map wideFS3.locked) = [false, false, false, false] ∧
    ∃ clk fs4, round_locks mkdev0 8 widePars3 (sortInts wideSt3.sorted) [] [] wideFS3
        = .ok (([256, 257], clk), fs4) ∧
      ([255, 256, 257, 258].map fs4.locked) = [false, true, true, false] := by
  have h := valOrF_ok wideRound ((0, [], {}), wideFS) (by decide!)
  have h0 : (valOrF wideRound ((0, [], {}), wideFS)).1.1 = 0 := by decide!
  have hrun : round_children mkdev0 8 widePmems widePars.reverse [] (round_pars widePars {})
      wideFS = .ok ((0, widePars3, wideSt3), wideFS3) :=
    h.trans (congrArg Except.ok (Prod.ext (Prod.ext h0 rfl) rfl))
  have hl : sortInts wideSt3.sorted = [256, 257] := by decide!
  obtain ⟨_, _, _, _, c5, c6⟩ := lockall_lock_order mkdev0 8 widePmems widePars
    widePars.reverse widePars3 wideSt3 wideFS wideFS3
    (by rw [List.map_reverse]; exact (List.reverse_perm _).symm) hrun
  obtain ⟨clk, fs4, hr⟩ := c6 (by
    intro i hi
    rw [hl] at hi
    simp only [List.mem_cons, List.mem_singleton, List.not_mem_nil, or_false] at hi
    rcases hi with rfl | rfl
    · exact ⟨by decide, Option.ne_none_iff_isSome.2 (by decide!), by decide!⟩
    · exact ⟨by decide, Option.ne_none_iff_isSome.2 (by decide!), by decide!⟩)
  obtain ⟨_, k2, _⟩ := c5 _ _ _ hr
  refine ⟨by decide!, by decide!, by decide!, hl, by decide!, clk, fs4, ?_, ?_⟩
  · rw [← hl]
    exact hr
  · simp only [List.map_cons, List.map_nil, k2, hl]
    have e : ([255, 256, 257, 258].map wideFS3.locked) = [false, false, false, false] := by
      decide!
    simp only [List.map_cons, List.map_nil, List.cons.injEq, and_true] at e
    obtain ⟨e1, e2, e3, e4⟩ := e
    rw [e1, e2, e3, e4]
    decide

/-! ## `ifree` returns -/

/-- `log_write` returns when the block is in the log or the log has room for it; the log
grows by at most one block. -/
theorem log_write_total (s : Sys) (b : Int)
    (h : b ∈ s.logblks ∨ (s.logblks.length : Int) + 1 < s.loglen) :
    ∃ s2, log_write s b = .ok s2 ∧ bufdata s2 = bufdata s ∧ s2.given = s.given ∧
      Consts s s2 ∧ s2.loglen = s.loglen ∧ s2.logblks.length ≤ s.logblks.length + 1 := by
  obtain ⟨s2, h2⟩ := log_write_room s b h
  obtain ⟨k1, k2, k3, k4, _⟩ := log_write_ok h2
  refine ⟨s2, h2, k1, k2, k3, k4, ?_⟩
  unfold log_write log_append at h2
  simp only at h2
  by_cases hm : b ∈ s.logblks
  · rw [if_pos hm] at h2
    simp only [Except.ok.injEq] at h2
    subst h2
    exact Nat.le_succ _
  · rw [if_neg hm] at h2
    split at h2
    · cases h2
    · simp only [Except.ok.injEq] at h2
      subst h2
      simp

/-- `bfree` returns for a block that has a bit in the free map when the blocks of the free
map are not held and the log has room; it changes neither the layout nor the held blocks, and
the log grows by at most one block. -/
theorem bfree_total (s : Sys) (b : Int) (hG : Geom s) (hb : InMap s b)
    (hbm : ∀ x, s.free_start ≤ x → x < s.free_start + s.free_len → s.given x = false)
    (hroom : (s.logblks.length : Int) + 1 < s.loglen) :
    ∃ s2, bfree s b = .ok s2 ∧ Layout s s2 ∧ s2.loglen = s.loglen ∧ s2.given = s.given ∧
      s2.logblks.length ≤ s.logblks.length + 1 := by
  have h1 := hG.free_pos
  have h2 := hG.free_below
  have h3 := hG.len_nonneg
  have h4 := hG.range
  obtain ⟨h6, h7⟩ := hb
  have hbit : 0 ≤ b - s.usable_start := by omega
  have e1 : goDiv (b - s.usable_start) (512 * 8) = (b - s.usable_start) / 4096 :=
    goDiv_nonneg _ _ hbit (by norm_num)
  have e2 : goMod (b - s.usable_start) (512 * 8) = (b - s.usable_start) % 4096 :=
    goMod_nonneg _ _ hbit (by norm_num)
  have e3 : goDiv ((b - s.usable_start) % 4096) 8 = (b - s.usable_start) % 4096 / 8 :=
    goDiv_nonneg _ _ (by omega) (by norm_num)
  have hf0 : 0 ≤ s.free_start + (b - s.usable_start) / 4096 := by omega
  have hf1 : s.free_start + (b - s.usable_start) / 4096 < s.free_start + s.free_len := by
    omega
  have hg := hbm _ (by omega) hf1
  unfold bfree
  rw [if_neg (by omega), if_neg (by omega)]
  simp only [e1, e2, e3]
  rw [if_neg (by omega), bread_eq _ _ hf0 (by omega) hg]
  simp only [ok_bind]
  rw [if_neg (by omega)]
  obtain ⟨s3, k0, k1, k2, k3, k4, k5⟩ := log_write_total
    (setdata (breadSt s (s.free_start + (b - s.usable_start) / 4096))
      (s.free_start + (b - s.usable_start) / 4096)
      (Function.update (bufdata (breadSt s (s.free_start + (b - s.usable_start) / 4096))
          (s.free_start + (b - s.usable_start) / 4096))
        ((b - s.usable_start) % 4096 / 8).toNat
        (clearbit (bufdata (breadSt s (s.free_start + (b - s.usable_start) / 4096))
            (s.free_start + (b - s.usable_start) / 4096)
            ((b - s.usable_start) % 4096 / 8).toNat)
          (toUInt64 (goMod ((b - s.usable_start) % 4096) 8)))))
    (s.free_start + (b - s.usable_start) / 4096) (Or.inr hroom)
  rw [k0]
  simp only [ok_bind]
  rw [brelse_eq _ _ hf0 (by
    rw [k2]
    show Function.update s.given _ true _ = true
    simp)]
  simp only [ok_bind]
  have hgiv : (brelseSt s3 (s.free_start + (b - s.usable_start) / 4096)).given = s.given := by
    show Function.update s3.given _ false = s.given
    rw [k2]
    funext x
    show Function.update (Function.update s.given _ true) _ false x = s.given x
    by_cases hx : x = s.free_start + (b - s.usable_start) / 4096
    · subst hx; simp [hg]
    · simp [Function.update_noteq hx]
  have hlay : Layout s (brelseSt s3 (s.free_start + (b - s.usable_start) / 4096)) :=
    ⟨k3.superb, k3.fst, k3.flen, k3.usable⟩
  refine ⟨_, rfl, ?_, ?_, ?_, ?_⟩
  · split
    · exact ⟨hlay.superb, hlay.fst, hlay.flen, hlay.usable⟩
    · exact hlay
  · split
    · exact k4
    · exact k4
  · split
    · exact hgiv
    · exact hgiv
  · split
    · exact k5
    · exact k5

/-- The loop of `ifree` that frees the collected blocks returns when every block has a bit in
the free map and the log has room for one block per freed block. -/
theorem ifree_bfree_total : ∀ (l : List Int) (s : Sys), Geom s → (∀ b, b ∈ l → InMap s b) →
    (∀ x, s.free_start ≤ x → x < s.free_start + s.free_len → s.given x = false) →
    (s.logblks.length : Int) + l.length < s.loglen →
    ∃ s2, ifree_bfree l s = .ok s2 := by
  intro l
  induction l with
  | nil => intro s _ _ _ _; exact ⟨s, rfl⟩
  | cons b rest ih =>
    intro s hG hl hbm hroom
    simp only [List.length_cons, Nat.cast_add, Nat.cast_one] at hroom
    obtain ⟨s2, k0, k1, k2, k3, k4⟩ := bfree_total s b hG (hl b (List.mem_cons_self _ _)) hbm
      (by omega)
    obtain ⟨s3, h3⟩ := ih s2 (geom_layout hG k1)
      (fun x hx => by
        have := hl x (List.mem_cons_of_mem _ hx)
        unfold InMap at this ⊢
        rw [k1.usable, k1.flen]
        exact this)
      (fun x hx1 hx2 => by
        rw [k3]
        rw [k1.fst] at hx1 hx2
        rw [k1.flen] at hx2
        exact hbm x hx1 hx2)
      (by
        rw [k2]
        have : (s2.logblks.length : Int) ≤ s.logblks.length + 1 := by exact_mod_cast k4
        omega)
    exact ⟨s3, by simp only [ifree_bfree, k0, ok_bind]; exact h3⟩

/-- The closure `alldead` returns when the type fields of the inode block are inode types. -/
theorem alldead_total (blk : Block)
    (ht : ∀ i, i < 4 → ¬ (inoField blk i 0 < I_FIRST ∨ inoField blk i 0 > I_LAST)) :
    ∀ (n i : Nat), i + n ≤ 4 → ∃ d, alldead blk n (i : Int) = .ok d := by
  intro n
  induction n with
  | zero => intro i _; exact ⟨true, rfl⟩
  | succ n ih =>
    intro i h
    simp only [alldead]
    rw [inode_itype_eq _ _ (by omega), if_neg (ht i (by omega))]
    simp only [ok_bind]
    by_cases hd : inoField blk i 0 ≠ I_INVALID
    · rw [if_pos hd]
      exact ⟨false, rfl⟩
    · rw [if_neg hd]
      have := ih (i + 1) (by omega)
      simp only [Nat.cast_add, Nat.cast_one] at this
      exact this

/-- The blocks the loops of `ifree` over the direct addresses collect are direct addresses of
the inode that are not 0. -/
theorem ifree_direct_mem (ic : icache_t) : ∀ (n i : Nat) (allb : List Int) (b : Int),
    i + n ≤ 10 → b ∈ ifree_direct ic n i allb →
      b ∈ allb ∨ ∃ k, k < 10 ∧ ic.addrs k = b ∧ b ≠ 0 := by
  intro n
  induction n with
  | zero => intro i allb b _ h; exact Or.inl h
  | succ n ih =>
    intro i allb b hi h
    simp only [ifree_direct] at h
    rcases ih (i + 1) _ b (by omega) h with h1 | h1
    · unfold ifree_add at h1
      by_cases hz : ic.addrs i ≠ 0
      · rw [if_pos hz] at h1
        rcases List.mem_append.1 h1 with h2 | h2
        · exact Or.inl h2
        · simp only [List.mem_singleton] at h2
          subst h2
          exact Or.inr ⟨i, by omega, rfl, hz⟩
      · rw [if_neg hz] at h1
        exact Or.inl h1
    · exact Or.inr h1

theorem ifree_direct_length (ic : icache_t) : ∀ (n i : Nat) (allb : List Int),
    (ifree_direct ic n i allb).length ≤ allb.length + n := by
  intro n
  induction n with
  | zero => intro i allb; exact Nat.le_refl _
  | succ n ih =>
    intro i allb
    simp only [ifree_direct]
    refine le_trans (ih _ _) ?_
    unfold ifree_add
    split
    · simp; omega
    · omega

/-- The loop of `ifree` along the chain of indirect blocks returns, with the state as it
was, when the chain ends within `fuel` blocks. -/
theorem ifree_chain_total (idm : idaemon_t) (s : Sys) (hG : Geom s)
    (hwf : PtrWF idm.icache s) (hq : Quiet s) :
    ∀ (m fuel j : Nat) (allb : List Int), m ≤ fuel → chainZ idm.icache s (j + m) = 0 →
      ∃ allb2, ifree_chain idm fuel (chainZ idm.icache s j) allb s = .ok (allb2, s) ∧
        allb2.length ≤ allb.length + m ∧
        ∀ b, b ∈ allb2 → b ∈ allb ∨ (b = idm.icache.indir ∧ b ≠ 0) := by
  intro m
  induction m with
  | zero =>
    intro fuel j allb _ hz
    rw [Nat.add_zero] at hz
    refine ⟨allb, ?_, Nat.le_refl _, fun b hb => Or.inl hb⟩
    cases fuel with
    | zero => simp [ifree_chain, hz]
    | succ f => simp [ifree_chain, hz]
  | succ m ih =>
    intro fuel j allb hf hz
    by_cases hj : chainZ idm.icache s j = 0
    · refine ⟨allb, ?_, by omega, fun b hb => Or.inl hb⟩
      cases fuel with
      | zero => simp [ifree_chain, hj]
      | succ f => simp [ifree_chain, hj]
    · cases fuel with
      | zero => omega
      | succ f =>
        have hv : Valid s (chainZ idm.icache s j) := by
          have := hwf.valid (cpos j)
          rw [ptr_cpos] at this
          exact this hj
        obtain ⟨v0, v1, _⟩ := valid_range hG hv
        have hg : s.given (chainZ idm.icache s j) = false := hq _ hv.1.1
        have hnext : chainZ idm.icache s (j + 1) = rdb (bufdata s (chainZ idm.icache s j)) 63 := by
          simp only [chainZ, hj, if_false]
          rfl
        have hst : brelseSt (breadSt s (chainZ idm.icache s j)) (chainZ idm.icache s j) = s := by
          unfold brelseSt breadSt
          have : Function.update (Function.update s.given (chainZ idm.icache s j) true)
              (chainZ idm.icache s j) false = s.given := by
            funext x
            by_cases hx : x = chainZ idm.icache s j
            · subst hx; simp [hg]
            · simp [Function.update_noteq hx]
          simp only [this]
        have hi0 : idm.icache.indir ≠ 0 := by
          intro h0
          exact hj (chainZ_zero idm.icache s 0 h0 j (Nat.zero_le _))
        obtain ⟨allb2, i1, i2, i3⟩ := ih f (j + 1) (ifree_add allb idm.icache.indir)
          (by omega) (by rw [← hz]; congr 1; omega)
        refine ⟨allb2, ?_, ?_, ?_⟩
        · simp only [ifree_chain, hj, not_not, if_false, ne_eq, not_true_eq_false]
          rw [bread_eq _ _ v0 v1 hg]
          simp only [ok_bind, bufdata_breadSt]
          have hr := readn_rdb (bufdata s (chainZ idm.icache s j)) 63 (by norm_num)
            (by norm_num)
          simp only [Int.reduceMul, Int.toNat_ofNat] at hr
          rw [show (63 * 8 : Int) = 504 by norm_num]
          rw [hr]
          simp only [liftE_ok, ok_bind]
          rw [brelse_eq _ _ v0 (by
            show Function.update s.given _ true _ = true
            simp)]
          simp only [ok_bind]
          rw [hst]
          have e63 : Int.toNat 63 = 63 := rfl
          rw [e63, ← hnext]
          exact i1
        · refine le_trans i2 ?_
          unfold ifree_add
          rw [if_pos hi0]
          simp
          omega
        · intro b hb
          rcases i3 b hb with h1 | h1
          · unfold ifree_add at h1
            rw [if_pos hi0] at h1
            rcases List.mem_append.1 h1 with h2 | h2
            · exact Or.inl h2
            · simp only [List.mem_singleton] at h2
              exact Or.inr ⟨h2, by rw [h2]; exact hi0⟩
          · exact Or.inr h1

/-- `ifree` returns for an inode with sound block pointers in a sound state when the chain of
indirect blocks ends within `fuel` blocks, the type fields of the inode block are inode types
and the log has room for one block per freed block and the inode block. -/
theorem ifree_total (fuel : Nat) (idm : idaemon_t) (s : Sys) (io n : Nat) (hG : Geom s)
    (hwf : PtrWF idm.icache s) (hq : Quiet s)
    (hbm : ∀ x, s.free_start ≤ x → x < s.free_start + s.free_len → s.given x = false)
    (hino : InMap s idm.blkno) (hio : idm.ioff = (io : Int)) (hio3 : io ≤ 3)
    (ht : ∀ i, i < 4 → ¬ (inoField (bufdata s idm.blkno) i 0 < I_FIRST ∨
      inoField (bufdata s idm.blkno) i 0 > I_LAST))
    (hn : n ≤ fuel) (hz : chainZ idm.icache s n = 0)
    (hroom : (s.logblks.length : Int) + 12 + n < s.loglen) :
    ∃ idm2 s2, ifree fuel idm s = .ok (idm2, s2) := by
  obtain ⟨allb, c1, c2, c3⟩ := ifree_chain_total idm s hG hwf hq n fuel 0
    (ifree_direct idm.icache 10 0 []) hn (by rw [Nat.zero_add]; exact hz)
  have c1' : ifree_chain idm fuel idm.icache.indir (ifree_direct idm.icache 10 0 []) s
      = .ok (allb, s) := c1
  obtain ⟨p0, p1, _⟩ := inMap_pos hG hino
  have hg : s.given idm.blkno = false := hq _ hino.1
  have hlen : allb.length ≤ 10 + n := by
    have := ifree_direct_length idm.icache 10 0 []
    simp only [List.length_nil, Nat.zero_add] at this
    omega
  have hmem : ∀ b, b ∈ allb → InMap s b := by
    intro b hb
    rcases c3 b hb with h1 | ⟨h1, h2⟩
    · rcases ifree_direct_mem idm.icache 10 0 [] b (by omega) h1 with h3 | ⟨k, hk, h4, h5⟩
      · cases h3
      · have := hwf.valid (Pos.direct k)
        simp only [ptr, hk, if_true, h4] at this
        exact (this h5).1
    · have := hwf.valid Pos.root
      simp only [ptr] at this
      rw [h1]
      exact (this (by rw [← h1]; exact h2)).1
  obtain ⟨ch, hch⟩ := icache_flushto_total { idm.icache with itype := I_INVALID }
    (bufdata s idm.blkno) io hio3 (ht io (by omega))
    (show ¬ (I_INVALID < I_FIRST ∨ I_INVALID > I_LAST) by decide)
  have ht2 : ∀ i, i < 4 →
      ¬ (inoField (inoFlush (bufdata s idm.blkno) io { idm.icache with itype := I_INVALID }) i 0
          < I_FIRST ∨
        inoField (inoFlush (bufdata s idm.blkno) io { idm.icache with itype := I_INVALID }) i 0
          > I_LAST) := by
    intro i hi
    by_cases hie : i = io
    · subst hie
      rw [inoFlush_type _ _ _ (show -2 ^ 63 ≤ I_INVALID by decide)
        (show I_INVALID < 2 ^ 63 by decide)]
      exact (show ¬ (I_INVALID < I_FIRST ∨ I_INVALID > I_LAST) by decide)
    · have e : inoField (inoFlush (bufdata s idm.blkno) io
          { idm.icache with itype := I_INVALID }) i 0 = inoField (bufdata s idm.blkno) i 0 := by
        unfold inoField
        exact inoFlush_other _ _ _ _ (by omega)
      rw [e]
      exact ht i hi
  obtain ⟨dead, hdead⟩ := alldead_total _ ht2 4 0 (by omega)
  simp only [Nat.cast_zero] at hdead
  unfold ifree
  simp only [c1', ok_bind]
  rw [bread_eq _ _ (by omega) p1 hg]
  simp only [ok_bind, bufdata_breadSt]
  rw [hio, hch]
  simp only [liftE_ok, ok_bind, hdead]
  cases dead with
  | true =>
    simp only [if_true, ok_bind]
    rw [brelse_eq _ _ (by omega) (by
      show Function.update s.given idm.blkno true idm.blkno = true
      simp)]
    simp only [ok_bind]
    obtain ⟨s2, h2⟩ := ifree_bfree_total (ifree_add allb idm.blkno)
      (brelseSt (setdata (breadSt s idm.blkno) idm.blkno
        (inoFlush (bufdata s idm.blkno) io { idm.icache with itype := I_INVALID })) idm.blkno)
      (geom_layout hG ⟨rfl, rfl, rfl, rfl⟩)
      (by
        intro b hb
        unfold ifree_add at hb
        split at hb
        · rcases List.mem_append.1 hb with h | h
          · exact hmem b h
          · simp only [List.mem_singleton] at h
            rw [h]
            exact hino
        · exact hmem b hb)
      (by
        intro x hx1 hx2
        show Function.update (Function.update s.given idm.blkno true) idm.blkno false x = false
        by_cases hx : x = idm.blkno
        · subst hx; simp
        · simp only [Function.update_noteq hx]
          exact hbm x hx1 hx2)
      (by
        show ((s.logblks.length : Nat) : Int) + (ifree_add allb idm.blkno).length < s.loglen
        have : (ifree_add allb idm.blkno).length ≤ allb.length + 1 := by
          unfold ifree_add
          split
          · simp
          · omega
        omega)
    rw [h2]
    exact ⟨_, _, rfl⟩
  | false =>
    simp only [Bool.false_eq_true, if_false]
    obtain ⟨s3, k0, k1, k2, k3, k4, k5⟩ := log_write_total
      (setdata (breadSt s idm.blkno) idm.blkno
        (inoFlush (bufdata s idm.blkno) io { idm.icache with itype := I_INVALID })) idm.blkno
      (Or.inr (by
        show ((s.logblks.length : Nat) : Int) + 1 < s.loglen
        omega))
    rw [k0]
    simp only [ok_bind]
    rw [brelse_eq _ _ (by omega) (by
      rw [k2]
      show Function.update s.given idm.blkno true idm.blkno = true
      simp)]
    simp only [ok_bind]
    have hlay : Layout s (brelseSt s3 idm.blkno) := ⟨k3.superb, k3.fst, k3.flen, k3.usable⟩
    obtain ⟨s2, h2⟩ := ifree_bfree_total allb (brelseSt s3 idm.blkno) (geom_layout hG hlay)
      (fun b hb => (inMap_layout hlay b).2 (hmem b hb))
      (by
        intro x hx1 hx2
        show Function.update s3.given idm.blkno false x = false
        rw [k2]
        show Function.update (Function.update s.given idm.blkno true) idm.blkno false x = false
        by_cases hx : x = idm.blkno
        · subst hx; simp
        · simp only [Function.update_noteq hx]
          refine hbm x ?_ ?_
          · have := hlay.fst
            rw [← this]; exact hx1
          · have e1 := hlay.fst
            have e2 := hlay.flen
            rw [← e1, ← e2]; exact hx2)
      (by
        show ((s3.logblks.length : Nat) : Int) + allb.length < s3.loglen
        rw [k4]
        have : (s3.logblks.length : Int) ≤ s.logblks.length + 1 := by
          have := k5
          show ((s3.logblks.length : Nat) : Int) ≤ ((s.logblks.length : Nat) : Int) + 1
          exact_mod_cast this
        show ((s3.logblks.length : Nat) : Int) + allb.length < s.loglen
        omega)
    rw [h2]
    exact ⟨_, _, rfl⟩

theorem fileOK_unlinked : FileOK unlinkedIdm fileSys :=
  ⟨⟨by decide, by decide, by decide, by decide, by decide⟩,
    ptrWF_empty _ _ rfl (fun _ _ => rfl), fun _ _ => rfl, by decide,
    ⟨⟨by decide, by decide⟩, by decide!⟩, by decide, by decide,
    fun p => by rw [ptr_empty unlinkedIdm.icache fileSys rfl (fun _ _ => rfl) p]; decide⟩

set_option maxRecDepth 100000 in
theorem fileOK_unlinked_full : FileOK unlinkedIdm fileLogFullSys :=
  ⟨⟨by decide, by decide, by decide, by decide, by decide⟩,
    ptrWF_empty _ _ rfl (fun _ _ => rfl), fun _ _ => rfl, by decide,
    ⟨⟨by decide, by decide⟩, by decide!⟩, by decide, by decide,
    fun p => by rw [ptr_empty unlinkedIdm.icache fileLogFullSys rfl (fun _ _ => rfl) p]; decide⟩

/-- C6.  `case REFDEC` of `idaemonize` for every actor state `idm`, every state of the
device, every `RefDec` request `r` and every bound `fuel` of the loop of `ifree`; `idmd` is
the actor after the decrement `idm.memref--` or `idm.icache.links--`.

* The decrement is Go's: it subtracts 1 from every counter above the least `int`, and takes
  the least `int` to the greatest one.
* If a counter is negative after the decrement the kernel aborts with "negative links".
* Whenever the request is answered, the actor terminates exactly when both counters are 0
  after the decrement, both counters are at least 0, and they are the counters of the actor
  after the request.
* A `memref` decrement that leaves the counters at least 0 and not both 0 is answered, the
  actor runs on, and nothing but the counter changes.
* An `fsref` decrement that leaves the counters at least 0 and not both 0 is answered, and
  the actor runs on, when `iupdate` can run: the inode block can be read, the inode types on
  the device and in the cache are valid, and the log has room for the inode block.
* A decrement that leaves both counters 0 is answered, and the actor terminates as an invalid
  inode, when `ifree` can run: the layout and the block pointers of the inode are sound, no
  block of the free map and no block with a bit in the free map is held, the inode block has
  a bit in the free map and holds inode types, the chain of indirect blocks ends after `n`
  blocks, `fuel` is at least `n`, and the log has room for `12 + n` blocks. -/
theorem serve_refdec_spec (fuel : Nat) (idm idmd : idaemon_t) (s : Sys) (r : ireq_t)
    (hdec : idmd = if r.memref = true then { idm with memref := goDec idm.memref }
      else { idm with icache := { idm.icache with links := goDec idm.icache.links } }) :
    ((∀ x : Int, -2 ^ 63 < x → goDec x = x - 1) ∧ goDec (-2 ^ 63) = 2 ^ 63 - 1) ∧
    ((idmd.icache.links < 0 ∨ idmd.memref < 0) →
      serve_refdec fuel idm s r = .error ("negative links", s)) ∧
    (∀ resp term idm2 s2, serve_refdec fuel idm s r = .ok ((resp, term), idm2, s2) →
      (term = true ↔ idmd.icache.links = 0 ∧ idmd.memref = 0) ∧
      0 ≤ idmd.icache.links ∧ 0 ≤ idmd.memref ∧
      idm2.icache.links = idmd.icache.links ∧ idm2.memref = idmd.memref) ∧
    (r.memref = true → 0 ≤ idmd.icache.links → 0 ≤ idmd.memref →
      (idmd.icache.links ≠ 0 ∨ idmd.memref ≠ 0) →
      serve_refdec fuel idm s r = .ok (({}, false), idmd, s)) ∧
    (r.memref = false → 0 ≤ idmd.icache.links → 0 ≤ idmd.memref →
      (idmd.icache.links ≠ 0 ∨ idmd.memref ≠ 0) →
      0 ≤ idm.ioff → idm.ioff < 4 → 0 ≤ idm.blkno → idm.blkno < 2 ^ 31 →
      s.given idm.blkno = false →
      ¬ (inoField (bufdata s idm.blkno) idm.ioff.toNat 0 < I_FIRST ∨
        inoField (bufdata s idm.blkno) idm.ioff.toNat 0 > I_LAST) →
      ¬ (idm.icache.itype < I_FIRST ∨ idm.icache.itype > I_LAST) →
      (idm.blkno ∈ s.logblks ∨ (s.logblks.length : Int) + 1 < s.loglen) →
      ∃ s2, serve_refdec fuel idm s r = .ok (({}, false), idmd, s2)) ∧
    (idmd.icache.links = 0 → idmd.memref = 0 →
      Geom s → PtrWF idm.icache s → Quiet s →
      (∀ x, s.free_start ≤ x → x < s.free_start + s.free_len → s.given x = false) →
      InMap s idm.blkno → 0 ≤ idm.ioff → idm.ioff < 4 →
      (∀ i, i < 4 → ¬ (inoField (bufdata s idm.blkno) i 0 < I_FIRST ∨
        inoField (bufdata s idm.blkno) i 0 > I_LAST)) →
      ∀ n, n ≤ fuel → chainZ idm.icache s n = 0 →
      (s.logblks.length : Int) + 12 + n < s.loglen →
      ∃ s2, serve_refdec fuel idm s r =
        .ok (({}, true), { idmd with icache := { idmd.icache with itype := I_INVALID } }, s2))
    := by
  have hrun : serve_refdec fuel idm s r =
      (if idmd.icache.links < 0 ∨ idmd.memref < 0 then .error ("negative links", s)
      else if idmd.icache.links ≠ 0 ∨ idmd.memref ≠ 0 then
        (if r.memref = true then .ok (({}, false), idmd, s)
        else iupdate idmd s >>= fun s2 => .ok (({}, false), idmd, s2))
      else (do
        let (idm2, s) ← ifree fuel idmd s
        .ok (({}, true), idm2, s))) := by
    subst hdec
    unfold serve_refdec irefdown
    cases r.memref with
    | true =>
      simp only [if_true]
      split
      · rfl
      · split
        · rfl
        · cases ifree fuel _ s <;> rfl
    | false =>
      simp only [Bool.false_eq_true, if_false]
      split
      · rfl
      · split
        · cases iupdate _ s <;> rfl
        · cases ifree fuel _ s <;> rfl
  refine ⟨⟨?_, ?_⟩, ?_, ?_, ?_, ?_, ?_⟩
  · intro x hx
    unfold goDec
    rw [if_neg (by omega)]
  · unfold goDec
    rw [if_pos rfl]
  · intro hneg
    rw [hrun, if_pos hneg]
  · intro resp term idm2 s2 h
    rw [hrun] at h
    by_cases hneg : idmd.icache.links < 0 ∨ idmd.memref < 0
    · rw [if_pos hneg] at h
      cases h
    rw [if_neg hneg] at h
    have h0 : 0 ≤ idmd.icache.links ∧ 0 ≤ idmd.memref := by omega
    by_cases hnz : idmd.icache.links ≠ 0 ∨ idmd.memref ≠ 0
    · rw [if_pos hnz] at h
      have key : term = false ∧ idm2 = idmd := by
        by_cases hm : r.memref = true
        · rw [if_pos hm] at h
          simp only [Except.ok.injEq, Prod.mk.injEq] at h
          exact ⟨h.1.2.symm, h.2.1.symm⟩
        · rw [if_neg hm] at h
          simp only [bind_eq_ok] at h
          obtain ⟨s3, _, h⟩ := h
          simp only [Except.ok.injEq, Prod.mk.injEq] at h
          exact ⟨h.1.2.symm, h.2.1.symm⟩
      obtain ⟨rfl, rfl⟩ := key
      refine ⟨?_, h0.1, h0.2, rfl, rfl⟩
      constructor
      · intro hh; cases hh
      · intro hh; omega
    · rw [if_neg hnz] at h
      simp only [bind_eq_ok] at h
      obtain ⟨⟨idm3, s3⟩, hf, h⟩ := h
      simp only [Except.ok.injEq, Prod.mk.injEq] at h
      obtain ⟨⟨_, rfl⟩, rfl, _⟩ := h
      have := ifree_idm fuel idmd idm3 s s3 hf
      subst this
      refine ⟨?_, h0.1, h0.2, rfl, rfl⟩
      constructor
      · intro _; omega
      · intro _; rfl
  · intro hm h1 h2 hnz
    rw [hrun, if_neg (by omega), if_pos hnz, if_pos hm]
  · intro hm h1 h2 hnz g1 g2 g3 g4 g5 g6 g7 g8
    have e1 : idmd.blkno = idm.blkno := by subst hdec; rw [hm]; rfl
    have e2 : idmd.ioff = idm.ioff := by subst hdec; rw [hm]; rfl
    have e3 : idmd.icache.itype = idm.icache.itype := by subst hdec; rw [hm]; rfl
    obtain ⟨s2, h2⟩ := iupdate_total idmd s idm.ioff.toNat (by rw [e2]; omega) (by omega)
      (by rw [e1]; exact g3) (by rw [e1]; exact g4) (by rw [e1]; exact g5)
      (by rw [e1]; exact g6) (by rw [e3]; exact g7) (by rw [e1]; exact g8)
    refine ⟨s2, ?_⟩
    rw [hrun, if_neg (by omega), if_pos hnz, if_neg (by rw [hm]; simp), h2]
    rfl
  · intro hl hm hG hwf hq hbm hino g1 g2 ht n hn hz hroom
    have e1 : idmd.blkno = idm.blkno := by subst hdec; split <;> rfl
    have e2 : idmd.ioff = idm.ioff := by subst hdec; split <;> rfl
    have e4 : idmd.icache.indir = idm.icache.indir := by subst hdec; split <;> rfl
    have e5 : idmd.icache.addrs = idm.icache.addrs := by subst hdec; split <;> rfl
    obtain ⟨idm2, s2, h2⟩ := ifree_total fuel idmd s idm.ioff.toNat n hG
      (ptrWF_icache_congr _ _ e4 e5 hwf) hq hbm (by rw [e1]; exact hino)
      (by rw [e2]; omega) (by omega) (by rw [e1]; exact ht) hn
      (by
        rw [chainZ_congr idm.icache idmd.icache s s e4 (fun _ _ => rfl)]
        exact hz) hroom
    have := ifree_idm fuel idmd idm2 s s2 h2
    subst this
    refine ⟨s2, ?_⟩
    rw [hrun, if_neg (by omega), if_neg (by omega), h2]
    rfl

set_option maxRecDepth 100000 in
/-- C6 on the empty file of the example file system.  The last reference to the unlinked
file is dropped: the request is answered, the actor terminates and its inode is invalid on
the device.  A reference to the file with one link is dropped: the request is answered and
the actor runs on with one link and no reference. -/
theorem serve_refdec_spec_witness :
    (∃ s2, serve_refdec 0 unlinkedIdm fileSys (mkrefdec true) =
        .ok (({}, true),
          { unlinkedIdm with memref := 0,
                             icache := { unlinkedIdm.icache with itype := I_INVALID } }, s2) ∧
      inode_itype (bufdata s2 64) 1 = .ok I_INVALID) ∧
    serve_refdec 0 fileIdm fileSys (mkrefdec true) =
      .ok (({}, false), { fileIdm with memref := 0 }, fileSys) := by
  have hF := fileOK_unlinked
  obtain ⟨s2, h2⟩ := (serve_refdec_spec 0 unlinkedIdm { unlinkedIdm with memref := 0 } fileSys
    (mkrefdec true) rfl).2.2.2.2.2 rfl rfl hF.geom hF.wf hF.quiet (fun _ _ _ => rfl)
    hF.ino_valid.1 (by decide) (by decide)
    (by
      intro i hi
      interval_cases i <;> decide!)
    0 (Nat.le_refl 0) rfl (by decide)
  refine ⟨⟨s2, h2, ?_⟩, ?_⟩
  · have e : observe (serve_refdec 0 unlinkedIdm fileSys (mkrefdec true))
        (fun x => (inode_itype (bufdata x.2.2 64) 1).toOption) = some (some I_INVALID) := by
      decide!
    rw [h2] at e
    simp only [observe, Option.some.injEq] at e
    cases hh : inode_itype (bufdata s2 64) 1 with
    | error m => rw [hh] at e; cases e
    | ok v =>
      rw [hh] at e
      simp only [Except.toOption, Option.some.injEq] at e
      rw [e]
  · exact (serve_refdec_spec 0 fileIdm { fileIdm with memref := 0 } fileSys
      (mkrefdec true) rfl).2.2.2.1 rfl (by decide) (by decide) (Or.inl (by decide))

set_option maxRecDepth 100000 in
/-- Counterexample to C6 as stated.  The unlinked file with one reference in memory is
sound in `fileLogFullSys`, where the running operation has logged 59 blocks; the `memref`
decrement leaves both counters 0, and the actor does not terminate: `ifree` records the inode
block and the kernel aborts in `log_append` with "log larger than log len".  And a link
count that is the least `int` is not made negative by the decrement: the `fsref` request is
answered and the actor runs on with the greatest `int` as its link count. -/
theorem serve_refdec_spec_counterexample :
    FileOK unlinkedIdm fileLogFullSys ∧
    unlinkedIdm.icache.links = 0 ∧ goDec unlinkedIdm.memref = 0 ∧
    abortMsg (serve_refdec 0 unlinkedIdm fileLogFullSys (mkrefdec true))
      = some "log larger than log len" ∧
    leastIdm.icache.links = -2 ^ 63 ∧
    observe (serve_refdec 0 leastIdm fileSys (mkrefdec false))
      (fun x => (x.1.2, x.2.1.icache.links, x.2.1.memref)) = some (false, 2 ^ 63 - 1, 1) :=
  ⟨fileOK_unlinked_full, rfl, by decide, by decide!, rfl, by decide!⟩

/-! ## Allocation returns -/

/-- What a successful `log_write` does to the log: it grows by at most one block. -/
theorem log_write_len {s s2 : Sys} {b : Int} (h : log_write s b = .ok s2) :
    s2.loglen = s.loglen ∧ s2.logblks.length ≤ s.logblks.length + 1 := by
  unfold log_write log_append at h
  simp only at h
  split at h
  · simp only [Except.ok.injEq] at h
    subst h
    exact ⟨rfl, Nat.le_succ _⟩
  · split at h
    · cases h
    · simp only [Except.ok.injEq] at h
      subst h
      exact ⟨rfl, by simp⟩

theorem balloc1_loop_log (fst : Int) : ∀ (n : Nat) (i : Int) (blk : Option Int) (s : Sys)
    (r : Option (Int × Nat × Nat) × Option Int) (s2 : Sys),
    balloc1_loop fst n i blk s = .ok (r, s2) →
    s2.loglen = s.loglen ∧ s2.logblks = s.logblks := by
  intro n
  induction n with
  | zero =>
    intro i blk s r s2 h
    simp only [balloc1_loop, Except.ok.injEq, Prod.mk.injEq] at h
    rw [← h.2]
    exact ⟨rfl, rfl⟩
  | succ n ih =>
    intro i blk s r s2 h
    unfold balloc1_loop at h
    simp only [bind_eq_ok] at h
    obtain ⟨s3, h3, s4, h4, r5, _, h6⟩ := h
    have e3 : s3.loglen = s.loglen ∧ s3.logblks = s.logblks := by
      cases blk with
      | none =>
        simp only [Except.ok.injEq] at h3
        subst h3
        exact ⟨rfl, rfl⟩
      | some bp =>
        simp only at h3
        obtain ⟨_, h3b⟩ := brelse_ok h3
        rw [h3b]
        exact ⟨rfl, rfl⟩
    obtain ⟨_, _, _, hb3⟩ := bread_ok h4
    have e4 : s4.loglen = s.loglen ∧ s4.logblks = s.logblks := by
      rw [hb3]
      exact e3
    cases r5 with
    | some ob =>
      obtain ⟨oct, bit⟩ := ob
      simp only [Except.ok.injEq, Prod.mk.injEq] at h6
      rw [← h6.2]
      exact e4
    | none =>
      simp only at h6
      obtain ⟨k1, k2⟩ := ih _ _ _ _ _ h6
      exact ⟨k1.trans e4.1, k2.trans e4.2⟩

/-- What a successful `balloc` does to the log: it grows by at most one block. -/
theorem balloc_len {s s2 : Sys} {b : Int} (h : balloc s = .ok (b, s2)) :
    s2.loglen = s.loglen ∧ s2.logblks.length ≤ s.logblks.length + 1 := by
  unfold balloc balloc1 at h
  split at h
  · cases h
  simp only [bind_eq_ok] at h
  obtain ⟨⟨⟨found, blk⟩, s1⟩, hl, h⟩ := h
  obtain ⟨k1, k2⟩ := balloc1_loop_log _ _ _ _ _ _ _ hl
  cases found with
  | none => cases h
  | some f =>
    cases blk with
    | none => cases h
    | some bb =>
      obtain ⟨blkn, oct, bit⟩ := f
      simp only [bind_eq_ok] at h
      obtain ⟨s5, h5, s6, h6, h7⟩ := h
      simp only [Except.ok.injEq, Prod.mk.injEq] at h7
      obtain ⟨j1, j2⟩ := log_write_len h5
      obtain ⟨_, h6b⟩ := brelse_ok h6
      rw [← h7.2, h6b]
      refine ⟨j1.trans k1, le_trans j2 ?_⟩
      show (setdata s1 bb _).logblks.length + 1 ≤ s.logblks.length + 1
      show s1.logblks.length + 1 ≤ s.logblks.length + 1
      rw [k2]

/-- `balloc` returns when the layout is sound, the blocks of the free map are not held, the
free map has a clear bit and the log has room for a block. -/
theorem balloc_total (s : Sys) (hG : Geom s)
    (hheld : ∀ i, 0 ≤ i → i < s.free_len → s.given (s.free_start + i) = false)
    (hfree : ∃ k : Nat, (k : Int) < s.free_len * 4096 ∧ mapBit s k = false)
    (hroom : (s.logblks.length : Int) + 1 < s.loglen) :
    ∃ b s2, balloc s = .ok (b, s2) ∧ s2.loglen = s.loglen ∧
      s2.logblks.length ≤ s.logblks.length + 1 := by
  classical
  have hk0 := Nat.find_spec hfree
  have hlow : ∀ j, j < Nat.find hfree → mapBit s j = true := by
    intro j hj
    have hmin := Nat.find_min hfree hj
    have hlt : (j : Int) < s.free_len * 4096 := by omega
    cases hb : mapBit s j with
    | true => rfl
    | false => exact absurd ⟨hlt, hb⟩ hmin
  obtain ⟨s2, h2⟩ := balloc1_run s (Nat.find hfree) hG hheld (Or.inr hroom) hk0.1 hk0.2 hlow
  have h3 : balloc s = .ok (s.usable_start + (Nat.find hfree : Nat), s2) := h2
  obtain ⟨j1, j2⟩ := balloc_len h3
  exact ⟨_, s2, h3, j1, j2⟩

/-- The loop of `offsetblk` over the direct slots returns when at most its last slot is
empty and `balloc` can run. -/
theorem offsetblk_direct_total : ∀ (n i : Nat) (idm : idaemon_t) (s : Sys), Geom s →
    (∀ x, 0 ≤ x → x < s.free_len → s.given (s.free_start + x) = false) →
    (∃ k : Nat, (k : Int) < s.free_len * 4096 ∧ mapBit s k = false) →
    (s.logblks.length : Int) + 1 < s.loglen →
    (∀ j, i ≤ j → j + 1 < i + n → idm.icache.addrs j ≠ 0) →
    ∃ idm2 s2, offsetblk_direct n i idm s = .ok (idm2, s2) ∧ s2.loglen = s.loglen ∧
      s2.logblks.length ≤ s.logblks.length + 1 := by
  intro n
  induction n with
  | zero => intro i idm s _ _ _ _ _; exact ⟨idm, s, rfl, rfl, Nat.le_succ _⟩
  | succ n ih =>
    intro i idm s hG hheld hfree hroom hnz
    unfold offsetblk_direct
    by_cases ha : idm.icache.addrs i ≠ 0
    · rw [if_pos ha]
      exact ih (i + 1) idm s hG hheld hfree hroom (fun j h1 h2 => hnz j (by omega) (by omega))
    · rw [if_neg ha]
      have hn : n = 0 := by
        by_contra hne
        exact ha (hnz i (le_refl _) (by omega))
      subst hn
      obtain ⟨b, s2, h2, j1, j2⟩ := balloc_total s hG hheld hfree hroom
      rw [h2]
      simp only [ok_bind, offsetblk_direct]
      exact ⟨_, s2, rfl, j1, j2⟩

/-- `offsetblk` for writing returns for an offset in the first ten blocks when the blocks
before the block of the offset are present and `balloc` can run. -/
theorem offsetblk_write_total (idm : idaemon_t) (s : Sys) (w : Nat) (off : Int) (hG : Geom s)
    (hw : off / 512 = (w : Int)) (hoff : 0 ≤ off) (hw10 : w < 10)
    (hheld : ∀ x, 0 ≤ x → x < s.free_len → s.given (s.free_start + x) = false)
    (hfree : ∃ k : Nat, (k : Int) < s.free_len * 4096 ∧ mapBit s k = false)
    (hroom : (s.logblks.length : Int) + 1 < s.loglen)
    (hnz : ∀ j, j < w → idm.icache.addrs j ≠ 0) :
    ∃ blkn idm2 s2, offsetblk idm s off true = .ok (blkn, idm2, s2) ∧ s2.loglen = s.loglen ∧
      s2.logblks.length ≤ s.logblks.length + 1 := by
  have hdv : goDiv off 512 = (w : Int) := by
    rw [goDiv_nonneg _ _ hoff (by norm_num)]
    exact hw
  obtain ⟨idm2, s2, h2, j1, j2⟩ := offsetblk_direct_total (w + 1) 0 idm s hG hheld hfree hroom
    (fun j _ h => hnz j (by omega))
  unfold offsetblk
  simp only [hdv, if_true]
  have hub : (if (w : Int) + 1 > NIADDRS then NIADDRS else (w : Int) + 1).toNat = w + 1 := by
    unfold NIADDRS
    rw [if_neg (by omega)]
    omega
  rw [hub, h2]
  simp only [ok_bind]
  rw [if_neg (by unfold NIADDRS; omega), if_neg (by omega)]
  exact ⟨_, _, _, rfl, j1, j2⟩

/-- `iinsert` of a new name into a directory without an empty slot returns when the
directory has fewer than ten blocks, the blocks of the free map are not held, a block is
free and the log has room for two blocks; the log grows by at most two blocks. -/
theorem iinsert_extend_total {idm : idaemon_t} {s : Sys} (hd : DirWF idm s) (name : Name)
    (v : Int) (hv1 : -2 ^ 63 ≤ v) (hv2 : v < 2 ^ 63)
    (h : dirLookup (bufdata s) (dirBlocks idm.icache s) name = none)
    (he : dirEmpty (bufdata s) (dirBlocks idm.icache s) 0 = none)
    (hsz : idm.icache.size < 5120)
    (hheld : ∀ x, 0 ≤ x → x < s.free_len → s.given (s.free_start + x) = false)
    (hfree : ∃ k : Nat, (k : Int) < s.free_len * 4096 ∧ mapBit s k = false)
    (hroom : (s.logblks.length : Int) + 2 < s.loglen) :
    ∃ idm2 s2, iinsert idm s name v = .ok (0, idm2, s2) ∧ s2.loglen = s.loglen ∧
      s2.logblks.length ≤ s.logblks.length + 2 := by
  have hS1d := bufdata_heldSt s (dirBlocks idm.icache s)
  have hS1c := consts_heldSt s (dirBlocks idm.icache s)
  have hG1 := geom_consts hd.geom hS1c
  have hwf1 := ptrWF_same hd.wf hS1d hS1c
  have hsn := hd.size_nonneg
  have hsm := hd.size_mod
  have hfp := hd.geom.free_pos
  have hfb := hd.geom.free_below
  have hheld1 : ∀ x, 0 ≤ x → x < (heldSt s (dirBlocks idm.icache s)).free_len →
      (heldSt s (dirBlocks idm.icache s)).given
        ((heldSt s (dirBlocks idm.icache s)).free_start + x) = false := by
    intro x hx0 hx1
    show (decide (s.free_start + x ∈ dirBlocks idm.icache s) || s.given (s.free_start + x))
      = false
    have hx1' : x < s.free_len := hx1
    rw [hheld x hx0 hx1', Bool.or_false, decide_eq_false_iff_not]
    intro hmem
    have := (dirBlocks_range hd _ hmem).2.1
    omega
  have hnzd : ∀ j, j < (idm.icache.size / 512).toNat → idm.icache.addrs j ≠ 0 := by
    intro j hj
    have hm := hd.mapped j hj
    have hj10 : j < 10 := by omega
    simp only [fblock, fpos, hj10, if_true, ptr] at hm
    exact hm
  obtain ⟨blkn, idm1, sO, hO, jO1, jO2⟩ := offsetblk_write_total idm
    (heldSt s (dirBlocks idm.icache s)) (idm.icache.size / 512).toNat idm.icache.size hG1
    (by omega) hsn (by omega) hheld1
    (by
      obtain ⟨k, hk1, hk2⟩ := hfree
      exact ⟨k, hk1, hk2⟩)
    (by
      show ((s.logblks.length : Nat) : Int) + 1 < s.loglen
      omega) hnzd
  obtain ⟨e1, e2, e3, e4, e5, e6⟩ := offsetblk_write_ok hG1 hwf1 hd.size_nonneg hO
  have hcO : Consts s sO := consts_trans hS1c e1.consts
  have hGO := geom_consts hd.geom hcO
  have hkm := e6 _ (le_refl (idm.icache.size / 512).toNat)
  have hold : ∀ k, k < (idm.icache.size / 512).toNat →
      fblock idm1.icache sO k = fblock idm.icache s k := by
    intro k hk
    have h0 : fblock idm.icache (heldSt s (dirBlocks idm.icache s)) k ≠ 0 := by
      rw [fblock_same hS1d]; exact hd.mapped k hk
    have := e1.keep (fpos k) h0
    rw [show ptr idm1.icache sO (fpos k) = fblock idm1.icache sO k from rfl] at this
    rw [this]
    exact fblock_same hS1d k
  have hnb : blkn ∉ dirBlocks idm.icache s := by
    intro hmem
    obtain ⟨k, hk, hkb⟩ := dirBlocks_mem hmem
    rw [← hold k hk, e5] at hkb
    have := fblock_inj e2 hkm hkb
    omega
  have hvb : Valid sO blkn := by
    rw [e5]
    exact fblock_valid e2 hkm
  obtain ⟨b0, b1, _⟩ := valid_range hGO hvb
  have hgb : sO.given blkn = false := by
    rw [e3]
    show (decide (blkn ∈ dirBlocks idm.icache s) || s.given blkn) = false
    rw [decide_eq_false hnb, Bool.false_or]
    apply hd.quiet
    have := hvb.1.1
    rw [hcO.usable] at this
    exact this
  have hzb : bufdata (setdata (breadSt sO blkn) blkn zeroBlock) blkn = zeroBlock := by
    rw [bufdata_setdata, Function.update_same]
  have hfn0 := filename_eq zeroBlock 0 (by omega)
  have hw := w_entry_eq zeroBlock 0 name v (by omega) hv1 hv2
  obtain ⟨s5, h5, _, hg5, _, hl5, hn5⟩ := log_write_total
    (setdata (setdata (breadSt sO blkn) blkn zeroBlock) blkn (putEntry zeroBlock 0 name v)) blkn
    (Or.inr (by
      show ((sO.logblks.length : Nat) : Int) + 1 < sO.loglen
      rw [jO1]
      have : (sO.logblks.length : Int) ≤ s.logblks.length + 1 := by
        have := jO2
        show ((sO.logblks.length : Nat) : Int) ≤ ((s.logblks.length : Nat) : Int) + 1
        exact_mod_cast this
      show ((sO.logblks.length : Nat) : Int) + 1 < s.loglen
      omega))
  have hg6 : (brelseSt s5 blkn).given = (heldSt s (dirBlocks idm.icache s)).given := by
    rw [brelseSt_given, hg5, setdata_given, setdata_given, breadSt_given,
      given_release _ _ hgb, e3]
  unfold iinsert
  rw [all_dirents_spec hd]
  simp only [ok_bind]
  rw [dirent_lookup_eq, bufdata_heldSt, h]
  simp only [liftE_ok, ok_bind, Bool.false_eq_true, if_false]
  unfold dirent_add
  rw [dirent_getempty_eq, bufdata_heldSt, he]
  simp only [liftE_ok, ok_bind, Bool.false_eq_true, if_false]
  rw [hO]
  simp only [ok_bind]
  rw [bread_eq _ _ b0 b1 hgb]
  simp only [ok_bind, hzb]
  rw [hfn0, nameAt_zeroBlock]
  simp only [liftE_ok, ok_bind, ne_eq, not_true_eq_false, if_false]
  cases hwf : w_filename zeroBlock ((0 : Nat) : Int) name with
  | error er =>
    rw [hwf] at hw
    cases hw
  | ok d2 =>
    rw [hwf] at hw
    simp only [ok_bind] at hw
    simp only [liftE_ok, ok_bind, hw, h5, if_true]
    rw [brelse_eq _ _ b0 (by
      rw [hg5]
      show Function.update sO.given blkn true blkn = true
      simp)]
    simp only [ok_bind]
    rw [dirent_brelse_spec _ _ (dirBlocks_nodup hd) (by
      intro x hx
      refine ⟨(dirBlocks_range hd x hx).1, ?_⟩
      rw [hg6]
      unfold heldSt
      simp [hx])]
    refine ⟨_, _, rfl, ?_, ?_⟩
    · show s5.loglen = s.loglen
      rw [hl5]
      exact jO1
    · show s5.logblks.length ≤ s.logblks.length + 2
      have : (setdata (setdata (breadSt sO blkn) blkn zeroBlock) blkn
          (putEntry zeroBlock 0 name v)).logblks.length = sO.logblks.length := rfl
      have j3 : sO.logblks.length ≤ s.logblks.length + 1 := jO2
      omega

/-- C9.  For a directory in a sound state, a name of 1 to 14 bytes that are not NUL and an
inode number `v`:

* if `dirent_lookup` finds the name, `iinsert(name, v)` returns `-EEXIST` and leaves the actor
  and the whole state as they are;
* otherwise, whenever `iinsert` returns: it returns 0; if the directory has an empty slot, the
  entry is written into the first one (block `i`, slot `j`: every earlier slot is occupied),
  nothing else in the blocks changes and the size is kept; if it has none, the size grows by
  512, one block is appended and holds the entry in slot 0 and zeros elsewhere, and the old
  blocks keep their contents; afterwards `iget(name)` returns `v`, and `iget` of every other
  non-empty name returns what it returned before;
* in the case of an empty slot `iinsert` does return, provided the log has room for one block;
* in the case of no empty slot `iinsert` does return when the directory has fewer than ten
  blocks, no block of the free map is held, the free map has a clear bit and the log has room
  for two blocks (the block of the free map and the new block). -/
theorem iinsert_spec (idm : idaemon_t) (s : Sys) (name : Name) (v : Int) (hd : DirWF idm s)
    (hg : GoodName name) (hv1 : -2 ^ 63 ≤ v) (hv2 : v < 2 ^ 63) :
    ((∃ w, dirLookup (bufdata s) (dirBlocks idm.icache s) name = some w) →
      iinsert idm s name v = .ok (-EEXIST, idm, s)) ∧
    (dirLookup (bufdata s) (dirBlocks idm.icache s) name = none →
      ∀ e idm2 s2, iinsert idm s name v = .ok (e, idm2, s2) →
        e = 0 ∧ DirWF idm2 s2 ∧
        (∀ i j, dirEmpty (bufdata s) (dirBlocks idm.icache s) 0 = some (i, j) →
          i < (dirBlocks idm.icache s).length ∧ j < 23 ∧
          nameAt (bufdata s ((dirBlocks idm.icache s).getD i 0)) j = [] ∧
          (∀ j2, j2 < j → nameAt (bufdata s ((dirBlocks idm.icache s).getD i 0)) j2 ≠ []) ∧
          (∀ i2 j2, i2 < i → j2 < 23 →
            nameAt (bufdata s ((dirBlocks idm.icache s).getD i2 0)) j2 ≠ []) ∧
          idm2 = idm ∧ dirBlocks idm2.icache s2 = dirBlocks idm.icache s ∧
          bufdata s2 = Function.update (bufdata s) ((dirBlocks idm.icache s).getD i 0)
            (putEntry (bufdata s ((dirBlocks idm.icache s).getD i 0)) j name v)) ∧
        (dirEmpty (bufdata s) (dirBlocks idm.icache s) 0 = none →
          (∀ b, b ∈ dirBlocks idm.icache s → ∀ j, j < 23 → nameAt (bufdata s b) j ≠ []) ∧
          idm2.icache.size = idm.icache.size + 512 ∧
          (∃ nb, nb ∉ dirBlocks idm.icache s ∧
            dirBlocks idm2.icache s2 = dirBlocks idm.icache s ++ [nb] ∧
            bufdata s2 nb = putEntry zeroBlock 0 name v) ∧
          (∀ b, b ∈ dirBlocks idm.icache s → bufdata s2 b = bufdata s b)) ∧
        iget idm2 s2 name = .ok ((v, 0), s2) ∧
        (∀ n2, n2 ≠ name → n2 ≠ [] →
          ∃ r, iget idm s n2 = .ok (r, s) ∧ iget idm2 s2 n2 = .ok (r, s2))) ∧
    (dirLookup (bufdata s) (dirBlocks idm.icache s) name = none →
      ∀ i j, dirEmpty (bufdata s) (dirBlocks idm.icache s) 0 = some (i, j) →
        ((dirBlocks idm.icache s).getD i 0 ∈ s.logblks ∨
          (s.logblks.length : Int) + 1 < s.loglen) →
        ∃ s2, iinsert idm s name v = .ok (0, idm, s2)) ∧
    (dirLookup (bufdata s) (dirBlocks idm.icache s) name = none →
      dirEmpty (bufdata s) (dirBlocks idm.icache s) 0 = none →
      idm.icache.size < 5120 →
      (∀ x, 0 ≤ x → x < s.free_len → s.given (s.free_start + x) = false) →
      (∃ k : Nat, (k : Int) < s.free_len * 4096 ∧ mapBit s k = false) →
      (s.logblks.length : Int) + 2 < s.loglen →
      ∃ idm2 s2, iinsert idm s name v = .ok (0, idm2, s2)) := by
  refine ⟨?_, ?_, ?_, ?_⟩
  · rintro ⟨w, hw⟩
    exact iinsert_exists hd name v w hw
  · intro hnone e idm2 s2 hr
    cases hemp : dirEmpty (bufdata s) (dirBlocks idm.icache s) 0 with
    | some ij =>
      obtain ⟨i, j⟩ := ij
      obtain ⟨r1, r2, r3, r4, r5, r6, r7⟩ :=
        iinsert_reuse_ok hd name v e hv1 hv2 i j hnone hemp hr
      subst r2
      obtain ⟨_, q2, q3, q4, q5, q6⟩ := dirEmpty_some _ _ _ _ _ hemp
      simp only [Nat.sub_zero] at q2 q4 q5 q6
      have hmem : (dirBlocks idm2.icache s).getD i 0 ∈ dirBlocks idm2.icache s := by
        rw [List.getD_eq_getElem _ _ q2]
        exact List.getElem_mem _
      refine ⟨r1, r6, ?_, ?_, ?_, ?_⟩
      · intro i2 j2 h2
        simp only [Option.some.injEq, Prod.mk.injEq] at h2
        obtain ⟨rfl, rfl⟩ := h2
        exact ⟨q2, q3, q4, q5, q6, rfl, r7, r3⟩
      · intro h2; cases h2
      · rw [iget_spec r6, r7, r3,
          dirLookup_update_same _ _ _ _ _ q3 hg hv1 hv2 _ hmem hnone]
      · intro n2 hn1 hn2
        apply iget_of_lookup hd r6
        rw [r7, r3]
        exact dirLookup_update_other _ _ _ _ _ _ q4 hg hn1 hn2 _
    | none =>
      obtain ⟨r1, r2, ⟨nb, r3, r4, r5⟩, r6, r7, r8, r9, _, _⟩ :=
        iinsert_extend_ok hd name v e hv1 hv2 hnone hemp hr
      have hold : ∀ n2, dirLookup (bufdata s2) (dirBlocks idm.icache s) n2 =
          dirLookup (bufdata s) (dirBlocks idm.icache s) n2 :=
        fun n2 => dirLookup_congr _ _ n2 _ r6
      refine ⟨r1, r9, ?_, ?_, ?_, ?_⟩
      · intro i j h2; cases h2
      · intro _
        exact ⟨dirEmpty_none _ _ _ hemp, r2, ⟨nb, r3, r4, r5⟩, r6⟩
      · rw [iget_spec r9, r4, dirLookup_append, hold, hnone]
        simp only [dirLookup]
        rw [r5, slotLookup_putEntry_same _ _ _ _ hg hv1 hv2 23 0 (Nat.zero_le _) (by omega)
          (slotLookup_zeroBlock name hg.1 23 0)]
      · intro n2 hn1 hn2
        apply iget_of_lookup hd r9
        rw [r4, dirLookup_append, hold]
        cases dirLookup (bufdata s) (dirBlocks idm.icache s) n2 with
        | some w => rfl
        | none =>
          simp only [dirLookup]
          rw [r5, slotLookup_putEntry_other _ _ _ _ _ (nameAt_zeroBlock 0) hg hn1 hn2,
            slotLookup_zeroBlock n2 hn2]
  · intro hnone i j hemp hroom
    rw [iinsert_reuse_eq hd name v hv1 hv2 i j hnone hemp]
    obtain ⟨s3, h3⟩ := log_write_room (setdata (heldSt s (dirBlocks idm.icache s))
      ((dirBlocks idm.icache s).getD i 0)
      (putEntry (bufdata s ((dirBlocks idm.icache s).getD i 0)) j name v))
      ((dirBlocks idm.icache s).getD i 0) hroom
    rw [h3]
    simp only [ok_bind]
    obtain ⟨_, hg3, _, _, _⟩ := log_write_ok h3
    rw [dirent_brelse_spec _ _ (dirBlocks_nodup hd) (by
      intro x hx
      refine ⟨(dirBlocks_range hd x hx).1, ?_⟩
      rw [hg3, setdata_given]
      unfold heldSt
      simp [hx])]
    exact ⟨_, rfl⟩
  · intro hnone hemp hsz hheld hfree hroom
    obtain ⟨idm2, s2, h2, _, _⟩ := iinsert_extend_total hd name v hv1 hv2 hnone hemp hsz
      hheld hfree hroom
    exact ⟨idm2, s2, h2⟩

set_option maxRecDepth 100000 in
/-- C9 on two root directories.  In the example file system the name `a` is absent and slot 2
of the only block is the first empty slot: `iinsert` returns 0 and `iget` then finds the
entry.  In `fullDirSys` all 23 slots of the only block are occupied and block 66 is free:
`iinsert` returns 0, the directory has grown by one block and `iget` finds the entry. -/
theorem iinsert_spec_witness :
    (DirWF rootIdm fsSys ∧ GoodName nameA ∧
      ∃ s2, iinsert rootIdm fsSys nameA 260 = .ok (0, rootIdm, s2) ∧
        iget rootIdm s2 nameA = .ok ((260, 0), s2)) ∧
    (DirWF rootIdm fullDirSys ∧
      dirLookup (bufdata fullDirSys) (dirBlocks rootIdm.icache fullDirSys) nameA = none ∧
      dirEmpty (bufdata fullDirSys) (dirBlocks rootIdm.icache fullDirSys) 0 = none ∧
      mapBit fullDirSys 2 = false ∧
      ∃ idm2 s2, iinsert rootIdm fullDirSys nameA 260 = .ok (0, idm2, s2) ∧
        idm2.icache.size = rootIdm.icache.size + 512 ∧
        iget idm2 s2 nameA = .ok ((260, 0), s2)) := by
  have hnone : dirLookup (bufdata fsSys) (dirBlocks rootIdm.icache fsSys) nameA = none := by
    decide!
  have hemp : dirEmpty (bufdata fsSys) (dirBlocks rootIdm.icache fsSys) 0 = some (0, 2) := by
    decide!
  have hnoneF : dirLookup (bufdata fullDirSys) (dirBlocks rootIdm.icache fullDirSys) nameA
      = none := by decide!
  have hempF : dirEmpty (bufdata fullDirSys) (dirBlocks rootIdm.icache fullDirSys) 0
      = none := by decide!
  have hbit : mapBit fullDirSys 2 = false := by decide!
  obtain ⟨s2, h2⟩ := (iinsert_spec rootIdm fsSys nameA 260 dirWF_root goodName_a (by decide)
    (by decide)).2.2.1 hnone 0 2 hemp (Or.inr (by decide))
  obtain ⟨idm3, s3, h3⟩ := (iinsert_spec rootIdm fullDirSys nameA 260 dirWF_fullDir
    goodName_a (by decide) (by decide)).2.2.2 hnoneF hempF (by decide) (fun _ _ _ => rfl)
    ⟨2, by decide, hbit⟩ (by decide)
  obtain ⟨_, _, _, g4, g5, _⟩ := (iinsert_spec rootIdm fullDirSys nameA 260 dirWF_fullDir
    goodName_a (by decide) (by decide)).2.1 hnoneF 0 idm3 s3 h3
  exact ⟨⟨dirWF_root, goodName_a, s2, h2,
    ((iinsert_spec rootIdm fsSys nameA 260 dirWF_root goodName_a (by decide)
      (by decide)).2.1 hnone 0 rootIdm s2 h2).2.2.2.2.1⟩,
    dirWF_fullDir, hnoneF, hempF, hbit, idm3, s3, h3, (g4 hempF).2.1, g5⟩

/-! ## `Create` is answered -/

theorem dirEmpty_congr (data data2 : Int → Block) :
    ∀ (ds : List Int) (i : Nat), (∀ b, b ∈ ds → data2 b = data b) →
      dirEmpty data2 ds i = dirEmpty data ds i := by
  intro ds
  induction ds with
  | nil => intro i _; rfl
  | cons b rest ih =>
    intro i h
    simp only [dirEmpty]
    rw [h b (List.mem_cons_self _ _), ih (i + 1) (fun x hx => h x (List.mem_cons_of_mem _ hx))]

/-- `iinsert` of a new name returns when the directory has fewer than ten blocks, the blocks
of the free map are not held, a block is free and the log has room for two blocks; the log
grows by at most two blocks. -/
theorem iinsert_new_total {idm : idaemon_t} {s : Sys} (hd : DirWF idm s) (name : Name)
    (v : Int) (hv1 : -2 ^ 63 ≤ v) (hv2 : v < 2 ^ 63)
    (h : dirLookup (bufdata s) (dirBlocks idm.icache s) name = none)
    (hsz : idm.icache.size < 5120)
    (hheld : ∀ x, 0 ≤ x → x < s.free_len → s.given (s.free_start + x) = false)
    (hfree : ∃ k : Nat, (k : Int) < s.free_len * 4096 ∧ mapBit s k = false)
    (hroom : (s.logblks.length : Int) + 2 < s.loglen) :
    ∃ idm2 s2, iinsert idm s name v = .ok (0, idm2, s2) ∧ s2.loglen = s.loglen ∧
      s2.logblks.length ≤ s.logblks.length + 2 := by
  cases he : dirEmpty (bufdata s) (dirBlocks idm.icache s) 0 with
  | none => exact iinsert_extend_total hd name v hv1 hv2 h he hsz hheld hfree hroom
  | some ij =>
    obtain ⟨i, j⟩ := ij
    rw [iinsert_reuse_eq hd name v hv1 hv2 i j h he]
    obtain ⟨s3, h3, _, hg3, _, hl3, hn3⟩ := log_write_total
      (setdata (heldSt s (dirBlocks idm.icache s)) ((dirBlocks idm.icache s).getD i 0)
        (putEntry (bufdata s ((dirBlocks idm.icache s).getD i 0)) j name v))
      ((dirBlocks idm.icache s).getD i 0) (Or.inr (by
        show ((s.logblks.length : Nat) : Int) + 1 < s.loglen
        omega))
    rw [h3]
    simp only [ok_bind]
    rw [dirent_brelse_spec _ _ (dirBlocks_nodup hd) (by
      intro x hx
      refine ⟨(dirBlocks_range hd x hx).1, ?_⟩
      rw [hg3, setdata_given]
      unfold heldSt
      simp [hx])]
    refine ⟨_, _, rfl, ?_, ?_⟩
    · show s3.loglen = s.loglen
      rw [hl3]
      rfl
    · show s3.logblks.length ≤ s.logblks.length + 2
      have : (setdata (heldSt s (dirBlocks idm.icache s)) ((dirBlocks idm.icache s).getD i 0)
        (putEntry (bufdata s ((dirBlocks idm.icache s).getD i 0)) j name v)).logblks.length
          = s.logblks.length := rfl
      omega

theorem inode_w_itype_eq (blk : Block) (io : Nat) (t : Int) (hio : io ≤ 3)
    (ht : ¬ (t < I_FIRST ∨ t > I_LAST)) :
    inode_w_itype blk (io : Int) t = .ok (put8 blk ((io * 16 + 0) * 8) t) := by
  unfold inode_w_itype
  have e0 := ifield_eq io 0
  simp only [Nat.cast_zero] at e0
  rw [if_neg ht, e0, fieldw_put8 _ _ _ (by omega)]

theorem inode_w_linkcount_eq (blk : Block) (io : Nat) (v : Int) (hio : io ≤ 3) :
    inode_w_linkcount blk (io : Int) v = .ok (put8 blk ((io * 16 + 1) * 8) v) := by
  unfold inode_w_linkcount
  have e0 := ifield_eq io 1
  simp only [Nat.cast_one] at e0
  rw [e0, fieldw_put8 _ _ _ (by omega)]

theorem inode_w_size_eq (blk : Block) (io : Nat) (v : Int) (hio : io ≤ 3) :
    inode_w_size blk (io : Int) v = .ok (put8 blk ((io * 16 + 2) * 8) v) := by
  unfold inode_w_size
  have e0 := ifield_eq io 2
  simp only [Nat.cast_ofNat] at e0
  rw [e0, fieldw_put8 _ _ _ (by omega)]

theorem inode_w_major_eq (blk : Block) (io : Nat) (v : Int) (hio : io ≤ 3) :
    inode_w_major blk (io : Int) v = .ok (put8 blk ((io * 16 + 3) * 8) v) := by
  unfold inode_w_major
  have e0 := ifield_eq io 3
  simp only [Nat.cast_ofNat] at e0
  rw [e0, fieldw_put8 _ _ _ (by omega)]

theorem inode_w_minor_eq (blk : Block) (io : Nat) (v : Int) (hio : io ≤ 3) :
    inode_w_minor blk (io : Int) v = .ok (put8 blk ((io * 16 + 4) * 8) v) := by
  unfold inode_w_minor
  have e0 := ifield_eq io 4
  simp only [Nat.cast_ofNat] at e0
  rw [e0, fieldw_put8 _ _ _ (by omega)]

theorem inode_w_indirect_eq (blk : Block) (io : Nat) (v : Int) (hio : io ≤ 3) :
    inode_w_indirect blk (io : Int) v = .ok (put8 blk ((io * 16 + 5) * 8) v) := by
  unfold inode_w_indirect
  have e0 := ifield_eq io 5
  simp only [Nat.cast_ofNat] at e0
  rw [e0, fieldw_put8 _ _ _ (by omega)]

/-- `ialloc` returns when the layout is sound, the blocks of the free map and the free blocks
are not held and, if there is no current block of free inodes, a block is free and the log
has room for two blocks; the log grows by at most two blocks. -/
theorem ialloc_total (s : Sys) (hG : Geom s)
    (hheld : ∀ x, 0 ≤ x → x < s.free_len → s.given (s.free_start + x) = false)
    (hq : ∀ x, Free s x → s.given x = false)
    (hfree : s.ifreeblk = 0 → ∃ k : Nat, (k : Int) < s.free_len * 4096 ∧ mapBit s k = false)
    (hroom : (s.logblks.length : Int) + 2 < s.loglen) :
    ∃ bn io s1, ialloc s = .ok ((bn, io), s1) ∧ s1.loglen = s.loglen ∧
      s1.logblks.length ≤ s.logblks.length + 2 := by
  unfold ialloc
  by_cases hf : s.ifreeblk ≠ 0
  · rw [if_pos hf]
    refine ⟨_, _, _, rfl, ?_, ?_⟩
    · simp only
      split <;> rfl
    · simp only
      split <;> exact Nat.le_add_right _ _
  · rw [if_neg hf]
    have hf0 : s.ifreeblk = 0 := by
      by_contra hh
      exact hf hh
    obtain ⟨b, sB, hB, j1, j2⟩ := balloc_total s hG hheld (hfree hf0) (by omega)
    have hB1 : balloc1 s = .ok (b, sB) := hB
    obtain ⟨b1, b2, b3, _, _⟩ := balloc_ok hB hG
    obtain ⟨p0, p1, _, _⟩ := inMap_pos hG b1.1
    rw [hB1]
    simp only [ok_bind]
    rw [bread_eq _ _ (by omega) p1 (by
      show sB.given b = false
      rw [b3]
      exact hq b b1)]
    simp only [ok_bind]
    obtain ⟨s3, h3, _, hg3, hc3, hl3, hn3⟩ := log_write_total
      (setdata (breadSt { sB with ifreeblk := b, ifreeoff := 0 } b) b zeroBlock) b
      (Or.inr (by
        show ((sB.logblks.length : Nat) : Int) + 1 < sB.loglen
        rw [j1]
        have : (sB.logblks.length : Int) ≤ s.logblks.length + 1 := by exact_mod_cast j2
        omega))
    have hb3 : s3.ifreeblk = b := hc3.ifb
    simp only [breadSt_ifreeblk, setdata_ifreeblk]
    rw [h3]
    simp only [ok_bind]
    rw [hb3, brelse_eq _ _ (by omega) (by
      rw [hg3]
      show Function.update sB.given b true b = true
      simp)]
    simp only [ok_bind]
    refine ⟨_, _, _, rfl, ?_, ?_⟩
    · show s3.loglen = s.loglen
      rw [hl3]
      exact j1
    · show s3.logblks.length ≤ s.logblks.length + 2
      have : (setdata (breadSt { sB with ifreeblk := b, ifreeoff := 0 } b) b
          zeroBlock).logblks.length = sB.logblks.length := rfl
      omega

/-- `icreate` of a new name returns when the directory and its inode are sound, the
directory has fewer than ten blocks, no block of the free map is held, two blocks are free and
the log has room for five blocks; the log grows by at most five blocks. -/
theorem icreate_total {idm : idaemon_t} {s : Sys} (hd : DirWF idm s) (hi : InodeOK idm s)
    (name : Name) (t maj min : Int) (hg : GoodName name)
    (ht : ¬ (t ≤ I_INVALID ∨ t > I_LAST)) (hc : ¬ (t ≠ I_DEV ∧ (maj ≠ 0 ∨ min ≠ 0)))
    (hnone : dirLookup (bufdata s) (dirBlocks idm.icache s) name = none)
    (hsz : idm.icache.size < 5120)
    (hheld : ∀ x, 0 ≤ x → x < s.free_len → s.given (s.free_start + x) = false)
    (hfree : ∃ k1 k2 : Nat, k1 ≠ k2 ∧ (k1 : Int) < s.free_len * 4096 ∧
      (k2 : Int) < s.free_len * 4096 ∧ mapBit s k1 = false ∧ mapBit s k2 = false)
    (hroom : (s.logblks.length : Int) + 5 < s.loglen) :
    ∃ v idm2 s2, icreate idm s name t maj min = .ok ((v, 0), idm2, s2) ∧
      s2.loglen = s.loglen ∧ s2.logblks.length ≤ s.logblks.length + 5 ∧
      idm2.blkno = idm.blkno ∧ idm2.ioff = idm.ioff ∧ DirWF idm2 s2 ∧ Valid s2 idm.blkno ∧
      inoField (bufdata s2 idm.blkno) idm.ioff.toNat 0
        = inoField (bufdata s idm.blkno) idm.ioff.toNat 0 := by
  have hS1d := bufdata_heldSt s (dirBlocks idm.icache s)
  have hS1c := consts_heldSt s (dirBlocks idm.icache s)
  have hG1 := geom_consts hd.geom hS1c
  have hfp := hd.geom.free_pos
  have hfb := hd.geom.free_below
  have ht2 : ¬ (t < I_FIRST ∨ t > I_LAST) := by
    unfold I_INVALID at ht
    omega
  have hnotin : ∀ x, x ∈ dirBlocks idm.icache s → Valid s x :=
    fun x hx => (dirBlocks_range hd x hx).2.2
  have hheld0 : ∀ x, 0 ≤ x → x < (heldSt s (dirBlocks idm.icache s)).free_len →
      (heldSt s (dirBlocks idm.icache s)).given
        ((heldSt s (dirBlocks idm.icache s)).free_start + x) = false := by
    intro x hx0 hx1
    show (decide (s.free_start + x ∈ dirBlocks idm.icache s) || s.given (s.free_start + x))
      = false
    have hx1' : x < s.free_len := hx1
    rw [hheld x hx0 hx1', Bool.or_false, decide_eq_false_iff_not]
    intro hmem
    have := (dirBlocks_range hd _ hmem).2.1
    omega
  have hq0 : ∀ x, Free (heldSt s (dirBlocks idm.icache s)) x →
      (heldSt s (dirBlocks idm.icache s)).given x = false := by
    intro x hx
    have hx' := (free_same hS1d hS1c x).mp hx
    show (decide (x ∈ dirBlocks idm.icache s) || s.given x) = false
    rw [hd.quiet x hx'.1.1, Bool.or_false, decide_eq_false_iff_not]
    intro hmem
    exact not_free_of_valid (hnotin x hmem) hx'
  obtain ⟨k1, k2, hk12, hk1, hk2, hb1, hb2⟩ := hfree
  obtain ⟨bn, io, s1, hA, jA1, jA2⟩ := ialloc_total (heldSt s (dirBlocks idm.icache s)) hG1
    hheld0 hq0 (fun _ => ⟨k1, hk1, hb1⟩) (by
      show ((s.logblks.length : Nat) : Int) + 2 < s.loglen
      omega)
  obtain ⟨a1, a2, a3⟩ := ialloc_ok hG1 hA
  have hio : ∃ ioN : Nat, io = (ioN : Int) ∧ ioN ≤ 3 := by
    rcases a3 with ⟨c1, _, c3, _⟩ | ⟨_, c2, _⟩
    · have h1 := hi.hint_lo c1
      have h2 := hi.hint_hi c1
      have c3' : io = s.ifreeoff := c3
      exact ⟨io.toNat, by omega, by omega⟩
    · exact ⟨0, by rw [c2]; rfl, by omega⟩
  obtain ⟨ioN, rfl, hio3⟩ := hio
  have hIM : InMap s bn := by
    rcases a3 with ⟨c1, c2, _⟩ | ⟨_, _, c3, _⟩
    · have c2' : bn = s.ifreeblk := c2
      rw [c2']
      exact (hi.hint_valid c1).1
    · exact ((free_same hS1d hS1c bn).mp c3).1
  have hbnp : ∀ p, ptr idm.icache s p ≠ bn := by
    intro p
    by_cases hp : ptr idm.icache s p = 0
    · rw [hp]
      have := usable_pos hd.geom
      have := hIM.1
      omega
    · rcases a3 with ⟨c1, c2, _⟩ | ⟨_, _, c3, _⟩
      · have c2' : bn = s.ifreeblk := c2
        rw [c2']
        exact hi.hint_not_data c1 p
      · exact valid_ne_free (hd.wf.valid p hp) ((free_same hS1d hS1c _).mp c3)
  have hbnd : bn ∉ dirBlocks idm.icache s := by
    intro hmem
    obtain ⟨k, _, hk⟩ := dirBlocks_mem hmem
    exact hbnp (fpos k) hk.symm
  obtain ⟨p0, p1, _, _⟩ := inMap_pos hd.geom hIM
  have hgbn : s1.given bn = false := by
    rw [a2]
    show (decide (bn ∈ dirBlocks idm.icache s) || s.given bn) = false
    rw [hd.quiet bn hIM.1, Bool.or_false, decide_eq_false_iff_not]
    exact hbnd
  have hB := bread_eq s1 bn (by omega) p1 hgbn
  have h1 := inode_w_itype_eq (bufdata (breadSt s1 bn) bn) ioN t hio3 ht2
  have h2 := inode_w_linkcount_eq (put8 (bufdata (breadSt s1 bn) bn) ((ioN * 16 + 0) * 8) t)
    ioN 1 hio3
  have h3 := inode_w_size_eq (put8 (put8 (bufdata (breadSt s1 bn) bn) ((ioN * 16 + 0) * 8) t)
    ((ioN * 16 + 1) * 8) 1) ioN 0 hio3
  have h4 := inode_w_major_eq (put8 (put8 (put8 (bufdata (breadSt s1 bn) bn)
    ((ioN * 16 + 0) * 8) t) ((ioN * 16 + 1) * 8) 1) ((ioN * 16 + 2) * 8) 0) ioN maj hio3
  have h5 := inode_w_minor_eq (put8 (put8 (put8 (put8 (bufdata (breadSt s1 bn) bn)
    ((ioN * 16 + 0) * 8) t) ((ioN * 16 + 1) * 8) 1) ((ioN * 16 + 2) * 8) 0)
    ((ioN * 16 + 3) * 8) maj) ioN min hio3
  have h6 := inode_w_indirect_eq (put8 (put8 (put8 (put8 (put8 (bufdata (breadSt s1 bn) bn)
    ((ioN * 16 + 0) * 8) t) ((ioN * 16 + 1) * 8) 1) ((ioN * 16 + 2) * 8) 0)
    ((ioN * 16 + 3) * 8) maj) ((ioN * 16 + 4) * 8) min) ioN 0 hio3
  have h7 := icreate_addrs_eq ioN hio3 10 0 (put8 (put8 (put8 (put8 (put8 (put8
    (bufdata (breadSt s1 bn) bn)
    ((ioN * 16 + 0) * 8) t) ((ioN * 16 + 1) * 8) 1) ((ioN * 16 + 2) * 8) 0)
    ((ioN * 16 + 3) * 8) maj) ((ioN * 16 + 4) * 8) min) ((ioN * 16 + 5) * 8) 0) (by omega)
  obtain ⟨s3, hL, hd3, hg3, hc3, hl3, hn3⟩ := log_write_total
    (setdata (breadSt s1 bn) bn (inoInit (bufdata (breadSt s1 bn) bn) ioN t maj min)) bn
    (Or.inr (by
      show ((s1.logblks.length : Nat) : Int) + 1 < s1.loglen
      rw [jA1]
      have : (s1.logblks.length : Int) ≤ s.logblks.length + 2 := by
        show ((s1.logblks.length : Nat) : Int) ≤ ((s.logblks.length : Nat) : Int) + 2
        exact_mod_cast jA2
      show ((s1.logblks.length : Nat) : Int) + 1 < s.loglen
      omega))
  have hR := brelse_eq s3 bn (by omega) (by
    rw [hg3]
    show Function.update s1.given bn true bn = true
    simp)
  obtain ⟨ioN2, base, hioe, _, hL4, hgiv, _, hV4, hh1, hh0, hdat, hoth, hused⟩ :=
    newinode_ok hG1 (fun hne => ⟨(valid_same hS1d hS1c _).mpr (hi.hint_valid hne),
      hi.hint_lo hne, hi.hint_hi hne⟩) ht2 hA hB h1 h2 h3 h4 h5 h6 h7 hL hR
  have hLX : Layout s (setGiven (brelseSt s3 bn) s.given) :=
    ⟨hL4.superb, hL4.fst, hL4.flen, hL4.usable⟩
  have hdX : ∀ x, s.usable_start ≤ x → x ≠ bn →
      bufdata (setGiven (brelseSt s3 bn) s.given) x = bufdata s x := hoth
  have huX : ∀ x, InMap s x →
      used (setGiven (brelseSt s3 bn) s.given) x = (decide (x = bn) || used s x) := hused
  have hptr : ∀ p, ptr idm.icache (setGiven (brelseSt s3 bn) s.given) p = ptr idm.icache s p := by
    apply ptr_congr _ _ _ _ rfl rfl
    intro j hj
    have hv := chain_valid hd.wf hj
    exact hdX _ hv.1.1 (by rw [← ptr_cpos]; exact hbnp _)
  have hwfX : PtrWF idm.icache (setGiven (brelseSt s3 bn) s.given) := by
    refine ⟨?_, ?_⟩
    · intro p hp
      rw [hptr] at hp ⊢
      exact valid_of_used hLX huX (hd.wf.valid p hp)
    · intro p q hp hpq
      rw [hptr] at hp
      rw [hptr, hptr] at hpq
      exact hd.wf.inj p q hp hpq
  have hDX : DirWF idm (setGiven (brelseSt s3 bn) s.given) := by
    refine ⟨geom_layout hd.geom hLX, hwfX, ?_, hd.isdir, hd.size_nonneg, hd.size_mod, ?_⟩
    · intro x hx
      rw [hLX.usable] at hx
      exact hd.quiet x hx
    · intro k hk
      show ptr idm.icache _ (fpos k) ≠ 0
      rw [hptr]
      exact hd.mapped k hk
  have hdb : dirBlocks idm.icache (setGiven (brelseSt s3 bn) s.given)
      = dirBlocks idm.icache s :=
    dirBlocks_congr rfl (fun k _ => hptr (fpos k))
  have hdd : ∀ b, b ∈ dirBlocks idm.icache s →
      bufdata (setGiven (brelseSt s3 bn) s.given) b = bufdata s b := by
    intro b hb
    obtain ⟨k, hk, rfl⟩ := dirBlocks_mem hb
    exact hdX _ (fblock_valid hd.wf (hd.mapped k hk)).1.1 (hbnp _)
  have hv1 : -2 ^ 63 ≤ bn * 4 + (ioN : Int) := by omega
  have hv2 : bn * 4 + (ioN : Int) < 2 ^ 63 := by omega
  have hnoneX : dirLookup (bufdata (setGiven (brelseSt s3 bn) s.given))
      (dirBlocks idm.icache (setGiven (brelseSt s3 bn) s.given)) name = none := by
    rw [hdb, dirLookup_congr (bufdata s) _ _ _ hdd, hnone]
  have hfreeX : ∃ k : Nat, (k : Int) < (setGiven (brelseSt s3 bn) s.given).free_len * 4096 ∧
      mapBit (setGiven (brelseSt s3 bn) s.given) k = false := by
    have key : ∀ k : Nat, (k : Int) < s.free_len * 4096 → mapBit s k = false →
        s.usable_start + (k : Int) ≠ bn →
        (k : Int) < (setGiven (brelseSt s3 bn) s.given).free_len * 4096 ∧
          mapBit (setGiven (brelseSt s3 bn) s.given) k = false := by
      intro k hk hb hne
      refine ⟨by rw [hLX.flen]; exact hk, ?_⟩
      have e1 := used_mapBit (setGiven (brelseSt s3 bn) s.given) k
      rw [hLX.usable] at e1
      rw [← e1, huX _ ⟨by omega, by omega⟩, used_mapBit, hb, Bool.or_false,
        decide_eq_false_iff_not]
      exact hne
    by_cases hk : s.usable_start + (k1 : Int) = bn
    · exact ⟨k2, key k2 hk2 hb2 (by omega)⟩
    · exact ⟨k1, key k1 hk1 hb1 hk⟩
  obtain ⟨idm2, sZ, hins, jZ1, jZ2⟩ := iinsert_new_total hDX name (bn * 4 + (ioN : Int)) hv1 hv2
    hnoneX hsz
    (by
      intro x hx0 hx1
      show s.given ((setGiven (brelseSt s3 bn) s.given).free_start + x) = false
      rw [hLX.fst]
      rw [hLX.flen] at hx1
      exact hheld x hx0 hx1)
    hfreeX
    (by
      show ((s3.logblks.length : Nat) : Int) + 2 < s3.loglen
      rw [hl3]
      have e1 : (s3.logblks.length : Int) ≤ s1.logblks.length + 1 := by
        have := hn3
        show ((s3.logblks.length : Nat) : Int) ≤ ((s1.logblks.length : Nat) : Int) + 1
        exact_mod_cast this
      have e2 : (s1.logblks.length : Int) ≤ s.logblks.length + 2 := by
        show ((s1.logblks.length : Nat) : Int) ≤ ((s.logblks.length : Nat) : Int) + 2
        exact_mod_cast jA2
      show ((s3.logblks.length : Nat) : Int) + 2 < s1.loglen
      rw [jA1]
      show ((s3.logblks.length : Nat) : Int) + 2 < s.loglen
      omega)
  have hins2 := hins
  unfold iinsert at hins2
  rw [all_dirents_spec hDX, hdb] at hins2
  simp only [ok_bind] at hins2
  rw [heldSt_release (brelseSt s3 bn) s _ hgiv, dirent_lookup_eq,
    dirLookup_congr (bufdata s) (bufdata (brelseSt s3 bn)) name _ (fun b hb => hdd b hb),
    hnone] at hins2
  simp only [liftE_ok, ok_bind, Bool.false_eq_true, if_false] at hins2
  rw [bidecode_eq bn ioN (by omega) (by omega) (by omega) (by omega)] at hins2
  simp only [bind_eq_ok] at hins2
  obtain ⟨⟨idmD, s5⟩, hD, s6, hZ, hfin⟩ := hins2
  simp only [Except.ok.injEq, Prod.mk.injEq, true_and] at hfin
  obtain ⟨rfl, rfl⟩ := hfin
  simp only at hZ
  obtain ⟨hbk, hof, _, hcC⟩ := iinsert_meta hDX name _ 0 hv1 hv2 hnoneX hins
  obtain ⟨_, hDC, _, _⟩ := iinsert_new_ok hDX name _ 0 hg hv1 hv2 hnoneX hins
  have hVino : Valid (setGiven (brelseSt s3 bn) s.given) idm.blkno :=
    valid_of_used hLX huX hi.ino_valid
  obtain ⟨g1, _, g3⟩ := iinsert_frame hDX name _ 0 hv1 hv2 hnoneX hins hVino.1.1
    (not_free_of_valid hVino) (fun p => by rw [hptr]; exact hi.ino_not_data p)
  have hVC : Valid s6 idm.blkno :=
    valid_of_not_free ((inMap_consts hcC _).mpr hVino.1) g3
  have htype : inoField (bufdata s6 idm.blkno) idm.ioff.toNat 0
      = inoField (bufdata s idm.blkno) idm.ioff.toNat 0 := by
    rw [g1]
    by_cases hbb : idm.blkno = bn
    · rcases a3 with ⟨c1, c2, c3, c4, _⟩ | ⟨_, _, c3, _⟩
      · have c2' : bn = s.ifreeblk := c2
        have c3' : (ioN : Int) = s.ifreeoff := c3
        have hne : s.ifreeoff ≠ idm.ioff := hi.hint_not_self (by rw [← c2', hbb])
        have hlo := hi.ioff_lo
        have e1 : bufdata (setGiven (brelseSt s3 bn) s.given) idm.blkno
            = inoInit (bufdata s idm.blkno) ioN t maj min := by
          rw [hbb]
          show bufdata s3 bn = _
          rw [hd3, bufdata_setdata, Function.update_same, bufdata_breadSt, c4]
          rfl
        rw [e1]
        unfold inoField inoInit
        rw [clearAddrs_rdb, if_neg (by omega)]
        rw [rdb_put8_other _ _ _ _ (by omega), rdb_put8_other _ _ _ _ (by omega),
          rdb_put8_other _ _ _ _ (by omega), rdb_put8_other _ _ _ _ (by omega),
          rdb_put8_other _ _ _ _ (by omega), rdb_put8_other _ _ _ _ (by omega)]
      · exact absurd ((free_same hS1d hS1c _).mp c3)
          (not_free_of_valid (hbb ▸ hi.ino_valid))
    · rw [hdX _ hi.ino_valid.1.1 hbb]
  refine ⟨bn * 4 + (ioN : Int), idmD, s6, ?_, ?_, ?_, hbk, hof, hDC, hVC, htype⟩
  · unfold icreate
    rw [if_neg ht, if_neg hg.1, if_neg hc, all_dirents_spec hd]
    simp only [ok_bind]
    rw [dirent_lookup_eq, bufdata_heldSt, hnone]
    simp only [liftE_ok, ok_bind, Bool.false_eq_true, if_false]
    rw [hA]
    simp only [ok_bind]
    rw [hB]
    simp only [ok_bind]
    rw [h1]
    simp only [liftE_ok, ok_bind]
    rw [h2]
    simp only [liftE_ok, ok_bind]
    rw [h3]
    simp only [liftE_ok, ok_bind]
    rw [h4]
    simp only [liftE_ok, ok_bind]
    rw [h5]
    simp only [liftE_ok, ok_bind]
    rw [h6]
    simp only [liftE_ok, ok_bind]
    rw [h7]
    simp only [liftE_ok, ok_bind]
    rw [show clearAddrs ioN 10 0 (put8 (put8 (put8 (put8 (put8 (put8
      (bufdata (breadSt s1 bn) bn)
      ((ioN * 16 + 0) * 8) t) ((ioN * 16 + 1) * 8) 1) ((ioN * 16 + 2) * 8) 0)
      ((ioN * 16 + 3) * 8) maj) ((ioN * 16 + 4) * 8) min) ((ioN * 16 + 5) * 8) 0)
      = inoInit (bufdata (breadSt s1 bn) bn) ioN t maj min from rfl]
    rw [hL]
    simp only [ok_bind]
    rw [hR]
    simp only [ok_bind]
    rw [hD]
    simp only [ok_bind]
    rw [biencode_eq bn ioN (by omega) (by omega) (by omega) (by omega)]
    simp only [liftE_ok, ok_bind]
    rw [hZ]
    simp only [ok_bind]
  · rw [jZ1]
    show s3.loglen = s.loglen
    rw [hl3]
    show s1.loglen = s.loglen
    exact jA1
  · have e0 : (setGiven (brelseSt s3 bn) s.given).logblks.length = s3.logblks.length := rfl
    have e1 : s3.logblks.length ≤ s1.logblks.length + 1 := hn3
    have e2 : s1.logblks.length ≤ s.logblks.length + 2 := jA2
    omega

/-- A `Create` request for a new name is answered when the directory and its inode are
sound, the directory has fewer than ten blocks, no block of the free map is held, two blocks
are free, the type field of the inode of the directory is an inode type and the log has room
for six blocks. -/
theorem create_total {idm : idaemon_t} {s : Sys} {r : ireq_t} (hr : CreateReq r)
    (hd : DirWF idm s) (hi : InodeOK idm s) (hg : GoodName r.cr_name)
    (hnone : dirLookup (bufdata s) (dirBlocks idm.icache s) r.cr_name = none)
    (hsz : idm.icache.size < 5120)
    (hheld : ∀ x, 0 ≤ x → x < s.free_len → s.given (s.free_start + x) = false)
    (hfree : ∃ k1 k2 : Nat, k1 ≠ k2 ∧ (k1 : Int) < s.free_len * 4096 ∧
      (k2 : Int) < s.free_len * 4096 ∧ mapBit s k1 = false ∧ mapBit s k2 = false)
    (htype : ∃ t0, inode_itype (bufdata s idm.blkno) idm.ioff = .ok t0)
    (hroom : (s.logblks.length : Int) + 6 < s.loglen) :
    ∃ res idm2 s2, serve_create idm s r = .ok (res, idm2, s2) := by
  obtain ⟨c1, c2, c3, c4, c5⟩ := createReq_checks hr
  obtain ⟨v, idmC, sC, hC, j1, j2, hbk, hof, hDC, hVC, hty⟩ := icreate_total hd hi r.cr_name
    r.cr_type r.cr_major r.cr_minor hg c1 c2 hnone hsz hheld hfree (by omega)
  have hlo := hi.ioff_lo
  have hhi := hi.ioff_hi
  obtain ⟨v0, v1, _⟩ := valid_range hDC.geom hVC
  obtain ⟨t0, ht0⟩ := htype
  have hioD : idm.ioff = ((idm.ioff.toNat : Nat) : Int) := by omega
  obtain ⟨sU, hU⟩ := iupdate_total idmC sC idm.ioff.toNat (by rw [hof]; exact hioD) (by omega)
    (by rw [hbk]; exact v0) (by rw [hbk]; exact v1)
    (by rw [hbk]; exact hDC.quiet _ hVC.1.1)
    (by
      rw [hbk, hty]
      rw [hioD, inode_itype_eq _ _ (by omega)] at ht0
      intro hh
      rw [if_pos hh] at ht0
      cases ht0)
    (by rw [hDC.isdir]; decide)
    (Or.inr (by
      rw [j1]
      have : (sC.logblks.length : Int) ≤ s.logblks.length + 5 := by exact_mod_cast j2
      omega))
  rw [serve_create_eq idm s r hr, if_neg (by rw [hd.isdir]; simp), hC]
  simp only [ok_bind]
  rw [hU]
  exact ⟨_, _, _, rfl⟩

/-- C10.  A `Create` request as the `mkcreate_*` constructors build it, served by the actor
it is meant for (inode fields are read through the buffer cache, as every operation reads
them):

* on an inode that is not a directory the answer is `-ENOTDIR`, and nothing changes;
* on a sound directory that has the name, whenever the request is answered the answer is
  `-EEXIST` with the inode number the directory has for the name, the allocator hint
  `ifreeblk`/`ifreeoff` and the free map are as before and only the inode block of the
  directory may have changed; the request is answered when the inode type in the inode block
  is valid and the log has room for the inode block;
* on a sound directory that does not have the name (1 to 14 bytes, none NUL), whenever the
  request is answered the answer is error 0 with an inode number `bn * 4 + io` that
  `bidecode` splits into `(bn, io)`; slot `io` of block `bn` holds the requested type, link
  count 1, size 0, the given major and minor numbers, indirect pointer 0 and ten direct
  pointers 0; and a `Lookup` of the name on the directory answers that inode number;
* on such a directory the request is answered when the directory has fewer than ten blocks, no
  block of the free map is held, two blocks are free (one for the new inode, one for the
  directory), the inode type of the directory in its inode block is valid and the log has
  room for six blocks. -/
theorem serve_create_spec (idm : idaemon_t) (s : Sys) (r : ireq_t) (hr : CreateReq r) :
    (idm.icache.itype ≠ I_DIR →
      serve_create idm s r = .ok (Served.reply { err := -ENOTDIR }, idm, s)) ∧
    (DirWF idm s → InodeOK idm s → r.cr_name ≠ [] →
      ∀ w, dirLookup (bufdata s) (dirBlocks idm.icache s) r.cr_name = some w →
        (∀ res idm2 s2, serve_create idm s r = .ok (res, idm2, s2) →
          res = Served.reply { cnext := w, err := -EEXIST, major := r.cr_major,
                               minor := r.cr_minor } ∧
          idm2 = idm ∧ s2.ifreeblk = s.ifreeblk ∧ s2.ifreeoff = s.ifreeoff ∧
          (∀ x, InMap s x → used s2 x = used s x) ∧
          (∀ b, b ≠ idm.blkno → bufdata s2 b = bufdata s b)) ∧
        ((∃ t0, inode_itype (bufdata s idm.blkno) idm.ioff = .ok t0) →
          (idm.blkno ∈ s.logblks ∨ (s.logblks.length : Int) + 1 < s.loglen) →
          ∃ s2, serve_create idm s r =
            .ok (Served.reply { cnext := w, err := -EEXIST, major := r.cr_major,
                                minor := r.cr_minor }, idm, s2))) ∧
    (DirWF idm s → InodeOK idm s → GoodName r.cr_name →
      dirLookup (bufdata s) (dirBlocks idm.icache s) r.cr_name = none →
      ∀ res idm2 s2, serve_create idm s r = .ok (res, idm2, s2) →
        ∃ bn io : Int,
          res = Served.reply { cnext := bn * 4 + io, err := 0, major := r.cr_major,
                               minor := r.cr_minor } ∧
          bidecode (bn * 4 + io) = (bn, io) ∧
          inode_itype (bufdata s2 bn) io = .ok r.cr_type ∧
          inode_linkcount (bufdata s2 bn) io = .ok 1 ∧
          inode_size (bufdata s2 bn) io = .ok 0 ∧
          inode_major (bufdata s2 bn) io = .ok r.cr_major ∧
          inode_minor (bufdata s2 bn) io = .ok r.cr_minor ∧
          inode_indirect (bufdata s2 bn) io = .ok 0 ∧
          (∀ i : Nat, i < 10 → inode_addr (bufdata s2 bn) io i = .ok 0) ∧
          serve_lookup idm2 s2 { path := [r.cr_name] } =
            .ok (Served.reply { gnext := bn * 4 + io, err := 0 }, idm2, s2)) ∧
    (DirWF idm s → InodeOK idm s → GoodName r.cr_name →
      dirLookup (bufdata s) (dirBlocks idm.icache s) r.cr_name = none →
      idm.icache.size < 5120 →
      (∀ x, 0 ≤ x → x < s.free_len → s.given (s.free_start + x) = false) →
      (∃ k1 k2 : Nat, k1 ≠ k2 ∧ (k1 : Int) < s.free_len * 4096 ∧
        (k2 : Int) < s.free_len * 4096 ∧ mapBit s k1 = false ∧ mapBit s k2 = false) →
      (∃ t0, inode_itype (bufdata s idm.blkno) idm.ioff = .ok t0) →
      (s.logblks.length : Int) + 6 < s.loglen →
      ∃ res idm2 s2, serve_create idm s r = .ok (res, idm2, s2)) := by
  obtain ⟨c1, c2, c3, c4, c5⟩ := createReq_checks hr
  refine ⟨?_, ?_, ?_, ?_⟩
  · intro hnd
    rw [serve_create_eq idm s r hr, if_pos hnd]
  · intro hd hi hn w hw
    have hioD : idm.ioff = ((idm.ioff.toNat : Nat) : Int) := by
      have := hi.ioff_lo
      omega
    have hioD3 : idm.ioff.toNat ≤ 3 := by
      have := hi.ioff_hi
      omega
    have hE : serve_create idm s r = (do
        let s ← iupdate idm s
        .ok (Served.reply { cnext := w, err := -EEXIST, major := r.cr_major,
                            minor := r.cr_minor }, idm, s)) := by
      rw [serve_create_eq idm s r hr, if_neg (by rw [hd.isdir]; simp),
        icreate_found hd r.cr_name r.cr_type r.cr_major r.cr_minor w c1 hn c2 hw]
      rfl
    refine ⟨?_, ?_⟩
    · intro res idm2 s2 h
      rw [hE] at h
      simp only [bind_eq_ok] at h
      obtain ⟨sU, hU, hfin⟩ := h
      simp only [Except.ok.injEq, Prod.mk.injEq] at hfin
      obtain ⟨rfl, rfl, rfl⟩ := hfin
      obtain ⟨_, _, hoth, _, _, hc, hu⟩ := iupdate_dir hd hioD hioD3 hi.ino_valid
        hi.ino_not_data hU
      exact ⟨rfl, rfl, hc.ifb, hc.ifo, hu, hoth⟩
    · rintro ⟨t0, ht0⟩ hroom
      rw [hE]
      have hv := hi.ino_valid
      have hup := usable_pos hd.geom
      have hrg := hd.geom.range
      obtain ⟨s2, h2⟩ := iupdate_total idm s idm.ioff.toNat hioD hioD3
        (by have := hv.1.1; omega) (by have := hv.1.2; omega) (hd.quiet _ hv.1.1)
        (by
          rw [hioD, inode_itype_eq _ _ hioD3] at ht0
          intro hh
          rw [if_pos hh] at ht0
          cases ht0)
        (by rw [hd.isdir]; decide) hroom
      rw [h2]
      exact ⟨s2, rfl⟩
  · intro hd hi hg hnone res idm2 s2 h
    obtain ⟨bn, io, hres, hb0, hb1, hio, f0, f1, f2, f3, f4, f5, f6, hDU, hget⟩ :=
      create_success hr hd hi hg hnone h
    refine ⟨bn, (io : Int), hres,
      bidecode_eq bn io hb0 (by omega) (by omega) (by omega), ?_, ?_, ?_, ?_, ?_, ?_, ?_, ?_⟩
    · rw [inode_itype_eq _ _ hio, f0, if_neg c5]
    · rw [inode_linkcount_eq _ _ hio, f1]
    · rw [inode_size_eq _ _ hio, f2]
    · rw [inode_major_eq _ _ hio, f3]
    · rw [inode_minor_eq _ _ hio, f4]
    · rw [inode_indirect_eq _ _ hio, f5]
    · intro i hi10
      rw [inode_addr_eq _ _ _ hio hi10, f6 i hi10]
    · show (do
          let ((npriv, err), s) ← iget idm2 s2 r.cr_name
          .ok (Served.reply { gnext := npriv, err := err }, idm2, s) :
          R (Served × idaemon_t × Sys)) = _
      rw [hget]
      rfl
  · intro hd hi hg hnone hsz hheld hfree htype hroom
    exact create_total hr hd hi hg hnone hsz hheld hfree htype hroom

set_option maxRecDepth 100000 in
/-- C10 on the example file system: `Create(a, FILE)` at the root directory, which has no
entry `a`, one block, the free blocks 66 and 67 and an empty log.  The request is answered
with error 0 and the inode number 264 (block 66, slot 0); the slot holds a file with one
link, size 0 and no blocks, and a `Lookup` of `a` answers 264. -/
theorem serve_create_spec_witness :
    CreateReq createA ∧ DirWF rootIdm fsSys ∧ InodeOK rootIdm fsSys ∧
      GoodName createA.cr_name ∧
      dirLookup (bufdata fsSys) (dirBlocks rootIdm.icache fsSys) createA.cr_name = none ∧
      mapBit fsSys 2 = false ∧ mapBit fsSys 3 = false ∧
      ∃ idm2 s2,
        serve_create rootIdm fsSys createA =
          .ok (Served.reply { cnext := 264, err := 0, major := 0, minor := 0 }, idm2, s2) ∧
        inode_itype (bufdata s2 66) 0 = .ok I_FILE ∧
        inode_linkcount (bufdata s2 66) 0 = .ok 1 ∧
        inode_size (bufdata s2 66) 0 = .ok 0 ∧
        inode_indirect (bufdata s2 66) 0 = .ok 0 ∧
        (∀ i : Nat, i < 10 → inode_addr (bufdata s2 66) 0 i = .ok 0) ∧
        serve_lookup idm2 s2 { path := [nameA] } =
          .ok (Served.reply { gnext := 264, err := 0 }, idm2, s2) := by
  have hnone : dirLookup (bufdata fsSys) (dirBlocks rootIdm.icache fsSys) createA.cr_name
      = none := by decide!
  have hb2 : mapBit fsSys 2 = false := by decide!
  have hb3 : mapBit fsSys 3 = false := by decide!
  obtain ⟨res, idm2, s2, hrun⟩ := (serve_create_spec rootIdm fsSys createA createReq_a).2.2.2
    dirWF_root inodeOK_root goodName_a hnone (by decide) (fun _ _ _ => rfl)
    ⟨2, 3, by decide, by decide, by decide, hb2, hb3⟩
    ⟨I_DIR, by
      rw [show rootIdm.ioff = ((0 : Nat) : Int) from rfl, inode_itype_eq _ _ (by omega),
        if_neg (by decide!)]
      exact congrArg Except.ok (by decide!)⟩
    (by decide)
  obtain ⟨bn, io, hres, hbd, f0, f1, f2, _, _, f5, f6, hlk⟩ :=
    (serve_create_spec rootIdm fsSys createA createReq_a).2.2.1
      dirWF_root inodeOK_root goodName_a hnone res idm2 s2 hrun
  have hc : observe (serve_create rootIdm fsSys createA)
      (fun x => match x.1 with
        | Served.reply resp => some resp.cnext
        | Served.forwarded _ _ => none) = some (some 264) := by decide!
  rw [hrun, hres] at hc
  simp only [observe, Option.some.injEq] at hc
  rw [hc] at hbd
  have hb : (bn, io) = (66, 0) := by
    rw [← hbd]
    decide!
  simp only [Prod.mk.injEq] at hb
  obtain ⟨rfl, rfl⟩ := hb
  subst hres
  exact ⟨createReq_a, dirWF_root, inodeOK_root, goodName_a, hnone, hb2, hb3, idm2, s2, hrun,
    f0, f1, f2, f5, f6, hlk⟩

end Biscuit
